import Mathlib

/-!
# nonstdlib: the AVL-tree backed dictionary (collection/dictionary/treemap.go)

A shallow embedding of `TreeMap` and of the helpers it uses from `util/math`
and `collection.Base`, followed by the properties proved about it.

Conventions of the embedding

* A Go `*node` is a value of the inductive type `node`; the nil pointer is
  `node.nil`.  The tree owns its nodes (no node is shared between two parents),
  so an in-place write through a pointer is the functional update of the
  subtree it points into.
* A Go `interface{}` value that may be nil is an `Option`; `none` is nil.
* A panicking or `log.Fatal`-ing call (nil dereference, index out of range,
  explicit `log.Panic`) returns `none` in the outer `Option`.
* `k1.Compare(k2)` is the parameter `cmp k1 k2`.
* Go `int` is modelled by `Int`.  The only addition on a caller-controlled
  value is `Compare(..) + 1` in `direction`, which is wrapped to 64 bits.
  Cached heights and sizes are bounded by the number of operations performed
  and never wrap.
* The `sync.RWMutex` is not modelled: the embedding is sequential.
-/

namespace NonStdLib

/-! ## util/math/math.go -/

/-- Go `math.Max`. -/
def Max (a b : Int) : Int := if a > b then a else b

/-- Go `math.Abs`. -/
def Abs (a : Int) : Int := if a ≥ 0 then a else a * -1

/-- Go `math.Signum`. -/
def Signum (a : Int) : Int := if a < 0 then -1 else if a > 0 then 1 else 0

/-- Two's-complement wrap of an integer to the range of a 64-bit Go `int`. -/
def wrap64 (a : Int) : Int := (a + 2 ^ 63) % 2 ^ 64 - 2 ^ 63

/-! ## collection/collection.go: `Base` -/

/-- The struct `collection.Base` without its lock. -/
structure Base where
  init : Bool
  Sizeb : Int
  threadsafe : Bool
deriving DecidableEq, Repr

/-- The zero value of `Base`, as in `&TreeMap{}`. -/
def Base.zero : Base := Base.mk false 0 false

/-- Go `Base.InitBase`: panics when already initialised. -/
def Base.InitBase (b : Base) : Option Base :=
  if b.init then none else some (Base.mk true 0 b.threadsafe)

/-- Go `Base.InitBaseUnsafe`. -/
def Base.InitBaseUnsafe (b : Base) : Option Base :=
  if b.init then none else some (Base.mk true 0 false)

/-- Go `Base.CheckInit`. -/
def Base.CheckInit (b : Base) : Option Unit :=
  if !b.init then none else some ()

/-- Go `Base.Size`. -/
def Base.Size (b : Base) : Option Int :=
  if !b.init then none else some b.Sizeb

/-- Go `Base.Empty`. -/
def Base.Empty (b : Base) : Option Bool :=
  if !b.init then none else some (decide (b.Sizeb = 0))

/-- Go `Base.Threadsafe`. -/
def Base.Threadsafe (b : Base) : Option Bool :=
  if !b.init then none else some b.threadsafe

/-- Go `Base.Lock` without the mutex: it panics on an uninitialised and on a
thread-safe collection. -/
def Base.Lock (b : Base) : Option Unit :=
  if !b.init then none else if b.threadsafe then none else some ()

/-- Go `Base.Unlock` without the mutex. -/
def Base.Unlock (b : Base) : Option Unit :=
  if !b.init then none else if b.threadsafe then none else some ()

/-- Go `Base.RLock` without the mutex. -/
def Base.RLock (b : Base) : Option Unit :=
  if !b.init then none else if b.threadsafe then none else some ()

/-- Go `Base.RUnlock` without the mutex. -/
def Base.RUnlock (b : Base) : Option Unit :=
  if !b.init then none else if b.threadsafe then none else some ()

/-! ## collection/dictionary/treemap.go: nodes -/

/-- The struct `node`: key `K`, value `V`, cached height `H` and the two
child slots `C[0]`, `C[1]`.  `nil` is the nil pointer. -/
inductive node (α β : Type) where
  | nil : node α β
  | mk (K : α) (V : Option β) (H : Int) (C0 C1 : node α β) : node α β
deriving DecidableEq, Repr

/-- The struct `dictionary.KeyValue`. -/
structure KeyValue (α β : Type) where
  Key : α
  Value : Option β
deriving DecidableEq, Repr

variable {α β : Type}

/-- Test `n == nil`. -/
def node.isNil : node α β → Bool
  | .nil => true
  | .mk _ _ _ _ _ => false

/-- Go `newNode`. -/
def newNode (k : α) (v : Option β) (h : Int) : node α β := .mk k v h .nil .nil

/-- Go `height`. -/
def height : node α β → Int
  | .nil => -1
  | .mk _ _ h _ _ => h

/-- Go `child`: `n.C[c]`; panics on a nil node and on an index outside 0..1. -/
def child (n : node α β) (c : Int) : Option (node α β) :=
  match n with
  | .nil => none
  | .mk _ _ _ c0 c1 => if c = 0 then some c0 else if c = 1 then some c1 else none

/-- The assignment `n.C[c] = x`. -/
def setChild (n : node α β) (c : Int) (x : node α β) : Option (node α β) :=
  match n with
  | .nil => none
  | .mk k v h c0 c1 =>
    if c = 0 then some (.mk k v h x c1) else if c = 1 then some (.mk k v h c0 x) else none

/-- The read `n.K`. -/
def getK (n : node α β) : Option α :=
  match n with
  | .nil => none
  | .mk k _ _ _ _ => some k

/-- The assignment `n.H = h`. -/
def setH (n : node α β) (h : Int) : Option (node α β) :=
  match n with
  | .nil => none
  | .mk k v _ c0 c1 => some (.mk k v h c0 c1)

/-- Go `updateHeight`: `n.H = math.Max(height(child(n, 0)), height(child(n, 1))+1)`. -/
def updateHeight (n : node α β) : Option (node α β) := do
  let c0 ← child n 0
  let c1 ← child n 1
  setH n (Max (height c0) (height c1 + 1))

/-- Go `direction`: `math.Signum(math.Signum(k1.Compare(k2) + 1))`. -/
def direction (cmp : α → α → Int) (k1 k2 : α) : Int :=
  Signum (Signum (wrap64 (cmp k1 k2 + 1)))

/-- The body of Go `rotate` below its `if dir1 != dir2` block: the single
rotation that promotes the `dir1` child of `p`.  `updateHeight(temp)` runs
after `p.C[1-dir1] = temp` in the source and writes through the same pointer,
so here the height of `temp` is updated before it is linked. -/
def rotateSame (p : node α β) (dir1 : Int) : Option (node α β) := do
  let temp := p
  let p ← child p dir1
  let x ← child p (1 - dir1)
  let temp ← setChild temp dir1 x
  let temp ← updateHeight temp
  let p ← setChild p (1 - dir1) temp
  updateHeight p

/-- Go `rotate`.  The recursive call `rotate(child(p, dir1), dir2, dir2)` has
equal directions, skips the `if` and is therefore `rotateSame`. -/
def rotate (p : node α β) (dir1 dir2 : Int) : Option (node α β) := do
  let p ← if dir1 ≠ dir2 then do
      let c ← child p dir1
      let r ← rotateSame c dir2
      setChild p dir1 r
    else pure p
  rotateSame p dir1

/-- Go `tallestDir`. -/
def tallestDir (n : node α β) : Option Int := do
  let c1 ← child n 1
  let c0 ← child n 0
  pure (Signum (Signum (height c1 - height c0) + 1))

/-- Go `balanced` (true when the cached child heights differ by more than 1). -/
def balanced (n : node α β) : Option Bool := do
  let c0 ← child n 0
  let c1 ← child n 1
  pure (decide (Abs (height c0 - height c1) > 1))

/-- The loop of Go `successor`: `for child(current, dir) != nil` descend.
Returns the final `current`. -/
def successorLoop (dir : Int) : node α β → Option (node α β)
  | .nil => none
  | .mk k v h c0 c1 =>
    if dir = 0 then
      if c0.isNil then some (.mk k v h c0 c1) else successorLoop dir c0
    else if dir = 1 then
      if c1.isNil then some (.mk k v h c0 c1) else successorLoop dir c1
    else none

/-- Go `successor`.  Returns the node the source returns, with the subtree
hanging below it.  The source also clears one child slot of `parent`
(`parent.C[dir] = nil`); `parent` is `n` or a node strictly between `n` and the
returned node, none of which `Remove` links back into the tree, so the write
is not visible in the map and is left out. -/
def successor (n : node α β) : Option (node α β) := do
  let c0 ← child n 0
  let c1 ← child n 1
  if c0.isNil && c1.isNil then pure .nil
  else do
    let dir ← tallestDir n
    let current ← child n dir
    if current.isNil then pure current
    else successorLoop (Abs (dir - 1)) current

/-! ## collection/dictionary/treemap.go: the map -/

/-- The struct `TreeMap`: the embedded `collection.Base` and the root. -/
structure TreeMap (α β : Type) where
  base : Base
  root : node α β
deriving DecidableEq, Repr

/-- The zero value `&TreeMap{}`. -/
def TreeMap.zero : TreeMap α β := TreeMap.mk Base.zero .nil

/-- Go `TreeMap.Init`. -/
def TreeMap.Init (s : TreeMap α β) : Option (TreeMap α β) := do
  let b ← s.base.InitBase
  pure (TreeMap.mk b s.root)

/-- Go `TreeMap.InitUnsafe`. -/
def TreeMap.InitUnsafe (s : TreeMap α β) : Option (TreeMap α β) := do
  let b ← s.base.InitBaseUnsafe
  pure (TreeMap.mk b s.root)

/-- Go `NewTreeMap`. -/
def NewTreeMap : Option (TreeMap α β) := TreeMap.Init TreeMap.zero

/-- Go `NewTreeMapUnsafe`. -/
def NewTreeMapUnsafe : Option (TreeMap α β) := TreeMap.InitUnsafe TreeMap.zero

/-- Go `TreeMap.Size` (promoted from `Base`). -/
def TreeMap.Size (s : TreeMap α β) : Option Int := s.base.Size

/-- Go `TreeMap.Empty` (promoted from `Base`). -/
def TreeMap.Empty (s : TreeMap α β) : Option Bool := s.base.Empty

/-- The descent loop shared by `Insert` and `Remove`:
`for current != nil && kc.Compare(current.K) != 0` push `current` on `visited`
and step to `child(current, direction(kc, current.K))`.  `visited` is the
stack with its top first.  Returns the final `current` and the stack. -/
def descend (cmp : α → α → Int) (kc : α) :
    node α β → List (node α β) → Option (node α β × List (node α β))
  | .nil, visited => some (.nil, visited)
  | .mk k v h c0 c1, visited =>
    if cmp kc k ≠ 0 then
      if direction cmp kc k = 0 then descend cmp kc c0 (.mk k v h c0 c1 :: visited)
      else if direction cmp kc k = 1 then descend cmp kc c1 (.mk k v h c0 c1 :: visited)
      else none
    else some (.mk k v h c0 c1, visited)

/-- The unwinding loop of `Insert`: `for !visited.Empty()`. -/
def insertLoop (cmp : α → α → Int) (kc : α) :
    List (node α β) → node α β → Option (node α β)
  | [], current => some current
  | parent :: visited, current => do
    let pk ← getK parent
    let dir1 := direction cmp kc pk
    let parent ← setChild parent dir1 current
    let unb ← balanced current
    let parent ← if unb then do
        let dir2 ← tallestDir current
        rotate parent dir1 dir2
      else pure parent
    let parent ← updateHeight parent
    insertLoop cmp kc visited parent

/-- The effect of the in-place write `current.V = value` on the tree: every
node on the recorded path still points, through the slot the descent took, to
the node below it. -/
def writeBack (cmp : α → α → Int) (kc : α) :
    List (node α β) → node α β → Option (node α β)
  | [], current => some current
  | parent :: visited, current => do
    let pk ← getK parent
    let parent ← setChild parent (direction cmp kc pk) current
    writeBack cmp kc visited parent

/-- Go `TreeMap.Insert`.  Returns the new map and the returned value. -/
def TreeMap.Insert (cmp : α → α → Int) (s : TreeMap α β) (key : Option α)
    (value : Option β) : Option (TreeMap α β × Option β) := do
  s.base.CheckInit
  let kc ← key
  let (current, visited) ← descend cmp kc s.root []
  match current with
  | .nil =>
    let current ← insertLoop cmp kc visited (newNode kc value 0)
    pure (TreeMap.mk (Base.mk s.base.init (s.base.Sizeb + 1) s.base.threadsafe) current, none)
  | .mk k v h c0 c1 =>
    if cmp kc k = 0 then do
      let root ← writeBack cmp kc visited (.mk k value h c0 c1)
      pure (TreeMap.mk s.base root, v)
    else pure (s, none)

/-- The loop of Go `TreeMap.Locate`; returns the final `current`. -/
def locateLoop (cmp : α → α → Int) (kc : α) : node α β → Option (node α β)
  | .nil => some .nil
  | .mk k v h c0 c1 =>
    if cmp kc k ≠ 0 then
      if direction cmp kc k = 0 then locateLoop cmp kc c0
      else if direction cmp kc k = 1 then locateLoop cmp kc c1
      else none
    else some (.mk k v h c0 c1)

/-- Go `TreeMap.Locate`. -/
def TreeMap.Locate (cmp : α → α → Int) (s : TreeMap α β) (key : Option α) :
    Option (Option β) := do
  s.base.CheckInit
  let kc ← key
  let current ← locateLoop cmp kc s.root
  match current with
  | .nil => pure none
  | .mk k v _ _ _ => if cmp kc k = 0 then pure v else pure none

/-- The unwinding loop of `Remove`: as in `Insert`, but `current` may be nil. -/
def removeLoop (cmp : α → α → Int) (kc : α) :
    List (node α β) → node α β → Option (node α β)
  | [], current => some current
  | parent :: visited, current => do
    let pk ← getK parent
    let dir1 := direction cmp kc pk
    let parent ← setChild parent dir1 current
    let unb ← if current.isNil then pure false else balanced current
    let parent ← if unb then do
        let dir2 ← tallestDir current
        rotate parent dir1 dir2
      else pure parent
    let parent ← updateHeight parent
    removeLoop cmp kc visited parent

/-- Go `TreeMap.Remove`.  Returns the new map and the returned value. -/
def TreeMap.Remove (cmp : α → α → Int) (s : TreeMap α β) (key : Option α) :
    Option (TreeMap α β × Option β) := do
  s.base.CheckInit
  let kc ← key
  let (current, visited) ← descend cmp kc s.root []
  match current with
  | .nil => pure (s, none)
  | .mk k v h c0 c1 =>
    if cmp kc k = 0 then do
      let current ← successor (.mk k v h c0 c1)
      let current ← removeLoop cmp kc visited current
      pure (TreeMap.mk (Base.mk s.base.init (s.base.Sizeb - 1) s.base.threadsafe) current, v)
    else pure (s, none)

/-- Go `TreeMap.Contains`. -/
def TreeMap.Contains (cmp : α → α → Int) (s : TreeMap α β) : List (Option α) → Option Bool
  | [] => some true
  | k :: keys => do
    let _ ← k
    let r ← s.Locate cmp k
    if r.isSome then TreeMap.Contains cmp s keys else pure false

/-- Go `TreeMap.Clear`. -/
def TreeMap.Clear (s : TreeMap α β) : Option (TreeMap α β) := do
  s.base.CheckInit
  pure (TreeMap.mk (Base.mk s.base.init 0 s.base.threadsafe) .nil)

/-- The stack loop of Go `TreeMap.Map`: pop `curr`, push its right child and
then its left child when present, apply `f` to the KeyValue of `curr`, stop
when `f` returns false.  `q` is the stack with its top first, `acc` the
KeyValues `f` has been applied to so far.  Returns `ok` and those KeyValues. -/
def mapLoop (f : KeyValue α β → Bool) :
    List (node α β) → List (KeyValue α β) → Option (Bool × List (KeyValue α β))
  | [], acc => some (true, acc)
  | .nil :: _, _ => none
  | .mk k v _ c0 c1 :: q, acc =>
    let q1 := if c1.isNil then q else c1 :: q
    let q2 := if c0.isNil then q1 else c0 :: q1
    if f (KeyValue.mk k v) then mapLoop f q2 (acc ++ [KeyValue.mk k v])
    else some (false, acc ++ [KeyValue.mk k v])
termination_by q _ => (q.map sizeOf).sum
decreasing_by
  all_goals simp_wf
  all_goals cases c0 <;> cases c1 <;> simp [node.isNil] <;> omega

/-- Go `TreeMap.Map`, for a visitor whose verdict depends on the item only.
Returns `ok` and the KeyValues the visitor was applied to, in order. -/
def TreeMap.Map (s : TreeMap α β) (f : KeyValue α β → Bool) :
    Option (Bool × List (KeyValue α β)) := do
  s.base.CheckInit
  mapLoop f (if s.root.isNil then [] else [s.root]) []

/-- Go `TreeMap.Slice`: the KeyValues appended by the visitor passed to `Map`. -/
def TreeMap.Slice (s : TreeMap α β) : Option (List (KeyValue α β)) := do
  s.base.CheckInit
  let r ← s.Map (fun _ => true)
  pure r.2

/-- Go `TreeMap.Threadsafe` (promoted from `Base`). -/
def TreeMap.Threadsafe (s : TreeMap α β) : Option Bool := s.base.Threadsafe

/-- The visitor `Copy` passes to `Map`, applied to the visited KeyValues in
order: `c.Insert(kvc.Key, kvc.Value)`.  The visitor always returns true and
writes to `c` only, so its effect is this fold over what `Map` visits. -/
def copyInto (cmp : α → α → Int) (c : TreeMap α β) :
    List (KeyValue α β) → Option (TreeMap α β)
  | [] => some c
  | kv :: kvs => do
    let r ← c.Insert cmp (some kv.Key) kv.Value
    copyInto cmp r.1 kvs

/-- Go `TreeMap.Copy`.  The receiver is only read. -/
def TreeMap.Copy (cmp : α → α → Int) (s : TreeMap α β) : Option (TreeMap α β) := do
  s.base.CheckInit
  let ts ← s.Threadsafe
  let c ← if ts then NewTreeMap else NewTreeMapUnsafe
  let sz ← s.Size
  if sz = 0 then pure c
  else do
    let r ← s.Map (fun _ => true)
    copyInto cmp c r.2

/-! ## Panics with the state they leave -/

/-- The result of a call that may panic, together with the state of the
receiver when the call returns or panics. -/
inductive Outcome (σ : Type) where
  | returned (s : σ) : Outcome σ
  | panicked (s : σ) : Outcome σ
deriving DecidableEq, Repr

/-- Go `Base.InitBase`, keeping the state at the panic: the test of `init`
and the `log.Panic` come before any write. -/
def Base.InitBaseStep (b : Base) : Outcome Base :=
  if b.init then .panicked b else .returned (Base.mk true 0 b.threadsafe)

/-- Go `Base.InitBaseUnsafe`, keeping the state at the panic. -/
def Base.InitBaseUnsafeStep (b : Base) : Outcome Base :=
  if b.init then .panicked b else .returned (Base.mk true 0 false)

/-- Go `TreeMap.Init`, keeping the state at the panic. -/
def TreeMap.InitStep (s : TreeMap α β) : Outcome (TreeMap α β) :=
  match s.base.InitBaseStep with
  | .returned b => .returned (TreeMap.mk b s.root)
  | .panicked b => .panicked (TreeMap.mk b s.root)

/-- Go `TreeMap.InitUnsafe`, keeping the state at the panic. -/
def TreeMap.InitUnsafeStep (s : TreeMap α β) : Outcome (TreeMap α β) :=
  match s.base.InitBaseUnsafeStep with
  | .returned b => .returned (TreeMap.mk b s.root)
  | .panicked b => .panicked (TreeMap.mk b s.root)

/-! ## Calls on a map in sequence -/

/-- One mutating call on a map with a non-nil key. -/
inductive Op (α β : Type) where
  | insert (k : α) (v : Option β) : Op α β
  | remove (k : α) : Op α β
deriving DecidableEq, Repr

/-- Perform one call, dropping the returned value. -/
def applyOp (cmp : α → α → Int) (s : TreeMap α β) : Op α β → Option (TreeMap α β)
  | .insert k v => (s.Insert cmp (some k) v).map Prod.fst
  | .remove k => (s.Remove cmp (some k)).map Prod.fst

/-- Perform the calls in order, starting from the map `s`. -/
def applyOps (cmp : α → α → Int) (s : TreeMap α β) : List (Op α β) → Option (TreeMap α β)
  | [] => some s
  | op :: ops => (applyOp cmp s op).bind (fun s1 => applyOps cmp s1 ops)

/-- Perform the calls in order on `NewTreeMap()`. -/
def run (cmp : α → α → Int) (ops : List (Op α β)) : Option (TreeMap α β) :=
  NewTreeMap.bind (fun s => applyOps cmp s ops)

/-- A map is reachable when some sequence of Insert and Remove calls on a new
map produces it. -/
def Reachable (cmp : α → α → Int) (s : TreeMap α β) : Prop :=
  ∃ ops : List (Op α β), run cmp ops = some s

/-- The Insert calls for a list of key/value pairs, in order. -/
def inserts (kvs : List (α × Option β)) : List (Op α β) :=
  kvs.map (fun p => Op.insert p.1 p.2)

/-- The Remove calls for a list of keys, in order. -/
def removes (ks : List α) : List (Op α β) :=
  ks.map (fun k => Op.remove k)

/-! ## collection/set/treeset.go

Items are `Option α`: `none` is an item that is nil or does not implement
`collection.Comparer`, for which the type assertion of `Insert` and `Remove`
fails.  A visitor passed to `Map` that writes to variables of the caller is
modelled by the list of items `Map` applies it to, over which the caller folds
the write; the visitors of this file decide from the item alone whether to go
on, and never write to the set being traversed. -/

/-- The struct `TreeSet`: the embedded `collection.Base` and the pointer `m`
to the map, nil in the zero value. -/
structure TreeSet (α : Type) where
  base : Base
  m : Option (TreeMap α Bool)
deriving DecidableEq, Repr

/-- The zero value `&TreeSet{}`. -/
def TreeSet.zero : TreeSet α := TreeSet.mk Base.zero none

/-- Go `TreeSet.Init`. -/
def TreeSet.Init (s : TreeSet α) : Option (TreeSet α) := do
  let b ← s.base.InitBase
  let m ← NewTreeMapUnsafe
  pure (TreeSet.mk b (some m))

/-- Go `TreeSet.InitUnsafe`. -/
def TreeSet.InitUnsafe (s : TreeSet α) : Option (TreeSet α) := do
  let b ← s.base.InitBaseUnsafe
  let m ← NewTreeMapUnsafe
  pure (TreeSet.mk b (some m))

/-- Go `TreeSet.Init`, keeping the state at the panic: `InitBase` runs first. -/
def TreeSet.InitStep (s : TreeSet α) : Outcome (TreeSet α) :=
  match s.base.InitBaseStep with
  | .returned b =>
    match (NewTreeMapUnsafe : Option (TreeMap α Bool)) with
    | some m => .returned (TreeSet.mk b (some m))
    | none => .panicked (TreeSet.mk b s.m)
  | .panicked b => .panicked (TreeSet.mk b s.m)

/-- Go `TreeSet.InitUnsafe`, keeping the state at the panic. -/
def TreeSet.InitUnsafeStep (s : TreeSet α) : Outcome (TreeSet α) :=
  match s.base.InitBaseUnsafeStep with
  | .returned b =>
    match (NewTreeMapUnsafe : Option (TreeMap α Bool)) with
    | some m => .returned (TreeSet.mk b (some m))
    | none => .panicked (TreeSet.mk b s.m)
  | .panicked b => .panicked (TreeSet.mk b s.m)

/-- Go `TreeSet.Size` (promoted from `Base`). -/
def TreeSet.Size (s : TreeSet α) : Option Int := s.base.Size

/-- Go `TreeSet.Empty` (promoted from `Base`). -/
def TreeSet.Empty (s : TreeSet α) : Option Bool := s.base.Empty

/-- Go `TreeSet.Threadsafe` (promoted from `Base`). -/
def TreeSet.Threadsafe (s : TreeSet α) : Option Bool := s.base.Threadsafe

/-- The loop of Go `TreeSet.Insert`: assert the item is a Comparer, insert it
in the map with value `true`, count it when the map returned nil. -/
def TreeSet.insertItems (cmp : α → α → Int) : TreeSet α → List (Option α) → Option (TreeSet α)
  | s, [] => some s
  | s, item :: items => do
    let itemc ← item
    let m ← s.m
    let r ← m.Insert cmp (some itemc) (some true)
    let sizeb := if r.2.isNone then s.base.Sizeb + 1 else s.base.Sizeb
    TreeSet.insertItems cmp
      (TreeSet.mk (Base.mk s.base.init sizeb s.base.threadsafe) (some r.1)) items

/-- Go `TreeSet.Insert`.  In thread-safe mode it calls `s.Lock()`, which
panics on a thread-safe collection. -/
def TreeSet.Insert (cmp : α → α → Int) (s : TreeSet α) (items : List (Option α)) :
    Option (TreeSet α) := do
  s.base.CheckInit
  if items.length = 0 then pure s
  else do
    let ts ← s.Threadsafe
    if ts then s.base.Lock else pure ()
    let s1 ← TreeSet.insertItems cmp s items
    if ts then s1.base.Unlock else pure ()
    pure s1

/-- The loop of Go `TreeSet.Remove`. -/
def TreeSet.removeItems (cmp : α → α → Int) : TreeSet α → List (Option α) → Option (TreeSet α)
  | s, [] => some s
  | s, item :: items => do
    let itemc ← item
    let m ← s.m
    let r ← m.Remove cmp (some itemc)
    let sizeb := if r.2.isSome then s.base.Sizeb - 1 else s.base.Sizeb
    TreeSet.removeItems cmp
      (TreeSet.mk (Base.mk s.base.init sizeb s.base.threadsafe) (some r.1)) items

/-- Go `TreeSet.Remove`. -/
def TreeSet.Remove (cmp : α → α → Int) (s : TreeSet α) (items : List (Option α)) :
    Option (TreeSet α) := do
  s.base.CheckInit
  if items.length = 0 then pure s
  else TreeSet.removeItems cmp s items

/-- Go `TreeSet.Contains`; the deferred `s.RUnlock()` runs on return. -/
def TreeSet.Contains (cmp : α → α → Int) (s : TreeSet α) (items : List (Option α)) :
    Option Bool := do
  s.base.CheckInit
  if items.length = 0 then pure false
  else do
    let m ← s.m
    let r ← m.Contains cmp items
    s.base.RUnlock
    pure r

/-- Go `TreeSet.Map`, for a visitor whose verdict depends on the item only.
Returns the returned bool and the items the visitor was applied to.  The
visitor's verdict is assigned to a variable `ok` declared inside the closure
passed to the map, so the `ok` that `Map` returns is always true. -/
def TreeSet.Map (s : TreeSet α) (f : α → Bool) : Option (Bool × List α) := do
  s.base.CheckInit
  s.base.RLock
  let m ← s.m
  let r ← m.Map (fun kv => f kv.Key)
  s.base.RUnlock
  pure (true, r.2.map KeyValue.Key)

/-- Go `TreeSet.Slice`. -/
def TreeSet.Slice (s : TreeSet α) : Option (List α) := do
  s.base.CheckInit
  s.base.RLock
  let m ← s.m
  let r ← m.Map (fun _ => true)
  s.base.RUnlock
  pure (r.2.map KeyValue.Key)

/-- Go `TreeSet.Clear`. -/
def TreeSet.Clear (s : TreeSet α) : Option (TreeSet α) := do
  s.base.CheckInit
  s.base.Lock
  let m ← NewTreeMapUnsafe
  s.base.Unlock
  pure (TreeSet.mk (Base.mk s.base.init 0 s.base.threadsafe) (some m))

/-- Go `NewTreeSet`. -/
def NewTreeSet (cmp : α → α → Int) (items : List (Option α)) : Option (TreeSet α) := do
  let s ← TreeSet.Init TreeSet.zero
  s.Insert cmp items

/-- Go `NewTreeSetUnsafe`. -/
def NewTreeSetUnsafe (cmp : α → α → Int) (items : List (Option α)) : Option (TreeSet α) := do
  let s ← TreeSet.InitUnsafe TreeSet.zero
  s.Insert cmp items

/-- Go `TreeSet.Copy`. -/
def TreeSet.Copy (cmp : α → α → Int) (s : TreeSet α) : Option (TreeSet α) := do
  s.base.CheckInit
  let ts ← s.Threadsafe
  let sl ← s.Slice
  if ts then NewTreeSet cmp (sl.map some) else NewTreeSetUnsafe cmp (sl.map some)

/-- The visitor of `Union` folded over the visited items: `result.Insert(itemc)`. -/
def TreeSet.insertEach (cmp : α → α → Int) : TreeSet α → List α → Option (TreeSet α)
  | result, [] => some result
  | result, item :: items => do
    let r ← result.Insert cmp [some item]
    TreeSet.insertEach cmp r items

/-- Go `TreeSet.Union`, for another TreeSet. -/
def TreeSet.Union (cmp : α → α → Int) (s o : TreeSet α) : Option (TreeSet α) := do
  s.base.CheckInit
  let result ← s.Copy cmp
  let r ← o.Map (fun _ => true)
  TreeSet.insertEach cmp result r.2

/-- The visitor of `Intersection` folded over the visited items:
`if itee.Contains(itemc) then result.Insert(itemc)`. -/
def TreeSet.insertCommon (cmp : α → α → Int) (itee : TreeSet α) :
    TreeSet α → List α → Option (TreeSet α)
  | result, [] => some result
  | result, item :: items => do
    let c ← itee.Contains cmp [some item]
    let r ← if c then result.Insert cmp [some item] else pure result
    TreeSet.insertCommon cmp itee r items

/-- Go `TreeSet.Intersection`, for another TreeSet. -/
def TreeSet.Intersection (cmp : α → α → Int) (s o : TreeSet α) : Option (TreeSet α) := do
  s.base.CheckInit
  let result ← NewTreeSet cmp []
  let ssize ← s.Size
  let osize ← o.Size
  let iter := if ssize > osize then o else s
  let itee := if ssize > osize then s else o
  let r ← iter.Map (fun _ => true)
  TreeSet.insertCommon cmp itee result r.2

/-- The visitor of `Difference` folded over the visited items:
`result.Remove(itemc)`. -/
def TreeSet.removeEach (cmp : α → α → Int) : TreeSet α → List α → Option (TreeSet α)
  | result, [] => some result
  | result, item :: items => do
    let r ← result.Remove cmp [some item]
    TreeSet.removeEach cmp r items

/-- Go `TreeSet.Difference`, for another TreeSet. -/
def TreeSet.Difference (cmp : α → α → Int) (s o : TreeSet α) : Option (TreeSet α) := do
  s.base.CheckInit
  let result ← s.Copy cmp
  let r ← o.Map (fun _ => true)
  TreeSet.removeEach cmp result r.2

/-- Go `TreeSet.Subset`, for another TreeSet.  The visitor assigns
`o.Contains(itemc)` to `subset` and returns it, so `Map` stops at the first
item that is not in `o`, and `subset` ends as the last verdict (true when
nothing is visited); the visitor panics when `o.Contains` does. -/
def TreeSet.Subset (cmp : α → α → Int) (s o : TreeSet α) : Option (Bool × Bool) := do
  s.base.CheckInit
  let ssize ← s.Size
  let osize ← o.Size
  let proper := decide (ssize ≠ osize)
  let r ← s.Map (fun item => (o.Contains cmp [some item]).getD false)
  if r.2.any (fun item => (o.Contains cmp [some item]).isNone) then none
  else pure (r.2.all (fun item => (o.Contains cmp [some item]).getD false), proper)

/-- Go `TreeSet.Superset`, for another TreeSet: the visitor runs over the items
of `o` and assigns `s.Contains(itemc)` to `superset`. -/
def TreeSet.Superset (cmp : α → α → Int) (s o : TreeSet α) : Option (Bool × Bool) := do
  s.base.CheckInit
  let ssize ← s.Size
  let osize ← o.Size
  let proper := decide (ssize ≠ osize)
  let r ← o.Map (fun item => (s.Contains cmp [some item]).getD false)
  if r.2.any (fun item => (s.Contains cmp [some item]).isNone) then none
  else pure (r.2.all (fun item => (s.Contains cmp [some item]).getD false), proper)

/-- Go `TreeSet.Equal`, for another TreeSet: false when the sizes differ;
otherwise the visitor runs over the items of `o`, assigns `s.Contains(itemc)`
to `equal` and returns it, so `equal` ends as the last verdict (true when
nothing is visited).  The deferred `s.RUnlock()` runs on return. -/
def TreeSet.Equal (cmp : α → α → Int) (s o : TreeSet α) : Option Bool := do
  s.base.CheckInit
  let ssize ← s.Size
  let osize ← o.Size
  if ssize ≠ osize then pure false
  else do
    s.base.RLock
    let r ← o.Map (fun item => (s.Contains cmp [some item]).getD false)
    if r.2.any (fun item => (s.Contains cmp [some item]).isNone) then none
    else do
      s.base.RUnlock
      pure (r.2.all (fun item => (s.Contains cmp [some item]).getD false))

/-- One mutating call on a set. -/
inductive SetOp (ι : Type) where
  | insert (items : List ι) : SetOp ι
  | remove (items : List ι) : SetOp ι
  | clear : SetOp ι
deriving DecidableEq, Repr

/-- Perform one call on a TreeSet with items that implement Comparer. -/
def TreeSet.applyOp (cmp : α → α → Int) (s : TreeSet α) : SetOp α → Option (TreeSet α)
  | .insert items => s.Insert cmp (items.map some)
  | .remove items => s.Remove cmp (items.map some)
  | .clear => s.Clear

/-- Perform the calls in order. -/
def TreeSet.applyOps (cmp : α → α → Int) (s : TreeSet α) : List (SetOp α) → Option (TreeSet α)
  | [] => some s
  | op :: ops => (s.applyOp cmp op).bind (fun s1 => TreeSet.applyOps cmp s1 ops)

/-- A TreeSet is reachable when `NewTreeSet` or `NewTreeSetUnsafe` followed by
some sequence of Insert, Remove and Clear calls produces it. -/
def TreeSet.Reachable (cmp : α → α → Int) (s : TreeSet α) : Prop :=
  ∃ (safe : Bool) (items : List α) (ops : List (SetOp α)),
    ((if safe then NewTreeSet cmp (items.map some) else NewTreeSetUnsafe cmp (items.map some)).bind
      (fun s0 => TreeSet.applyOps cmp s0 ops)) = some s

/-- A TreeSet is built by insertions only when `NewTreeSet` or
`NewTreeSetUnsafe` followed by some sequence of Insert calls produces it. -/
def TreeSet.Built (cmp : α → α → Int) (s : TreeSet α) : Prop :=
  ∃ (safe : Bool) (items : List α) (calls : List (List α)),
    ((if safe then NewTreeSet cmp (items.map some) else NewTreeSetUnsafe cmp (items.map some)).bind
      (fun s0 => TreeSet.applyOps cmp s0 (calls.map SetOp.insert))) = some s

/-- Applying a visitor to the items of a list in order until it returns
false: the verdict and the items it was applied to, after `acc`. -/
def visitList {γ : Type} (f : γ → Bool) : List γ → List γ → Bool × List γ
  | [], acc => (true, acc)
  | x :: xs, acc => if f x then visitList f xs (acc ++ [x]) else (false, acc ++ [x])

/-! ## collection/set/hashset.go

The Go map `m` is the list of its keys; `none` is the nil map of the zero
value.  Items are compared with Go's `==`, the `BEq` instance of the item
type: the lookup `s.m[item]` finds a key `k` with `k == item`, so it finds no
item that is not equal to itself, as a NaN is not, and an insertion of such an
item adds a key every time.  A store under a key that is there puts the item
in the place of that key: the two are `==`, yet they can differ, as 0.0 and
-0.0 do.  Where `==` is the equality of values (`DecidableEq`), each key is in
the list once.  Go does not specify the order in which `range` yields the keys
of a map: it is the parameter `ord`, which gives the keys of a map in the order
of an iteration. -/

/-- The struct `HashSet`. -/
structure HashSet (ι : Type) where
  base : Base
  m : Option (List ι)
deriving DecidableEq, Repr

/-- The zero value `&HashSet{}`. -/
def HashSet.zero {ι : Type} : HashSet ι := HashSet.mk Base.zero none

/-- Go `HashSet.Init`. -/
def HashSet.Init {ι : Type} (s : HashSet ι) : Option (HashSet ι) := do
  let b ← s.base.InitBase
  pure (HashSet.mk b (some []))

/-- Go `HashSet.InitUnsafe`. -/
def HashSet.InitUnsafe {ι : Type} (s : HashSet ι) : Option (HashSet ι) := do
  let b ← s.base.InitBaseUnsafe
  pure (HashSet.mk b (some []))

/-- Go `HashSet.Init`, keeping the state at the panic: `InitBase` runs first. -/
def HashSet.InitStep {ι : Type} (s : HashSet ι) : Outcome (HashSet ι) :=
  match s.base.InitBaseStep with
  | .returned b => .returned (HashSet.mk b (some []))
  | .panicked b => .panicked (HashSet.mk b s.m)

/-- Go `HashSet.InitUnsafe`, keeping the state at the panic. -/
def HashSet.InitUnsafeStep {ι : Type} (s : HashSet ι) : Outcome (HashSet ι) :=
  match s.base.InitBaseUnsafeStep with
  | .returned b => .returned (HashSet.mk b (some []))
  | .panicked b => .panicked (HashSet.mk b s.m)

/-- Go `HashSet.Size` (promoted from `Base`). -/
def HashSet.Size {ι : Type} (s : HashSet ι) : Option Int := s.base.Size

/-- Go `HashSet.Empty` (promoted from `Base`). -/
def HashSet.Empty {ι : Type} (s : HashSet ι) : Option Bool := s.base.Empty

/-- Go `HashSet.Threadsafe` (promoted from `Base`). -/
def HashSet.Threadsafe {ι : Type} (s : HashSet ι) : Option Bool := s.base.Threadsafe

/-- The loop of Go `HashSet.Insert`: count the item when the lookup does not
find it, then store it; storing in the nil map panics. -/
def HashSet.insertItems {ι : Type} [BEq ι] : HashSet ι → List ι → Option (HashSet ι)
  | s, [] => some s
  | s, item :: items => do
    let l ← s.m
    let sizeb := if l.contains item then s.base.Sizeb else s.base.Sizeb + 1
    let l1 := if l.contains item then l.map (fun k => if k == item then item else k)
      else l ++ [item]
    HashSet.insertItems (HashSet.mk (Base.mk s.base.init sizeb s.base.threadsafe) (some l1)) items

/-- Go `HashSet.Insert`. -/
def HashSet.Insert {ι : Type} [BEq ι] (s : HashSet ι) (items : List ι) :
    Option (HashSet ι) := do
  s.base.CheckInit
  if items.length = 0 then pure s
  else do
    let ts ← s.Threadsafe
    if ts then s.base.Lock else pure ()
    let s1 ← HashSet.insertItems s items
    if ts then s1.base.Unlock else pure ()
    pure s1

/-- The loop of Go `HashSet.Remove`: delete and uncount the item when the
lookup finds it. -/
def HashSet.removeItems {ι : Type} [BEq ι] : HashSet ι → List ι → HashSet ι
  | s, [] => s
  | s, item :: items =>
    match s.m with
    | none => HashSet.removeItems s items
    | some l =>
      if l.contains item then
        HashSet.removeItems
          (HashSet.mk (Base.mk s.base.init (s.base.Sizeb - 1) s.base.threadsafe)
            (some (l.erase item))) items
      else HashSet.removeItems s items

/-- Go `HashSet.Remove`. -/
def HashSet.Remove {ι : Type} [BEq ι] (s : HashSet ι) (items : List ι) :
    Option (HashSet ι) := do
  s.base.CheckInit
  if items.length = 0 then pure s
  else pure (HashSet.removeItems s items)

/-- Go `HashSet.Contains`; the deferred `s.RUnlock()` runs on return. -/
def HashSet.Contains {ι : Type} [BEq ι] (s : HashSet ι) (items : List ι) :
    Option Bool := do
  s.base.CheckInit
  if items.length = 0 then pure false
  else do
    let r := items.all (fun item => (s.m.getD []).contains item)
    s.base.RUnlock
    pure r

/-- Go `HashSet.Map`, for a visitor whose verdict depends on the item only.
Returns the returned bool and the items the visitor was applied to. -/
def HashSet.Map {ι : Type} (ord : List ι → List ι) (s : HashSet ι) (f : ι → Bool) :
    Option (Bool × List ι) := do
  s.base.CheckInit
  s.base.RLock
  let r := visitList f (ord (s.m.getD [])) []
  s.base.RUnlock
  pure r

/-- Go `HashSet.Slice`. -/
def HashSet.Slice {ι : Type} (ord : List ι → List ι) (s : HashSet ι) : Option (List ι) := do
  s.base.CheckInit
  s.base.RLock
  s.base.RUnlock
  pure (ord (s.m.getD []))

/-- Go `HashSet.Clear`. -/
def HashSet.Clear {ι : Type} (s : HashSet ι) : Option (HashSet ι) := do
  s.base.CheckInit
  s.base.Lock
  s.base.Unlock
  pure (HashSet.mk (Base.mk s.base.init 0 s.base.threadsafe) (some []))

/-- Go `NewHashSet`. -/
def NewHashSet {ι : Type} [BEq ι] (items : List ι) : Option (HashSet ι) := do
  let s ← HashSet.Init HashSet.zero
  s.Insert items

/-- Go `NewHashSetUnsafe`. -/
def NewHashSetUnsafe {ι : Type} [BEq ι] (items : List ι) : Option (HashSet ι) := do
  let s ← HashSet.InitUnsafe HashSet.zero
  s.Insert items

/-- Go `HashSet.Copy`. -/
def HashSet.Copy {ι : Type} [BEq ι] (ord : List ι → List ι) (s : HashSet ι) :
    Option (HashSet ι) := do
  s.base.CheckInit
  let ts ← s.Threadsafe
  let sl ← s.Slice ord
  if ts then NewHashSet sl else NewHashSetUnsafe sl

/-- The visitor of `Union` folded over the visited items: `result.Insert(item)`. -/
def HashSet.insertEach {ι : Type} [BEq ι] : HashSet ι → List ι → Option (HashSet ι)
  | result, [] => some result
  | result, item :: items => do
    let r ← result.Insert [item]
    HashSet.insertEach r items

/-- Go `HashSet.Union`, for another HashSet. -/
def HashSet.Union {ι : Type} [BEq ι] (ord : List ι → List ι) (s o : HashSet ι) :
    Option (HashSet ι) := do
  s.base.CheckInit
  let result ← s.Copy ord
  let r ← o.Map ord (fun _ => true)
  HashSet.insertEach result r.2

/-- The visitor of `Intersection` folded over the visited items:
`if itee.Contains(item) then result.Insert(item)`. -/
def HashSet.insertCommon {ι : Type} [BEq ι] (itee : HashSet ι) :
    HashSet ι → List ι → Option (HashSet ι)
  | result, [] => some result
  | result, item :: items => do
    let c ← itee.Contains [item]
    let r ← if c then result.Insert [item] else pure result
    HashSet.insertCommon itee r items

/-- Go `HashSet.Intersection`, for another HashSet. -/
def HashSet.Intersection {ι : Type} [BEq ι] (ord : List ι → List ι)
    (s o : HashSet ι) : Option (HashSet ι) := do
  s.base.CheckInit
  let result ← NewHashSet []
  let ssize ← s.Size
  let osize ← o.Size
  let iter := if ssize > osize then o else s
  let itee := if ssize > osize then s else o
  let r ← iter.Map ord (fun _ => true)
  HashSet.insertCommon itee result r.2

/-- Go `HashSet.Subset`, for another HashSet; see `TreeSet.Subset`. -/
def HashSet.Subset {ι : Type} [BEq ι] (ord : List ι → List ι) (s o : HashSet ι) :
    Option (Bool × Bool) := do
  s.base.CheckInit
  let ssize ← s.Size
  let osize ← o.Size
  let proper := decide (ssize ≠ osize)
  let r ← s.Map ord (fun item => (o.Contains [item]).getD false)
  if r.2.any (fun item => (o.Contains [item]).isNone) then none
  else pure (r.2.all (fun item => (o.Contains [item]).getD false), proper)

/-- Go `HashSet.Superset`, for another HashSet. -/
def HashSet.Superset {ι : Type} [BEq ι] (ord : List ι → List ι) (s o : HashSet ι) :
    Option (Bool × Bool) := do
  s.base.CheckInit
  let ssize ← s.Size
  let osize ← o.Size
  let proper := decide (ssize ≠ osize)
  let r ← o.Map ord (fun item => (s.Contains [item]).getD false)
  if r.2.any (fun item => (s.Contains [item]).isNone) then none
  else pure (r.2.all (fun item => (s.Contains [item]).getD false), proper)

/-- Go `HashSet.Equal`, for another HashSet: false when the sizes differ;
otherwise the visitor runs over the items of `o` and assigns to `equal`
whether the lookup `s.m[item]` finds the item. -/
def HashSet.Equal {ι : Type} [BEq ι] (ord : List ι → List ι) (s o : HashSet ι) :
    Option Bool := do
  s.base.CheckInit
  let ssize ← s.Size
  let osize ← o.Size
  if ssize ≠ osize then pure false
  else do
    s.base.RLock
    let r ← o.Map ord (fun item => (s.m.getD []).contains item)
    s.base.RUnlock
    pure (r.2.all (fun item => (s.m.getD []).contains item))

/-- The visitor of `Difference` folded over the visited items:
`result.Remove(item)`. -/
def HashSet.removeEach {ι : Type} [BEq ι] : HashSet ι → List ι → Option (HashSet ι)
  | result, [] => some result
  | result, item :: items => do
    let r ← result.Remove [item]
    HashSet.removeEach r items

/-- Go `HashSet.Difference`, for another HashSet. -/
def HashSet.Difference {ι : Type} [BEq ι] (ord : List ι → List ι) (s o : HashSet ι) :
    Option (HashSet ι) := do
  s.base.CheckInit
  let result ← s.Copy ord
  let r ← o.Map ord (fun _ => true)
  HashSet.removeEach result r.2

/-- Perform one call on a HashSet. -/
def HashSet.applyOp {ι : Type} [BEq ι] (s : HashSet ι) : SetOp ι → Option (HashSet ι)
  | .insert items => s.Insert items
  | .remove items => s.Remove items
  | .clear => s.Clear

/-- Perform the calls in order. -/
def HashSet.applyOps {ι : Type} [BEq ι] (s : HashSet ι) :
    List (SetOp ι) → Option (HashSet ι)
  | [] => some s
  | op :: ops => (s.applyOp op).bind (fun s1 => HashSet.applyOps s1 ops)

/-- A HashSet is reachable when `NewHashSet` or `NewHashSetUnsafe` followed by
some sequence of Insert, Remove and Clear calls produces it. -/
def HashSet.Reachable {ι : Type} [BEq ι] (s : HashSet ι) : Prop :=
  ∃ (safe : Bool) (items : List ι) (ops : List (SetOp ι)),
    ((if safe then NewHashSet items else NewHashSetUnsafe items).bind
      (fun s0 => HashSet.applyOps s0 ops)) = some s

/-- The order of iteration over a map yields each of its keys once. -/
def IterOrder {ι : Type} (ord : List ι → List ι) : Prop := ∀ l, (ord l).Perm l

/-! ## collection/set: a HashSet and a TreeSet in one call

The methods of a set take the other set as a `Set`, so a HashSet can be given
a TreeSet and a TreeSet a HashSet.  The items of such a HashSet are `Item α ν`:
a value of the type `α` that implements `collection.Comparer`, or a value of a
type `ν` that does not.  A TreeSet hands the keys of its tree to a visitor as
Comparers; an item handed to a TreeSet goes through the type assertion
`item.(collection.Comparer)`. -/

/-- An item of a HashSet: one that implements `collection.Comparer`, or one
that does not. -/
inductive Item (α ν : Type) where
  | comparer (c : α) : Item α ν
  | other (v : ν) : Item α ν
deriving DecidableEq, Repr

/-- The type assertion `item.(collection.Comparer)`: nil when the item does not
implement the interface. -/
def Item.asComparer {ν : Type} : Item α ν → Option α
  | .comparer c => some c
  | .other _ => none

/-- Go `HashSet.Subset`, for a TreeSet as the other set: `o.Contains(item)` is
`TreeSet.Contains`, which ends in `log.Fatal` on an item that is no Comparer. -/
def HashSet.SubsetOfTree {ν : Type} (cmp : α → α → Int) (ord : List (Item α ν) → List (Item α ν))
    (s : HashSet (Item α ν)) (o : TreeSet α) : Option (Bool × Bool) := do
  s.base.CheckInit
  let ssize ← s.Size
  let osize ← o.Size
  let proper := decide (ssize ≠ osize)
  let r ← s.Map ord (fun item => (o.Contains cmp [item.asComparer]).getD false)
  if r.2.any (fun item => (o.Contains cmp [item.asComparer]).isNone) then none
  else pure (r.2.all (fun item => (o.Contains cmp [item.asComparer]).getD false), proper)

/-- Go `TreeSet.Superset`, for a HashSet as the other set: the visitor runs
over the items of `o`, asserts each to a Comparer and assigns
`s.Contains(itemc)` to `superset`. -/
def TreeSet.SupersetOfHash {ν : Type} (cmp : α → α → Int)
    (ord : List (Item α ν) → List (Item α ν))
    (s : TreeSet α) (o : HashSet (Item α ν)) : Option (Bool × Bool) := do
  s.base.CheckInit
  let ssize ← s.Size
  let osize ← o.Size
  let proper := decide (ssize ≠ osize)
  let r ← o.Map ord (fun item => (s.Contains cmp [item.asComparer]).getD false)
  if r.2.any (fun item => (s.Contains cmp [item.asComparer]).isNone) then none
  else pure (r.2.all (fun item => (s.Contains cmp [item.asComparer]).getD false), proper)

/-- Go `TreeSet.Subset`, for a HashSet as the other set: `o.Contains(itemc)` is
the lookup of the HashSet. -/
def TreeSet.SubsetOfHash {ν : Type} [BEq (Item α ν)]
    (s : TreeSet α) (o : HashSet (Item α ν)) : Option (Bool × Bool) := do
  s.base.CheckInit
  let ssize ← s.Size
  let osize ← o.Size
  let proper := decide (ssize ≠ osize)
  let r ← s.Map (fun item => (o.Contains [Item.comparer item]).getD false)
  if r.2.any (fun item => (o.Contains [Item.comparer item]).isNone) then none
  else pure (r.2.all (fun item => (o.Contains [Item.comparer item]).getD false), proper)

/-- Go `HashSet.Superset`, for a TreeSet as the other set. -/
def HashSet.SupersetOfTree {ν : Type} [BEq (Item α ν)]
    (s : HashSet (Item α ν)) (o : TreeSet α) : Option (Bool × Bool) := do
  s.base.CheckInit
  let ssize ← s.Size
  let osize ← o.Size
  let proper := decide (ssize ≠ osize)
  let r ← o.Map (fun item => (s.Contains [Item.comparer item]).getD false)
  if r.2.any (fun item => (s.Contains [Item.comparer item]).isNone) then none
  else pure (r.2.all (fun item => (s.Contains [Item.comparer item]).getD false), proper)

/-- Go `HashSet.Difference`, for a TreeSet as the other set: the visitor
removes from the copy each key of the tree, looked up with `==`. -/
def HashSet.DifferenceOfTree {ν : Type} [BEq (Item α ν)]
    (ord : List (Item α ν) → List (Item α ν))
    (s : HashSet (Item α ν)) (o : TreeSet α) : Option (HashSet (Item α ν)) := do
  s.base.CheckInit
  let result ← s.Copy ord
  let r ← o.Map (fun _ => true)
  HashSet.removeEach result (r.2.map Item.comparer)

/-- The visitor of `HashSet.Intersection` folded over the visited items of the
HashSet, when `itee` is a TreeSet: `if itee.Contains(item) then
result.Insert(item)`, the membership being decided by `Compare`. -/
def HashSet.insertCommonOfTree {ν : Type} [BEq (Item α ν)] (cmp : α → α → Int)
    (itee : TreeSet α) : HashSet (Item α ν) → List (Item α ν) → Option (HashSet (Item α ν))
  | result, [] => some result
  | result, item :: items => do
    let c ← itee.Contains cmp [item.asComparer]
    let r ← if c then result.Insert [item] else pure result
    HashSet.insertCommonOfTree cmp itee r items

/-- Go `HashSet.Intersection`, for a TreeSet as the other set: the smaller set
is traversed, the other one asked. -/
def HashSet.IntersectionOfTree {ν : Type} [BEq (Item α ν)] (cmp : α → α → Int)
    (ord : List (Item α ν) → List (Item α ν))
    (s : HashSet (Item α ν)) (o : TreeSet α) : Option (HashSet (Item α ν)) := do
  s.base.CheckInit
  let result ← NewHashSet []
  let ssize ← s.Size
  let osize ← o.Size
  if ssize > osize then do
    let r ← o.Map (fun _ => true)
    HashSet.insertCommon s result (r.2.map Item.comparer)
  else do
    let r ← s.Map ord (fun _ => true)
    HashSet.insertCommonOfTree cmp o result r.2

/-! ## collection/worklist/queue.go

The nodes of a queue are cells of a store, a list indexed by address; a pointer
to a node is `some` address, and `none` is nil.  A new node is allocated at the
end of the store.  An item is `Option γ`, `none` being the nil interface
value.  Reading a field through a nil pointer panics. -/

/-- The struct `qnode`. -/
structure qnode (γ : Type) where
  work : Option γ
  next : Option Nat
deriving DecidableEq, Repr

/-- The struct `Queue`: `front` is the node last in, `back` the node first in. -/
structure Queue where
  base : Base
  front : Option Nat
  back : Option Nat
deriving DecidableEq, Repr

/-- The zero value `&Queue{}`. -/
def Queue.zero : Queue := Queue.mk Base.zero none none

/-- Go `Queue.Init`. -/
def Queue.Init (s : Queue) : Option Queue := do
  let b ← s.base.InitBase
  pure (Queue.mk b s.front s.back)

/-- Go `Queue.InitUnsafe`. -/
def Queue.InitUnsafe (s : Queue) : Option Queue := do
  let b ← s.base.InitBaseUnsafe
  pure (Queue.mk b s.front s.back)

/-- Go `NewQueue`. -/
def NewQueue : Option Queue := Queue.Init Queue.zero

/-- Go `NewQueueUnsafe`. -/
def NewQueueUnsafe : Option Queue := Queue.InitUnsafe Queue.zero

/-- Go `Queue.Size` (promoted from `Base`). -/
def Queue.Size (s : Queue) : Option Int := s.base.Size

/-- Go `Queue.Empty` (promoted from `Base`). -/
def Queue.Empty (s : Queue) : Option Bool := s.base.Empty

/-- Go `Queue.Push`: allocate the node, link it after `front` (or make it both
ends when `front` is nil), count it. -/
def Queue.Push {γ : Type} (h : List (qnode γ)) (s : Queue) (work : Option γ) :
    Option (List (qnode γ) × Queue) := do
  s.base.CheckInit
  let next := h.length
  let h1 := h ++ [qnode.mk work none]
  let b := Base.mk s.base.init (s.base.Sizeb + 1) s.base.threadsafe
  match s.front with
  | none => pure (h1, Queue.mk b (some next) (some next))
  | some f => do
    let n ← h1[f]?
    pure (h1.set f (qnode.mk n.work (some next)), Queue.mk b (some next) s.back)

/-- Go `Queue.Pop`: nil when `Empty()`, otherwise the work of `back`, which
then moves to its `next`; `front` is not written. -/
def Queue.Pop {γ : Type} (h : List (qnode γ)) (s : Queue) : Option (Queue × Option γ) := do
  s.base.CheckInit
  let e ← s.Empty
  if e then pure (s, none)
  else do
    let a ← s.back
    let n ← h[a]?
    pure (Queue.mk (Base.mk s.base.init (s.base.Sizeb - 1) s.base.threadsafe) s.front n.next,
      n.work)

/-- One call on a queue. -/
inductive QOp (γ : Type) where
  | push (work : Option γ) : QOp γ
  | pop : QOp γ
deriving DecidableEq, Repr

/-- Perform the calls in order on a queue and its store; the result is the
final store and queue with what each Pop returned, in order. -/
def Queue.runOps {γ : Type} :
    List (qnode γ) → Queue → List (QOp γ) → Option (List (qnode γ) × Queue × List (Option γ))
  | h, s, [] => some (h, s, [])
  | h, s, .push w :: ops => do
    let r ← Queue.Push h s w
    Queue.runOps r.1 r.2 ops
  | h, s, .pop :: ops => do
    let r ← Queue.Pop h s
    let rest ← Queue.runOps h r.1 ops
    pure (rest.1, rest.2.1, r.2 :: rest.2.2)

/-- The loop of Go `Queue.Slice`: from `curr`, append `curr.work` and step to
`curr.next` until nil.  `fuel` bounds the number of steps; a walk that ends
visits each node once, so one step more than there are nodes suffices, and
running out of fuel stands for the loop not ending. -/
def Queue.sliceLoop {γ : Type} (h : List (qnode γ)) : Nat → Option Nat → Option (List (Option γ))
  | 0, _ => none
  | _ + 1, none => some []
  | fuel + 1, some a => do
    let n ← h[a]?
    let rest ← Queue.sliceLoop h fuel n.next
    pure (n.work :: rest)

/-- Go `Queue.Slice`: the items from `back` on. -/
def Queue.Slice {γ : Type} (h : List (qnode γ)) (s : Queue) : Option (List (Option γ)) := do
  s.base.CheckInit
  Queue.sliceLoop h (h.length + 1) s.back

/-- The loop of Go `Queue.Copy`: `for curr != nil` allocate a node with the
fields of `curr`, link it after `temp`, move `temp` to it and `curr` to
`curr.next`.  Returns the store. -/
def Queue.copyLoop {γ : Type} :
    Nat → List (qnode γ) → Nat → Option Nat → Option (List (qnode γ))
  | 0, _, _, _ => none
  | _ + 1, h, _, none => some h
  | fuel + 1, h, temp, some curr => do
    let n ← h[curr]?
    let t ← h[temp]?
    Queue.copyLoop fuel ((h ++ [qnode.mk n.work n.next]).set temp (qnode.mk t.work (some h.length)))
      h.length n.next

/-- Go `Queue.Copy`: a new queue when `s` is empty; otherwise `c.back` is a
new node with the fields of `s.back`, and the loop starts at `s.front.next`.
`c.front` is not assigned.  Returns the store and the copy. -/
def Queue.Copy {γ : Type} (h : List (qnode γ)) (s : Queue) :
    Option (List (qnode γ) × Queue) := do
  s.base.CheckInit
  let ts ← s.base.Threadsafe
  let c ← if ts then NewQueue else NewQueueUnsafe
  let e ← s.Empty
  if e then pure (h, c)
  else do
    let b ← s.back
    let nb ← h[b]?
    let h1 := h ++ [qnode.mk nb.work nb.next]
    let f ← s.front
    let nf ← h1[f]?
    let h2 ← Queue.copyLoop (h1.length + 1) h1 h.length nf.next
    pure (h2, Queue.mk (Base.mk c.base.init s.base.Sizeb c.base.threadsafe) c.front
      (some h.length))

/-! ## collection/worklist/stack.go

`Push` allocates a node, `Pop` moves `front`, and `Copy` writes only to the
nodes it has allocated itself: no node is written once another stack can
reach it, so a node is the value of its fields, and nil is `snode.nil`. -/

/-- The struct `snode`. -/
inductive snode (γ : Type) where
  | nil : snode γ
  | mk (work : Option γ) (prev : snode γ) : snode γ
deriving DecidableEq, Repr

/-- The struct `Stack`. -/
structure Stack (γ : Type) where
  base : Base
  front : snode γ
deriving DecidableEq, Repr

/-- The zero value `&Stack{}`. -/
def Stack.zero {γ : Type} : Stack γ := Stack.mk Base.zero .nil

/-- Go `Stack.Init`. -/
def Stack.Init {γ : Type} (s : Stack γ) : Option (Stack γ) := do
  let b ← s.base.InitBase
  pure (Stack.mk b s.front)

/-- Go `Stack.InitUnsafe`. -/
def Stack.InitUnsafe {γ : Type} (s : Stack γ) : Option (Stack γ) := do
  let b ← s.base.InitBaseUnsafe
  pure (Stack.mk b s.front)

/-- Go `NewStack`. -/
def NewStack {γ : Type} : Option (Stack γ) := Stack.Init Stack.zero

/-- Go `NewStackUnsafe`. -/
def NewStackUnsafe {γ : Type} : Option (Stack γ) := Stack.InitUnsafe Stack.zero

/-- Go `Stack.Size` (promoted from `Base`). -/
def Stack.Size {γ : Type} (s : Stack γ) : Option Int := s.base.Size

/-- Go `Stack.Empty` (promoted from `Base`). -/
def Stack.Empty {γ : Type} (s : Stack γ) : Option Bool := s.base.Empty

/-- Go `Stack.Push`. -/
def Stack.Push {γ : Type} (s : Stack γ) (work : Option γ) : Option (Stack γ) := do
  s.base.CheckInit
  pure (Stack.mk (Base.mk s.base.init (s.base.Sizeb + 1) s.base.threadsafe)
    (snode.mk work s.front))

/-- Go `Stack.Pop`: nil when `Empty()`, otherwise the work of `front`, which
then moves to its `prev`. -/
def Stack.Pop {γ : Type} (s : Stack γ) : Option (Stack γ × Option γ) := do
  s.base.CheckInit
  let e ← s.Empty
  if e then pure (s, none)
  else
    match s.front with
    | .nil => none
    | .mk work prev =>
      pure (Stack.mk (Base.mk s.base.init (s.base.Sizeb - 1) s.base.threadsafe) prev, work)

/-- The loop of Go `Stack.Slice`, from `curr`. -/
def Stack.sliceLoop {γ : Type} : snode γ → List (Option γ)
  | .nil => []
  | .mk work prev => work :: Stack.sliceLoop prev

/-- Go `Stack.Slice`: the items from `front` on. -/
def Stack.Slice {γ : Type} (s : Stack γ) : Option (List (Option γ)) := do
  s.base.CheckInit
  pure (Stack.sliceLoop s.front)

/-- The loop of Go `Stack.Copy`, from `curr`: the node `temp.prev` ends up
pointing to.  It is nil when `curr` is nil, and otherwise a new node with the
work of `curr`, whose `prev` the next turn of the loop sets. -/
def Stack.copyLoop {γ : Type} : snode γ → snode γ
  | .nil => .nil
  | .mk work prev => .mk work (Stack.copyLoop prev)

/-- Go `Stack.Copy`. -/
def Stack.Copy {γ : Type} (s : Stack γ) : Option (Stack γ) := do
  s.base.CheckInit
  let ts ← s.base.Threadsafe
  let c ← if ts then (NewStack : Option (Stack γ)) else NewStackUnsafe
  let sz ← s.Size
  if sz = 0 then pure c
  else
    match s.front with
    | .nil => none
    | .mk work prev =>
      pure (Stack.mk (Base.mk c.base.init s.base.Sizeb c.base.threadsafe)
        (snode.mk work (Stack.copyLoop prev)))

/-- Perform the calls in order on a stack; the result is the final stack with
what each Pop returned, in order. -/
def Stack.runOps {γ : Type} : Stack γ → List (QOp γ) → Option (Stack γ × List (Option γ))
  | s, [] => some (s, [])
  | s, .push w :: ops => do
    let r ← s.Push w
    Stack.runOps r ops
  | s, .pop :: ops => do
    let r ← s.Pop
    let rest ← Stack.runOps r.1 ops
    pure (rest.1, r.2 :: rest.2)

/-! ## collection/dictionary/hashmap.go

The Go map `m` is the list of its entries, each key once; `none` is the nil
map of the zero value.  Keys are compared with `==`, here a `DecidableEq` type;
a key is `Option κ` and a value `Option ν`, `none` being nil.  The order in
which `range` yields the entries is the parameter `ord`. -/

/-- The struct `HashMap`. -/
structure HashMap (κ ν : Type) where
  base : Base
  m : Option (List (κ × Option ν))
deriving DecidableEq, Repr

/-- The zero value `&HashMap{}`. -/
def HashMap.zero {κ ν : Type} : HashMap κ ν := HashMap.mk Base.zero none

/-- Go `HashMap.Init`. -/
def HashMap.Init {κ ν : Type} (s : HashMap κ ν) : Option (HashMap κ ν) := do
  let b ← s.base.InitBase
  pure (HashMap.mk b (some []))

/-- Go `HashMap.InitUnsafe`. -/
def HashMap.InitUnsafe {κ ν : Type} (s : HashMap κ ν) : Option (HashMap κ ν) := do
  let b ← s.base.InitBaseUnsafe
  pure (HashMap.mk b (some []))

/-- Go `NewHashMap`. -/
def NewHashMap {κ ν : Type} : Option (HashMap κ ν) := HashMap.Init HashMap.zero

/-- Go `NewHashMapUnsafe`. -/
def NewHashMapUnsafe {κ ν : Type} : Option (HashMap κ ν) := HashMap.InitUnsafe HashMap.zero

/-- Go `HashMap.Size` (promoted from `Base`). -/
def HashMap.Size {κ ν : Type} (s : HashMap κ ν) : Option Int := s.base.Size

/-- Go `HashMap.Insert`: read `old, ok := s.m[key]`, store the value (which
panics on the nil map), add 1 to the size, return `old` when `ok`.  Returns
the new map and the returned value. -/
def HashMap.Insert {κ ν : Type} [DecidableEq κ] (s : HashMap κ ν) (key : Option κ)
    (value : Option ν) : Option (HashMap κ ν × Option ν) := do
  s.base.CheckInit
  let k ← key
  let l ← s.m
  let l1 := if (l.lookup k).isSome then l.map (fun e => if e.1 = k then (k, value) else e)
    else l ++ [(k, value)]
  pure (HashMap.mk (Base.mk s.base.init (s.base.Sizeb + 1) s.base.threadsafe) (some l1),
    (l.lookup k).join)

/-- Go `HashMap.Locate`. -/
def HashMap.Locate {κ ν : Type} [DecidableEq κ] (s : HashMap κ ν) (key : Option κ) :
    Option (Option ν) := do
  s.base.CheckInit
  let k ← key
  pure (((s.m.getD []).lookup k).join)

/-- Go `HashMap.Remove`: nil when the key is absent; otherwise delete the
entry, take 1 off the size and return the value. -/
def HashMap.Remove {κ ν : Type} [DecidableEq κ] (s : HashMap κ ν) (key : Option κ) :
    Option (HashMap κ ν × Option ν) := do
  s.base.CheckInit
  let k ← key
  match (s.m.getD []).lookup k with
  | none => pure (s, none)
  | some value =>
    pure (HashMap.mk (Base.mk s.base.init (s.base.Sizeb - 1) s.base.threadsafe)
      (some ((s.m.getD []).filter (fun e => decide (e.1 ≠ k)))), value)

/-- Go `HashMap.Map`, for a visitor whose verdict depends on the KeyValue
only.  Returns the returned bool and the KeyValues the visitor was applied
to. -/
def HashMap.Map {κ ν : Type} (ord : List (κ × Option ν) → List (κ × Option ν))
    (s : HashMap κ ν) (f : KeyValue κ ν → Bool) : Option (Bool × List (KeyValue κ ν)) := do
  s.base.CheckInit
  pure (visitList f ((ord (s.m.getD [])).map (fun e => KeyValue.mk e.1 e.2)) [])

/-- Go `HashMap.Slice`. -/
def HashMap.Slice {κ ν : Type} (ord : List (κ × Option ν) → List (κ × Option ν))
    (s : HashMap κ ν) : Option (List (KeyValue κ ν)) := do
  s.base.CheckInit
  pure ((ord (s.m.getD [])).map (fun e => KeyValue.mk e.1 e.2))

/-! ## treemap_test.go: the key type of the tests -/

/-- The method `compInt.Compare` of the tests. -/
def compInt (m o : Int) : Int := if m < o then -1 else if m > o then 1 else 0

/-! ## treeset_test.go: `raceCar` -/

/-- The struct `raceCar` of the tests; `==` on it compares both fields. -/
structure raceCar where
  num : Int
  fast : Bool
deriving DecidableEq, Repr

/-- The method `raceCar.Compare` of the tests: `math.Signum(m.num - oc.num)`. -/
def raceCar.Compare (m oc : raceCar) : Int := Signum (wrap64 (m.num - oc.num))

/-! ## Go values of type `float64` as items -/

/-- A `float64` as far as `==` goes: a number, here an integer one, or a NaN. -/
inductive float64 where
  | val (n : Int) : float64
  | NaN : float64
deriving Repr

/-- Go `==` on `float64`: a NaN is equal to no value, itself included. -/
def float64.eq : float64 → float64 → Bool
  | .val a, .val b => decide (a = b)
  | _, _ => false

instance : BEq float64 := ⟨float64.eq⟩

/-! ## Specification vocabulary -/

/-- The entries of a tree in in-order: left subtree, node, right subtree. -/
def inorder : node α β → List (α × Option β)
  | .nil => []
  | .mk k v _ c0 c1 => inorder c0 ++ (k, v) :: inorder c1

/-- The number of edges on the longest path from a node down to a leaf,
with -1 for the absent node. -/
def trueHeight : node α β → Int
  | .nil => -1
  | .mk _ _ _ c0 c1 => max (trueHeight c0) (trueHeight c1) + 1

/-- The number of nodes of a tree. -/
def count : node α β → Nat
  | .nil => 0
  | .mk _ _ _ c0 c1 => count c0 + 1 + count c1

/-- The comparator is a three-way comparison of a total (pre)order that
returns exactly -1, 0 or 1. -/
structure TotalCmp (cmp : α → α → Int) : Prop where
  range : ∀ a b, cmp a b = -1 ∨ cmp a b = 0 ∨ cmp a b = 1
  antisymm : ∀ a b, cmp b a = -(cmp a b)
  le_trans : ∀ a b c, cmp a b ≤ 0 → cmp b c ≤ 0 → cmp a c ≤ 0

/-- A list of entries is strictly ascending by key. -/
def Ascending (cmp : α → α → Int) (l : List (α × Option β)) : Prop :=
  l.Pairwise (fun a b => cmp a.1 b.1 = -1)

/-- The value of the first entry of a list whose key compares equal to `k`,
nil when there is none. -/
def assoc (cmp : α → α → Int) (k : α) : List (α × Option β) → Option β
  | [] => none
  | e :: l => if cmp k e.1 = 0 then e.2 else assoc cmp k l

/-- The value given by the last pair of a list whose key compares equal to
`k`, starting from `init` when there is no such pair. -/
def lastValue (cmp : α → α → Int) (k : α) (init : Option β) (kvs : List (α × Option β)) :
    Option β :=
  kvs.foldl (fun acc p => if cmp p.1 k = 0 then p.2 else acc) init

/-- Every cached height in the tree is non-negative. -/
def HNonneg : node α β → Prop
  | .nil => True
  | .mk _ _ h c0 c1 => 0 ≤ h ∧ HNonneg c0 ∧ HNonneg c1

/-- The entries to the left of the position the recorded path leads to, for a
stack `visited` with its top first: for every node the descent left through
slot 1, its left subtree and the node itself. -/
def ctxL (cmp : α → α → Int) (kc : α) : List (node α β) → List (α × Option β)
  | [] => []
  | .nil :: visited => ctxL cmp kc visited
  | .mk k v _ c0 _ :: visited =>
    if direction cmp kc k = 0 then ctxL cmp kc visited
    else ctxL cmp kc visited ++ inorder c0 ++ [(k, v)]

/-- The entries to the right of the position the recorded path leads to: for
every node the descent left through slot 0, the node and its right subtree. -/
def ctxR (cmp : α → α → Int) (kc : α) : List (node α β) → List (α × Option β)
  | [] => []
  | .nil :: visited => ctxR cmp kc visited
  | .mk k v _ _ c1 :: visited =>
    if direction cmp kc k = 0 then (k, v) :: inorder c1 ++ ctxR cmp kc visited
    else ctxR cmp kc visited

/-- Every node on the stack is present, has a key that does not compare equal
to `kc`, and carries non-negative cached heights. -/
def PathOk (cmp : α → α → Int) (kc : α) : List (node α β) → Prop
  | [] => True
  | .nil :: _ => False
  | .mk k v h c0 c1 :: visited =>
    (cmp kc k = -1 ∨ cmp kc k = 1) ∧ HNonneg (.mk k v h c0 c1) ∧ PathOk cmp kc visited

/-- The tree with every value forgotten: its keys, cached heights and links. -/
def shape : node α β → node α Unit
  | .nil => .nil
  | .mk k _ h c0 c1 => .mk k none h (shape c0) (shape c1)

/-- The invariant of the maps reachable from a new map: initialised, in-order
keys strictly ascending, cached heights non-negative. -/
def Inv (cmp : α → α → Int) (s : TreeMap α β) : Prop :=
  s.base.init = true ∧ Ascending cmp (inorder s.root) ∧ HNonneg s.root

/-- Every node of the tree has balance factor
`trueHeight right - trueHeight left` in -1..1. -/
def allBalanced : node α β → Bool
  | .nil => true
  | .mk _ _ _ c0 c1 =>
    decide (-1 ≤ trueHeight c1 - trueHeight c0 ∧ trueHeight c1 - trueHeight c0 ≤ 1)
      && allBalanced c0 && allBalanced c1

/-- Every node of the tree has cached balance factor
`height right - height left` in -1..1. -/
def allBalancedCached : node α β → Bool
  | .nil => true
  | .mk _ _ _ c0 c1 =>
    decide (-1 ≤ height c1 - height c0 ∧ height c1 - height c0 ≤ 1)
      && allBalancedCached c0 && allBalancedCached c1

/-- The KeyValues of a tree in pre-order: node, left subtree, right subtree. -/
def preorder : node α β → List (KeyValue α β)
  | .nil => []
  | .mk k v _ c0 c1 => KeyValue.mk k v :: (preorder c0 ++ preorder c1)

/-- The pre-order KeyValues of the trees of a stack, top first. -/
def preorderAll : List (node α β) → List (KeyValue α β)
  | [] => []
  | n :: q => preorder n ++ preorderAll q

/-- The KeyValue of an entry. -/
def toKeyValue (e : α × Option β) : KeyValue α β := KeyValue.mk e.1 e.2

/-- The entry of a KeyValue. -/
def toEntry (kv : KeyValue α β) : α × Option β := (kv.Key, kv.Value)

/-- The in-order entries of the map of a TreeSet. -/
def TreeSet.entries (s : TreeSet α) : List (α × Option Bool) :=
  match s.m with
  | none => []
  | some m => inorder m.root

/-- The keys of the map of a TreeSet in pre-order. -/
def TreeSet.keysPre (s : TreeSet α) : List α :=
  match s.m with
  | none => []
  | some m => (preorder m.root).map KeyValue.Key

/-- Membership as `Contains` computes it: the map holds a non-nil value for a
key comparing equal to `x`. -/
def TreeSet.has (cmp : α → α → Int) (s : TreeSet α) (x : α) : Bool :=
  (assoc cmp x s.entries).isSome

/-- The invariant of the reachable TreeSets: initialised, not thread-safe, the
map is present and satisfies the map invariant, and every value is `true`. -/
def SetInv (cmp : α → α → Int) (s : TreeSet α) : Prop :=
  s.base.init = true ∧ s.base.threadsafe = false ∧
    ∃ m, s.m = some m ∧ Inv cmp m ∧ ∀ e ∈ inorder m.root, e.2 = some true

/-- The size counter of the set is the number of entries of its map. -/
def SizeOk (s : TreeSet α) : Prop := s.base.Sizeb = (s.entries.length : Int)

/-- The keys of a HashSet. -/
def HashSet.keys {ι : Type} (s : HashSet ι) : List ι := s.m.getD []

/-- The invariant of the reachable HashSets. -/
def HashInv {ι : Type} (s : HashSet ι) : Prop :=
  s.base.init = true ∧ s.base.threadsafe = false ∧
    ∃ l, s.m = some l ∧ l.Nodup ∧ s.base.Sizeb = (l.length : Int)

/-- The TreeSet `Init` produces from the zero value. -/
def emptyTreeSet : TreeSet α :=
  TreeSet.mk (Base.mk true 0 false) (some (TreeMap.mk (Base.mk true 0 false) node.nil))

/-- The HashSet `Init` produces from the zero value. -/
def emptyHashSet {ι : Type} : HashSet ι := HashSet.mk (Base.mk true 0 false) (some [])

/-- The node of a TreeSet item without children. -/
def leaf (k : α) : node α Bool := .mk k (some true) 0 .nil .nil

/-- The TreeSet with the given size counter, own and of its map, and tree. -/
def treeSetOf (n : Int) (t : node α Bool) : TreeSet α :=
  TreeSet.mk (Base.mk true n false) (some (TreeMap.mk (Base.mk true n false) t))

/-- The FIFO list of the specification: the pending items, earliest first.
A Push appends; a Pop takes the head, or gives nil on the empty list.  The
result is the pending items at the end and what each Pop returned. -/
def fifoRun {γ : Type} :
    List (Option γ) → List (QOp γ) → List (Option γ) × List (Option γ)
  | l, [] => (l, [])
  | l, .push w :: ops => fifoRun (l ++ [w]) ops
  | [], .pop :: ops => ((fifoRun [] ops).1, none :: (fifoRun [] ops).2)
  | w :: l, .pop :: ops => ((fifoRun l ops).1, w :: (fifoRun l ops).2)

/-- The nodes from address `a` to the node at address `f`, which has no next
node, hold the items of the list in order, each node linked to the next one at
a greater address. -/
def chainTo {γ : Type} (h : List (qnode γ)) : Nat → List (Option γ) → Nat → Prop
  | _, [], _ => False
  | a, [w], f => a = f ∧ h[a]? = some (qnode.mk w none)
  | a, w :: w1 :: l, f =>
    ∃ b, h[a]? = some (qnode.mk w (some b)) ∧ a < b ∧ chainTo h b (w1 :: l) f

/-- A queue that holds the pending items `l`: it is new, or `back` starts a
chain of nodes with the items of `l` that ends at `front`. -/
def QLive {γ : Type} (h : List (qnode γ)) (q : Queue) (l : List (Option γ)) : Prop :=
  q.base.init = true ∧ q.base.Sizeb = (l.length : Int) ∧
    ((l = [] ∧ q.front = none ∧ q.back = none) ∨
      ∃ a f, q.back = some a ∧ q.front = some f ∧ chainTo h a l f)

/-- A queue counted empty. -/
def QDrained (q : Queue) : Prop := q.base.init = true ∧ q.base.Sizeb = 0

/-- No Push follows a Pop that took the last pending item: `n` items are
pending, and `d` tells whether the last Pop that took an item took the last
one. -/
def noRefill {γ : Type} : Nat → Bool → List (QOp γ) → Bool
  | _, _, [] => true
  | n, d, .push _ :: ops => !d && noRefill (n + 1) false ops
  | 0, d, .pop :: ops => noRefill 0 d ops
  | n + 1, _, .pop :: ops => noRefill n (n == 0) ops

/-- The LIFO list of the specification: the pending items, latest first.  A
Push puts an item in front; a Pop takes the head, or gives nil on the empty
list.  The result is the pending items at the end and what each Pop
returned. -/
def lifoRun {γ : Type} :
    List (Option γ) → List (QOp γ) → List (Option γ) × List (Option γ)
  | l, [] => (l, [])
  | l, .push w :: ops => lifoRun (w :: l) ops
  | [], .pop :: ops => ((lifoRun [] ops).1, none :: (lifoRun [] ops).2)
  | w :: l, .pop :: ops => ((lifoRun l ops).1, w :: (lifoRun l ops).2)

/-- The nodes reached from the pointer `a` through `next` hold the items of
the list in order, and the last one has no next node. -/
def chainFrom {γ : Type} (h : List (qnode γ)) : Option Nat → List (Option γ) → Prop
  | a, [] => a = none
  | a, w :: l => ∃ addr nxt, a = some addr ∧ h[addr]? = some (qnode.mk w nxt) ∧ chainFrom h nxt l

/-- The chain of a stack holds the items of the list, top first. -/
def stackOf {γ : Type} : List (Option γ) → snode γ
  | [] => .nil
  | w :: l => .mk w (stackOf l)

/-- Every node's cached height is one more than the greater of the cached
heights of its children, nil counting as -1. -/
def cachedHeightsOk : node α β → Bool
  | .nil => true
  | .mk _ _ h c0 c1 =>
    decide (h = max (height c0) (height c1) + 1) && cachedHeightsOk c0 && cachedHeightsOk c1

/-- The nodes of a tree: the tree itself and the nodes of its children. -/
def subtrees : node α β → List (node α β)
  | .nil => []
  | .mk k v h c0 c1 => .mk k v h c0 c1 :: (subtrees c0 ++ subtrees c1)

/-- A comparator normalised to -1, 0 and 1. -/
def normCmp (cmp : α → α → Int) (a b : α) : Int := Signum (cmp a b)

/-- A comparator that returns -1 for less, 0 for equal and any positive `int`
below the largest one for greater. -/
def UpCmp (cmp : α → α → Int) : Prop :=
  ∀ a b, cmp a b = -1 ∨ cmp a b = 0 ∨ (1 ≤ cmp a b ∧ cmp a b < 2 ^ 63 - 1)

/-- A three-way comparator on `int` keys by subtraction: negative, zero or
positive. -/
def cmpSub (m o : Int) : Int := wrap64 (m - o)

/-- A comparator on `int` keys that returns -1, 0 or 7. -/
def cmpUp (m o : Int) : Int := if m < o then -1 else if m > o then 7 else 0

/-! ## Comparators -/

theorem compInt_total : TotalCmp compInt := by
  refine ⟨?_, ?_, ?_⟩
  · intro a b
    unfold compInt
    split_ifs <;> omega
  · intro a b
    unfold compInt
    split_ifs <;> omega
  · intro a b c
    unfold compInt
    split_ifs <;> omega

theorem TotalCmp.refl {cmp : α → α → Int} (hc : TotalCmp cmp) (a : α) : cmp a a = 0 := by
  have := hc.antisymm a a
  omega

theorem TotalCmp.eq_symm {cmp : α → α → Int} (hc : TotalCmp cmp) {a b : α}
    (h : cmp a b = 0) : cmp b a = 0 := by
  have := hc.antisymm a b
  omega

theorem TotalCmp.congr_left {cmp : α → α → Int} (hc : TotalCmp cmp) {a b : α}
    (h : cmp a b = 0) (c : α) : cmp a c = cmp b c := by
  have hab := hc.antisymm a b
  have hac := hc.antisymm a c
  have hbc := hc.antisymm b c
  have r1 := hc.range a c
  have r2 := hc.range b c
  have t1 := hc.le_trans a b c
  have t2 := hc.le_trans b a c
  have t3 := hc.le_trans c a b
  have t4 := hc.le_trans c b a
  omega

theorem TotalCmp.congr_right {cmp : α → α → Int} (hc : TotalCmp cmp) {a b : α}
    (h : cmp a b = 0) (c : α) : cmp c a = cmp c b := by
  have h1 := hc.congr_left h c
  have h2 := hc.antisymm a c
  have h3 := hc.antisymm b c
  omega

theorem TotalCmp.lt_trans {cmp : α → α → Int} (hc : TotalCmp cmp) {a b c : α}
    (h1 : cmp a b = -1) (h2 : cmp b c = -1) : cmp a c = -1 := by
  have hab := hc.antisymm a b
  have hac := hc.antisymm a c
  have hbc := hc.antisymm b c
  have r1 := hc.range a c
  have t1 := hc.le_trans a b c
  have t2 := hc.le_trans c a b
  omega

theorem TotalCmp.gt_of_lt {cmp : α → α → Int} (hc : TotalCmp cmp) {a b : α}
    (h : cmp a b = -1) : cmp b a = 1 := by
  have := hc.antisymm a b
  omega

theorem TotalCmp.lt_of_gt {cmp : α → α → Int} (hc : TotalCmp cmp) {a b : α}
    (h : cmp a b = 1) : cmp b a = -1 := by
  have := hc.antisymm a b
  omega

theorem direction_of_lt {cmp : α → α → Int} {a b : α} (h : cmp a b = -1) :
    direction cmp a b = 0 := by
  simp [direction, h, wrap64, Signum]

theorem direction_of_eq {cmp : α → α → Int} {a b : α} (h : cmp a b = 0) :
    direction cmp a b = 1 := by
  simp [direction, h, wrap64, Signum]

theorem direction_of_gt {cmp : α → α → Int} {a b : α} (h : cmp a b = 1) :
    direction cmp a b = 1 := by
  simp [direction, h, wrap64, Signum]

/-! ## Rotations -/

theorem height_ge_of_HNonneg {n : node α β} (h : HNonneg n) : -1 ≤ height n := by
  cases n with
  | nil => simp [height]
  | mk k v hh c0 c1 =>
    simp only [HNonneg] at h
    simp only [height]
    omega

theorem Max_succ_nonneg {a b : Int} (hb : -1 ≤ b) : 0 ≤ Max a (b + 1) := by
  unfold Max
  split_ifs <;> omega

theorem height_mk (k : α) (v : Option β) (h : Int) (c0 c1 : node α β) :
    height (node.mk k v h c0 c1) = h := rfl

theorem updateHeight_mk (k : α) (v : Option β) (h : Int) (c0 c1 : node α β) :
    updateHeight (node.mk k v h c0 c1)
      = some (node.mk k v (Max (height c0) (height c1 + 1)) c0 c1) := by
  simp [updateHeight, child, setH]

theorem rotateSame_zero (k : α) (v : Option β) (h : Int) (c1 : node α β)
    (k1 : α) (v1 : Option β) (h1 : Int) (a b : node α β) :
    rotateSame (node.mk k v h (node.mk k1 v1 h1 a b) c1) 0
      = some (node.mk k1 v1 (Max (height a) (Max (height b) (height c1 + 1) + 1)) a
          (node.mk k v (Max (height b) (height c1 + 1)) b c1)) := by
  simp [rotateSame, child, setChild, updateHeight_mk, height_mk]

theorem rotateSame_one (k : α) (v : Option β) (h : Int) (c0 : node α β)
    (k1 : α) (v1 : Option β) (h1 : Int) (a b : node α β) :
    rotateSame (node.mk k v h c0 (node.mk k1 v1 h1 a b)) 1
      = some (node.mk k1 v1 (Max (Max (height c0) (height a + 1)) (height b + 1))
          (node.mk k v (Max (height c0) (height a + 1)) c0 a) b) := by
  simp [rotateSame, child, setChild, updateHeight_mk, height_mk]

theorem rotateSame_ok (p : node α β) (d : Int) (hd : d = 0 ∨ d = 1) (c : node α β)
    (hc : child p d = some c) (hcn : c.isNil = false) (hp : HNonneg p) :
    ∃ r, rotateSame p d = some r ∧ inorder r = inorder p ∧ HNonneg r ∧ r.isNil = false := by
  cases p with
  | nil => simp [child] at hc
  | mk k v h c0 c1 =>
    cases c with
    | nil => simp [node.isNil] at hcn
    | mk k1 v1 h1 a b =>
      simp only [HNonneg] at hp
      obtain ⟨_, hp0, hp1⟩ := hp
      rcases hd with rfl | rfl
      · simp only [child, if_true, Option.some.injEq] at hc
        subst hc
        simp only [HNonneg] at hp0
        have hb := height_ge_of_HNonneg hp0.2.2
        have hc1 := height_ge_of_HNonneg hp1
        refine ⟨_, rotateSame_zero _ _ _ _ _ _ _ _ _, ?_, ?_, ?_⟩
        · simp [inorder]
        · have h2 := @Max_succ_nonneg (height b) _ hc1
          exact ⟨Max_succ_nonneg (by omega), hp0.2.1, h2, hp0.2.2, hp1⟩
        · simp [node.isNil]
      · simp only [child] at hc
        norm_num at hc
        subst hc
        simp only [HNonneg] at hp1
        have hb := height_ge_of_HNonneg hp1.2.2
        have ha := height_ge_of_HNonneg hp1.2.1
        refine ⟨_, rotateSame_one _ _ _ _ _ _ _ _ _, ?_, ?_, ?_⟩
        · simp [inorder]
        · exact ⟨Max_succ_nonneg hb, ⟨Max_succ_nonneg ha, hp0, hp1.2.1⟩, hp1.2.2⟩
        · simp [node.isNil]

/-- The recursive equation of the source for `rotate`: with `dir1 != dir2` the
`dir1` child is first replaced by `rotate(child(p, dir1), dir2, dir2)`. -/
theorem rotate_rec (p : node α β) (dir1 dir2 : Int) :
    rotate p dir1 dir2
      = ((if dir1 ≠ dir2 then
            (child p dir1).bind (fun c =>
              (rotate c dir2 dir2).bind (fun r => setChild p dir1 r))
          else some p).bind (fun p1 => rotateSame p1 dir1)) := by
  by_cases h : dir1 = dir2
  · subst h
    simp [rotate]
  · simp [rotate, h, Option.bind_assoc]

theorem setChild_ok (k : α) (v : Option β) (h : Int) (c0 c1 x : node α β) (d : Int)
    (hd : d = 0 ∨ d = 1) :
    ∃ r, setChild (node.mk k v h c0 c1) d x = some r ∧ child r d = some x ∧
      r = (if d = 0 then node.mk k v h x c1 else node.mk k v h c0 x) := by
  rcases hd with rfl | rfl
  · exact ⟨node.mk k v h x c1, by simp [setChild], by simp [child], by simp⟩
  · exact ⟨node.mk k v h c0 x, by simp [setChild], by simp [child], by simp⟩

theorem rotate_ok (p : node α β) (d1 d2 : Int) (hd1 : d1 = 0 ∨ d1 = 1)
    (hd2 : d2 = 0 ∨ d2 = 1) (c : node α β) (hc : child p d1 = some c)
    (hcn : c.isNil = false)
    (hg : d1 ≠ d2 → ∃ g, child c d2 = some g ∧ g.isNil = false) (hp : HNonneg p) :
    ∃ r, rotate p d1 d2 = some r ∧ inorder r = inorder p ∧ HNonneg r ∧ r.isNil = false := by
  by_cases hdd : d1 = d2
  · subst hdd
    have := rotateSame_ok p d1 hd1 c hc hcn hp
    simpa [rotate] using this
  · obtain ⟨g, hg1, hg2⟩ := hg hdd
    cases p with
    | nil => simp [child] at hc
    | mk k v h c0 c1 =>
      simp only [HNonneg] at hp
      have hcH : HNonneg c := by
        rcases hd1 with rfl | rfl
        · simp only [child, if_true, Option.some.injEq] at hc
          exact hc ▸ hp.2.1
        · simp only [child] at hc
          norm_num at hc
          exact hc ▸ hp.2.2
      obtain ⟨r1, hr1, hin1, hH1, hn1⟩ := rotateSame_ok c d2 hd2 g hg1 hg2 hcH
      obtain ⟨p1, hp1, hch1, hp1eq⟩ := setChild_ok k v h c0 c1 r1 d1 hd1
      have hp1H : HNonneg p1 := by
        rw [hp1eq]
        split_ifs
        · exact ⟨hp.1, hH1, hp.2.2⟩
        · exact ⟨hp.1, hp.2.1, hH1⟩
      have hp1in : inorder p1 = inorder (node.mk k v h c0 c1) := by
        rw [hp1eq]
        rcases hd1 with rfl | rfl
        · simp only [child, if_true, Option.some.injEq] at hc
          subst hc
          simp [inorder, hin1]
        · simp only [child] at hc
          norm_num at hc
          subst hc
          simp [inorder, hin1]
      obtain ⟨r, hr, hin, hH, hn⟩ := rotateSame_ok p1 d1 hd1 r1 hch1 hn1 hp1H
      refine ⟨r, ?_, hin.trans hp1in, hH, hn⟩
      simp [rotate, hdd, hc, hr1, hp1, hr]

/-! ## The unwinding loops -/

theorem isNil_false_of_height {g : node α β} (h : 0 ≤ height g) : g.isNil = false := by
  cases g with
  | nil => simp [height] at h
  | mk _ _ _ _ _ => rfl

theorem tallest_child_ok (cur : node α β) (hH : HNonneg cur)
    (hb : balanced cur = some true) :
    ∃ d2 g, tallestDir cur = some d2 ∧ (d2 = 0 ∨ d2 = 1) ∧ child cur d2 = some g ∧
      g.isNil = false := by
  cases cur with
  | nil => simp [balanced, child] at hb
  | mk k v h a b =>
    simp only [HNonneg] at hH
    have ha := height_ge_of_HNonneg hH.2.1
    have hb1 := height_ge_of_HNonneg hH.2.2
    simp [balanced, child] at hb
    by_cases hlt : height a > height b
    · refine ⟨0, a, ?_, Or.inl rfl, by simp [child], ?_⟩
      · simp only [tallestDir, child]
        simp [Signum]
        split_ifs <;> omega
      · apply isNil_false_of_height
        unfold Abs at hb
        split_ifs at hb <;> omega
    · refine ⟨1, b, ?_, Or.inr rfl, by simp [child], ?_⟩
      · simp only [tallestDir, child]
        simp [Signum]
        split_ifs <;> omega
      · apply isNil_false_of_height
        unfold Abs at hb
        split_ifs at hb <;> omega

theorem balanced_some (cur : node α β) (hn : cur.isNil = false) :
    ∃ b, balanced cur = some b := by
  cases cur with
  | nil => simp [node.isNil] at hn
  | mk k v h a b =>
    exact ⟨decide (Abs (height a - height b) > 1), by simp [balanced, child]⟩

theorem rebalance_ok (p1 cur : node α β) (d : Int) (hd : d = 0 ∨ d = 1)
    (hch : child p1 d = some cur) (hn : cur.isNil = false) (hp : HNonneg p1)
    (hcur : HNonneg cur) (b : Bool) (hb : balanced cur = some b) :
    ∃ p2, (if b = true then (tallestDir cur).bind (fun dir2 => rotate p1 d dir2)
        else some p1) = some p2 ∧
      inorder p2 = inorder p1 ∧ HNonneg p2 ∧ p2.isNil = false := by
  cases b with
  | false =>
    refine ⟨p1, by simp, rfl, hp, ?_⟩
    cases p1 with
    | nil => simp [child] at hch
    | mk _ _ _ _ _ => rfl
  | true =>
    obtain ⟨d2, g, ht, hd2, hg, hgn⟩ := tallest_child_ok cur hcur hb
    obtain ⟨r, hr, hin, hH, hrn⟩ :=
      rotate_ok p1 d d2 hd hd2 cur hch hn (fun _ => ⟨g, hg, hgn⟩) hp
    exact ⟨r, by simp [ht, hr], hin, hH, hrn⟩

theorem updateHeight_ok (p : node α β) (hn : p.isNil = false) (hp : HNonneg p) :
    ∃ r, updateHeight p = some r ∧ inorder r = inorder p ∧ HNonneg r ∧ r.isNil = false := by
  cases p with
  | nil => simp [node.isNil] at hn
  | mk k v h c0 c1 =>
    simp only [HNonneg] at hp
    refine ⟨_, updateHeight_mk k v h c0 c1, by simp [inorder], ?_, rfl⟩
    exact ⟨Max_succ_nonneg (height_ge_of_HNonneg hp.2.2), hp.2.1, hp.2.2⟩

theorem direction_cases {cmp : α → α → Int} {a b : α} (h : cmp a b = -1 ∨ cmp a b = 1) :
    direction cmp a b = 0 ∨ direction cmp a b = 1 := by
  rcases h with h | h
  · exact Or.inl (direction_of_lt h)
  · exact Or.inr (direction_of_gt h)

theorem insertLoop_ok (cmp : α → α → Int) (kc : α) (visited : List (node α β)) :
    ∀ cur : node α β, PathOk cmp kc visited → HNonneg cur → cur.isNil = false →
    ∃ r, insertLoop cmp kc visited cur = some r ∧
      inorder r = ctxL cmp kc visited ++ inorder cur ++ ctxR cmp kc visited ∧
      HNonneg r ∧ r.isNil = false := by
  induction visited with
  | nil =>
    intro cur _ hH hn
    exact ⟨cur, rfl, by simp [ctxL, ctxR], hH, hn⟩
  | cons parent visited ih =>
    intro cur hpath hH hn
    cases parent with
    | nil => simp [PathOk] at hpath
    | mk k v h c0 c1 =>
      obtain ⟨hk, hpH, hrest⟩ := hpath
      have hd := direction_cases hk
      obtain ⟨p1, hp1, hch1, hp1eq⟩ := setChild_ok k v h c0 c1 cur (direction cmp kc k) hd
      simp only [HNonneg] at hpH
      have hp1H : HNonneg p1 := by
        rw [hp1eq]
        split_ifs
        · exact ⟨hpH.1, hH, hpH.2.2⟩
        · exact ⟨hpH.1, hpH.2.1, hH⟩
      obtain ⟨b, hb⟩ := balanced_some cur hn
      obtain ⟨p2, hp2, hin2, hH2, hn2⟩ :=
        rebalance_ok p1 cur _ hd hch1 hn hp1H hH b hb
      obtain ⟨p3, hp3, hin3, hH3, hn3⟩ := updateHeight_ok p2 hn2 hH2
      obtain ⟨r, hr, hinr, hHr, hnr⟩ := ih p3 hrest hH3 hn3
      refine ⟨r, ?_, ?_, hHr, hnr⟩
      · simp only [insertLoop, getK, Option.bind_eq_bind, Option.some_bind, hp1, hb]
        cases b with
        | false =>
          simp only [Bool.false_eq_true, if_false, Option.some.injEq] at hp2
          subst hp2
          simp [hp3, hr]
        | true =>
          simp only [if_true, Option.bind_eq_some] at hp2
          obtain ⟨d2, h1, h2⟩ := hp2
          simp [h1, h2, hp3, hr]
      · rw [hinr, hin3, hin2, hp1eq]
        rcases hd with h0 | h1
        · simp [h0, ctxL, ctxR, inorder]
        · simp [h1, ctxL, ctxR, inorder]

theorem removeLoop_ok_present (cmp : α → α → Int) (kc : α) (visited : List (node α β)) :
    ∀ cur : node α β, PathOk cmp kc visited → HNonneg cur → cur.isNil = false →
    ∃ r, removeLoop cmp kc visited cur = some r ∧
      inorder r = ctxL cmp kc visited ++ inorder cur ++ ctxR cmp kc visited ∧
      HNonneg r ∧ r.isNil = false := by
  induction visited with
  | nil =>
    intro cur _ hH hn
    exact ⟨cur, rfl, by simp [ctxL, ctxR], hH, hn⟩
  | cons parent visited ih =>
    intro cur hpath hH hn
    cases parent with
    | nil => simp [PathOk] at hpath
    | mk k v h c0 c1 =>
      obtain ⟨hk, hpH, hrest⟩ := hpath
      have hd := direction_cases hk
      obtain ⟨p1, hp1, hch1, hp1eq⟩ := setChild_ok k v h c0 c1 cur (direction cmp kc k) hd
      simp only [HNonneg] at hpH
      have hp1H : HNonneg p1 := by
        rw [hp1eq]
        split_ifs
        · exact ⟨hpH.1, hH, hpH.2.2⟩
        · exact ⟨hpH.1, hpH.2.1, hH⟩
      obtain ⟨b, hb⟩ := balanced_some cur hn
      obtain ⟨p2, hp2, hin2, hH2, hn2⟩ :=
        rebalance_ok p1 cur _ hd hch1 hn hp1H hH b hb
      obtain ⟨p3, hp3, hin3, hH3, hn3⟩ := updateHeight_ok p2 hn2 hH2
      obtain ⟨r, hr, hinr, hHr, hnr⟩ := ih p3 hrest hH3 hn3
      refine ⟨r, ?_, ?_, hHr, hnr⟩
      · simp only [removeLoop, getK, Option.bind_eq_bind, Option.some_bind, hp1, hb, hn]
        cases b with
        | false =>
          simp only [Bool.false_eq_true, if_false, Option.some.injEq] at hp2
          subst hp2
          simp [hp3, hr]
        | true =>
          simp only [if_true, Option.bind_eq_some] at hp2
          obtain ⟨d2, h1, h2⟩ := hp2
          simp [h1, h2, hp3, hr]
      · rw [hinr, hin3, hin2, hp1eq]
        rcases hd with h0 | h1
        · simp [h0, ctxL, ctxR, inorder]
        · simp [h1, ctxL, ctxR, inorder]

theorem removeLoop_ok (cmp : α → α → Int) (kc : α) (visited : List (node α β))
    (cur : node α β) (hpath : PathOk cmp kc visited) (hH : HNonneg cur) :
    ∃ r, removeLoop cmp kc visited cur = some r ∧
      inorder r = ctxL cmp kc visited ++ inorder cur ++ ctxR cmp kc visited ∧
      HNonneg r := by
  cases hcur : cur.isNil with
  | false =>
    obtain ⟨r, h1, h2, h3, _⟩ := removeLoop_ok_present cmp kc visited cur hpath hH hcur
    exact ⟨r, h1, h2, h3⟩
  | true =>
    cases visited with
    | nil => exact ⟨cur, rfl, by simp [ctxL, ctxR], hH⟩
    | cons parent visited =>
      cases parent with
      | nil => simp [PathOk] at hpath
      | mk k v h c0 c1 =>
        obtain ⟨hk, hpH, hrest⟩ := hpath
        have hd := direction_cases hk
        obtain ⟨p1, hp1, hch1, hp1eq⟩ :=
          setChild_ok k v h c0 c1 cur (direction cmp kc k) hd
        simp only [HNonneg] at hpH
        have hp1H : HNonneg p1 := by
          rw [hp1eq]
          split_ifs
          · exact ⟨hpH.1, hH, hpH.2.2⟩
          · exact ⟨hpH.1, hpH.2.1, hH⟩
        have hp1n : p1.isNil = false := by
          rw [hp1eq]
          split_ifs <;> rfl
        obtain ⟨p3, hp3, hin3, hH3, hn3⟩ := updateHeight_ok p1 hp1n hp1H
        obtain ⟨r, hr, hinr, hHr, _⟩ := removeLoop_ok_present cmp kc visited p3 hrest hH3 hn3
        refine ⟨r, ?_, ?_, hHr⟩
        · simp [removeLoop, getK, hp1, hcur, hp3, hr]
        · rw [hinr, hin3, hp1eq]
          rcases hd with h0 | h1
          · simp [h0, ctxL, ctxR, inorder]
          · simp [h1, ctxL, ctxR, inorder]

theorem writeBack_inorder (cmp : α → α → Int) (kc : α) (visited : List (node α β)) :
    ∀ cur : node α β, PathOk cmp kc visited → HNonneg cur →
    ∃ r, writeBack cmp kc visited cur = some r ∧
      inorder r = ctxL cmp kc visited ++ inorder cur ++ ctxR cmp kc visited ∧
      HNonneg r := by
  induction visited with
  | nil =>
    intro cur _ hH
    exact ⟨cur, rfl, by simp [ctxL, ctxR], hH⟩
  | cons parent visited ih =>
    intro cur hpath hH
    cases parent with
    | nil => simp [PathOk] at hpath
    | mk k v h c0 c1 =>
      obtain ⟨hk, hpH, hrest⟩ := hpath
      have hd := direction_cases hk
      obtain ⟨p1, hp1, hch1, hp1eq⟩ := setChild_ok k v h c0 c1 cur (direction cmp kc k) hd
      simp only [HNonneg] at hpH
      have hp1H : HNonneg p1 := by
        rw [hp1eq]
        split_ifs
        · exact ⟨hpH.1, hH, hpH.2.2⟩
        · exact ⟨hpH.1, hpH.2.1, hH⟩
      obtain ⟨r, hr, hinr, hHr⟩ := ih p1 hrest hp1H
      refine ⟨r, by simp [writeBack, getK, hp1, hr], ?_, hHr⟩
      rw [hinr, hp1eq]
      rcases hd with h0 | h1
      · simp [h0, ctxL, ctxR, inorder]
      · simp [h1, ctxL, ctxR, inorder]

theorem writeBack_shape (cmp : α → α → Int) (kc : α) (visited : List (node α β)) :
    ∀ x y : node α β, shape x = shape y →
      (writeBack cmp kc visited x).map shape = (writeBack cmp kc visited y).map shape := by
  induction visited with
  | nil =>
    intro x y h
    simp [writeBack, h]
  | cons parent visited ih =>
    intro x y h
    cases parent with
    | nil => simp [writeBack, getK]
    | mk k v hh c0 c1 =>
      simp only [writeBack, getK, Option.bind_eq_bind, Option.some_bind, setChild]
      split_ifs
      · simp only [Option.some_bind]
        exact ih _ _ (by simp [shape, h])
      · simp only [Option.some_bind]
        exact ih _ _ (by simp [shape, h])
      · simp

theorem descend_writeBack (cmp : α → α → Int) (kc : α) (t : node α β) :
    ∀ (visited : List (node α β)) (cur : node α β) (vis1 : List (node α β)),
      descend cmp kc t visited = some (cur, vis1) →
      writeBack cmp kc vis1 cur = writeBack cmp kc visited t := by
  induction t with
  | nil =>
    intro visited cur vis1 h
    simp only [descend, Option.some.injEq, Prod.mk.injEq] at h
    obtain ⟨rfl, rfl⟩ := h
    rfl
  | mk k v hh c0 c1 ih0 ih1 =>
    intro visited cur vis1 h
    simp only [descend] at h
    split_ifs at h with hne h0 h1
    · rw [ih0 _ _ _ h]
      simp [writeBack, getK, setChild, h0]
    · rw [ih1 _ _ _ h]
      simp [writeBack, getK, setChild, h1]
    · simp only [Option.some.injEq, Prod.mk.injEq] at h
      obtain ⟨rfl, rfl⟩ := h
      rfl

/-! ## The descent and lookups -/

theorem ascending_mk {cmp : α → α → Int} {k : α} {v : Option β} {h : Int}
    {c0 c1 : node α β} (ha : Ascending cmp (inorder (node.mk k v h c0 c1))) :
    Ascending cmp (inorder c0) ∧ Ascending cmp (inorder c1) ∧
      (∀ a ∈ inorder c0, cmp a.1 k = -1) ∧ (∀ b ∈ inorder c1, cmp k b.1 = -1) := by
  unfold Ascending at ha ⊢
  simp only [inorder, List.pairwise_append, List.pairwise_cons] at ha
  refine ⟨ha.1, ha.2.1.2, ?_, ?_⟩
  · intro a hm
    exact ha.2.2 a hm (k, v) (List.mem_cons_self _ _)
  · intro b hm
    exact ha.2.1.1 b hm

theorem descend_ok {cmp : α → α → Int} (hc : TotalCmp cmp) (kc : α) (t : node α β) :
    ∀ visited : List (node α β), PathOk cmp kc visited → HNonneg t →
      Ascending cmp (inorder t) →
      (∀ e ∈ ctxL cmp kc visited, cmp kc e.1 = 1) →
      (∀ e ∈ ctxR cmp kc visited, cmp kc e.1 = -1) →
    ∃ cur vis1, descend cmp kc t visited = some (cur, vis1) ∧ PathOk cmp kc vis1 ∧
      HNonneg cur ∧
      ctxL cmp kc vis1 ++ inorder cur ++ ctxR cmp kc vis1
        = ctxL cmp kc visited ++ inorder t ++ ctxR cmp kc visited ∧
      (∀ e ∈ ctxL cmp kc vis1, cmp kc e.1 = 1) ∧
      (∀ e ∈ ctxR cmp kc vis1, cmp kc e.1 = -1) ∧
      (cur = node.nil ∨ ∃ k v h c0 c1, cur = node.mk k v h c0 c1 ∧ cmp kc k = 0 ∧
        (∀ e ∈ inorder c0, cmp kc e.1 = 1) ∧ (∀ e ∈ inorder c1, cmp kc e.1 = -1)) := by
  induction t with
  | nil =>
    intro visited hp hH _ hl hr
    exact ⟨node.nil, visited, rfl, hp, hH, rfl, hl, hr, Or.inl rfl⟩
  | mk k v h c0 c1 ih0 ih1 =>
    intro visited hp hH hasc hl hr
    obtain ⟨ha0, ha1, hlt0, hlt1⟩ := ascending_mk hasc
    have hH2 := hH
    simp only [HNonneg] at hH2
    rcases hc.range kc k with hk | hk | hk
    · -- the key is smaller: the descent takes slot 0
      have hd := direction_of_lt hk
      have hp1 : PathOk cmp kc (node.mk k v h c0 c1 :: visited) := ⟨Or.inl hk, hH, hp⟩
      have hl1 : ∀ e ∈ ctxL cmp kc (node.mk k v h c0 c1 :: visited), cmp kc e.1 = 1 := by
        simpa [ctxL, hd] using hl
      have hr1 : ∀ e ∈ ctxR cmp kc (node.mk k v h c0 c1 :: visited), cmp kc e.1 = -1 := by
        intro e he
        simp only [ctxR, hd, if_true, List.mem_cons, List.mem_append] at he
        rcases he with (rfl | he) | he
        · exact hk
        · exact hc.lt_trans hk (hlt1 e he)
        · exact hr e he
      obtain ⟨cur, vis1, h1, h2, h3, h4, h5, h6, h7⟩ := ih0 _ hp1 hH2.2.1 ha0 hl1 hr1
      refine ⟨cur, vis1, ?_, h2, h3, ?_, h5, h6, h7⟩
      · simp [descend, hk, hd, h1]
      · rw [h4]
        simp [ctxL, ctxR, hd, inorder]
    · -- the key compares equal: the descent stops here
      refine ⟨node.mk k v h c0 c1, visited, by simp [descend, hk], hp, hH, rfl, hl, hr, ?_⟩
      refine Or.inr ⟨k, v, h, c0, c1, rfl, hk, ?_, ?_⟩
      · intro e he
        have h1 := hlt0 e he
        have h2 := hc.congr_left hk e.1
        have h3 := hc.antisymm e.1 k
        omega
      · intro e he
        have h1 := hlt1 e he
        have h2 := hc.congr_left hk e.1
        omega
    · -- the key is greater: the descent takes slot 1
      have hd := direction_of_gt hk
      have hp1 : PathOk cmp kc (node.mk k v h c0 c1 :: visited) := ⟨Or.inr hk, hH, hp⟩
      have hl1 : ∀ e ∈ ctxL cmp kc (node.mk k v h c0 c1 :: visited), cmp kc e.1 = 1 := by
        intro e he
        simp only [ctxL, hd, one_ne_zero, if_false, List.mem_append, List.mem_singleton] at he
        rcases he with (he | he) | rfl
        · exact hl e he
        · exact hc.gt_of_lt (hc.lt_trans (hlt0 e he) (hc.lt_of_gt hk))
        · exact hk
      have hr1 : ∀ e ∈ ctxR cmp kc (node.mk k v h c0 c1 :: visited), cmp kc e.1 = -1 := by
        simpa [ctxR, hd] using hr
      obtain ⟨cur, vis1, h1, h2, h3, h4, h5, h6, h7⟩ := ih1 _ hp1 hH2.2.2 ha1 hl1 hr1
      refine ⟨cur, vis1, ?_, h2, h3, ?_, h5, h6, h7⟩
      · simp [descend, hk, hd, h1]
      · rw [h4]
        simp [ctxL, ctxR, hd, inorder]

theorem assoc_append_left {cmp : α → α → Int} {k : α} (l1 l2 : List (α × Option β))
    (h : ∀ e ∈ l1, cmp k e.1 ≠ 0) : assoc cmp k (l1 ++ l2) = assoc cmp k l2 := by
  induction l1 with
  | nil => rfl
  | cons e l ih =>
    have he := h e (List.mem_cons_self _ _)
    simp only [List.cons_append, assoc, he, if_false]
    exact ih (fun x hx => h x (List.mem_cons_of_mem _ hx))

theorem assoc_none {cmp : α → α → Int} {k : α} (l : List (α × Option β))
    (h : ∀ e ∈ l, cmp k e.1 ≠ 0) : assoc cmp k l = none := by
  have := assoc_append_left l ([] : List (α × Option β)) h
  simpa [assoc] using this

theorem assoc_append_right {cmp : α → α → Int} {k : α} (l1 l2 : List (α × Option β))
    (h : ∀ e ∈ l2, cmp k e.1 ≠ 0) : assoc cmp k (l1 ++ l2) = assoc cmp k l1 := by
  induction l1 with
  | nil => simpa [assoc] using assoc_none l2 h
  | cons e l ih =>
    show assoc cmp k (e :: (l ++ l2)) = assoc cmp k (e :: l)
    simp only [assoc, ih]

theorem locateLoop_ok {cmp : α → α → Int} (hc : TotalCmp cmp) (kc : α) (t : node α β)
    (hasc : Ascending cmp (inorder t)) :
    ∃ cur, locateLoop cmp kc t = some cur ∧
      ((cur = node.nil ∧ assoc cmp kc (inorder t) = none) ∨
        ∃ k v h c0 c1, cur = node.mk k v h c0 c1 ∧ cmp kc k = 0 ∧
          assoc cmp kc (inorder t) = v) := by
  induction t with
  | nil => exact ⟨node.nil, rfl, Or.inl ⟨rfl, rfl⟩⟩
  | mk k v h c0 c1 ih0 ih1 =>
    obtain ⟨ha0, ha1, hlt0, hlt1⟩ := ascending_mk hasc
    have hright : ∀ e ∈ inorder c1, cmp kc k ≤ 0 → cmp kc e.1 ≠ 0 := by
      intro e he hle h0
      have h1 := hlt1 e he
      have h2 := hc.congr_right (hc.eq_symm h0) k
      have h3 := hc.antisymm kc k
      omega
    have hleft : ∀ e ∈ inorder c0, 0 ≤ cmp kc k → cmp kc e.1 ≠ 0 := by
      intro e he hle h0
      have h1 := hlt0 e he
      have h2 := hc.congr_left (hc.eq_symm h0) k
      omega
    rcases hc.range kc k with hk | hk | hk
    · obtain ⟨cur, h1, h2⟩ := ih0 ha0
      refine ⟨cur, by simp [locateLoop, hk, direction_of_lt hk, h1], ?_⟩
      have heq : assoc cmp kc (inorder (node.mk k v h c0 c1)) = assoc cmp kc (inorder c0) := by
        simp only [inorder]
        apply assoc_append_right
        intro e he
        rcases List.mem_cons.1 he with rfl | he
        · simp [hk]
        · exact hright e he (by omega)
      rw [heq]
      exact h2
    · refine ⟨node.mk k v h c0 c1, by simp [locateLoop, hk], Or.inr ⟨k, v, h, c0, c1, rfl, hk, ?_⟩⟩
      simp only [inorder]
      rw [assoc_append_left _ _ (fun e he => hleft e he (by omega))]
      simp [assoc, hk]
    · obtain ⟨cur, h1, h2⟩ := ih1 ha1
      refine ⟨cur, by simp [locateLoop, hk, direction_of_gt hk, h1], ?_⟩
      have heq : assoc cmp kc (inorder (node.mk k v h c0 c1)) = assoc cmp kc (inorder c1) := by
        simp only [inorder]
        rw [assoc_append_left _ _ (fun e he => hleft e he (by omega))]
        simp [assoc, hk]
      rw [heq]
      exact h2

theorem Locate_eq_assoc {cmp : α → α → Int} (hc : TotalCmp cmp) (s : TreeMap α β)
    (hinit : s.base.init = true) (hasc : Ascending cmp (inorder s.root)) (kc : α) :
    s.Locate cmp (some kc) = some (assoc cmp kc (inorder s.root)) := by
  obtain ⟨cur, h1, h2⟩ := locateLoop_ok hc kc s.root hasc
  rcases h2 with ⟨rfl, h3⟩ | ⟨k, v, h, c0, c1, rfl, hk, h3⟩
  · simp [TreeMap.Locate, Base.CheckInit, hinit, h1, h3]
  · simp [TreeMap.Locate, Base.CheckInit, hinit, h1, h3, hk]

/-! ## Insert -/

theorem ascending_insert {cmp : α → α → Int} (hc : TotalCmp cmp) {k : α} {v : Option β}
    {A B : List (α × Option β)} (h : Ascending cmp (A ++ B))
    (hA : ∀ e ∈ A, cmp k e.1 = 1) (hB : ∀ e ∈ B, cmp k e.1 = -1) :
    Ascending cmp (A ++ (k, v) :: B) := by
  unfold Ascending at h ⊢
  rw [List.pairwise_append] at h ⊢
  refine ⟨h.1, List.pairwise_cons.2 ⟨fun b hb => hB b hb, h.2.1⟩, ?_⟩
  intro a ha x hx
  rcases List.mem_cons.1 hx with rfl | hx
  · exact hc.lt_of_gt (hA a ha)
  · exact h.2.2 a ha x hx

theorem ascending_keys {cmp : α → α → Int} {l1 l2 : List (α × Option β)}
    (hk : l1.map Prod.fst = l2.map Prod.fst) (h : Ascending cmp l1) : Ascending cmp l2 := by
  unfold Ascending at h ⊢
  have h1 : (l1.map Prod.fst).Pairwise (fun a b => cmp a b = -1) := List.pairwise_map.2 h
  rw [hk] at h1
  exact List.pairwise_map.1 h1

theorem Insert_spec {cmp : α → α → Int} (hc : TotalCmp cmp) (s : TreeMap α β)
    (hs : Inv cmp s) (k : α) (v : Option β) :
    ∃ s1 r, s.Insert cmp (some k) v = some (s1, r) ∧ Inv cmp s1 ∧
      ∃ A B : List (α × Option β), (∀ e ∈ A, cmp k e.1 = 1) ∧ (∀ e ∈ B, cmp k e.1 = -1) ∧
        ((inorder s.root = A ++ B ∧ inorder s1.root = A ++ (k, v) :: B ∧ r = none ∧
            s1.base = Base.mk s.base.init (s.base.Sizeb + 1) s.base.threadsafe) ∨
          (∃ k0 v0, cmp k k0 = 0 ∧ inorder s.root = A ++ (k0, v0) :: B ∧
            inorder s1.root = A ++ (k0, v) :: B ∧ r = v0 ∧ s1.base = s.base ∧
            shape s1.root = shape s.root)) := by
  obtain ⟨hinit, hasc, hH⟩ := hs
  obtain ⟨cur, vis, hd, hpath, hcurH, hctx, hl, hr, hcur⟩ :=
    descend_ok hc k s.root [] trivial hH hasc (by simp [ctxL]) (by simp [ctxR])
  simp only [ctxL, ctxR, List.nil_append, List.append_nil] at hctx
  rcases hcur with rfl | ⟨k0, v0, h0, c0, c1, rfl, hk0, hc0, hc1⟩
  · -- a new node is linked in
    obtain ⟨r, hr1, hr2, hr3, _⟩ :=
      insertLoop_ok cmp k vis (newNode k v 0) hpath (by simp [newNode, HNonneg]) rfl
    simp only [inorder, List.append_nil] at hctx
    have hin : inorder r = ctxL cmp k vis ++ (k, v) :: ctxR cmp k vis := by
      rw [hr2]
      simp [newNode, inorder]
    refine ⟨TreeMap.mk (Base.mk s.base.init (s.base.Sizeb + 1) s.base.threadsafe) r, none,
      ?_, ⟨hinit, ?_, hr3⟩, ctxL cmp k vis, ctxR cmp k vis, hl, hr,
      Or.inl ⟨hctx.symm, hin, rfl, rfl⟩⟩
    · simp [TreeMap.Insert, Base.CheckInit, hinit, hd, hr1]
    · show Ascending cmp (inorder r)
      rw [hin]
      exact ascending_insert hc (hctx ▸ hasc) hl hr
  · -- the value of an existing node is replaced
    simp only [HNonneg] at hcurH
    obtain ⟨r, hr1, hr2, hr3⟩ :=
      writeBack_inorder cmp k vis (node.mk k0 v h0 c0 c1) hpath hcurH
    have hwb := descend_writeBack cmp k s.root [] _ _ hd
    have hsh := writeBack_shape cmp k vis (node.mk k0 v h0 c0 c1) (node.mk k0 v0 h0 c0 c1)
      (by simp [shape])
    rw [hwb, hr1] at hsh
    simp only [writeBack, Option.map_some', Option.some.injEq] at hsh
    have hin0 : inorder s.root
        = (ctxL cmp k vis ++ inorder c0) ++ (k0, v0) :: (inorder c1 ++ ctxR cmp k vis) := by
      rw [← hctx]
      simp [inorder]
    have hin1 : inorder r
        = (ctxL cmp k vis ++ inorder c0) ++ (k0, v) :: (inorder c1 ++ ctxR cmp k vis) := by
      rw [hr2]
      simp [inorder]
    refine ⟨TreeMap.mk s.base r, v0, ?_, ⟨hinit, ?_, hr3⟩,
      ctxL cmp k vis ++ inorder c0, inorder c1 ++ ctxR cmp k vis, ?_, ?_,
      Or.inr ⟨k0, v0, hk0, hin0, hin1, rfl, rfl, hsh⟩⟩
    · simp [TreeMap.Insert, Base.CheckInit, hinit, hd, hk0, hr1]
    · show Ascending cmp (inorder r)
      refine ascending_keys ?_ hasc
      rw [hin0, hin1]
      simp
    · intro e he
      rcases List.mem_append.1 he with he | he
      · exact hl e he
      · exact hc0 e he
    · intro e he
      rcases List.mem_append.1 he with he | he
      · exact hc1 e he
      · exact hr e he

/-! ## Remove -/

theorem successorLoop_ok (d : Int) (hd : d = 0 ∨ d = 1) (t : node α β) :
    t.isNil = false → HNonneg t →
    ∃ r, successorLoop d t = some r ∧ (inorder r).Sublist (inorder t) ∧ HNonneg r := by
  induction t with
  | nil => intro h; simp [node.isNil] at h
  | mk k v h c0 c1 ih0 ih1 =>
    intro _ hH
    have hH2 := hH
    simp only [HNonneg] at hH2
    rcases hd with rfl | rfl
    · cases hn : c0.isNil with
      | true => exact ⟨_, by simp [successorLoop, hn], List.Sublist.refl _, hH⟩
      | false =>
        obtain ⟨r, h1, h2, h3⟩ := ih0 hn hH2.2.1
        refine ⟨r, by simp [successorLoop, hn, h1], ?_, h3⟩
        simp only [inorder]
        exact h2.trans (List.sublist_append_left _ _)
    · cases hn : c1.isNil with
      | true => exact ⟨_, by simp [successorLoop, hn], List.Sublist.refl _, hH⟩
      | false =>
        obtain ⟨r, h1, h2, h3⟩ := ih1 hn hH2.2.2
        refine ⟨r, by simp [successorLoop, hn, h1], ?_, h3⟩
        simp only [inorder]
        exact h2.trans ((List.sublist_cons_self _ _).trans (List.sublist_append_right _ _))

theorem tallestDir_mk (k : α) (v : Option β) (h : Int) (c0 c1 : node α β) :
    ∃ d, tallestDir (node.mk k v h c0 c1) = some d ∧ (d = 0 ∨ d = 1) := by
  refine ⟨Signum (Signum (height c1 - height c0) + 1), by simp [tallestDir, child], ?_⟩
  unfold Signum
  split_ifs <;> omega

theorem successor_ok (k : α) (v : Option β) (h : Int) (c0 c1 : node α β)
    (hH : HNonneg (node.mk k v h c0 c1)) :
    ∃ r, successor (node.mk k v h c0 c1) = some r ∧
      (inorder r).Sublist (inorder c0 ++ inorder c1) ∧ HNonneg r := by
  simp only [HNonneg] at hH
  obtain ⟨d, hd1, hd2⟩ := tallestDir_mk k v h c0 c1
  have key : ∀ b0 b1 : Bool, c0.isNil = b0 → c1.isNil = b1 → (b0 && b1) = false →
      ∃ r, successor (node.mk k v h c0 c1) = some r ∧
        (inorder r).Sublist (inorder c0 ++ inorder c1) ∧ HNonneg r := by
    intro b0 b1 hn0 hn1 hb
    rcases hd2 with rfl | rfl
    · cases b0 with
      | true =>
        refine ⟨c0, ?_, List.sublist_append_left _ _, hH.2.1⟩
        have hb1 : b1 = false := by simpa using hb
        subst hb1
        simp [successor, child, hn0, hn1, hd1]
      | false =>
        obtain ⟨r, h1, h2, h3⟩ := successorLoop_ok 1 (Or.inr rfl) c0 hn0 hH.2.1
        refine ⟨r, ?_, h2.trans (List.sublist_append_left _ _), h3⟩
        simp [successor, child, hn0, hd1, Abs, h1]
    · cases b1 with
      | true =>
        refine ⟨c1, ?_, List.sublist_append_right _ _, hH.2.2⟩
        have hb0 : b0 = false := by simpa using hb
        subst hb0
        simp [successor, child, hn0, hn1, hd1]
      | false =>
        obtain ⟨r, h1, h2, h3⟩ := successorLoop_ok 0 (Or.inl rfl) c1 hn1 hH.2.2
        refine ⟨r, ?_, h2.trans (List.sublist_append_right _ _), h3⟩
        simp [successor, child, hn1, hd1, Abs, h1]
  cases hn0 : c0.isNil with
  | false => exact key false _ hn0 rfl rfl
  | true =>
    cases hn1 : c1.isNil with
    | false => exact key true false hn0 hn1 rfl
    | true =>
      exact ⟨node.nil, by simp [successor, child, hn0, hn1], by simp [inorder], trivial⟩

theorem Remove_spec {cmp : α → α → Int} (hc : TotalCmp cmp) (s : TreeMap α β)
    (hs : Inv cmp s) (k : α) :
    ∃ s1 r, s.Remove cmp (some k) = some (s1, r) ∧ Inv cmp s1 ∧
      ∃ A B : List (α × Option β), (∀ e ∈ A, cmp k e.1 = 1) ∧ (∀ e ∈ B, cmp k e.1 = -1) ∧
        ((inorder s.root = A ++ B ∧ s1 = s ∧ r = none) ∨
          (∃ k0 v0, cmp k k0 = 0 ∧ inorder s.root = A ++ (k0, v0) :: B ∧ r = v0 ∧
            (inorder s1.root).Sublist (A ++ B) ∧
            s1.base = Base.mk s.base.init (s.base.Sizeb - 1) s.base.threadsafe)) := by
  obtain ⟨hinit, hasc, hH⟩ := hs
  obtain ⟨cur, vis, hd, hpath, hcurH, hctx, hl, hr, hcur⟩ :=
    descend_ok hc k s.root [] trivial hH hasc (by simp [ctxL]) (by simp [ctxR])
  simp only [ctxL, ctxR, List.nil_append, List.append_nil] at hctx
  rcases hcur with rfl | ⟨k0, v0, h0, c0, c1, rfl, hk0, hc0, hc1⟩
  · -- the key is absent: nothing changes
    simp only [inorder, List.append_nil] at hctx
    refine ⟨s, none, ?_, ⟨hinit, hasc, hH⟩, ctxL cmp k vis, ctxR cmp k vis, hl, hr,
      Or.inl ⟨hctx.symm, rfl, rfl⟩⟩
    simp [TreeMap.Remove, Base.CheckInit, hinit, hd]
  · -- the node is replaced by what successor returns
    obtain ⟨x, hx1, hx2, hx3⟩ := successor_ok k0 v0 h0 c0 c1 hcurH
    obtain ⟨r, hr1, hr2, hr3⟩ := removeLoop_ok cmp k vis x hpath hx3
    have hin0 : inorder s.root
        = (ctxL cmp k vis ++ inorder c0) ++ (k0, v0) :: (inorder c1 ++ ctxR cmp k vis) := by
      rw [← hctx]
      simp [inorder]
    have hsub : (inorder r).Sublist
        ((ctxL cmp k vis ++ inorder c0) ++ (inorder c1 ++ ctxR cmp k vis)) := by
      rw [hr2]
      have h1 : (ctxL cmp k vis ++ inorder x).Sublist
          (ctxL cmp k vis ++ (inorder c0 ++ inorder c1)) :=
        List.Sublist.append (List.Sublist.refl _) hx2
      have h2 := List.Sublist.append h1 (List.Sublist.refl (ctxR cmp k vis))
      simpa [List.append_assoc] using h2
    have hasc1 : Ascending cmp (inorder r) := by
      unfold Ascending at hasc ⊢
      refine List.Pairwise.sublist (hsub.trans ?_) hasc
      rw [hin0]
      exact List.Sublist.append (List.Sublist.refl _) (List.sublist_cons_self _ _)
    refine ⟨TreeMap.mk (Base.mk s.base.init (s.base.Sizeb - 1) s.base.threadsafe) r, v0,
      ?_, ⟨hinit, hasc1, hr3⟩,
      ctxL cmp k vis ++ inorder c0, inorder c1 ++ ctxR cmp k vis, ?_, ?_,
      Or.inr ⟨k0, v0, hk0, hin0, rfl, hsub, rfl⟩⟩
    · simp [TreeMap.Remove, Base.CheckInit, hinit, hd, hk0, hx1, hr1]
    · intro e he
      rcases List.mem_append.1 he with he | he
      · exact hl e he
      · exact hc0 e he
    · intro e he
      rcases List.mem_append.1 he with he | he
      · exact hc1 e he
      · exact hr e he

/-! ## Sequences of calls -/

theorem assoc_skip {cmp : α → α → Int} {j k : α} (v : Option β)
    (A B : List (α × Option β)) (h : cmp j k ≠ 0) :
    assoc cmp j (A ++ (k, v) :: B) = assoc cmp j (A ++ B) := by
  induction A with
  | nil => simp [assoc, h]
  | cons e l ih =>
    show assoc cmp j (e :: (l ++ (k, v) :: B)) = assoc cmp j (e :: (l ++ B))
    simp only [assoc, ih]

theorem assoc_hit {cmp : α → α → Int} {j k : α} (v : Option β)
    (A B : List (α × Option β)) (hA : ∀ e ∈ A, cmp j e.1 ≠ 0) (h : cmp j k = 0) :
    assoc cmp j (A ++ (k, v) :: B) = v := by
  rw [assoc_append_left _ _ hA]
  simp [assoc, h]

theorem assoc_Insert {cmp : α → α → Int} (hc : TotalCmp cmp) (s : TreeMap α β)
    (hs : Inv cmp s) (k : α) (v : Option β) (s1 : TreeMap α β) (r : Option β)
    (h : s.Insert cmp (some k) v = some (s1, r)) (j : α) :
    assoc cmp j (inorder s1.root)
      = if cmp k j = 0 then v else assoc cmp j (inorder s.root) := by
  obtain ⟨s2, r2, h2, _, A, B, hA, hB, hcase⟩ := Insert_spec hc s hs k v
  rw [h] at h2
  simp only [Option.some.injEq, Prod.mk.injEq] at h2
  obtain ⟨rfl, rfl⟩ := h2
  have hAj : cmp k j = 0 → ∀ e ∈ A, cmp j e.1 ≠ 0 := by
    intro hkj e he
    have h1 := hA e he
    have h2 := hc.congr_left hkj e.1
    omega
  by_cases hkj : cmp k j = 0
  · simp only [hkj, if_true]
    rcases hcase with ⟨_, h1, _, _⟩ | ⟨k0, v0, hk0, _, h1, _, _, _⟩
    · rw [h1]
      exact assoc_hit v A B (hAj hkj) (hc.eq_symm hkj)
    · rw [h1]
      refine assoc_hit v A B (hAj hkj) ?_
      have := hc.congr_left hkj k0
      omega
  · simp only [hkj, if_false]
    rcases hcase with ⟨h0, h1, _, _⟩ | ⟨k0, v0, hk0, h0, h1, _, _, _⟩
    · rw [h1, h0]
      refine assoc_skip v A B ?_
      have := hc.antisymm k j
      omega
    · have hj0 : cmp j k0 ≠ 0 := by
        have h3 := hc.congr_right hk0 j
        have h4 := hc.antisymm k j
        omega
      rw [h1, h0, assoc_skip v A B hj0, assoc_skip v0 A B hj0]

theorem NewTreeMap_eq :
    (NewTreeMap : Option (TreeMap α β)) = some (TreeMap.mk (Base.mk true 0 false) node.nil) := rfl

theorem Inv_new (cmp : α → α → Int) :
    Inv cmp (TreeMap.mk (Base.mk true 0 false) (node.nil : node α β)) :=
  ⟨rfl, List.Pairwise.nil, trivial⟩

theorem applyOps_inv {cmp : α → α → Int} (hc : TotalCmp cmp) (ops : List (Op α β)) :
    ∀ s, Inv cmp s → ∃ s1, applyOps cmp s ops = some s1 ∧ Inv cmp s1 := by
  induction ops with
  | nil => intro s hs; exact ⟨s, rfl, hs⟩
  | cons op ops ih =>
    intro s hs
    cases op with
    | insert k v =>
      obtain ⟨s1, r, h1, h2, _⟩ := Insert_spec hc s hs k v
      obtain ⟨s2, h3, h4⟩ := ih s1 h2
      exact ⟨s2, by simp [applyOps, applyOp, h1, h3], h4⟩
    | remove k =>
      obtain ⟨s1, r, h1, h2, _⟩ := Remove_spec hc s hs k
      obtain ⟨s2, h3, h4⟩ := ih s1 h2
      exact ⟨s2, by simp [applyOps, applyOp, h1, h3], h4⟩

theorem run_inv {cmp : α → α → Int} (hc : TotalCmp cmp) (ops : List (Op α β)) :
    ∃ s, run cmp ops = some s ∧ Inv cmp s := by
  obtain ⟨s, h1, h2⟩ := applyOps_inv hc ops _ (Inv_new cmp)
  exact ⟨s, by simp [run, NewTreeMap_eq, h1], h2⟩

theorem Reachable.inv {cmp : α → α → Int} (hc : TotalCmp cmp) {s : TreeMap α β}
    (h : Reachable cmp s) : Inv cmp s := by
  obtain ⟨ops, hops⟩ := h
  obtain ⟨s1, h1, h2⟩ := run_inv hc ops
  rw [hops] at h1
  simp only [Option.some.injEq] at h1
  exact h1 ▸ h2

theorem applyOps_inserts {cmp : α → α → Int} (hc : TotalCmp cmp)
    (kvs : List (α × Option β)) :
    ∀ s, Inv cmp s → ∃ s1, applyOps cmp s (inserts kvs) = some s1 ∧ Inv cmp s1 ∧
      ∀ j, assoc cmp j (inorder s1.root)
        = lastValue cmp j (assoc cmp j (inorder s.root)) kvs := by
  induction kvs with
  | nil => intro s hs; exact ⟨s, rfl, hs, fun _ => rfl⟩
  | cons p kvs ih =>
    intro s hs
    obtain ⟨s1, r, h1, h2, _⟩ := Insert_spec hc s hs p.1 p.2
    obtain ⟨s2, h3, h4, h5⟩ := ih s1 h2
    refine ⟨s2, by simp [inserts, applyOps, applyOp, h1] ; simpa [inserts] using h3, h4, ?_⟩
    intro j
    rw [h5 j, assoc_Insert hc s hs p.1 p.2 s1 r h1 j]
    simp [lastValue]

/-- C1: after any finite sequence of Insert calls on a new TreeMap, with a
comparator that is a total order returning -1, 0 or 1, no call panics and
`Locate(k)` returns the value given by the last Insert whose key compares
equal to `k`, and nil when no Insert used such a key. -/
theorem C1_insert_then_locate {cmp : α → α → Int} (hc : TotalCmp cmp)
    (kvs : List (α × Option β)) (k : α) :
    ∃ s, run cmp (inserts kvs) = some s ∧
      s.Locate cmp (some k) = some (lastValue cmp k none kvs) := by
  obtain ⟨s, h1, h2, h3⟩ := applyOps_inserts hc kvs _ (Inv_new cmp)
  refine ⟨s, by simp [run, NewTreeMap_eq, h1], ?_⟩
  rw [Locate_eq_assoc hc s h2.1 h2.2.1 k, h3 k]
  rfl

theorem C1_insert_then_locate_witness :
    TotalCmp compInt ∧
    ∃ s, run compInt (inserts [(1, some 10), (2, some 20), (1, (some 30 : Option Nat))]) = some s ∧
      s.Locate compInt (some 1)
        = some (lastValue compInt 1 none [(1, some 10), (2, some 20), (1, some 30)]) :=
  ⟨compInt_total, C1_insert_then_locate compInt_total _ 1⟩

/-- C2: after any sequence of Insert and Remove calls on a new TreeMap, with a
comparator that is a total order returning -1, 0 or 1, no call panics and the
in-order key sequence of the tree is strictly ascending, so no two of its keys
compare equal. -/
theorem C2_bst_invariant {cmp : α → α → Int} (hc : TotalCmp cmp) (ops : List (Op α β)) :
    ∃ s, run cmp ops = some s ∧
      (inorder s.root).Pairwise (fun a b => cmp a.1 b.1 = -1) ∧
      (inorder s.root).Pairwise (fun a b => cmp a.1 b.1 ≠ 0) := by
  obtain ⟨s, h1, h2⟩ := run_inv hc ops
  refine ⟨s, h1, h2.2.1, ?_⟩
  refine List.Pairwise.imp ?_ h2.2.1
  intro a b hab
  omega

theorem C2_bst_invariant_witness :
    TotalCmp compInt ∧
    ∃ s, run compInt [Op.insert 2 (some (20 : Nat)), Op.insert 1 (some 10),
        Op.insert 3 (some 30), Op.remove 2] = some s ∧
      (inorder s.root).Pairwise (fun a b => compInt a.1 b.1 = -1) ∧
      (inorder s.root).Pairwise (fun a b => compInt a.1 b.1 ≠ 0) :=
  ⟨compInt_total, C2_bst_invariant compInt_total _⟩

/-! ## The claims -/

theorem mem_split_bounds {cmp : α → α → Int} {k : α} {A B : List (α × Option β)}
    (hA : ∀ e ∈ A, cmp k e.1 = 1) (hB : ∀ e ∈ B, cmp k e.1 = -1) :
    ∀ e ∈ A ++ B, cmp k e.1 ≠ 0 := by
  intro e he
  rcases List.mem_append.1 he with h | h
  · have := hA e h
    omega
  · have := hB e h
    omega

/-- C6: on a reachable TreeMap, after `Insert(k, v)` with a non-nil value,
`Remove(k)` returns `v`, and afterwards `Locate(k)` returns nil and
`Contains(k)` returns false; none of the calls panics. -/
theorem C6_insert_remove_roundtrip {cmp : α → α → Int} (hc : TotalCmp cmp)
    (s : TreeMap α β) (hs : Reachable cmp s) (k : α) (v : β) :
    ∃ s1 r1 s2, s.Insert cmp (some k) (some v) = some (s1, r1) ∧
      s1.Remove cmp (some k) = some (s2, some v) ∧
      s2.Locate cmp (some k) = some none ∧
      s2.Contains cmp [some k] = some false := by
  have hinv := hs.inv hc
  obtain ⟨s1, r1, h1, hinv1, _⟩ := Insert_spec hc s hinv k (some v)
  have hassoc := assoc_Insert hc s hinv k (some v) s1 r1 h1 k
  simp only [hc.refl k, if_true] at hassoc
  obtain ⟨s2, r2, h2, hinv2, A, B, hA, hB, hcase⟩ := Remove_spec hc s1 hinv1 k
  have hAB := mem_split_bounds hA hB
  rcases hcase with ⟨h3, _, _⟩ | ⟨k0, v0, hk0, h3, h4, h5, _⟩
  · rw [h3, assoc_none _ hAB] at hassoc
    exact absurd hassoc (by simp)
  · rw [h3, assoc_hit v0 A B (fun e he => hAB e (List.mem_append_left _ he)) hk0] at hassoc
    subst h4
    subst hassoc
    have hloc : s2.Locate cmp (some k) = some none := by
      rw [Locate_eq_assoc hc s2 hinv2.1 hinv2.2.1 k]
      rw [assoc_none _ (fun e he => hAB e (h5.subset he))]
    refine ⟨s1, r1, s2, h1, h2, hloc, ?_⟩
    simp [TreeMap.Contains, hloc]

theorem C6_insert_remove_roundtrip_witness :
    Reachable compInt (TreeMap.mk (Base.mk true 1 false)
      (node.mk 1 (some (10 : Nat)) 0 node.nil node.nil)) ∧
    ∃ s1 r1 s2,
      (TreeMap.mk (Base.mk true 1 false)
        (node.mk 1 (some (10 : Nat)) 0 node.nil node.nil)).Insert compInt (some 2) (some 20)
          = some (s1, r1) ∧
      s1.Remove compInt (some 2) = some (s2, some 20) ∧
      s2.Locate compInt (some 2) = some none ∧
      s2.Contains compInt [some 2] = some false :=
  ⟨⟨[Op.insert 1 (some 10)], rfl⟩,
    C6_insert_remove_roundtrip compInt_total _ ⟨[Op.insert 1 (some 10)], rfl⟩ 2 20⟩

/-- C9: on a reachable TreeMap holding an entry `(k0, v1)`, `Insert(k, v2)`
with `k` comparing equal to `k0` returns `v1`, makes `Locate(k0)` return `v2`,
and leaves `Size()`, the shape of the tree with all its keys and cached
heights, every other entry of the in-order entry list, and the result of
`Locate` for every key that does not compare equal to `k0` unchanged. -/
theorem C9_insert_existing_replaces {cmp : α → α → Int} (hc : TotalCmp cmp)
    (s : TreeMap α β) (hs : Reachable cmp s) (k0 k : α) (v1 v2 : Option β)
    (hmem : (k0, v1) ∈ inorder s.root) (hk : cmp k k0 = 0) :
    ∃ s1, s.Insert cmp (some k) v2 = some (s1, v1) ∧
      s1.Locate cmp (some k0) = some v2 ∧
      s1.Size = s.Size ∧
      shape s1.root = shape s.root ∧
      (∃ A B, inorder s.root = A ++ (k0, v1) :: B ∧ inorder s1.root = A ++ (k0, v2) :: B) ∧
      ∀ j, cmp j k0 ≠ 0 → s1.Locate cmp (some j) = s.Locate cmp (some j) := by
  have hinv := hs.inv hc
  obtain ⟨s1, r, h1, hinv1, A, B, hA, hB, hcase⟩ := Insert_spec hc s hinv k v2
  have hAB := mem_split_bounds hA hB
  have hloc : ∀ j, s1.Locate cmp (some j)
      = some (if cmp k j = 0 then v2 else assoc cmp j (inorder s.root)) := by
    intro j
    rw [Locate_eq_assoc hc s1 hinv1.1 hinv1.2.1 j, assoc_Insert hc s hinv k v2 s1 r h1 j]
  rcases hcase with ⟨h3, _, _, _⟩ | ⟨k0', v0, hk0, h3, h4, h5, h6, h7⟩
  · rw [h3] at hmem
    exact absurd hk (hAB _ hmem)
  · have hentry : (k0, v1) = (k0', v0) := by
      rw [h3] at hmem
      rcases List.mem_append.1 hmem with h | h
      · exact absurd hk (hAB _ (List.mem_append_left _ h))
      · rcases List.mem_cons.1 h with h | h
        · exact h
        · exact absurd hk (hAB _ (List.mem_append_right _ h))
    simp only [Prod.mk.injEq] at hentry
    obtain ⟨rfl, rfl⟩ := hentry
    subst h5
    refine ⟨s1, h1, ?_, ?_, h7, ⟨A, B, h3, h4⟩, ?_⟩
    · rw [hloc k0]
      simp [hk]
    · simp [TreeMap.Size, h6]
    · intro j hj
      have hkj : cmp k j ≠ 0 := by
        have h8 := hc.congr_right hk j
        have h9 := hc.antisymm k j
        omega
      rw [hloc j, Locate_eq_assoc hc s hinv.1 hinv.2.1 j]
      simp [hkj]

theorem C9_insert_existing_replaces_witness :
    Reachable compInt (TreeMap.mk (Base.mk true 1 false)
      (node.mk 1 (some (10 : Nat)) 0 node.nil node.nil)) ∧
    (1, some 10) ∈ inorder (node.mk (1 : Int) (some (10 : Nat)) 0 node.nil node.nil) ∧
    compInt 1 1 = 0 ∧
    ∃ s1,
      (TreeMap.mk (Base.mk true 1 false)
        (node.mk 1 (some (10 : Nat)) 0 node.nil node.nil)).Insert compInt (some 1) (some 11)
          = some (s1, some 10) ∧
      s1.Locate compInt (some 1) = some (some 11) ∧
      s1.Size = (TreeMap.mk (Base.mk true 1 false)
        (node.mk (1 : Int) (some (10 : Nat)) 0 node.nil node.nil)).Size ∧
      shape s1.root = shape (node.mk (1 : Int) (some (10 : Nat)) 0 node.nil node.nil) ∧
      (∃ A B, inorder (node.mk (1 : Int) (some (10 : Nat)) 0 node.nil node.nil)
          = A ++ (1, some 10) :: B ∧ inorder s1.root = A ++ (1, some 11) :: B) ∧
      ∀ j, compInt j 1 ≠ 0 → s1.Locate compInt (some j)
        = (TreeMap.mk (Base.mk true 1 false)
            (node.mk 1 (some (10 : Nat)) 0 node.nil node.nil)).Locate compInt (some j) :=
  ⟨⟨[Op.insert 1 (some 10)], rfl⟩, by decide, by decide,
    C9_insert_existing_replaces compInt_total _ ⟨[Op.insert 1 (some 10)], rfl⟩ 1 1
      (some 10) (some 11) (by decide) (by decide)⟩

/-- C10: on a reachable TreeMap, `Remove(k)` for a key that no entry of the
map compares equal to returns nil and leaves the whole map (its size and its
tree, hence every `Locate`) unchanged. -/
theorem C10_remove_absent_noop {cmp : α → α → Int} (hc : TotalCmp cmp)
    (s : TreeMap α β) (hs : Reachable cmp s) (k : α)
    (habs : ∀ e ∈ inorder s.root, cmp k e.1 ≠ 0) :
    s.Remove cmp (some k) = some (s, none) := by
  have hinv := hs.inv hc
  obtain ⟨s1, r, h1, _, A, B, _, _, hcase⟩ := Remove_spec hc s hinv k
  rcases hcase with ⟨_, rfl, rfl⟩ | ⟨k0, v0, hk0, h3, _, _, _⟩
  · exact h1
  · exact absurd hk0 (habs (k0, v0) (by rw [h3]; simp))

theorem C10_remove_absent_noop_witness :
    Reachable compInt (TreeMap.mk (Base.mk true 1 false)
      (node.mk 1 (some (10 : Nat)) 0 node.nil node.nil)) ∧
    (∀ e ∈ inorder (node.mk (1 : Int) (some (10 : Nat)) 0 node.nil node.nil),
      compInt 5 e.1 ≠ 0) ∧
    (TreeMap.mk (Base.mk true 1 false)
      (node.mk 1 (some (10 : Nat)) 0 node.nil node.nil)).Remove compInt (some 5)
      = some (TreeMap.mk (Base.mk true 1 false)
          (node.mk 1 (some (10 : Nat)) 0 node.nil node.nil), none) :=
  ⟨⟨[Op.insert 1 (some 10)], rfl⟩, by decide,
    C10_remove_absent_noop compInt_total _ ⟨[Op.insert 1 (some 10)], rfl⟩ 5 (by decide)⟩

/-- C3: inserting the keys 1, 2, 3 in this order into a new TreeMap leaves the
right chain 1 -> 2 -> 3: the root has balance factor 2, both by true and by
cached heights, so the balance invariant does not hold after the third
Insert. -/
theorem C3_balance_violated_after_inserts :
    run compInt (inserts [(1, some (10 : Nat)), (2, some 20), (3, some 30)])
      = some (TreeMap.mk (Base.mk true 3 false)
          (node.mk 1 (some 10) 2 node.nil
            (node.mk 2 (some 20) 1 node.nil (node.mk 3 (some 30) 0 node.nil node.nil)))) ∧
    trueHeight (node.mk (2 : Int) (some (20 : Nat)) 1 node.nil
        (node.mk 3 (some 30) 0 node.nil node.nil))
      - trueHeight (node.nil : node Int Nat) = 2 ∧
    height (node.mk (2 : Int) (some (20 : Nat)) 1 node.nil
        (node.mk 3 (some 30) 0 node.nil node.nil))
      - height (node.nil : node Int Nat) = 2 ∧
    allBalanced (node.mk (1 : Int) (some (10 : Nat)) 2 node.nil
      (node.mk 2 (some 20) 1 node.nil (node.mk 3 (some 30) 0 node.nil node.nil))) = false ∧
    allBalancedCached (node.mk (1 : Int) (some (10 : Nat)) 2 node.nil
      (node.mk 2 (some 20) 1 node.nil (node.mk 3 (some 30) 0 node.nil node.nil))) = false := by
  decide

/-- C4: inserting the keys 8, 7, ..., 1 in this order into a new TreeMap builds
a left chain of height 7 in edges, which exceeds 2*log2(8+1): the bound
h <= 2*log2(n+1) is 2^h <= (n+1)^2, and 2^7 = 128 > 81 = 9^2. -/
theorem C4_height_bound_violated :
    ∃ s, run compInt (inserts [(8, some (80 : Nat)), (7, some 70), (6, some 60),
        (5, some 50), (4, some 40), (3, some 30), (2, some 20), (1, some 10)]) = some s ∧
      count s.root = 8 ∧ trueHeight s.root = 7 ∧ ¬ (2 ^ 7 ≤ (8 + 1) ^ 2) := by
  refine ⟨_, rfl, ?_, ?_, ?_⟩ <;> decide

/-- C5: after Insert of the keys 2, 1, 3 and Remove(2) on a new TreeMap,
`Size()` is 2 while the tree holds the single entry with key 3: `Map` visits
one KeyValue and `Slice()` has length 1. -/
theorem C5_size_differs_from_traversal :
    ∃ s, run compInt (inserts [(2, some (20 : Nat)), (1, some 10), (3, some 30)]
        ++ removes [2]) = some s ∧
      s.Size = some 2 ∧
      s.Map (fun _ => true) = some (true, [KeyValue.mk 3 (some 30)]) ∧
      s.Slice = some [KeyValue.mk 3 (some 30)] ∧
      count s.root = 1 := by
  refine ⟨_, rfl, by decide, ?_, ?_, by decide⟩
  · simp [TreeMap.Map, Base.CheckInit, node.isNil, mapLoop]
  · simp [TreeMap.Slice, TreeMap.Map, Base.CheckInit, node.isNil, mapLoop]

/-- C7: after Insert of the keys 2, 1, 3 on a new TreeMap, `Locate(1)` returns
the value 10; `Remove(2)` then returns 20 and afterwards `Locate(1)` returns
nil: removing key 2 also removed the entry of key 1. -/
theorem C7_remove_drops_other_key :
    ∃ s0 s1, run compInt (inserts [(2, some (20 : Nat)), (1, some 10), (3, some 30)])
        = some s0 ∧
      s0.Locate compInt (some 1) = some (some 10) ∧
      s0.Remove compInt (some 2) = some (s1, some 20) ∧
      s1.Locate compInt (some 1) = some none ∧
      s1.Locate compInt (some 3) = some (some 30) := by
  refine ⟨_, _, rfl, by decide, rfl, by decide, by decide⟩

/-- C8: after Insert of the distinct keys 2, 1, 3 on a new TreeMap and Remove
of 2, 1, 3 one at a time, `Size()` is 1 and `Empty()` is false. -/
theorem C8_remove_all_leaves_size :
    ∃ s, run compInt (inserts [(2, some (20 : Nat)), (1, some 10), (3, some 30)]
        ++ removes [2, 1, 3]) = some s ∧
      s.root = node.nil ∧ s.Size = some 1 ∧ s.Empty = some false := by
  refine ⟨_, rfl, ?_, ?_, ?_⟩ <;> decide

/-! ## Traversal -/

theorem visitList_true {γ : Type} (l : List γ) :
    ∀ acc : List γ, visitList (fun _ => true) l acc = (true, acc ++ l) := by
  induction l with
  | nil => intro acc; simp [visitList]
  | cons x xs ih => intro acc; simp [visitList, ih]

theorem mapLoop_eq_visitList (f : KeyValue α β → Bool) (n : Nat) :
    ∀ (q : List (node α β)) (acc : List (KeyValue α β)),
      (∀ x ∈ q, x.isNil = false) → (q.map count).sum = n →
      mapLoop f q acc = some (visitList f (preorderAll q) acc) := by
  induction n using Nat.strongRecOn with
  | _ n ih =>
    intro q acc hq hn
    cases q with
    | nil => simp [mapLoop, preorderAll, visitList]
    | cons nd q1 =>
      cases nd with
      | nil => simpa [node.isNil] using hq node.nil (List.mem_cons_self _ _)
      | mk k v h c0 c1 =>
        have hq1 : ∀ x ∈ q1, x.isNil = false :=
          fun x hx => hq x (List.mem_cons_of_mem _ hx)
        rw [mapLoop]
        simp only [preorderAll, preorder, List.cons_append, visitList]
        by_cases hf : f (KeyValue.mk k v) = true
        · simp only [hf, if_true]
          simp only [List.map_cons, List.sum_cons, count] at hn
          cases c0 with
          | nil =>
            cases c1 with
            | nil =>
              simp only [node.isNil, if_true]
              rw [ih _ (by simp only [count] at hn; omega) q1 _ hq1 rfl]
              simp [preorder]
            | mk k1 v1 h1 a1 b1 =>
              simp only [node.isNil, if_true, Bool.false_eq_true, if_false]
              rw [ih _ (by simp only [count] at hn ⊢; simp only [List.map_cons, List.sum_cons, count]; omega)
                (node.mk k1 v1 h1 a1 b1 :: q1) _ ?_ rfl]
              · simp [preorder, preorderAll]
              · intro x hx
                rcases List.mem_cons.1 hx with rfl | hx
                · rfl
                · exact hq1 x hx
          | mk k0 v0 h0 a0 b0 =>
            cases c1 with
            | nil =>
              simp only [node.isNil, if_true, Bool.false_eq_true, if_false]
              rw [ih _ (by simp only [count] at hn ⊢; simp only [List.map_cons, List.sum_cons, count]; omega)
                (node.mk k0 v0 h0 a0 b0 :: q1) _ ?_ rfl]
              · simp [preorder, preorderAll]
              · intro x hx
                rcases List.mem_cons.1 hx with rfl | hx
                · rfl
                · exact hq1 x hx
            | mk k1 v1 h1 a1 b1 =>
              simp only [node.isNil, Bool.false_eq_true, if_false]
              rw [ih _ (by simp only [count] at hn ⊢; simp only [List.map_cons, List.sum_cons, count]; omega)
                (node.mk k0 v0 h0 a0 b0 :: node.mk k1 v1 h1 a1 b1 :: q1) _ ?_ rfl]
              · simp [preorder, preorderAll]
              · intro x hx
                rcases List.mem_cons.1 hx with rfl | hx
                · rfl
                · rcases List.mem_cons.1 hx with rfl | hx
                  · rfl
                  · exact hq1 x hx
        · simp [hf]

theorem Map_eq_visitList (s : TreeMap α β) (hinit : s.base.init = true)
    (f : KeyValue α β → Bool) :
    s.Map f = some (visitList f (preorder s.root) []) := by
  cases hr : s.root with
  | nil => simp [TreeMap.Map, Base.CheckInit, hinit, hr, node.isNil, mapLoop, preorder, visitList]
  | mk k v h c0 c1 =>
    have := mapLoop_eq_visitList f _ [node.mk k v h c0 c1] [] (by simp [node.isNil]) rfl
    simp only [preorderAll, List.append_nil] at this
    simp [TreeMap.Map, Base.CheckInit, hinit, hr, node.isNil, this]

theorem Slice_eq_preorder (s : TreeMap α β) (hinit : s.base.init = true) :
    s.Slice = some (preorder s.root) := by
  simp [TreeMap.Slice, Base.CheckInit, hinit, Map_eq_visitList s hinit, visitList_true]

theorem preorder_perm_inorder (t : node α β) :
    (preorder t).Perm ((inorder t).map toKeyValue) := by
  induction t with
  | nil => simp [preorder, inorder]
  | mk k v h c0 c1 ih0 ih1 =>
    simp only [preorder, inorder, List.map_append, List.map_cons, toKeyValue]
    exact (List.Perm.cons _ (List.Perm.append ih0 ih1)).trans List.perm_middle.symm

theorem preorder_length (t : node α β) : (preorder t).length = (inorder t).length := by
  simpa using (preorder_perm_inorder t).length_eq

theorem Insert_init {cmp : α → α → Int} {s s1 : TreeMap α β} {key : Option α}
    {v r : Option β} (h : s.Insert cmp key v = some (s1, r)) :
    s.base.init = true ∧ s1.base.init = true ∧ s1.base.threadsafe = s.base.threadsafe := by
  cases hi : s.base.init with
  | false => simp [TreeMap.Insert, Base.CheckInit, hi] at h
  | true =>
    simp only [TreeMap.Insert, Base.CheckInit, hi, Option.bind_eq_bind] at h
    cases key with
    | none => simp at h
    | some kc =>
      cases hd : descend cmp kc s.root [] with
      | none => simp [hd] at h
      | some p =>
        obtain ⟨cur, vis⟩ := p
        cases cur with
        | nil =>
          simp only [hd, Bool.not_true, Bool.false_eq_true, if_false, Option.some_bind,
            Option.bind_eq_some] at h
          obtain ⟨x, _, hx⟩ := h
          simp only [Option.pure_def, Option.some.injEq, Prod.mk.injEq] at hx
          rw [← hx.1]
          simp [hi]
        | mk k v0 h0 c0 c1 =>
          simp only [hd, Bool.not_true, Bool.false_eq_true, if_false, Option.some_bind] at h
          split_ifs at h
          · simp only [Option.bind_eq_some] at h
            obtain ⟨x, _, hx⟩ := h
            simp only [Option.pure_def, Option.some.injEq, Prod.mk.injEq] at hx
            rw [← hx.1]
            simp [hi]
          · simp only [Option.pure_def, Option.some.injEq, Prod.mk.injEq] at h
            rw [← h.1]
            simp [hi]

theorem Remove_init {cmp : α → α → Int} {s s1 : TreeMap α β} {key : Option α}
    {r : Option β} (h : s.Remove cmp key = some (s1, r)) :
    s.base.init = true ∧ s1.base.init = true ∧ s1.base.threadsafe = s.base.threadsafe := by
  cases hi : s.base.init with
  | false => simp [TreeMap.Remove, Base.CheckInit, hi] at h
  | true =>
    simp only [TreeMap.Remove, Base.CheckInit, hi, Option.bind_eq_bind] at h
    cases key with
    | none => simp at h
    | some kc =>
      cases hd : descend cmp kc s.root [] with
      | none => simp [hd] at h
      | some p =>
        obtain ⟨cur, vis⟩ := p
        cases cur with
        | nil =>
          simp only [hd, Bool.not_true, Bool.false_eq_true, if_false, Option.some_bind,
            Option.pure_def, Option.some.injEq, Prod.mk.injEq] at h
          rw [← h.1]
          simp [hi]
        | mk k v0 h0 c0 c1 =>
          simp only [hd, Bool.not_true, Bool.false_eq_true, if_false, Option.some_bind] at h
          split_ifs at h
          · simp only [Option.bind_eq_some] at h
            obtain ⟨x, _, y, _, hx⟩ := h
            simp only [Option.pure_def, Option.some.injEq, Prod.mk.injEq] at hx
            rw [← hx.1]
            simp [hi]
          · simp only [Option.pure_def, Option.some.injEq, Prod.mk.injEq] at h
            rw [← h.1]
            simp [hi]

theorem applyOps_init {cmp : α → α → Int} (ops : List (Op α β)) :
    ∀ s s1 : TreeMap α β, s.base.init = true → s.base.threadsafe = false →
      applyOps cmp s ops = some s1 → s1.base.init = true ∧ s1.base.threadsafe = false := by
  induction ops with
  | nil =>
    intro s s1 hi ht h
    simp only [applyOps, Option.some.injEq] at h
    exact h ▸ ⟨hi, ht⟩
  | cons op ops ih =>
    intro s s1 hi ht h
    simp only [applyOps, Option.bind_eq_some] at h
    obtain ⟨s2, h2, h3⟩ := h
    cases op with
    | insert k v =>
      simp only [applyOp, Option.map_eq_some'] at h2
      obtain ⟨⟨s3, r⟩, h4, rfl⟩ := h2
      have := Insert_init h4
      exact ih s3 s1 this.2.1 (this.2.2.trans ht) h3
    | remove k =>
      simp only [applyOp, Option.map_eq_some'] at h2
      obtain ⟨⟨s3, r⟩, h4, rfl⟩ := h2
      have := Remove_init h4
      exact ih s3 s1 this.2.1 (this.2.2.trans ht) h3

theorem Reachable.init {cmp : α → α → Int} {s : TreeMap α β} (h : Reachable cmp s) :
    s.base.init = true ∧ s.base.threadsafe = false := by
  obtain ⟨ops, hops⟩ := h
  simp only [run, NewTreeMap_eq, Option.some_bind] at hops
  exact applyOps_init ops _ s rfl rfl hops

/-- C12: on a reachable TreeMap, `Slice()` lists and `Map` visits the entries
in pre-order of the tree (a node, then its left subtree, then its right
subtree): `Map(f)` applies `f` to the pre-order KeyValues until `f` returns
false and returns whether it never did, and the pre-order list holds each
entry of the tree exactly once. -/
theorem C12_map_slice_preorder {cmp : α → α → Int} (s : TreeMap α β)
    (hs : Reachable cmp s) (f : KeyValue α β → Bool) :
    s.Slice = some (preorder s.root) ∧
      s.Map f = some (visitList f (preorder s.root) []) ∧
      s.Map (fun _ => true) = some (true, preorder s.root) ∧
      (preorder s.root).Perm ((inorder s.root).map toKeyValue) := by
  have hi := hs.init.1
  refine ⟨Slice_eq_preorder s hi, Map_eq_visitList s hi f, ?_, preorder_perm_inorder _⟩
  rw [Map_eq_visitList s hi, visitList_true]
  rfl

theorem C12_map_slice_preorder_witness :
    Reachable compInt (TreeMap.mk (Base.mk true 3 false)
      (node.mk 2 (some (20 : Nat)) 1 (node.mk 1 (some 10) 0 node.nil node.nil)
        (node.mk 3 (some 30) 0 node.nil node.nil))) ∧
    (TreeMap.mk (Base.mk true 3 false)
      (node.mk 2 (some (20 : Nat)) 1 (node.mk 1 (some 10) 0 node.nil node.nil)
        (node.mk 3 (some 30) 0 node.nil node.nil))).Slice
      = some [KeyValue.mk (2 : Int) (some 20), KeyValue.mk 1 (some 10), KeyValue.mk 3 (some 30)] :=
  ⟨⟨inserts [(2, some 20), (1, some 10), (3, some 30)], rfl⟩,
    (@C12_map_slice_preorder Int Nat compInt
      (TreeMap.mk (Base.mk true 3 false)
        (node.mk 2 (some (20 : Nat)) 1 (node.mk 1 (some 10) 0 node.nil node.nil)
          (node.mk 3 (some 30) 0 node.nil node.nil)))
      ⟨inserts [(2, some 20), (1, some 10), (3, some 30)], rfl⟩ (fun _ => true)).1⟩

/-- C11: after the Insert calls of `TestOrdering` (keys 1, 3, 7, 2, 5 with
value 0) on a new TreeMap, `Slice()` lists the keys as 1, 3, 2, 7, 5, which is
not the ascending order 1, 2, 3, 5, 7 the test asserts. -/
theorem C11_slice_not_sorted :
    ∃ s, run compInt (inserts [(1, some (0 : Nat)), (3, some 0), (7, some 0), (2, some 0),
        (5, some 0)]) = some s ∧
      s.Slice = some [KeyValue.mk 1 (some 0), KeyValue.mk 3 (some 0), KeyValue.mk 2 (some 0),
        KeyValue.mk 7 (some 0), KeyValue.mk 5 (some 0)] ∧
      (inorder s.root).map Prod.fst = [1, 2, 3, 5, 7] := by
  refine ⟨_, rfl, ?_, by decide⟩
  rw [Slice_eq_preorder _ rfl]
  rfl

/-! ## Copy -/

theorem ascending_unique {cmp : α → α → Int} (hc : TotalCmp cmp)
    {l1 l2 : List (α × Option β)} (hp : l1.Perm l2) (h1 : Ascending cmp l1)
    (h2 : Ascending cmp l2) : l1 = l2 := by
  haveI : IsAntisymm (α × Option β) (fun a b => cmp a.1 b.1 = -1) :=
    ⟨fun a b hab hba => by
      have := hc.antisymm a.1 b.1
      omega⟩
  exact List.eq_of_perm_of_sorted hp h1 h2

theorem Insert_fresh {cmp : α → α → Int} (hc : TotalCmp cmp) (s : TreeMap α β)
    (hs : Inv cmp s) (k : α) (v : Option β)
    (hfresh : ∀ e ∈ inorder s.root, cmp k e.1 ≠ 0) :
    ∃ s1, s.Insert cmp (some k) v = some (s1, none) ∧ Inv cmp s1 ∧
      (inorder s1.root).Perm ((k, v) :: inorder s.root) ∧
      s1.base = Base.mk s.base.init (s.base.Sizeb + 1) s.base.threadsafe := by
  obtain ⟨s1, r, h1, h2, A, B, _, _, hcase⟩ := Insert_spec hc s hs k v
  rcases hcase with ⟨h3, h4, rfl, h5⟩ | ⟨k0, v0, hk0, h3, _⟩
  · refine ⟨s1, h1, h2, ?_, h5⟩
    rw [h4, h3]
    exact List.perm_middle
  · exact absurd hk0 (hfresh (k0, v0) (by rw [h3]; simp))

theorem copyInto_spec {cmp : α → α → Int} (hc : TotalCmp cmp)
    (l : List (KeyValue α β)) :
    ∀ c : TreeMap α β, Inv cmp c →
      l.Pairwise (fun a b => cmp a.Key b.Key ≠ 0) →
      (∀ x ∈ l, ∀ e ∈ inorder c.root, cmp x.Key e.1 ≠ 0) →
      ∃ c1, copyInto cmp c l = some c1 ∧ Inv cmp c1 ∧
        (inorder c1.root).Perm (l.map toEntry ++ inorder c.root) ∧
        c1.base = Base.mk c.base.init (c.base.Sizeb + l.length) c.base.threadsafe := by
  induction l with
  | nil =>
    intro c hcinv _ _
    exact ⟨c, rfl, hcinv, by simp, by simp⟩
  | cons kv l ih =>
    intro c hcinv hpw hfresh
    obtain ⟨hkv, hpw1⟩ := List.pairwise_cons.1 hpw
    obtain ⟨c1, h1, h2, h3, h4⟩ := Insert_fresh hc c hcinv kv.Key kv.Value
      (fun e he => hfresh kv (List.mem_cons_self _ _) e he)
    have hfresh1 : ∀ x ∈ l, ∀ e ∈ inorder c1.root, cmp x.Key e.1 ≠ 0 := by
      intro x hx e he
      rcases List.mem_cons.1 (h3.subset he) with rfl | he
      · have h5 := hkv x hx
        have h6 := hc.antisymm kv.Key x.Key
        simp only
        omega
      · exact hfresh x (List.mem_cons_of_mem _ hx) e he
    obtain ⟨c2, h5, h6, h7, h8⟩ := ih c1 h2 hpw1 hfresh1
    refine ⟨c2, by simp [copyInto, h1, h5], h6, ?_, ?_⟩
    · refine h7.trans ?_
      simp only [List.map_cons, List.cons_append, toEntry]
      exact (List.Perm.append_left _ h3).trans List.perm_middle
    · rw [h8, h4]
      simp only [List.length_cons, Nat.cast_add, Nat.cast_one, Base.mk.injEq, true_and, and_true]
      omega

theorem applyOps_size {cmp : α → α → Int} (hc : TotalCmp cmp) (ops : List (Op α β)) :
    ∀ s s1 : TreeMap α β, Inv cmp s → ((inorder s.root).length : Int) ≤ s.base.Sizeb →
      applyOps cmp s ops = some s1 → ((inorder s1.root).length : Int) ≤ s1.base.Sizeb := by
  induction ops with
  | nil =>
    intro s s1 _ hle h
    simp only [applyOps, Option.some.injEq] at h
    exact h ▸ hle
  | cons op ops ih =>
    intro s s1 hs hle h
    simp only [applyOps, Option.bind_eq_some] at h
    obtain ⟨s2, h2, h3⟩ := h
    refine ih s2 s1 ?_ ?_ h3
    · cases op with
      | insert k v =>
        obtain ⟨s3, r, h4, h5, _⟩ := Insert_spec hc s hs k v
        simp only [applyOp, h4, Option.map_some', Option.some.injEq] at h2
        exact h2 ▸ h5
      | remove k =>
        obtain ⟨s3, r, h4, h5, _⟩ := Remove_spec hc s hs k
        simp only [applyOp, h4, Option.map_some', Option.some.injEq] at h2
        exact h2 ▸ h5
    · cases op with
      | insert k v =>
        obtain ⟨s3, r, h4, _, A, B, _, _, hcase⟩ := Insert_spec hc s hs k v
        simp only [applyOp, h4, Option.map_some', Option.some.injEq] at h2
        subst h2
        rcases hcase with ⟨h6, h7, _, h8⟩ | ⟨k0, v0, _, h6, h7, _, h8, _⟩
        · rw [h7, h8]
          rw [h6] at hle
          simp only [List.length_append, List.length_cons, Nat.cast_add, Nat.cast_one] at hle ⊢
          omega
        · rw [h7, h8]
          rw [h6] at hle
          simpa using hle
      | remove k =>
        obtain ⟨s3, r, h4, _, A, B, _, _, hcase⟩ := Remove_spec hc s hs k
        simp only [applyOp, h4, Option.map_some', Option.some.injEq] at h2
        subst h2
        rcases hcase with ⟨_, rfl, _⟩ | ⟨k0, v0, _, h6, _, h7, h8⟩
        · exact hle
        · rw [h8]
          rw [h6] at hle
          have := h7.length_le
          simp only [List.length_append, List.length_cons, Nat.cast_add, Nat.cast_one] at hle this ⊢
          omega

theorem Reachable.size_ge {cmp : α → α → Int} (hc : TotalCmp cmp) {s : TreeMap α β}
    (h : Reachable cmp s) : ((inorder s.root).length : Int) ≤ s.base.Sizeb := by
  obtain ⟨ops, hops⟩ := h
  simp only [run, NewTreeMap_eq, Option.some_bind] at hops
  exact applyOps_size hc ops _ s (Inv_new cmp) (by simp [inorder]) hops

theorem preorder_distinct {cmp : α → α → Int} (hc : TotalCmp cmp) (t : node α β)
    (h : Ascending cmp (inorder t)) :
    (preorder t).Pairwise (fun a b => cmp a.Key b.Key ≠ 0) := by
  have h1 : ((inorder t).map toKeyValue).Pairwise (fun a b => cmp a.Key b.Key ≠ 0) := by
    rw [List.pairwise_map]
    refine List.Pairwise.imp ?_ h
    intro a b hab
    simp only [toKeyValue]
    omega
  refine ((preorder_perm_inorder t).pairwise_iff ?_).2 h1
  intro x y hxy
  have := hc.antisymm x.Key y.Key
  omega

/-- C13: on a reachable TreeMap `m`, `Copy()` returns an initialised map with
the thread-safety flag of `m`, the same in-order key/value pairs and therefore
the same `Locate(k)` for every key, and a `Size()` equal to the number of
KeyValues `Map` visits on `m`.  `Copy` only reads its receiver. -/
theorem C13_copy_same_entries {cmp : α → α → Int} (hc : TotalCmp cmp) (s : TreeMap α β)
    (hs : Reachable cmp s) :
    ∃ c, s.Copy cmp = some c ∧ c.base.init = true ∧ c.Threadsafe = s.Threadsafe ∧
      inorder c.root = inorder s.root ∧
      (∀ k, c.Locate cmp (some k) = s.Locate cmp (some k)) ∧
      ∃ items, s.Map (fun _ => true) = some (true, items) ∧
        c.Size = some (items.length : Int) := by
  have hinv := hs.inv hc
  obtain ⟨hi, ht⟩ := hs.init
  have hsz := hs.size_ge hc
  have hmap : s.Map (fun _ => true) = some (true, preorder s.root) := by
    rw [Map_eq_visitList s hi, visitList_true]
    rfl
  have hnew : (NewTreeMapUnsafe : Option (TreeMap α β))
      = some (TreeMap.mk (Base.mk true 0 false) node.nil) := rfl
  by_cases h0 : s.base.Sizeb = 0
  · -- the early return: the tree is empty
    have hnil : inorder s.root = [] := by
      rw [h0] at hsz
      exact List.length_eq_zero.1 (by omega)
    have hpre : preorder s.root = [] := by
      have := preorder_length s.root
      rw [hnil] at this
      exact List.length_eq_zero.1 this
    refine ⟨TreeMap.mk (Base.mk true 0 false) node.nil, ?_, rfl, ?_, ?_, ?_, [], ?_, ?_⟩
    · simp [TreeMap.Copy, Base.CheckInit, TreeMap.Threadsafe, Base.Threadsafe, hi, ht, hnew,
        TreeMap.Size, Base.Size, h0]
    · simp [TreeMap.Threadsafe, Base.Threadsafe, hi, ht]
    · rw [hnil]; rfl
    · intro k
      rw [Locate_eq_assoc hc _ rfl (Inv_new cmp).2.1, Locate_eq_assoc hc s hi hinv.2.1, hnil]
      rfl
    · rw [hmap, hpre]
    · rfl
  · obtain ⟨c, h1, h2, h3, h4⟩ := copyInto_spec hc (preorder s.root)
      (TreeMap.mk (Base.mk true 0 false) node.nil) (Inv_new cmp)
      (preorder_distinct hc s.root hinv.2.1) (by simp [inorder])
    have hperm : (inorder c.root).Perm (inorder s.root) := by
      refine h3.trans ?_
      simp only [inorder, List.append_nil]
      have := (preorder_perm_inorder s.root).map toEntry
      refine this.trans ?_
      rw [List.map_map]
      have hid : (toEntry ∘ toKeyValue : α × Option β → α × Option β) = id := by
        funext e
        rfl
      rw [hid, List.map_id]
    have heq := ascending_unique hc hperm h2.2.1 hinv.2.1
    refine ⟨c, ?_, h2.1, ?_, heq, ?_, preorder s.root, hmap, ?_⟩
    · simp [TreeMap.Copy, Base.CheckInit, TreeMap.Threadsafe, Base.Threadsafe, hi, ht, hnew,
        TreeMap.Size, Base.Size, h0, hmap, h1]
    · simp [TreeMap.Threadsafe, Base.Threadsafe, hi, ht, h4]
    · intro k
      rw [Locate_eq_assoc hc c h2.1 h2.2.1, Locate_eq_assoc hc s hi hinv.2.1, heq]
    · simp [TreeMap.Size, Base.Size, h4]

theorem C13_copy_same_entries_witness :
    TotalCmp compInt ∧
    Reachable compInt (TreeMap.mk (Base.mk true 3 false)
      (node.mk 2 (some (20 : Nat)) 1 (node.mk 1 (some 10) 0 node.nil node.nil)
        (node.mk 3 (some 30) 0 node.nil node.nil))) ∧
    ∃ c, (TreeMap.mk (Base.mk true 3 false)
        (node.mk 2 (some (20 : Nat)) 1 (node.mk 1 (some 10) 0 node.nil node.nil)
          (node.mk 3 (some 30) 0 node.nil node.nil))).Copy compInt = some c ∧
      c.base.init = true ∧
      c.Threadsafe = (TreeMap.mk (Base.mk true 3 false)
        (node.mk (2 : Int) (some (20 : Nat)) 1 (node.mk 1 (some 10) 0 node.nil node.nil)
          (node.mk 3 (some 30) 0 node.nil node.nil))).Threadsafe ∧
      inorder c.root = inorder (node.mk (2 : Int) (some (20 : Nat)) 1
        (node.mk 1 (some 10) 0 node.nil node.nil) (node.mk 3 (some 30) 0 node.nil node.nil)) ∧
      (∀ k, c.Locate compInt (some k) = (TreeMap.mk (Base.mk true 3 false)
        (node.mk (2 : Int) (some (20 : Nat)) 1 (node.mk 1 (some 10) 0 node.nil node.nil)
          (node.mk 3 (some 30) 0 node.nil node.nil))).Locate compInt (some k)) ∧
      ∃ items, (TreeMap.mk (Base.mk true 3 false)
        (node.mk (2 : Int) (some (20 : Nat)) 1 (node.mk 1 (some 10) 0 node.nil node.nil)
          (node.mk 3 (some 30) 0 node.nil node.nil))).Map (fun _ => true) = some (true, items) ∧
        c.Size = some (items.length : Int) :=
  ⟨compInt_total, ⟨inserts [(2, some 20), (1, some 10), (3, some 30)], rfl⟩,
    C13_copy_same_entries compInt_total _
      ⟨inserts [(2, some 20), (1, some 10), (3, some 30)], rfl⟩⟩

/-! ## Initialisation and panics -/

theorem InitBase_eq_step (b : Base) :
    b.InitBase = (match b.InitBaseStep with
      | .returned b1 => some b1
      | .panicked _ => none) := by
  unfold Base.InitBase Base.InitBaseStep
  split_ifs <;> rfl

theorem InitBaseUnsafe_eq_step (b : Base) :
    b.InitBaseUnsafe = (match b.InitBaseUnsafeStep with
      | .returned b1 => some b1
      | .panicked _ => none) := by
  unfold Base.InitBaseUnsafe Base.InitBaseUnsafeStep
  split_ifs <;> rfl

theorem TreeMap_Init_eq_step (s : TreeMap α β) :
    s.Init = (match s.InitStep with
      | .returned s1 => some s1
      | .panicked _ => none) := by
  unfold TreeMap.Init TreeMap.InitStep Base.InitBase Base.InitBaseStep
  split_ifs <;> rfl

theorem TreeSet_Init_eq_step (s : TreeSet α) :
    s.Init = (match s.InitStep with
      | .returned s1 => some s1
      | .panicked _ => none) := by
  unfold TreeSet.Init TreeSet.InitStep Base.InitBase Base.InitBaseStep
  split_ifs <;> rfl

theorem HashSet_Init_eq_step {ι : Type} (s : HashSet ι) :
    s.Init = (match s.InitStep with
      | .returned s1 => some s1
      | .panicked _ => none) := by
  unfold HashSet.Init HashSet.InitStep Base.InitBase Base.InitBaseStep
  split_ifs <;> rfl

/-- C14: `Insert` with a nil value on a new TreeMap does not panic: it returns
nil and stores the key with the nil value, and `Size()` becomes 1.  (With a
nil key it does panic.) -/
theorem C14_insert_nil_value_accepted :
    (NewTreeMap : Option (TreeMap Int Nat)).bind (fun s => s.Insert compInt (some 1) none)
      = some (TreeMap.mk (Base.mk true 1 false) (node.mk 1 none 0 node.nil node.nil), none) ∧
    (NewTreeMap : Option (TreeMap Int Nat)).bind (fun s => s.Insert compInt none (some 5))
      = none := by
  decide

/-- C15: a map or set built by `NewTreeMap`, `NewTreeSet` or `NewHashSet`, and
any `Base` initialised by `InitBase`, reports `Threadsafe()` false: `InitBase`
never sets the flag. -/
theorem C15_init_not_threadsafe :
    (NewTreeMap : Option (TreeMap Int Nat)).bind (fun s => s.Threadsafe) = some false ∧
    (NewTreeSet compInt ([] : List (Option Int))).bind (fun s => s.Threadsafe) = some false ∧
    (NewHashSet ([] : List Int)).bind (fun s => s.Threadsafe) = some false ∧
    (Base.zero.InitBase).bind (fun b => b.Threadsafe) = some false ∧
    (Base.zero.InitBaseUnsafe).bind (fun b => b.Threadsafe) = some false := by
  decide

/-- C16: on a collection that is already initialised, `Init()` and
`InitUnsafe()` panic, and the panic leaves the collection as it was: its
size, its contents and its thread-safety flag.  Stated for `Base` (whose
`InitBase` and `InitBaseUnsafe` every collection calls first; `Queue.Init` and
`Stack.Init` are nothing else), and for TreeMap, TreeSet and HashSet. -/
theorem C16_double_init_panics (b : Base) (hb : b.init = true) :
    b.InitBase = none ∧ b.InitBaseUnsafe = none ∧
    b.InitBaseStep = .panicked b ∧ b.InitBaseUnsafeStep = .panicked b ∧
    (∀ (α β : Type) (root : node α β),
      (TreeMap.mk b root).Init = none ∧ (TreeMap.mk b root).InitUnsafe = none ∧
      (TreeMap.mk b root).InitStep = .panicked (TreeMap.mk b root) ∧
      (TreeMap.mk b root).InitUnsafeStep = .panicked (TreeMap.mk b root)) ∧
    (∀ (α : Type) (m : Option (TreeMap α Bool)),
      (TreeSet.mk b m).Init = none ∧ (TreeSet.mk b m).InitUnsafe = none ∧
      (TreeSet.mk b m).InitStep = .panicked (TreeSet.mk b m) ∧
      (TreeSet.mk b m).InitUnsafeStep = .panicked (TreeSet.mk b m)) ∧
    (∀ (ι : Type) (m : Option (List ι)),
      (HashSet.mk b m).Init = none ∧ (HashSet.mk b m).InitUnsafe = none ∧
      (HashSet.mk b m).InitStep = .panicked (HashSet.mk b m) ∧
      (HashSet.mk b m).InitUnsafeStep = .panicked (HashSet.mk b m)) := by
  have h1 : b.InitBase = none := by simp [Base.InitBase, hb]
  have h2 : b.InitBaseUnsafe = none := by simp [Base.InitBaseUnsafe, hb]
  have h3 : b.InitBaseStep = .panicked b := by simp [Base.InitBaseStep, hb]
  have h4 : b.InitBaseUnsafeStep = .panicked b := by simp [Base.InitBaseUnsafeStep, hb]
  refine ⟨h1, h2, h3, h4, ?_, ?_, ?_⟩
  · intro α β root
    simp [TreeMap.Init, TreeMap.InitUnsafe, TreeMap.InitStep, TreeMap.InitUnsafeStep,
      h1, h2, h3, h4]
  · intro α m
    simp [TreeSet.Init, TreeSet.InitUnsafe, TreeSet.InitStep, TreeSet.InitUnsafeStep,
      h1, h2, h3, h4]
  · intro ι m
    simp [HashSet.Init, HashSet.InitUnsafe, HashSet.InitStep, HashSet.InitUnsafeStep,
      h1, h2, h3, h4]

theorem C16_double_init_panics_witness :
    (Base.mk true 3 false).init = true ∧
    (Base.mk true 3 false).InitBase = none ∧
    (Base.mk true 3 false).InitBaseStep = .panicked (Base.mk true 3 false) :=
  ⟨rfl, (C16_double_init_panics (Base.mk true 3 false) rfl).1,
    (C16_double_init_panics (Base.mk true 3 false) rfl).2.2.1⟩

/-- C17: on the zero-value TreeMap, `Contains` with no keys returns true
instead of panicking; the other operations panic. -/
theorem C17_contains_uninitialised_returns :
    (TreeMap.zero : TreeMap Int Nat).Contains compInt [] = some true ∧
    (TreeMap.zero : TreeMap Int Nat).Contains compInt [some 1] = none ∧
    (TreeMap.zero : TreeMap Int Nat).Size = none ∧
    (TreeMap.zero : TreeMap Int Nat).Empty = none ∧
    (TreeMap.zero : TreeMap Int Nat).Threadsafe = none ∧
    (TreeMap.zero : TreeMap Int Nat).Insert compInt (some 1) (some 10) = none ∧
    (TreeMap.zero : TreeMap Int Nat).Locate compInt (some 1) = none ∧
    (TreeMap.zero : TreeMap Int Nat).Remove compInt (some 1) = none ∧
    (TreeMap.zero : TreeMap Int Nat).Copy compInt = none ∧
    (TreeMap.zero : TreeMap Int Nat).Map (fun _ => true) = none ∧
    (TreeMap.zero : TreeMap Int Nat).Slice = none ∧
    (TreeMap.zero : TreeMap Int Nat).Clear = none := by
  refine ⟨rfl, rfl, rfl, rfl, rfl, rfl, rfl, rfl, rfl, rfl, rfl, rfl⟩

/-! ## TreeSet -/

theorem assoc_congr {cmp : α → α → Int} (hc : TotalCmp cmp) {i x : α} (h : cmp i x = 0)
    (l : List (α × Option β)) : assoc cmp i l = assoc cmp x l := by
  induction l with
  | nil => rfl
  | cons e l ih =>
    simp only [assoc, ih, hc.congr_left h e.1]

theorem assoc_isSome_iff {cmp : α → α → Int} {x : α} (l : List (α × Option Bool))
    (hall : ∀ e ∈ l, e.2 = some true) :
    (assoc cmp x l).isSome = true ↔ ∃ e ∈ l, cmp x e.1 = 0 := by
  induction l with
  | nil => simp [assoc]
  | cons e l ih =>
    have ih1 := ih (fun e1 he1 => hall e1 (List.mem_cons_of_mem _ he1))
    by_cases he : cmp x e.1 = 0
    · simp only [assoc, he, if_true, hall e (List.mem_cons_self _ _), Option.isSome_some,
        true_iff]
      exact ⟨e, List.mem_cons_self _ _, he⟩
    · simp only [assoc, he, if_false, ih1, List.mem_cons]
      constructor
      · rintro ⟨e1, h1, h2⟩
        exact ⟨e1, Or.inr h1, h2⟩
      · rintro ⟨e1, h1 | h1, h2⟩
        · exact absurd (h1 ▸ h2) he
        · exact ⟨e1, h1, h2⟩

theorem TreeSet_Contains_single {cmp : α → α → Int} (hc : TotalCmp cmp) (s : TreeSet α)
    (hs : SetInv cmp s) (x : α) : s.Contains cmp [some x] = some (s.has cmp x) := by
  obtain ⟨hi, ht, m, hm, hinv, _⟩ := hs
  have hl := Locate_eq_assoc hc m hinv.1 hinv.2.1 x
  have hcm : m.Contains cmp [some x] = some (assoc cmp x (inorder m.root)).isSome := by
    simp only [TreeMap.Contains, Option.bind_eq_bind, Option.some_bind, hl]
    cases assoc cmp x (inorder m.root) <;> rfl
  simp [TreeSet.Contains, Base.CheckInit, hi, hm, hcm, Base.RUnlock, ht,
    TreeSet.has, TreeSet.entries]

theorem TreeSet_has_iff {cmp : α → α → Int} (hc : TotalCmp cmp) (s : TreeSet α)
    (hs : SetInv cmp s) (x : α) :
    s.has cmp x = true ↔ ∃ i ∈ s.keysPre, cmp i x = 0 := by
  obtain ⟨hi, ht, m, hm, hinv, hall⟩ := hs
  simp only [TreeSet.has, TreeSet.entries, TreeSet.keysPre, hm]
  rw [assoc_isSome_iff _ hall]
  constructor
  · rintro ⟨e, he, hx⟩
    refine ⟨e.1, ?_, hc.eq_symm hx⟩
    have : toKeyValue e ∈ preorder m.root :=
      (preorder_perm_inorder m.root).symm.subset (List.mem_map_of_mem _ he)
    exact List.mem_map.2 ⟨toKeyValue e, this, rfl⟩
  · rintro ⟨i, hi1, hx⟩
    obtain ⟨kv, hkv, rfl⟩ := List.mem_map.1 hi1
    have := (preorder_perm_inorder m.root).subset hkv
    obtain ⟨e, he, rfl⟩ := List.mem_map.1 this
    exact ⟨e, he, hc.eq_symm hx⟩

theorem TreeSet_insertItems_spec {cmp : α → α → Int} (hc : TotalCmp cmp) (items : List α) :
    ∀ s : TreeSet α, SetInv cmp s →
      ∃ s1, TreeSet.insertItems cmp s (items.map some) = some s1 ∧ SetInv cmp s1 ∧
        (∀ x, s1.has cmp x = (items.any (fun i => decide (cmp i x = 0)) || s.has cmp x)) ∧
        (SizeOk s → SizeOk s1) := by
  induction items with
  | nil =>
    intro s hs
    exact ⟨s, rfl, hs, by simp, id⟩
  | cons i items ih =>
    intro s hs
    obtain ⟨hi, ht, m, hm, hinv, hall⟩ := hs
    obtain ⟨m1, r, h1, hinv1, A, B, _, _, hcase⟩ := Insert_spec hc m hinv i (some true)
    have hassoc := assoc_Insert hc m hinv i (some true) m1 r h1
    have hall1 : ∀ e ∈ inorder m1.root, e.2 = some true := by
      intro e he
      rcases hcase with ⟨h3, h4, _, _⟩ | ⟨k0, v0, _, h3, h4, _, _, _⟩
      · rw [h4] at he
        rcases List.mem_append.1 he with he | he
        · exact hall e (by rw [h3]; exact List.mem_append_left _ he)
        · rcases List.mem_cons.1 he with rfl | he
          · rfl
          · exact hall e (by rw [h3]; exact List.mem_append_right _ he)
      · rw [h4] at he
        rcases List.mem_append.1 he with he | he
        · exact hall e (by rw [h3]; exact List.mem_append_left _ he)
        · rcases List.mem_cons.1 he with rfl | he
          · rfl
          · exact hall e (by rw [h3]; exact List.mem_append_right _ (List.mem_cons_of_mem _ he))
    have hs1 : SetInv cmp (TreeSet.mk (Base.mk s.base.init
        (if r.isNone then s.base.Sizeb + 1 else s.base.Sizeb) s.base.threadsafe) (some m1)) :=
      ⟨hi, ht, m1, rfl, hinv1, hall1⟩
    obtain ⟨s2, h5, h6, h7, h8⟩ := ih _ hs1
    refine ⟨s2, ?_, h6, ?_, ?_⟩
    · simp only [List.map_cons, TreeSet.insertItems, Option.bind_eq_bind, Option.some_bind, hm, h1]
      exact h5
    · intro x
      rw [h7 x]
      simp only [TreeSet.has, TreeSet.entries, hm, hassoc x, List.any_cons]
      by_cases hix : cmp i x = 0
      · simp [hix]
      · simp [hix]
    · intro hsz
      apply h8
      simp only [SizeOk, TreeSet.entries, hm] at hsz ⊢
      rcases hcase with ⟨h3, h4, rfl, _⟩ | ⟨k0, v0, _, h3, h4, h9, _, _⟩
      · rw [h4]
        rw [h3] at hsz
        simp only [Option.isNone_none, if_true, List.length_append, List.length_cons,
          Nat.cast_add, Nat.cast_one] at hsz ⊢
        omega
      · have hv0 : r = some true := by
          rw [h9]
          exact hall (k0, v0) (by rw [h3]; simp)
        rw [h4]
        rw [h3] at hsz
        simp only [hv0, Option.isNone_some, Bool.false_eq_true, if_false, List.length_append,
          List.length_cons, Nat.cast_add, Nat.cast_one] at hsz ⊢
        omega

theorem TreeSet_Insert_eq {cmp : α → α → Int} (s : TreeSet α) (hi : s.base.init = true)
    (ht : s.base.threadsafe = false) (items : List (Option α)) :
    s.Insert cmp items = TreeSet.insertItems cmp s items := by
  cases items with
  | nil => simp [TreeSet.Insert, Base.CheckInit, hi, TreeSet.insertItems]
  | cons i items =>
    simp [TreeSet.Insert, Base.CheckInit, hi, TreeSet.Threadsafe, Base.Threadsafe, ht]

theorem TreeSet_Insert_spec {cmp : α → α → Int} (hc : TotalCmp cmp) (s : TreeSet α)
    (hs : SetInv cmp s) (items : List α) :
    ∃ s1, s.Insert cmp (items.map some) = some s1 ∧ SetInv cmp s1 ∧
      (∀ x, s1.has cmp x = (items.any (fun i => decide (cmp i x = 0)) || s.has cmp x)) ∧
      (SizeOk s → SizeOk s1) := by
  rw [TreeSet_Insert_eq s hs.1 hs.2.1]
  exact TreeSet_insertItems_spec hc items s hs

theorem visitList_all_true {γ : Type} (f : γ → Bool) (l : List γ) :
    ∀ acc : List γ, (∀ x ∈ l, f x = true) → visitList f l acc = (true, acc ++ l) := by
  induction l with
  | nil => intro acc _; simp [visitList]
  | cons x xs ih =>
    intro acc h
    simp only [visitList, h x (List.mem_cons_self _ _), if_true]
    rw [ih _ (fun y hy => h y (List.mem_cons_of_mem _ hy))]
    simp

theorem visitList_map {γ δ : Type} (f : δ → Bool) (g : γ → δ) (l : List γ) :
    ∀ acc : List γ, (visitList (fun a => f (g a)) l acc).2.map g
      = (visitList f (l.map g) (acc.map g)).2 := by
  induction l with
  | nil => intro acc; simp [visitList]
  | cons x xs ih =>
    intro acc
    simp only [visitList, List.map_cons]
    split_ifs
    · rw [ih]
      simp
    · simp

theorem NewTreeSet_eq (cmp : α → α → Int) (items : List (Option α)) :
    NewTreeSet cmp items = emptyTreeSet.Insert cmp items := rfl

theorem NewTreeSetUnsafe_eq (cmp : α → α → Int) (items : List (Option α)) :
    NewTreeSetUnsafe cmp items = emptyTreeSet.Insert cmp items := rfl

theorem SetInv_empty (cmp : α → α → Int) : SetInv cmp (emptyTreeSet : TreeSet α) :=
  ⟨rfl, rfl, _, rfl, Inv_new cmp, by simp [inorder]⟩

theorem SizeOk_empty : SizeOk (emptyTreeSet : TreeSet α) := by
  simp [SizeOk, emptyTreeSet, TreeSet.entries, inorder]

theorem has_empty (cmp : α → α → Int) (x : α) :
    (emptyTreeSet : TreeSet α).has cmp x = false := by
  simp [TreeSet.has, emptyTreeSet, TreeSet.entries, inorder, assoc]

theorem TreeSet_Map_eq {cmp : α → α → Int} (s : TreeSet α) (hs : SetInv cmp s)
    (f : α → Bool) : s.Map f = some (true, (visitList f s.keysPre []).2) := by
  obtain ⟨hi, ht, m, hm, hinv, _⟩ := hs
  have := visitList_map f KeyValue.Key (preorder m.root) []
  simp only [List.map_nil] at this
  simp [TreeSet.Map, Base.CheckInit, hi, Base.RLock, Base.RUnlock, ht, hm,
    Map_eq_visitList m hinv.1, TreeSet.keysPre, this]

theorem TreeSet_Map_true {cmp : α → α → Int} (s : TreeSet α) (hs : SetInv cmp s) :
    s.Map (fun _ => true) = some (true, s.keysPre) := by
  rw [TreeSet_Map_eq s hs, visitList_true]
  rfl

theorem TreeSet_Slice_eq {cmp : α → α → Int} (s : TreeSet α) (hs : SetInv cmp s) :
    s.Slice = some s.keysPre := by
  obtain ⟨hi, ht, m, hm, hinv, _⟩ := hs
  simp [TreeSet.Slice, Base.CheckInit, hi, Base.RLock, Base.RUnlock, ht, hm,
    Map_eq_visitList m hinv.1, TreeSet.keysPre, visitList_true]

theorem TreeSet_has_eq_any {cmp : α → α → Int} (hc : TotalCmp cmp) (s : TreeSet α)
    (hs : SetInv cmp s) (x : α) :
    s.has cmp x = s.keysPre.any (fun i => decide (cmp i x = 0)) := by
  rw [Bool.eq_iff_iff, TreeSet_has_iff hc s hs, List.any_eq_true]
  simp

theorem TreeSet_has_of_key {cmp : α → α → Int} (hc : TotalCmp cmp) (s : TreeSet α)
    (hs : SetInv cmp s) (i : α) (hi : i ∈ s.keysPre) : s.has cmp i = true :=
  (TreeSet_has_iff hc s hs i).2 ⟨i, hi, hc.refl i⟩

theorem TreeSet_has_congr {cmp : α → α → Int} (hc : TotalCmp cmp) (s : TreeSet α)
    {i x : α} (h : cmp i x = 0) : s.has cmp i = s.has cmp x := by
  simp only [TreeSet.has, assoc_congr hc h]

theorem TreeSet_Copy_spec {cmp : α → α → Int} (hc : TotalCmp cmp) (s : TreeSet α)
    (hs : SetInv cmp s) :
    ∃ c, s.Copy cmp = some c ∧ SetInv cmp c ∧ SizeOk c ∧ ∀ x, c.has cmp x = s.has cmp x := by
  obtain ⟨c, h1, h2, h3, h4⟩ := TreeSet_Insert_spec hc emptyTreeSet (SetInv_empty cmp) s.keysPre
  refine ⟨c, ?_, h2, h4 SizeOk_empty, ?_⟩
  · simp [TreeSet.Copy, Base.CheckInit, hs.1, TreeSet.Threadsafe, Base.Threadsafe, hs.2.1,
      TreeSet_Slice_eq s hs, NewTreeSetUnsafe_eq, h1]
  · intro x
    rw [h3 x, has_empty, Bool.or_false, TreeSet_has_eq_any hc s hs]

theorem TreeSet_insertEach_spec {cmp : α → α → Int} (hc : TotalCmp cmp) (items : List α) :
    ∀ r : TreeSet α, SetInv cmp r →
      ∃ r1, TreeSet.insertEach cmp r items = some r1 ∧ SetInv cmp r1 ∧
        (∀ x, r1.has cmp x = (items.any (fun i => decide (cmp i x = 0)) || r.has cmp x)) ∧
        (SizeOk r → SizeOk r1) := by
  induction items with
  | nil =>
    intro r hr
    exact ⟨r, rfl, hr, by simp, id⟩
  | cons i items ih =>
    intro r hr
    obtain ⟨r1, h1, h2, h3, h4⟩ := TreeSet_Insert_spec hc r hr [i]
    obtain ⟨r2, h5, h6, h7, h8⟩ := ih r1 h2
    simp only [List.map_cons, List.map_nil] at h1
    refine ⟨r2, by simp [TreeSet.insertEach, h1, h5], h6, ?_, fun h => h8 (h4 h)⟩
    intro x
    rw [h7 x, h3 x]
    simp only [List.any_cons, List.any_nil, Bool.or_false]
    cases decide (cmp i x = 0) <;> cases List.any items (fun i => decide (cmp i x = 0)) <;>
      cases r.has cmp x <;> rfl

theorem TreeSet_Union_spec {cmp : α → α → Int} (hc : TotalCmp cmp) (a b : TreeSet α)
    (ha : SetInv cmp a) (hb : SetInv cmp b) :
    ∃ u, a.Union cmp b = some u ∧ SetInv cmp u ∧ SizeOk u ∧
      ∀ x, u.has cmp x = (a.has cmp x || b.has cmp x) := by
  obtain ⟨c, h1, h2, h3, h4⟩ := TreeSet_Copy_spec hc a ha
  obtain ⟨u, h5, h6, h7, h8⟩ := TreeSet_insertEach_spec hc b.keysPre c h2
  refine ⟨u, ?_, h6, h8 h3, ?_⟩
  · simp [TreeSet.Union, Base.CheckInit, ha.1, h1, TreeSet_Map_true b hb, h5]
  · intro x
    rw [h7 x, h4 x, ← TreeSet_has_eq_any hc b hb, Bool.or_comm]

theorem TreeSet_removeItems_spec {cmp : α → α → Int} (hc : TotalCmp cmp) (items : List α) :
    ∀ s : TreeSet α, SetInv cmp s →
      ∃ s1, TreeSet.removeItems cmp s (items.map some) = some s1 ∧ SetInv cmp s1 := by
  induction items with
  | nil =>
    intro s hs
    exact ⟨s, rfl, hs⟩
  | cons i items ih =>
    intro s hs
    obtain ⟨hi, ht, m, hm, hinv, hall⟩ := hs
    obtain ⟨m1, r, h1, hinv1, A, B, _, _, hcase⟩ := Remove_spec hc m hinv i
    have hall1 : ∀ e ∈ inorder m1.root, e.2 = some true := by
      intro e he
      rcases hcase with ⟨_, rfl, _⟩ | ⟨k0, v0, _, h3, _, h4, _⟩
      · exact hall e he
      · refine hall e ?_
        rw [h3]
        rcases List.mem_append.1 (h4.subset he) with h | h
        · exact List.mem_append_left _ h
        · exact List.mem_append_right _ (List.mem_cons_of_mem _ h)
    obtain ⟨s2, h5, h6⟩ := ih (TreeSet.mk (Base.mk s.base.init
      (if r.isSome then s.base.Sizeb - 1 else s.base.Sizeb) s.base.threadsafe) (some m1))
      ⟨hi, ht, m1, rfl, hinv1, hall1⟩
    refine ⟨s2, ?_, h6⟩
    simp only [List.map_cons, TreeSet.removeItems, Option.bind_eq_bind, Option.some_bind, hm, h1]
    exact h5

theorem TreeSet_applyOps_inv {cmp : α → α → Int} (hc : TotalCmp cmp) (ops : List (SetOp α)) :
    ∀ s s1 : TreeSet α, SetInv cmp s → TreeSet.applyOps cmp s ops = some s1 → SetInv cmp s1 := by
  induction ops with
  | nil =>
    intro s s1 hs h
    simp only [TreeSet.applyOps, Option.some.injEq] at h
    exact h ▸ hs
  | cons op ops ih =>
    intro s s1 hs h
    simp only [TreeSet.applyOps, Option.bind_eq_some] at h
    obtain ⟨s2, h2, h3⟩ := h
    refine ih s2 s1 ?_ h3
    cases op with
    | insert items =>
      obtain ⟨s3, h4, h5, _⟩ := TreeSet_Insert_spec hc s hs items
      simp only [TreeSet.applyOp, h4, Option.some.injEq] at h2
      exact h2 ▸ h5
    | remove items =>
      obtain ⟨s3, h4, h5⟩ := TreeSet_removeItems_spec hc items s hs
      have h6 : s.Remove cmp (items.map some) = some s3 := by
        cases items with
        | nil =>
          simp only [List.map_nil, TreeSet.removeItems, Option.some.injEq] at h4
          subst h4
          simp [TreeSet.Remove, Base.CheckInit, hs.1]
        | cons i items =>
          simp only [TreeSet.Remove, Base.CheckInit, hs.1, List.map_cons, List.length_cons]
          simpa using h4
      simp only [TreeSet.applyOp, h6, Option.some.injEq] at h2
      exact h2 ▸ h5
    | clear =>
      have h6 : s.Clear = some (TreeSet.mk (Base.mk true 0 false)
          (some (TreeMap.mk (Base.mk true 0 false) node.nil))) := by
        simp [TreeSet.Clear, Base.CheckInit, Base.Lock, Base.Unlock, hs.1, hs.2.1]
        rfl
      simp only [TreeSet.applyOp, h6, Option.some.injEq] at h2
      exact h2 ▸ SetInv_empty cmp

theorem TreeSet_Reachable_inv {cmp : α → α → Int} (hc : TotalCmp cmp) {s : TreeSet α}
    (h : TreeSet.Reachable cmp s) : SetInv cmp s := by
  obtain ⟨safe, items, ops, h1⟩ := h
  have h2 : (if safe = true then NewTreeSet cmp (items.map some)
      else NewTreeSetUnsafe cmp (items.map some)) = emptyTreeSet.Insert cmp (items.map some) := by
    cases safe <;> rfl
  rw [h2] at h1
  obtain ⟨s0, h3, h4, _⟩ := TreeSet_Insert_spec hc emptyTreeSet (SetInv_empty cmp) items
  rw [h3] at h1
  simp only [Option.some_bind] at h1
  exact TreeSet_applyOps_inv hc ops s0 s h4 h1

theorem TreeSet_insertCommon_spec {cmp : α → α → Int} (hc : TotalCmp cmp) (itee : TreeSet α)
    (hitee : SetInv cmp itee) (items : List α) :
    ∀ r : TreeSet α, SetInv cmp r →
      ∃ r1, TreeSet.insertCommon cmp itee r items = some r1 ∧ SetInv cmp r1 ∧
        (∀ x, r1.has cmp x
          = (items.any (fun i => itee.has cmp i && decide (cmp i x = 0)) || r.has cmp x)) ∧
        (SizeOk r → SizeOk r1) := by
  induction items with
  | nil =>
    intro r hr
    exact ⟨r, rfl, hr, by simp, id⟩
  | cons i items ih =>
    intro r hr
    have hc1 := TreeSet_Contains_single hc itee hitee i
    cases hh : itee.has cmp i with
    | false =>
      obtain ⟨r2, h5, h6, h7, h8⟩ := ih r hr
      refine ⟨r2, by simp [TreeSet.insertCommon, hc1, hh, h5], h6, ?_, h8⟩
      intro x
      rw [h7 x]
      simp [hh]
    | true =>
      obtain ⟨r1, h1, h2, h3, h4⟩ := TreeSet_Insert_spec hc r hr [i]
      obtain ⟨r2, h5, h6, h7, h8⟩ := ih r1 h2
      simp only [List.map_cons, List.map_nil] at h1
      refine ⟨r2, by simp [TreeSet.insertCommon, hc1, hh, h1, h5], h6, ?_, fun h => h8 (h4 h)⟩
      intro x
      rw [h7 x, h3 x]
      simp only [List.any_cons, List.any_nil, Bool.or_false, hh, Bool.true_and]
      cases decide (cmp i x = 0) <;>
        cases List.any items (fun i => itee.has cmp i && decide (cmp i x = 0)) <;>
        cases r.has cmp x <;> rfl

theorem TreeSet_any_common {cmp : α → α → Int} (hc : TotalCmp cmp) (iter itee : TreeSet α)
    (hiter : SetInv cmp iter) (x : α) :
    iter.keysPre.any (fun i => itee.has cmp i && decide (cmp i x = 0))
      = (iter.has cmp x && itee.has cmp x) := by
  rw [Bool.eq_iff_iff, List.any_eq_true, Bool.and_eq_true, TreeSet_has_iff hc iter hiter]
  constructor
  · rintro ⟨i, hi, h⟩
    simp only [Bool.and_eq_true, decide_eq_true_eq] at h
    exact ⟨⟨i, hi, h.2⟩, (TreeSet_has_congr hc itee h.2) ▸ h.1⟩
  · rintro ⟨⟨i, hi, h⟩, h2⟩
    refine ⟨i, hi, ?_⟩
    simp only [Bool.and_eq_true, decide_eq_true_eq]
    exact ⟨(TreeSet_has_congr hc itee h).symm ▸ h2, h⟩

theorem TreeSet_Intersection_spec {cmp : α → α → Int} (hc : TotalCmp cmp) (a b : TreeSet α)
    (ha : SetInv cmp a) (hb : SetInv cmp b) :
    ∃ u, a.Intersection cmp b = some u ∧ SetInv cmp u ∧ SizeOk u ∧
      ∀ x, u.has cmp x = (a.has cmp x && b.has cmp x) := by
  have hnew : NewTreeSet cmp ([] : List (Option α)) = some emptyTreeSet := rfl
  by_cases hsz : a.base.Sizeb > b.base.Sizeb
  · obtain ⟨u, h1, h2, h3, h4⟩ :=
      TreeSet_insertCommon_spec hc a ha b.keysPre emptyTreeSet (SetInv_empty cmp)
    refine ⟨u, ?_, h2, h4 SizeOk_empty, ?_⟩
    · simp [TreeSet.Intersection, Base.CheckInit, ha.1, hb.1, hnew, TreeSet.Size, Base.Size,
        hsz, TreeSet_Map_true b hb, h1]
    · intro x
      rw [h3 x, has_empty, Bool.or_false, TreeSet_any_common hc b a hb, Bool.and_comm]
  · obtain ⟨u, h1, h2, h3, h4⟩ :=
      TreeSet_insertCommon_spec hc b hb a.keysPre emptyTreeSet (SetInv_empty cmp)
    refine ⟨u, ?_, h2, h4 SizeOk_empty, ?_⟩
    · simp [TreeSet.Intersection, Base.CheckInit, ha.1, hb.1, hnew, TreeSet.Size, Base.Size,
        hsz, TreeSet_Map_true a ha, h1]
    · intro x
      rw [h3 x, has_empty, Bool.or_false, TreeSet_any_common hc a b ha]

theorem TreeSet_Subset_of_has {cmp : α → α → Int} (hc : TotalCmp cmp) (s o : TreeSet α)
    (hs : SetInv cmp s) (ho : SetInv cmp o)
    (hsub : ∀ x, s.has cmp x = true → o.has cmp x = true) :
    s.Subset cmp o = some (true, decide (s.base.Sizeb ≠ o.base.Sizeb)) := by
  have hf : (fun item => (o.Contains cmp [some item]).getD false) = fun item => o.has cmp item := by
    funext item
    rw [TreeSet_Contains_single hc o ho item]
    rfl
  have hn : (fun item => (o.Contains cmp [some item]).isNone) = fun _ => false := by
    funext item
    rw [TreeSet_Contains_single hc o ho item]
    rfl
  have hall : ∀ i ∈ s.keysPre, o.has cmp i = true :=
    fun i hi => hsub i (TreeSet_has_of_key hc s hs i hi)
  have hv := visitList_all_true (fun item => o.has cmp item) s.keysPre [] hall
  simp only [TreeSet.Subset, Base.CheckInit, hs.1, TreeSet.Size, Base.Size, ho.1, hf, hn,
    TreeSet_Map_eq s hs, hv]
  simp only [List.nil_append] 
  have hall2 : s.keysPre.all (fun item => o.has cmp item) = true :=
    List.all_eq_true.2 hall
  simp [hall2]

/-! ## HashSet -/

theorem HashInv_empty {ι : Type} : HashInv (emptyHashSet : HashSet ι) :=
  ⟨rfl, rfl, [], rfl, List.nodup_nil, rfl⟩

theorem NewHashSet_eq {ι : Type} [DecidableEq ι] (items : List ι) : NewHashSet items = emptyHashSet.Insert items := rfl

theorem NewHashSetUnsafe_eq {ι : Type} [DecidableEq ι] (items : List ι) :
    NewHashSetUnsafe items = emptyHashSet.Insert items := rfl

theorem map_update_self {ι : Type} [DecidableEq ι] (l : List ι) (i : ι) :
    l.map (fun k => if k = i then i else k) = l := by
  have h : (fun k : ι => if k = i then i else k) = id := by
    funext k
    by_cases hk : k = i
    · simp [hk]
    · simp [hk]
  rw [h, List.map_id]

theorem HashSet_insertItems_spec {ι : Type} [DecidableEq ι] (items : List ι) :
    ∀ s : HashSet ι, HashInv s →
      ∃ s1, HashSet.insertItems s items = some s1 ∧ HashInv s1 ∧
        ∀ x, x ∈ s1.keys ↔ x ∈ items ∨ x ∈ s.keys := by
  induction items with
  | nil =>
    intro s hs
    exact ⟨s, rfl, hs, by simp⟩
  | cons i items ih =>
    intro s hs
    obtain ⟨hi, ht, l, hm, hnd, hsz⟩ := hs
    by_cases hmem : i ∈ l
    · obtain ⟨s1, h1, h2, h3⟩ := ih (HashSet.mk (Base.mk s.base.init s.base.Sizeb
        s.base.threadsafe) (some l)) ⟨hi, ht, l, rfl, hnd, hsz⟩
      refine ⟨s1, by simp [HashSet.insertItems, hm, hmem, map_update_self, h1], h2, ?_⟩
      intro x
      rw [h3 x]
      simp only [HashSet.keys, hm, Option.getD_some, List.mem_cons]
      have : x = i → x ∈ l := fun h => h ▸ hmem
      tauto
    · obtain ⟨s1, h1, h2, h3⟩ := ih (HashSet.mk (Base.mk s.base.init (s.base.Sizeb + 1)
        s.base.threadsafe) (some (l ++ [i])))
        ⟨hi, ht, l ++ [i], rfl, by
          rw [List.nodup_append]
          refine ⟨hnd, List.nodup_singleton i, ?_⟩
          intro a ha hb
          rw [List.mem_singleton] at hb
          exact hmem (hb ▸ ha), by
          simp only [List.length_append, List.length_singleton, Nat.cast_add, Nat.cast_one]
          omega⟩
      refine ⟨s1, by simp [HashSet.insertItems, hm, hmem, h1], h2, ?_⟩
      intro x
      rw [h3 x]
      simp only [HashSet.keys, hm, Option.getD_some, List.mem_cons, List.mem_append,
        List.mem_singleton]
      tauto

theorem HashSet_Insert_eq {ι : Type} [DecidableEq ι] (s : HashSet ι) (hi : s.base.init = true)
    (ht : s.base.threadsafe = false) (items : List ι) :
    s.Insert items = HashSet.insertItems s items := by
  cases items with
  | nil => simp [HashSet.Insert, Base.CheckInit, hi, HashSet.insertItems]
  | cons i items =>
    simp [HashSet.Insert, Base.CheckInit, hi, HashSet.Threadsafe, Base.Threadsafe, ht]

theorem HashSet_Insert_spec {ι : Type} [DecidableEq ι] (s : HashSet ι) (hs : HashInv s) (items : List ι) :
    ∃ s1, s.Insert items = some s1 ∧ HashInv s1 ∧
      ∀ x, x ∈ s1.keys ↔ x ∈ items ∨ x ∈ s.keys := by
  rw [HashSet_Insert_eq s hs.1 hs.2.1]
  exact HashSet_insertItems_spec items s hs

theorem HashSet_Contains_single {ι : Type} [DecidableEq ι] (s : HashSet ι) (hs : HashInv s) (x : ι) :
    s.Contains [x] = some (decide (x ∈ s.keys)) := by
  simp [HashSet.Contains, Base.CheckInit, hs.1, Base.RUnlock, hs.2.1, HashSet.keys]

theorem HashSet_Map_eq {ι : Type} (ord : List ι → List ι) (s : HashSet ι) (hs : HashInv s)
    (f : ι → Bool) : s.Map ord f = some (visitList f (ord s.keys) []) := by
  simp [HashSet.Map, Base.CheckInit, hs.1, Base.RLock, Base.RUnlock, hs.2.1, HashSet.keys]

theorem HashSet_Map_true {ι : Type} [DecidableEq ι] (ord : List ι → List ι) (s : HashSet ι) (hs : HashInv s) :
    s.Map ord (fun _ => true) = some (true, ord s.keys) := by
  rw [HashSet_Map_eq ord s hs, visitList_true]
  rfl

theorem HashSet_Slice_eq {ι : Type} (ord : List ι → List ι) (s : HashSet ι) (hs : HashInv s) :
    s.Slice ord = some (ord s.keys) := by
  simp [HashSet.Slice, Base.CheckInit, hs.1, Base.RLock, Base.RUnlock, hs.2.1, HashSet.keys]

theorem HashSet_Copy_spec {ι : Type} [DecidableEq ι] (ord : List ι → List ι) (hord : IterOrder ord) (s : HashSet ι)
    (hs : HashInv s) :
    ∃ c, s.Copy ord = some c ∧ HashInv c ∧ ∀ x, x ∈ c.keys ↔ x ∈ s.keys := by
  obtain ⟨c, h1, h2, h3⟩ := HashSet_Insert_spec emptyHashSet HashInv_empty (ord s.keys)
  refine ⟨c, ?_, h2, ?_⟩
  · simp [HashSet.Copy, Base.CheckInit, hs.1, HashSet.Threadsafe, Base.Threadsafe, hs.2.1,
      HashSet_Slice_eq ord s hs, NewHashSetUnsafe_eq, h1]
  · intro x
    rw [h3 x, (hord s.keys).mem_iff]
    simp [HashSet.keys, emptyHashSet]

theorem HashSet_insertEach_spec {ι : Type} [DecidableEq ι] (items : List ι) :
    ∀ r : HashSet ι, HashInv r →
      ∃ r1, HashSet.insertEach r items = some r1 ∧ HashInv r1 ∧
        ∀ x, x ∈ r1.keys ↔ x ∈ items ∨ x ∈ r.keys := by
  induction items with
  | nil =>
    intro r hr
    exact ⟨r, rfl, hr, by simp⟩
  | cons i items ih =>
    intro r hr
    obtain ⟨r1, h1, h2, h3⟩ := HashSet_Insert_spec r hr [i]
    obtain ⟨r2, h5, h6, h7⟩ := ih r1 h2
    refine ⟨r2, by simp [HashSet.insertEach, h1, h5], h6, ?_⟩
    intro x
    rw [h7 x, h3 x]
    simp only [List.mem_cons, List.mem_singleton, List.not_mem_nil, or_false]
    tauto

theorem HashSet_Union_spec {ι : Type} [DecidableEq ι] (ord : List ι → List ι) (hord : IterOrder ord) (a b : HashSet ι)
    (ha : HashInv a) (hb : HashInv b) :
    ∃ u, a.Union ord b = some u ∧ HashInv u ∧ ∀ x, x ∈ u.keys ↔ x ∈ a.keys ∨ x ∈ b.keys := by
  obtain ⟨c, h1, h2, h3⟩ := HashSet_Copy_spec ord hord a ha
  obtain ⟨u, h5, h6, h7⟩ := HashSet_insertEach_spec (ord b.keys) c h2
  refine ⟨u, ?_, h6, ?_⟩
  · simp [HashSet.Union, Base.CheckInit, ha.1, h1, HashSet_Map_true ord b hb, h5]
  · intro x
    rw [h7 x, h3 x, (hord b.keys).mem_iff]
    tauto

theorem HashSet_insertCommon_spec {ι : Type} [DecidableEq ι] (itee : HashSet ι) (hitee : HashInv itee) (items : List ι) :
    ∀ r : HashSet ι, HashInv r →
      ∃ r1, HashSet.insertCommon itee r items = some r1 ∧ HashInv r1 ∧
        ∀ x, x ∈ r1.keys ↔ (x ∈ items ∧ x ∈ itee.keys) ∨ x ∈ r.keys := by
  induction items with
  | nil =>
    intro r hr
    exact ⟨r, rfl, hr, by simp⟩
  | cons i items ih =>
    intro r hr
    have hc1 := HashSet_Contains_single itee hitee i
    by_cases hh : i ∈ itee.keys
    · obtain ⟨r1, h1, h2, h3⟩ := HashSet_Insert_spec r hr [i]
      obtain ⟨r2, h5, h6, h7⟩ := ih r1 h2
      refine ⟨r2, by simp [HashSet.insertCommon, hc1, hh, h1, h5], h6, ?_⟩
      intro x
      rw [h7 x, h3 x]
      simp only [List.mem_cons, List.mem_singleton, List.not_mem_nil, or_false]
      constructor
      · rintro (h | rfl | h)
        · exact Or.inl ⟨Or.inr h.1, h.2⟩
        · exact Or.inl ⟨Or.inl rfl, hh⟩
        · exact Or.inr h
      · rintro (⟨rfl | h, h2⟩ | h)
        · exact Or.inr (Or.inl rfl)
        · exact Or.inl ⟨h, h2⟩
        · exact Or.inr (Or.inr h)
    · obtain ⟨r2, h5, h6, h7⟩ := ih r hr
      refine ⟨r2, by simp [HashSet.insertCommon, hc1, hh, h5], h6, ?_⟩
      intro x
      rw [h7 x]
      simp only [List.mem_cons]
      constructor
      · rintro (h | h)
        · exact Or.inl ⟨Or.inr h.1, h.2⟩
        · exact Or.inr h
      · rintro (⟨rfl | h, h2⟩ | h)
        · exact absurd h2 hh
        · exact Or.inl ⟨h, h2⟩
        · exact Or.inr h

theorem HashSet_Intersection_spec {ι : Type} [DecidableEq ι] (ord : List ι → List ι) (hord : IterOrder ord)
    (a b : HashSet ι) (ha : HashInv a) (hb : HashInv b) :
    ∃ u, a.Intersection ord b = some u ∧ HashInv u ∧
      ∀ x, x ∈ u.keys ↔ x ∈ a.keys ∧ x ∈ b.keys := by
  have hnew : NewHashSet ([] : List ι) = some emptyHashSet := rfl
  have hek : ∀ x, x ∉ (emptyHashSet : HashSet ι).keys := by
    intro x
    simp [HashSet.keys, emptyHashSet]
  by_cases hsz : a.base.Sizeb > b.base.Sizeb
  · obtain ⟨u, h1, h2, h3⟩ :=
      HashSet_insertCommon_spec a ha (ord b.keys) emptyHashSet HashInv_empty
    refine ⟨u, ?_, h2, ?_⟩
    · simp [HashSet.Intersection, Base.CheckInit, ha.1, hb.1, hnew, HashSet.Size, Base.Size,
        hsz, HashSet_Map_true ord b hb, h1]
    · intro x
      rw [h3 x, (hord b.keys).mem_iff]
      have := hek x
      tauto
  · obtain ⟨u, h1, h2, h3⟩ :=
      HashSet_insertCommon_spec b hb (ord a.keys) emptyHashSet HashInv_empty
    refine ⟨u, ?_, h2, ?_⟩
    · simp [HashSet.Intersection, Base.CheckInit, ha.1, hb.1, hnew, HashSet.Size, Base.Size,
        hsz, HashSet_Map_true ord a ha, h1]
    · intro x
      rw [h3 x, (hord a.keys).mem_iff]
      have := hek x
      tauto

theorem HashSet_Subset_of_mem {ι : Type} [DecidableEq ι] (ord : List ι → List ι) (hord : IterOrder ord) (s o : HashSet ι)
    (hs : HashInv s) (ho : HashInv o) (hsub : ∀ x, x ∈ s.keys → x ∈ o.keys) :
    s.Subset ord o = some (true, decide (s.base.Sizeb ≠ o.base.Sizeb)) := by
  have hf : (fun item => (o.Contains [item]).getD false)
      = fun item => decide (item ∈ o.keys) := by
    funext item
    rw [HashSet_Contains_single o ho item]
    rfl
  have hn : (fun item => (o.Contains [item]).isNone) = fun _ => false := by
    funext item
    rw [HashSet_Contains_single o ho item]
    rfl
  have hall : ∀ i ∈ ord s.keys, decide (i ∈ o.keys) = true := by
    intro i hi
    exact decide_eq_true (hsub i ((hord s.keys).mem_iff.1 hi))
  have hv := visitList_all_true (fun item => decide (item ∈ o.keys)) (ord s.keys) [] hall
  have hall2 : (ord s.keys).all (fun item => decide (item ∈ o.keys)) = true :=
    List.all_eq_true.2 hall
  simp only [HashSet.Subset, Base.CheckInit, hs.1, HashSet.Size, Base.Size, ho.1, hf, hn,
    HashSet_Map_eq ord s hs, hv]
  simp only [List.nil_append]
  simp [hall2]

theorem HashSet_removeItems_inv {ι : Type} [DecidableEq ι] (items : List ι) :
    ∀ s : HashSet ι, HashInv s → HashInv (HashSet.removeItems s items) := by
  induction items with
  | nil => intro s hs; exact hs
  | cons i items ih =>
    intro s hs
    obtain ⟨hi, ht, l, hm, hnd, hsz⟩ := hs
    by_cases hmem : i ∈ l
    · have hc : l.contains i = true := by simpa using hmem
      simp only [HashSet.removeItems, hm, hc, if_true]
      refine ih _ ⟨hi, ht, l.erase i, rfl, hnd.erase i, ?_⟩
      have h1 := List.length_erase_of_mem hmem
      have h2 := List.length_pos_of_mem hmem
      simp only [h1]
      omega
    · have hc : l.contains i = false := by simpa using hmem
      simp only [HashSet.removeItems, hm, hc, Bool.false_eq_true, if_false]
      exact ih s ⟨hi, ht, l, hm, hnd, hsz⟩

theorem HashSet_applyOps_inv {ι : Type} [DecidableEq ι] (ops : List (SetOp ι)) :
    ∀ s s1 : HashSet ι, HashInv s → HashSet.applyOps s ops = some s1 → HashInv s1 := by
  induction ops with
  | nil =>
    intro s s1 hs h
    simp only [HashSet.applyOps, Option.some.injEq] at h
    exact h ▸ hs
  | cons op ops ih =>
    intro s s1 hs h
    simp only [HashSet.applyOps, Option.bind_eq_some] at h
    obtain ⟨s2, h2, h3⟩ := h
    refine ih s2 s1 ?_ h3
    cases op with
    | insert items =>
      obtain ⟨s3, h4, h5, _⟩ := HashSet_Insert_spec s hs items
      simp only [HashSet.applyOp, h4, Option.some.injEq] at h2
      exact h2 ▸ h5
    | remove items =>
      simp only [HashSet.applyOp, HashSet.Remove, Base.CheckInit, hs.1] at h2
      cases items with
      | nil =>
        simp at h2
        exact h2 ▸ hs
      | cons i items =>
        simp at h2
        exact h2 ▸ HashSet_removeItems_inv (i :: items) s hs
    | clear =>
      simp [HashSet.applyOp, HashSet.Clear, Base.CheckInit, Base.Lock, Base.Unlock, hs.1,
        hs.2.1] at h2
      exact h2 ▸ HashInv_empty

theorem HashSet_Reachable_inv {ι : Type} [DecidableEq ι] {s : HashSet ι} (h : HashSet.Reachable s) : HashInv s := by
  obtain ⟨safe, items, ops, h1⟩ := h
  have h2 : (if safe = true then NewHashSet items else NewHashSetUnsafe items)
      = emptyHashSet.Insert items := by
    cases safe <;> rfl
  rw [h2] at h1
  obtain ⟨s0, h3, h4, _⟩ := HashSet_Insert_spec emptyHashSet HashInv_empty items
  rw [h3] at h1
  simp only [Option.some_bind] at h1
  exact HashSet_applyOps_inv ops s0 s h4 h1

/-! ## Set algebra -/

theorem TreeSet_Copy_eval {cmp : α → α → Int} (s : TreeSet α) (hs : SetInv cmp s) :
    s.Copy cmp = emptyTreeSet.Insert cmp (s.keysPre.map some) := by
  simp [TreeSet.Copy, Base.CheckInit, hs.1, TreeSet.Threadsafe, Base.Threadsafe, hs.2.1,
    TreeSet_Slice_eq s hs, NewTreeSetUnsafe_eq]

theorem TreeSet_Union_eval {cmp : α → α → Int} (a b : TreeSet α) (ha : SetInv cmp a)
    (hb : SetInv cmp b) :
    a.Union cmp b = (emptyTreeSet.Insert cmp (a.keysPre.map some)).bind
      (fun c => TreeSet.insertEach cmp c b.keysPre) := by
  simp [TreeSet.Union, Base.CheckInit, ha.1, TreeSet_Copy_eval a ha, TreeSet_Map_true b hb]

theorem TreeSet_Difference_eval {cmp : α → α → Int} (a b : TreeSet α) (ha : SetInv cmp a)
    (hb : SetInv cmp b) :
    a.Difference cmp b = (emptyTreeSet.Insert cmp (a.keysPre.map some)).bind
      (fun c => TreeSet.removeEach cmp c b.keysPre) := by
  simp [TreeSet.Difference, Base.CheckInit, ha.1, TreeSet_Copy_eval a ha, TreeSet_Map_true b hb]

theorem TreeSet_Reachable_new (cmp : α → α → Int) (items : List α) (s : TreeSet α)
    (h : NewTreeSet cmp (items.map some) = some s) : TreeSet.Reachable cmp s :=
  ⟨true, items, [], by simp [h, TreeSet.applyOps]⟩

theorem HashSet_Reachable_new {ι : Type} [DecidableEq ι] (items : List ι) (s : HashSet ι)
    (h : NewHashSet items = some s) : HashSet.Reachable s :=
  ⟨true, items, [], by simp [h, HashSet.applyOps]⟩

theorem HashSet_Size_eq {ι : Type} (s : HashSet ι) (hs : HashInv s) :
    s.Size = some (s.keys.length : Int) := by
  obtain ⟨hi, _, l, hm, _, hsz⟩ := hs
  simp [HashSet.Size, Base.Size, hi, HashSet.keys, hm, hsz]

set_option maxRecDepth 20000 in
/-- C18: for two reachable TreeSets, and for two reachable HashSets,
`a.Union(b)` returns a set of which `x` is a member exactly when it is a
member of `a` or of `b`, and whose `Size()` is its number of (distinct)
items; `Union` only reads `a` and `b`.  For {1,2,3} and {3,4,5} the result has
the members 1, 2, 3, 4, 5 and Size 5. -/
theorem C18_union_members {cmp : α → α → Int} (hc : TotalCmp cmp) (a b : TreeSet α)
    (ha : TreeSet.Reachable cmp a) (hb : TreeSet.Reachable cmp b)
    {ι : Type} [DecidableEq ι] (ord : List ι → List ι) (hord : IterOrder ord)
    (a1 b1 : HashSet ι) (ha1 : HashSet.Reachable a1) (hb1 : HashSet.Reachable b1) :
    (∃ u, a.Union cmp b = some u ∧
      (∀ x, ∃ ca cb, a.Contains cmp [some x] = some ca ∧ b.Contains cmp [some x] = some cb ∧
        u.Contains cmp [some x] = some (ca || cb)) ∧
      u.Size = some (u.entries.length : Int) ∧
      u.entries.Pairwise (fun e1 e2 => cmp e1.1 e2.1 ≠ 0)) ∧
    (∃ u, a1.Union ord b1 = some u ∧
      (∀ x, ∃ ca cb, a1.Contains [x] = some ca ∧ b1.Contains [x] = some cb ∧
        u.Contains [x] = some (ca || cb)) ∧
      u.Size = some (u.keys.length : Int) ∧ u.keys.Nodup) ∧
    (∃ u, NewTreeSet compInt [some 1, some 2, some 3]
        = some (treeSetOf 3 (node.mk 1 (some true) 2 node.nil
            (node.mk 2 (some true) 1 node.nil (leaf 3)))) ∧
      NewTreeSet compInt [some 3, some 4, some 5]
        = some (treeSetOf 3 (node.mk 3 (some true) 2 node.nil
            (node.mk 4 (some true) 1 node.nil (leaf 5)))) ∧
      (treeSetOf 3 (node.mk 1 (some true) 2 node.nil
          (node.mk 2 (some true) 1 node.nil (leaf 3)))).Union compInt
        (treeSetOf 3 (node.mk 3 (some true) 2 node.nil
          (node.mk 4 (some true) 1 node.nil (leaf 5)))) = some u ∧
      u.Size = some 5 ∧
      u.entries.map Prod.fst = [1, 2, 3, 4, 5] ∧
      u.Contains compInt [some 1, some 2, some 3, some 4, some 5] = some true ∧
      u.Contains compInt [some 0] = some false ∧ u.Contains compInt [some 6] = some false) ∧
    (∀ ordI : List Int → List Int, IterOrder ordI →
      ∃ u, NewHashSet [(1 : Int), 2, 3] = some (HashSet.mk (Base.mk true 3 false) (some [1, 2, 3])) ∧
        NewHashSet [(3 : Int), 4, 5] = some (HashSet.mk (Base.mk true 3 false) (some [3, 4, 5])) ∧
        (HashSet.mk (Base.mk true 3 false) (some [(1 : Int), 2, 3])).Union ordI
          (HashSet.mk (Base.mk true 3 false) (some [3, 4, 5])) = some u ∧
        u.Size = some 5 ∧ ∀ x, x ∈ u.keys ↔ x ∈ [(1 : Int), 2, 3, 4, 5]) := by
  refine ⟨?_, ?_, ?_, ?_⟩
  · have hia := TreeSet_Reachable_inv hc ha
    have hib := TreeSet_Reachable_inv hc hb
    obtain ⟨u, h1, h2, h3, h4⟩ := TreeSet_Union_spec hc a b hia hib
    refine ⟨u, h1, ?_, ?_, ?_⟩
    · intro x
      exact ⟨_, _, TreeSet_Contains_single hc a hia x, TreeSet_Contains_single hc b hib x,
        (TreeSet_Contains_single hc u h2 x).trans (by rw [h4 x])⟩
    · simp only [TreeSet.Size, Base.Size, h2.1, Bool.not_true, Bool.false_eq_true, if_false]
      exact congrArg some h3
    · obtain ⟨_, _, m, hm, hinv, _⟩ := h2
      simp only [TreeSet.entries, hm]
      refine List.Pairwise.imp ?_ hinv.2.1
      intro e1 e2 h
      omega
  · have hia := HashSet_Reachable_inv ha1
    have hib := HashSet_Reachable_inv hb1
    obtain ⟨u, h1, h2, h3⟩ := HashSet_Union_spec ord hord a1 b1 hia hib
    refine ⟨u, h1, ?_, HashSet_Size_eq u h2, ?_⟩
    · intro x
      refine ⟨_, _, HashSet_Contains_single a1 hia x, HashSet_Contains_single b1 hib x, ?_⟩
      rw [HashSet_Contains_single u h2 x]
      congr 1
      rw [Bool.eq_iff_iff]
      simp [h3 x]
    · obtain ⟨_, _, l, hm, hnd, _⟩ := h2
      simpa [HashSet.keys, hm] using hnd
  · refine ⟨treeSetOf 5 (node.mk 3 (some true) 2 (node.mk 2 (some true) 0 (leaf 1) node.nil)
      (node.mk 4 (some true) 1 node.nil (leaf 5))), by decide, by decide, ?_, by decide⟩
    rw [TreeSet_Union_eval _ _
      (TreeSet_Reachable_inv compInt_total (TreeSet_Reachable_new compInt [1, 2, 3] _ (by decide)))
      (TreeSet_Reachable_inv compInt_total (TreeSet_Reachable_new compInt [3, 4, 5] _ (by decide)))]
    decide
  · intro ordI hordI
    obtain ⟨u, h1, h2, h3⟩ := HashSet_Union_spec ordI hordI
      (HashSet.mk (Base.mk true 3 false) (some [(1 : Int), 2, 3]))
      (HashSet.mk (Base.mk true 3 false) (some [3, 4, 5]))
      (HashSet_Reachable_inv (HashSet_Reachable_new [1, 2, 3] _ (by decide)))
      (HashSet_Reachable_inv (HashSet_Reachable_new [3, 4, 5] _ (by decide)))
    have hmem : ∀ x, x ∈ u.keys ↔ x ∈ [(1 : Int), 2, 3, 4, 5] := by
      intro x
      rw [h3 x]
      simp only [HashSet.keys, Option.getD_some, List.mem_cons, List.not_mem_nil, or_false]
      tauto
    have hnd : u.keys.Nodup := by
      obtain ⟨_, _, l, hm, hnd, _⟩ := h2
      simpa [HashSet.keys, hm] using hnd
    have hperm := (List.perm_ext_iff_of_nodup hnd (by decide)).2 hmem
    refine ⟨u, by decide, by decide, h1, ?_, hmem⟩
    rw [HashSet_Size_eq u h2, hperm.length_eq]
    rfl

set_option maxRecDepth 20000 in
theorem C18_union_members_witness :
    TotalCmp compInt ∧ IterOrder (fun l : List Int => l.reverse) ∧
    TreeSet.Reachable compInt (treeSetOf 1 (leaf 1)) ∧
    TreeSet.Reachable compInt (treeSetOf 1 (leaf 7)) ∧
    HashSet.Reachable (HashSet.mk (Base.mk true 1 false) (some [(1 : Int)])) ∧
    HashSet.Reachable (HashSet.mk (Base.mk true 1 false) (some [(7 : Int)])) ∧
    (∃ u, (treeSetOf 1 (leaf 1)).Union compInt (treeSetOf 1 (leaf 7)) = some u ∧
      (∀ x, ∃ ca cb, (treeSetOf 1 (leaf 1)).Contains compInt [some x] = some ca ∧
        (treeSetOf 1 (leaf 7)).Contains compInt [some x] = some cb ∧
        u.Contains compInt [some x] = some (ca || cb)) ∧
      u.Size = some (u.entries.length : Int) ∧
      u.entries.Pairwise (fun e1 e2 => compInt e1.1 e2.1 ≠ 0)) ∧
    (∃ u, (HashSet.mk (Base.mk true 1 false) (some [(1 : Int)])).Union (fun l => l.reverse)
        (HashSet.mk (Base.mk true 1 false) (some [7])) = some u ∧
      (∀ x, ∃ ca cb, (HashSet.mk (Base.mk true 1 false) (some [(1 : Int)])).Contains [x] = some ca ∧
        (HashSet.mk (Base.mk true 1 false) (some [(7 : Int)])).Contains [x] = some cb ∧
        u.Contains [x] = some (ca || cb)) ∧
      u.Size = some (u.keys.length : Int) ∧ u.keys.Nodup) :=
  ⟨compInt_total, fun l => List.reverse_perm l,
    TreeSet_Reachable_new compInt [1] _ (by decide),
    TreeSet_Reachable_new compInt [7] _ (by decide),
    HashSet_Reachable_new [1] _ (by decide), HashSet_Reachable_new [7] _ (by decide),
    (C18_union_members compInt_total (treeSetOf 1 (leaf 1)) (treeSetOf 1 (leaf 7))
      (TreeSet_Reachable_new compInt [1] _ (by decide))
      (TreeSet_Reachable_new compInt [7] _ (by decide))
      (fun l => l.reverse) (fun l => List.reverse_perm l)
      (HashSet.mk (Base.mk true 1 false) (some [(1 : Int)]))
      (HashSet.mk (Base.mk true 1 false) (some [(7 : Int)]))
      (HashSet_Reachable_new [1] _ (by decide)) (HashSet_Reachable_new [7] _ (by decide))).1,
    (C18_union_members compInt_total (treeSetOf 1 (leaf 1)) (treeSetOf 1 (leaf 7))
      (TreeSet_Reachable_new compInt [1] _ (by decide))
      (TreeSet_Reachable_new compInt [7] _ (by decide))
      (fun l => l.reverse) (fun l => List.reverse_perm l)
      (HashSet.mk (Base.mk true 1 false) (some [(1 : Int)]))
      (HashSet.mk (Base.mk true 1 false) (some [(7 : Int)]))
      (HashSet_Reachable_new [1] _ (by decide)) (HashSet_Reachable_new [7] _ (by decide))).2.1⟩

set_option maxRecDepth 20000 in
/-- C20: for the TreeSets built by `NewTreeSet(2, 1, 3)` and `NewTreeSet(2)`,
`Difference` returns a set holding only 3: the item 1, a member of the first
set and not of the second, is not a member of the result, and `Size()` of the
result is 2 although it has one member. -/
theorem C20_difference_drops_member :
    NewTreeSet compInt [some 2, some 1, some 3]
      = some (treeSetOf 3 (node.mk 2 (some true) 1 (leaf 1) (leaf 3))) ∧
    NewTreeSet compInt [some 2] = some (treeSetOf 1 (leaf 2)) ∧
    (treeSetOf 3 (node.mk 2 (some true) 1 (leaf 1) (leaf 3))).Difference compInt
      (treeSetOf 1 (leaf 2)) = some (treeSetOf 2 (leaf 3)) ∧
    (treeSetOf 3 (node.mk 2 (some true) 1 (leaf 1) (leaf 3))).Contains compInt [some 1]
      = some true ∧
    (treeSetOf 1 (leaf 2)).Contains compInt [some 1] = some false ∧
    (treeSetOf 2 (leaf (3 : Int))).Contains compInt [some 1] = some false ∧
    (treeSetOf 2 (leaf (3 : Int))).Size = some 2 ∧
    (treeSetOf 2 (leaf (3 : Int))).entries.map Prod.fst = [3] := by
  refine ⟨by decide, by decide, ?_, by decide, by decide, by decide, by decide, by decide⟩
  rw [TreeSet_Difference_eval _ _
    (TreeSet_Reachable_inv compInt_total (TreeSet_Reachable_new compInt [2, 1, 3] _ (by decide)))
    (TreeSet_Reachable_inv compInt_total (TreeSet_Reachable_new compInt [2] _ (by decide)))]
  decide

/-! ## Equality, subsets and supersets -/

theorem visitList_all {γ : Type} (f : γ → Bool) (l : List γ) :
    ∀ acc : List γ, (visitList f l acc).2.all f = (acc.all f && l.all f) := by
  induction l with
  | nil => intro acc; simp [visitList]
  | cons x xs ih =>
    intro acc
    simp only [visitList]
    by_cases hx : f x = true
    · simp only [hx, if_true, ih, List.all_append, List.all_cons, List.all_nil, Bool.and_true,
        Bool.true_and]
    · simp only [Bool.not_eq_true] at hx
      simp [hx]

theorem visitList_nil_all {γ : Type} (f : γ → Bool) (l : List γ) :
    (visitList f l []).2.all f = l.all f := by
  rw [visitList_all]
  simp

theorem TreeSet_Subset_eval {cmp : α → α → Int} (hc : TotalCmp cmp) (s o : TreeSet α)
    (hs : SetInv cmp s) (ho : SetInv cmp o) :
    s.Subset cmp o
      = some (s.keysPre.all (fun i => o.has cmp i), decide (s.base.Sizeb ≠ o.base.Sizeb)) := by
  have hf : (fun item => (o.Contains cmp [some item]).getD false) = fun item => o.has cmp item := by
    funext item
    rw [TreeSet_Contains_single hc o ho item]
    rfl
  have hn : (fun item => (o.Contains cmp [some item]).isNone) = fun _ => false := by
    funext item
    rw [TreeSet_Contains_single hc o ho item]
    rfl
  simp only [TreeSet.Subset, Base.CheckInit, hs.1, TreeSet.Size, Base.Size, ho.1, hf, hn,
    TreeSet_Map_eq s hs]
  simp
  exact visitList_nil_all _ _

theorem TreeSet_Superset_eval {cmp : α → α → Int} (hc : TotalCmp cmp) (s o : TreeSet α)
    (hs : SetInv cmp s) (ho : SetInv cmp o) :
    s.Superset cmp o
      = some (o.keysPre.all (fun i => s.has cmp i), decide (s.base.Sizeb ≠ o.base.Sizeb)) := by
  have hf : (fun item => (s.Contains cmp [some item]).getD false) = fun item => s.has cmp item := by
    funext item
    rw [TreeSet_Contains_single hc s hs item]
    rfl
  have hn : (fun item => (s.Contains cmp [some item]).isNone) = fun _ => false := by
    funext item
    rw [TreeSet_Contains_single hc s hs item]
    rfl
  simp only [TreeSet.Superset, Base.CheckInit, hs.1, TreeSet.Size, Base.Size, ho.1, hf, hn,
    TreeSet_Map_eq o ho]
  simp
  exact visitList_nil_all _ _

theorem TreeSet_Equal_eval {cmp : α → α → Int} (hc : TotalCmp cmp) (s o : TreeSet α)
    (hs : SetInv cmp s) (ho : SetInv cmp o) :
    s.Equal cmp o
      = some (decide (s.base.Sizeb = o.base.Sizeb) && o.keysPre.all (fun i => s.has cmp i)) := by
  have hf : (fun item => (s.Contains cmp [some item]).getD false) = fun item => s.has cmp item := by
    funext item
    rw [TreeSet_Contains_single hc s hs item]
    rfl
  have hn : (fun item => (s.Contains cmp [some item]).isNone) = fun _ => false := by
    funext item
    rw [TreeSet_Contains_single hc s hs item]
    rfl
  by_cases hsz : s.base.Sizeb = o.base.Sizeb
  · simp only [TreeSet.Equal, Base.CheckInit, hs.1, TreeSet.Size, Base.Size, ho.1, hf, hn,
      TreeSet_Map_eq o ho, Base.RLock, Base.RUnlock, hs.2.1]
    simp [hsz]
    exact visitList_nil_all _ _
  · simp only [TreeSet.Equal, Base.CheckInit, hs.1, TreeSet.Size, Base.Size, ho.1]
    simp [hsz]

theorem TreeSet_keys_all_iff {cmp : α → α → Int} (hc : TotalCmp cmp) (s o : TreeSet α)
    (hs : SetInv cmp s) :
    s.keysPre.all (fun i => o.has cmp i) = true
      ↔ ∀ x, s.has cmp x = true → o.has cmp x = true := by
  rw [List.all_eq_true]
  constructor
  · intro h x hx
    obtain ⟨i, hi, hix⟩ := (TreeSet_has_iff hc s hs x).1 hx
    rw [← TreeSet_has_congr hc o hix]
    exact h i hi
  · intro h i hi
    exact h i (TreeSet_has_of_key hc s hs i hi)

theorem perm_all_eq {γ : Type} {l1 l2 : List γ} (f : γ → Bool) (h : l1.Perm l2) :
    l1.all f = l2.all f := by
  rw [Bool.eq_iff_iff, List.all_eq_true, List.all_eq_true]
  exact ⟨fun h1 x hx => h1 x (h.mem_iff.2 hx), fun h1 x hx => h1 x (h.mem_iff.1 hx)⟩

theorem HashSet_Subset_eval {ι : Type} [DecidableEq ι] (ord : List ι → List ι)
    (hord : IterOrder ord) (s o : HashSet ι) (hs : HashInv s) (ho : HashInv o) :
    s.Subset ord o
      = some (s.keys.all (fun i => decide (i ∈ o.keys)), decide (s.base.Sizeb ≠ o.base.Sizeb)) := by
  have hf : (fun item => (o.Contains [item]).getD false)
      = fun item => decide (item ∈ o.keys) := by
    funext item
    rw [HashSet_Contains_single o ho item]
    rfl
  have hn : (fun item => (o.Contains [item]).isNone) = fun _ => false := by
    funext item
    rw [HashSet_Contains_single o ho item]
    rfl
  simp only [HashSet.Subset, Base.CheckInit, hs.1, HashSet.Size, Base.Size, ho.1, hf, hn,
    HashSet_Map_eq ord s hs]
  simp
  rw [visitList_nil_all]
  exact perm_all_eq _ (hord s.keys)

theorem HashSet_Superset_eval {ι : Type} [DecidableEq ι] (ord : List ι → List ι)
    (hord : IterOrder ord) (s o : HashSet ι) (hs : HashInv s) (ho : HashInv o) :
    s.Superset ord o
      = some (o.keys.all (fun i => decide (i ∈ s.keys)), decide (s.base.Sizeb ≠ o.base.Sizeb)) := by
  have hf : (fun item => (s.Contains [item]).getD false)
      = fun item => decide (item ∈ s.keys) := by
    funext item
    rw [HashSet_Contains_single s hs item]
    rfl
  have hn : (fun item => (s.Contains [item]).isNone) = fun _ => false := by
    funext item
    rw [HashSet_Contains_single s hs item]
    rfl
  simp only [HashSet.Superset, Base.CheckInit, hs.1, HashSet.Size, Base.Size, ho.1, hf, hn,
    HashSet_Map_eq ord o ho]
  simp
  rw [visitList_nil_all]
  exact perm_all_eq _ (hord o.keys)

theorem HashSet_Equal_eval {ι : Type} [DecidableEq ι] (ord : List ι → List ι)
    (hord : IterOrder ord) (s o : HashSet ι) (hs : HashInv s) (ho : HashInv o) :
    s.Equal ord o
      = some (decide (s.base.Sizeb = o.base.Sizeb)
          && o.keys.all (fun i => decide (i ∈ s.keys))) := by
  by_cases hsz : s.base.Sizeb = o.base.Sizeb
  · simp only [HashSet.Equal, Base.CheckInit, hs.1, HashSet.Size, Base.Size, ho.1,
      HashSet_Map_eq ord o ho, Base.RLock, Base.RUnlock, hs.2.1]
    simp [hsz]
    rw [visitList_nil_all]
    exact perm_all_eq _ (hord o.keys)
  · simp only [HashSet.Equal, Base.CheckInit, hs.1, HashSet.Size, Base.Size, ho.1]
    simp [hsz]

theorem HashSet_keys_all_iff {ι : Type} [DecidableEq ι] (s o : HashSet ι) :
    s.keys.all (fun i => decide (i ∈ o.keys)) = true ↔ ∀ x, x ∈ s.keys → x ∈ o.keys := by
  simp [List.all_eq_true]

/-- For key lists without repetition of the same length, inclusion one way
gives inclusion the other way. -/
theorem HashSet_keys_superset {ι : Type} [DecidableEq ι] (s o : HashSet ι)
    (hs : HashInv s) (ho : HashInv o) (hsz : s.base.Sizeb = o.base.Sizeb)
    (h : ∀ x, x ∈ o.keys → x ∈ s.keys) : ∀ x, x ∈ s.keys → x ∈ o.keys := by
  obtain ⟨_, _, l, hm, hnd, hl⟩ := hs
  obtain ⟨_, _, l2, hm2, hnd2, hl2⟩ := ho
  simp only [HashSet.keys, hm, hm2, Option.getD_some] at h ⊢
  have hlen : l.length ≤ l2.length := by omega
  have hsub : l2.Subperm l := hnd2.subperm (fun x hx => h x hx)
  have hperm : l2.Perm l := hsub.perm_of_length_le hlen
  intro x hx
  exact hperm.mem_iff.2 hx

/-- Keys that are pairwise distinct and all occur in a list that is not longer
account for every key of that list. -/
theorem distinct_cover {cmp : α → α → Int} (hc : TotalCmp cmp) (l2 : List (α × Option β)) :
    ∀ l1 : List (α × Option β), l2.Pairwise (fun a b => cmp a.1 b.1 = -1) →
      l1.length ≤ l2.length → (∀ e ∈ l2, ∃ d ∈ l1, cmp e.1 d.1 = 0) →
      ∀ d ∈ l1, ∃ e ∈ l2, cmp d.1 e.1 = 0 := by
  induction l2 with
  | nil =>
    intro l1 _ hlen _ d hd
    have : l1 = [] := List.length_eq_zero.1 (Nat.le_zero.1 hlen)
    rw [this] at hd
    exact absurd hd (List.not_mem_nil d)
  | cons y ys ih =>
    intro l1 hasc hlen hcov d hd
    obtain ⟨d0, hd0, hyd0⟩ := hcov y (List.mem_cons_self _ _)
    obtain ⟨p, q, rfl⟩ := List.append_of_mem hd0
    rw [List.pairwise_cons] at hasc
    have hlen1 : (p ++ q).length ≤ ys.length := by
      simp only [List.length_append, List.length_cons] at hlen ⊢
      omega
    have hcov1 : ∀ e ∈ ys, ∃ d ∈ p ++ q, cmp e.1 d.1 = 0 := by
      intro e he
      obtain ⟨d1, hd1, hed1⟩ := hcov e (List.mem_cons_of_mem _ he)
      have hne : cmp y.1 e.1 = -1 := hasc.1 e he
      rcases List.mem_append.1 hd1 with h | h
      · exact ⟨d1, List.mem_append_left _ h, hed1⟩
      · rcases List.mem_cons.1 h with h | h
        · subst h
          have h1 : cmp y.1 e.1 = cmp y.1 d1.1 := hc.congr_right hed1 y.1
          rw [hyd0] at h1
          omega
        · exact ⟨d1, List.mem_append_right _ h, hed1⟩
    have hih := ih (p ++ q) hasc.2 hlen1 hcov1
    rcases List.mem_append.1 hd with h | h
    · obtain ⟨e, he, hde⟩ := hih d (List.mem_append_left _ h)
      exact ⟨e, List.mem_cons_of_mem _ he, hde⟩
    · rcases List.mem_cons.1 h with h | h
      · subst h
        exact ⟨y, List.mem_cons_self _ _, hc.eq_symm hyd0⟩
      · obtain ⟨e, he, hde⟩ := hih d (List.mem_append_right _ h)
        exact ⟨e, List.mem_cons_of_mem _ he, hde⟩

theorem TreeSet_has_iff_entry {cmp : α → α → Int} (s : TreeSet α) (hs : SetInv cmp s) (x : α) :
    s.has cmp x = true ↔ ∃ e ∈ s.entries, cmp x e.1 = 0 := by
  obtain ⟨_, _, m, hm, _, hall⟩ := hs
  simp only [TreeSet.has, TreeSet.entries, hm]
  exact assoc_isSome_iff _ hall

/-- For TreeSets whose size counters are exact and equal, inclusion one way
gives inclusion the other way. -/
theorem TreeSet_has_superset {cmp : α → α → Int} (hc : TotalCmp cmp) (s o : TreeSet α)
    (hs : SetInv cmp s) (ho : SetInv cmp o) (hss : SizeOk s) (hso : SizeOk o)
    (hsz : s.base.Sizeb = o.base.Sizeb)
    (h : ∀ x, o.has cmp x = true → s.has cmp x = true) :
    ∀ x, s.has cmp x = true → o.has cmp x = true := by
  have hasc : o.entries.Pairwise (fun a b => cmp a.1 b.1 = -1) := by
    obtain ⟨_, _, m, hm, hinv, _⟩ := ho
    simp only [TreeSet.entries, hm]
    exact hinv.2.1
  have hlen : s.entries.length ≤ o.entries.length := by
    simp only [SizeOk] at hss hso
    omega
  have hcov : ∀ e ∈ o.entries, ∃ d ∈ s.entries, cmp e.1 d.1 = 0 := by
    intro e he
    exact (TreeSet_has_iff_entry s hs e.1).1
      (h e.1 ((TreeSet_has_iff_entry o ho e.1).2 ⟨e, he, hc.refl e.1⟩))
  have hmain := distinct_cover hc o.entries s.entries hasc hlen hcov
  intro x hx
  obtain ⟨d, hd, hxd⟩ := (TreeSet_has_iff_entry s hs x).1 hx
  obtain ⟨e, he, hde⟩ := hmain d hd
  refine (TreeSet_has_iff_entry o ho x).2 ⟨e, he, ?_⟩
  rw [hc.congr_left hxd e.1]
  exact hde

theorem TreeSet_applyOps_inserts {cmp : α → α → Int} (hc : TotalCmp cmp)
    (calls : List (List α)) :
    ∀ s s1 : TreeSet α, SetInv cmp s → SizeOk s →
      TreeSet.applyOps cmp s (calls.map SetOp.insert) = some s1 → SetInv cmp s1 ∧ SizeOk s1 := by
  induction calls with
  | nil =>
    intro s s1 hs hz h
    simp only [List.map_nil, TreeSet.applyOps, Option.some.injEq] at h
    exact h ▸ ⟨hs, hz⟩
  | cons items calls ih =>
    intro s s1 hs hz h
    simp only [List.map_cons, TreeSet.applyOps, Option.bind_eq_some] at h
    obtain ⟨s2, h2, h3⟩ := h
    obtain ⟨s3, h4, h5, _, h6⟩ := TreeSet_Insert_spec hc s hs items
    simp only [TreeSet.applyOp, h4, Option.some.injEq] at h2
    subst h2
    exact ih s3 s1 h5 (h6 hz) h3

theorem TreeSet_Built_inv {cmp : α → α → Int} (hc : TotalCmp cmp) {s : TreeSet α}
    (h : TreeSet.Built cmp s) : SetInv cmp s ∧ SizeOk s := by
  obtain ⟨safe, items, calls, h1⟩ := h
  have h2 : (if safe = true then NewTreeSet cmp (items.map some)
      else NewTreeSetUnsafe cmp (items.map some)) = emptyTreeSet.Insert cmp (items.map some) := by
    cases safe <;> rfl
  rw [h2] at h1
  obtain ⟨s0, h3, h4, _, h5⟩ := TreeSet_Insert_spec hc emptyTreeSet (SetInv_empty cmp) items
  rw [h3] at h1
  simp only [Option.some_bind] at h1
  exact TreeSet_applyOps_inserts hc calls s0 s h4 (h5 SizeOk_empty) h1

theorem TreeSet_Built_new (cmp : α → α → Int) (items : List α) (s : TreeSet α)
    (h : NewTreeSet cmp (items.map some) = some s) : TreeSet.Built cmp s :=
  ⟨true, items, [], by simp [h, TreeSet.applyOps]⟩

theorem TreeSet_Subset_eq_Superset (cmp : α → α → Int) (a b : TreeSet α) :
    a.Subset cmp b = b.Superset cmp a := by
  rcases a with ⟨⟨ai, an, ath⟩, am⟩
  rcases b with ⟨⟨bi, bn, bth⟩, bm⟩
  have hd : decide (an = bn) = decide (bn = an) := decide_eq_decide.2 eq_comm
  cases ai <;> cases bi <;>
    simp [TreeSet.Subset, TreeSet.Superset, Base.CheckInit, TreeSet.Size, Base.Size, hd]

/-- Keys that are pairwise distinct and all occur in another list are not more
than the entries of that list. -/
theorem distinct_length_le {cmp : α → α → Int} (hc : TotalCmp cmp) (l2 : List (α × Option β)) :
    ∀ l1 : List (α × Option β), l2.Pairwise (fun a b => cmp a.1 b.1 = -1) →
      (∀ e ∈ l2, ∃ d ∈ l1, cmp e.1 d.1 = 0) → l2.length ≤ l1.length := by
  induction l2 with
  | nil => intro l1 _ _; exact Nat.zero_le _
  | cons y ys ih =>
    intro l1 hasc hcov
    obtain ⟨d0, hd0, hyd0⟩ := hcov y (List.mem_cons_self _ _)
    obtain ⟨p, q, rfl⟩ := List.append_of_mem hd0
    rw [List.pairwise_cons] at hasc
    have hcov1 : ∀ e ∈ ys, ∃ d ∈ p ++ q, cmp e.1 d.1 = 0 := by
      intro e he
      obtain ⟨d1, hd1, hed1⟩ := hcov e (List.mem_cons_of_mem _ he)
      have hne : cmp y.1 e.1 = -1 := hasc.1 e he
      rcases List.mem_append.1 hd1 with h | h
      · exact ⟨d1, List.mem_append_left _ h, hed1⟩
      · rcases List.mem_cons.1 h with h | h
        · subst h
          have h1 : cmp y.1 e.1 = cmp y.1 d1.1 := hc.congr_right hed1 y.1
          rw [hyd0] at h1
          omega
        · exact ⟨d1, List.mem_append_right _ h, hed1⟩
    have hih := ih (p ++ q) hasc.2 hcov1
    simp only [List.length_append, List.length_cons] at hih ⊢
    omega

theorem TreeSet_size_le_of_has {cmp : α → α → Int} (hc : TotalCmp cmp) (s o : TreeSet α)
    (hs : SetInv cmp s) (ho : SetInv cmp o) (hss : SizeOk s) (hso : SizeOk o)
    (h : ∀ x, o.has cmp x = true → s.has cmp x = true) : o.base.Sizeb ≤ s.base.Sizeb := by
  have hasc : o.entries.Pairwise (fun a b => cmp a.1 b.1 = -1) := by
    obtain ⟨_, _, m, hm, hinv, _⟩ := ho
    simp only [TreeSet.entries, hm]
    exact hinv.2.1
  have hcov : ∀ e ∈ o.entries, ∃ d ∈ s.entries, cmp e.1 d.1 = 0 := by
    intro e he
    exact (TreeSet_has_iff_entry s hs e.1).1
      (h e.1 ((TreeSet_has_iff_entry o ho e.1).2 ⟨e, he, hc.refl e.1⟩))
  have := distinct_length_le hc o.entries s.entries hasc hcov
  simp only [SizeOk] at hss hso
  omega

/-- What `Equal` returns on two TreeSets whose size counters are exact. -/
theorem TreeSet_Equal_iff {cmp : α → α → Int} (hc : TotalCmp cmp) (a b : TreeSet α)
    (ha : SetInv cmp a) (hb : SetInv cmp b) (hza : SizeOk a) (hzb : SizeOk b) :
    ∃ r, a.Equal cmp b = some r ∧ (r = true ↔ ∀ x, a.has cmp x = b.has cmp x) := by
  refine ⟨_, TreeSet_Equal_eval hc a b ha hb, ?_⟩
  rw [Bool.and_eq_true, decide_eq_true_eq, TreeSet_keys_all_iff hc b a hb]
  constructor
  · rintro ⟨hsz, hsub⟩ x
    rw [Bool.eq_iff_iff]
    exact ⟨TreeSet_has_superset hc a b ha hb hza hzb hsz hsub x, hsub x⟩
  · intro h
    refine ⟨?_, fun x hx => (h x).symm ▸ hx⟩
    have h1 := TreeSet_size_le_of_has hc a b ha hb hza hzb (fun x hx => (h x).symm ▸ hx)
    have h2 := TreeSet_size_le_of_has hc b a hb ha hzb hza (fun x hx => (h x) ▸ hx)
    omega

/-- What `Equal` returns on two HashSets. -/
theorem HashSet_Equal_iff {ι : Type} [DecidableEq ι] (ord : List ι → List ι)
    (hord : IterOrder ord) (a b : HashSet ι) (ha : HashInv a) (hb : HashInv b) :
    ∃ r, a.Equal ord b = some r ∧ (r = true ↔ ∀ x, x ∈ a.keys ↔ x ∈ b.keys) := by
  refine ⟨_, HashSet_Equal_eval ord hord a b ha hb, ?_⟩
  rw [Bool.and_eq_true, decide_eq_true_eq, HashSet_keys_all_iff]
  constructor
  · rintro ⟨hsz, hsub⟩ x
    exact ⟨HashSet_keys_superset a b ha hb hsz hsub x, hsub x⟩
  · intro h
    refine ⟨?_, fun x hx => (h x).2 hx⟩
    obtain ⟨_, _, l, hm, hnd, hl⟩ := ha
    obtain ⟨_, _, l2, hm2, hnd2, hl2⟩ := hb
    simp only [HashSet.keys, hm, hm2, Option.getD_some] at h
    have := ((List.perm_ext_iff_of_nodup hnd hnd2).2 h).length_eq
    omega

/-- C22 amended: for two TreeSets built by insertions only, and for two
reachable HashSets over items on which `==` is the equality of values,
`a.Equal(b)` returns true exactly when every item is a member of `a` exactly
when it is a member of `b`; `b.Equal(a)` returns the same, whatever the order
of iteration; so it is false when some item is a member of one set only, as
when one is a proper subset of the other. -/
theorem C22_equal_same_members {cmp : α → α → Int} (hc : TotalCmp cmp) (a b : TreeSet α)
    (ha : TreeSet.Built cmp a) (hb : TreeSet.Built cmp b)
    {ι : Type} [DecidableEq ι] (ord1 ord2 : List ι → List ι) (hord1 : IterOrder ord1)
    (hord2 : IterOrder ord2)
    (a1 b1 : HashSet ι) (ha1 : HashSet.Reachable a1) (hb1 : HashSet.Reachable b1) :
    (∃ r, a.Equal cmp b = some r ∧ b.Equal cmp a = some r ∧
      (r = true ↔ ∀ x, a.Contains cmp [some x] = b.Contains cmp [some x]) ∧
      ((∃ y, a.Contains cmp [some y] ≠ b.Contains cmp [some y]) → r = false)) ∧
    (∃ r, a1.Equal ord1 b1 = some r ∧ b1.Equal ord2 a1 = some r ∧
      (r = true ↔ ∀ x, a1.Contains [x] = b1.Contains [x]) ∧
      ((∃ y, a1.Contains [y] ≠ b1.Contains [y]) → r = false)) := by
  constructor
  · obtain ⟨hia, hza⟩ := TreeSet_Built_inv hc ha
    obtain ⟨hib, hzb⟩ := TreeSet_Built_inv hc hb
    obtain ⟨r, h1, h2⟩ := TreeSet_Equal_iff hc a b hia hib hza hzb
    obtain ⟨r2, h3, h4⟩ := TreeSet_Equal_iff hc b a hib hia hzb hza
    have hrr : r2 = r := by
      rw [Bool.eq_iff_iff, h2, h4]
      exact ⟨fun h x => (h x).symm, fun h x => (h x).symm⟩
    have hiff : r = true ↔ ∀ x, a.Contains cmp [some x] = b.Contains cmp [some x] := by
      rw [h2]
      simp only [TreeSet_Contains_single hc a hia, TreeSet_Contains_single hc b hib,
        Option.some.injEq]
    refine ⟨r, h1, hrr ▸ h3, hiff, ?_⟩
    rintro ⟨y, hy⟩
    cases hr : r with
    | false => rfl
    | true => exact absurd (hiff.1 hr y) hy
  · have hia := HashSet_Reachable_inv ha1
    have hib := HashSet_Reachable_inv hb1
    obtain ⟨r, h1, h2⟩ := HashSet_Equal_iff ord1 hord1 a1 b1 hia hib
    obtain ⟨r2, h3, h4⟩ := HashSet_Equal_iff ord2 hord2 b1 a1 hib hia
    have hrr : r2 = r := by
      rw [Bool.eq_iff_iff, h2, h4]
      exact ⟨fun h x => (h x).symm, fun h x => (h x).symm⟩
    have hiff : r = true ↔ ∀ x, a1.Contains [x] = b1.Contains [x] := by
      rw [h2]
      simp only [HashSet_Contains_single a1 hia, HashSet_Contains_single b1 hib,
        Option.some.injEq, decide_eq_decide]
    refine ⟨r, h1, hrr ▸ h3, hiff, ?_⟩
    rintro ⟨y, hy⟩
    cases hr : r with
    | false => rfl
    | true => exact absurd (hiff.1 hr y) hy

set_option maxRecDepth 20000 in
theorem C22_equal_same_members_witness :
    TotalCmp compInt ∧ IterOrder (fun l : List Int => l.reverse) ∧
    TreeSet.Built compInt (treeSetOf 1 (leaf 1)) ∧
    TreeSet.Built compInt (treeSetOf 2 (node.mk 1 (some true) 1 node.nil (leaf 2))) ∧
    HashSet.Reachable (HashSet.mk (Base.mk true 1 false) (some [(1 : Int)])) ∧
    HashSet.Reachable (HashSet.mk (Base.mk true 2 false) (some [(1 : Int), 2])) ∧
    (∃ r, (treeSetOf 1 (leaf 1)).Equal compInt
        (treeSetOf 2 (node.mk 1 (some true) 1 node.nil (leaf 2))) = some r ∧
      (treeSetOf 2 (node.mk 1 (some true) 1 node.nil (leaf 2))).Equal compInt
        (treeSetOf 1 (leaf 1)) = some r ∧
      (r = true ↔ ∀ x, (treeSetOf 1 (leaf 1)).Contains compInt [some x]
        = (treeSetOf 2 (node.mk 1 (some true) 1 node.nil (leaf 2))).Contains compInt [some x]) ∧
      ((∃ y, (treeSetOf 1 (leaf 1)).Contains compInt [some y]
        ≠ (treeSetOf 2 (node.mk 1 (some true) 1 node.nil (leaf 2))).Contains compInt [some y])
        → r = false)) :=
  ⟨compInt_total, fun l => List.reverse_perm l,
    TreeSet_Built_new compInt [1] _ (by decide),
    TreeSet_Built_new compInt [1, 2] _ (by decide),
    HashSet_Reachable_new [1] _ (by decide), HashSet_Reachable_new [1, 2] _ (by decide),
    (C22_equal_same_members compInt_total (treeSetOf 1 (leaf 1))
      (treeSetOf 2 (node.mk 1 (some true) 1 node.nil (leaf 2)))
      (TreeSet_Built_new compInt [1] _ (by decide))
      (TreeSet_Built_new compInt [1, 2] _ (by decide))
      (fun l => l.reverse) (fun l => l) (fun l => List.reverse_perm l) (fun l => List.Perm.refl l)
      (HashSet.mk (Base.mk true 1 false) (some [(1 : Int)]))
      (HashSet.mk (Base.mk true 2 false) (some [(1 : Int), 2]))
      (HashSet_Reachable_new [1] _ (by decide)) (HashSet_Reachable_new [1, 2] _ (by decide))).1⟩

/-- C23 amended: for a TreeSet, and for a HashSet over items on which `==` is
the equality of values, reachable by Insert, Remove and Clear calls,
`a.Equal(a)` returns true. -/
theorem C23_equal_reflexive {cmp : α → α → Int} (hc : TotalCmp cmp) (a : TreeSet α)
    (ha : TreeSet.Reachable cmp a)
    {ι : Type} [DecidableEq ι] (ord : List ι → List ι) (hord : IterOrder ord)
    (a1 : HashSet ι) (ha1 : HashSet.Reachable a1) :
    a.Equal cmp a = some true ∧ a1.Equal ord a1 = some true := by
  constructor
  · have hia := TreeSet_Reachable_inv hc ha
    rw [TreeSet_Equal_eval hc a a hia hia]
    have h : a.keysPre.all (fun i => a.has cmp i) = true :=
      (TreeSet_keys_all_iff hc a a hia).2 (fun _ hx => hx)
    simp [h]
  · have hia := HashSet_Reachable_inv ha1
    rw [HashSet_Equal_eval ord hord a1 a1 hia hia]
    have h : a1.keys.all (fun i => decide (i ∈ a1.keys)) = true :=
      (HashSet_keys_all_iff a1 a1).2 (fun _ hx => hx)
    simp [h]


set_option maxRecDepth 20000 in
theorem C23_equal_reflexive_witness :
    TotalCmp compInt ∧ IterOrder (fun l : List Int => l.reverse) ∧
    TreeSet.Reachable compInt (treeSetOf 2 (leaf 3)) ∧
    HashSet.Reachable (HashSet.mk (Base.mk true 2 false) (some [(1 : Int), 3])) ∧
    (treeSetOf 2 (leaf 3)).Equal compInt (treeSetOf 2 (leaf 3)) = some true ∧
    (HashSet.mk (Base.mk true 2 false) (some [(1 : Int), 3])).Equal (fun l => l.reverse)
      (HashSet.mk (Base.mk true 2 false) (some [(1 : Int), 3])) = some true :=
  ⟨compInt_total, fun l => List.reverse_perm l,
    ⟨true, [2, 1, 3], [SetOp.remove [2]], by decide⟩,
    ⟨true, [1, 2, 3], [SetOp.remove [2]], by decide⟩,
    C23_equal_reflexive compInt_total (treeSetOf 2 (leaf 3))
      ⟨true, [2, 1, 3], [SetOp.remove [2]], by decide⟩
      (fun l => l.reverse) (fun l => List.reverse_perm l)
      (HashSet.mk (Base.mk true 2 false) (some [(1 : Int), 3]))
      ⟨true, [1, 2, 3], [SetOp.remove [2]], by decide⟩⟩

set_option maxRecDepth 20000 in
/-- C24 amended: for two reachable TreeSets, and for two reachable HashSets
over items on which `==` is the equality of values,
`s.Subset(o)` returns a pair whose first component is true exactly when every
member of `s` is a member of `o`, and whose second component is true exactly
when `s.Size()` and `o.Size()` differ, whatever the first component is;
`s.Subset(s)` returns (true, false); {1,2,3}.Subset({2}) returns (false, true)
and {2}.Subset({1,2,3}) returns (true, true). -/
theorem C24_subset_pair {cmp : α → α → Int} (hc : TotalCmp cmp) (s o : TreeSet α)
    (hs : TreeSet.Reachable cmp s) (ho : TreeSet.Reachable cmp o)
    {ι : Type} [DecidableEq ι] (ord : List ι → List ι) (hord : IterOrder ord)
    (s1 o1 : HashSet ι) (hs1 : HashSet.Reachable s1) (ho1 : HashSet.Reachable o1) :
    (∃ sub ns no, s.Subset cmp o = some (sub, decide (ns ≠ no)) ∧
      s.Size = some ns ∧ o.Size = some no ∧
      (sub = true ↔
        ∀ x, s.Contains cmp [some x] = some true → o.Contains cmp [some x] = some true)) ∧
    s.Subset cmp s = some (true, false) ∧
    (∃ sub ns no, s1.Subset ord o1 = some (sub, decide (ns ≠ no)) ∧
      s1.Size = some ns ∧ o1.Size = some no ∧
      (sub = true ↔ ∀ x, s1.Contains [x] = some true → o1.Contains [x] = some true)) ∧
    s1.Subset ord s1 = some (true, false) ∧
    (NewTreeSet compInt [some 1, some 2, some 3]
        = some (treeSetOf 3 (node.mk 1 (some true) 2 node.nil
            (node.mk 2 (some true) 1 node.nil (leaf 3)))) ∧
      NewTreeSet compInt [some 2] = some (treeSetOf 1 (leaf 2)) ∧
      (treeSetOf 3 (node.mk 1 (some true) 2 node.nil
          (node.mk 2 (some true) 1 node.nil (leaf 3)))).Subset compInt (treeSetOf 1 (leaf 2))
        = some (false, true) ∧
      (treeSetOf 1 (leaf 2)).Subset compInt (treeSetOf 3 (node.mk 1 (some true) 2 node.nil
          (node.mk 2 (some true) 1 node.nil (leaf 3)))) = some (true, true)) ∧
    (∀ ordI : List Int → List Int, IterOrder ordI →
      NewHashSet [(1 : Int), 2, 3] = some (HashSet.mk (Base.mk true 3 false) (some [1, 2, 3])) ∧
      NewHashSet [(2 : Int)] = some (HashSet.mk (Base.mk true 1 false) (some [2])) ∧
      (HashSet.mk (Base.mk true 3 false) (some [(1 : Int), 2, 3])).Subset ordI
        (HashSet.mk (Base.mk true 1 false) (some [2])) = some (false, true) ∧
      (HashSet.mk (Base.mk true 1 false) (some [(2 : Int)])).Subset ordI
        (HashSet.mk (Base.mk true 3 false) (some [1, 2, 3])) = some (true, true)) := by
  have hia := TreeSet_Reachable_inv hc hs
  have hib := TreeSet_Reachable_inv hc ho
  have hja := HashSet_Reachable_inv hs1
  have hjb := HashSet_Reachable_inv ho1
  refine ⟨?_, ?_, ?_, ?_, ?_, ?_⟩
  · refine ⟨_, s.base.Sizeb, o.base.Sizeb, TreeSet_Subset_eval hc s o hia hib, ?_, ?_, ?_⟩
    · simp [TreeSet.Size, Base.Size, hia.1]
    · simp [TreeSet.Size, Base.Size, hib.1]
    · rw [TreeSet_keys_all_iff hc s o hia]
      simp only [TreeSet_Contains_single hc s hia, TreeSet_Contains_single hc o hib,
        Option.some.injEq]
  · rw [TreeSet_Subset_eval hc s s hia hia]
    have h : s.keysPre.all (fun i => s.has cmp i) = true :=
      (TreeSet_keys_all_iff hc s s hia).2 (fun _ hx => hx)
    simp [h]
  · refine ⟨_, s1.base.Sizeb, o1.base.Sizeb, HashSet_Subset_eval ord hord s1 o1 hja hjb,
      ?_, ?_, ?_⟩
    · simp [HashSet.Size, Base.Size, hja.1]
    · simp [HashSet.Size, Base.Size, hjb.1]
    · rw [HashSet_keys_all_iff]
      simp only [HashSet_Contains_single s1 hja, HashSet_Contains_single o1 hjb,
        Option.some.injEq, decide_eq_true_eq]
  · rw [HashSet_Subset_eval ord hord s1 s1 hja hja]
    have h : s1.keys.all (fun i => decide (i ∈ s1.keys)) = true :=
      (HashSet_keys_all_iff s1 s1).2 (fun _ hx => hx)
    simp [h]
  · have h123 : SetInv compInt (treeSetOf 3 (node.mk 1 (some true) 2 node.nil
        (node.mk 2 (some true) 1 node.nil (leaf 3)))) :=
      TreeSet_Reachable_inv compInt_total (TreeSet_Reachable_new compInt [1, 2, 3] _ (by decide))
    have h2 : SetInv compInt (treeSetOf 1 (leaf 2)) :=
      TreeSet_Reachable_inv compInt_total (TreeSet_Reachable_new compInt [2] _ (by decide))
    refine ⟨by decide, by decide, ?_, ?_⟩
    · rw [TreeSet_Subset_eval compInt_total _ _ h123 h2]
      decide
    · rw [TreeSet_Subset_eval compInt_total _ _ h2 h123]
      decide
  · intro ordI hordI
    have h123 : HashInv (HashSet.mk (Base.mk true 3 false) (some [(1 : Int), 2, 3])) :=
      HashSet_Reachable_inv (HashSet_Reachable_new [(1 : Int), 2, 3] _ (by decide))
    have h2 : HashInv (HashSet.mk (Base.mk true 1 false) (some [(2 : Int)])) :=
      HashSet_Reachable_inv (HashSet_Reachable_new [(2 : Int)] _ (by decide))
    refine ⟨by decide, by decide, ?_, ?_⟩
    · rw [HashSet_Subset_eval ordI hordI _ _ h123 h2]
      decide
    · rw [HashSet_Subset_eval ordI hordI _ _ h2 h123]
      decide

set_option maxRecDepth 20000 in
theorem C24_subset_pair_witness :
    TotalCmp compInt ∧ IterOrder (fun l : List Int => l.reverse) ∧
    TreeSet.Reachable compInt (treeSetOf 2 (leaf 3)) ∧
    TreeSet.Reachable compInt (treeSetOf 1 (leaf 7)) ∧
    HashSet.Reachable (HashSet.mk (Base.mk true 1 false) (some [(1 : Int)])) ∧
    HashSet.Reachable (HashSet.mk (Base.mk true 1 false) (some [(7 : Int)])) ∧
    (∃ sub ns no, (treeSetOf 2 (leaf 3)).Subset compInt (treeSetOf 1 (leaf 7))
        = some (sub, decide (ns ≠ no)) ∧
      (treeSetOf 2 (leaf (3 : Int))).Size = some ns ∧
      (treeSetOf 1 (leaf (7 : Int))).Size = some no ∧
      (sub = true ↔
        ∀ x, (treeSetOf 2 (leaf 3)).Contains compInt [some x] = some true →
          (treeSetOf 1 (leaf 7)).Contains compInt [some x] = some true)) ∧
    (treeSetOf 2 (leaf 3)).Subset compInt (treeSetOf 2 (leaf 3)) = some (true, false) :=
  ⟨compInt_total, fun l => List.reverse_perm l,
    ⟨true, [2, 1, 3], [SetOp.remove [2]], by decide⟩,
    TreeSet_Reachable_new compInt [7] _ (by decide),
    HashSet_Reachable_new [1] _ (by decide), HashSet_Reachable_new [7] _ (by decide),
    (C24_subset_pair compInt_total (treeSetOf 2 (leaf 3)) (treeSetOf 1 (leaf 7))
      ⟨true, [2, 1, 3], [SetOp.remove [2]], by decide⟩
      (TreeSet_Reachable_new compInt [7] _ (by decide))
      (fun l => l.reverse) (fun l => List.reverse_perm l)
      (HashSet.mk (Base.mk true 1 false) (some [(1 : Int)]))
      (HashSet.mk (Base.mk true 1 false) (some [(7 : Int)]))
      (HashSet_Reachable_new [1] _ (by decide)) (HashSet_Reachable_new [7] _ (by decide))).1,
    (C24_subset_pair compInt_total (treeSetOf 2 (leaf 3)) (treeSetOf 1 (leaf 7))
      ⟨true, [2, 1, 3], [SetOp.remove [2]], by decide⟩
      (TreeSet_Reachable_new compInt [7] _ (by decide))
      (fun l => l.reverse) (fun l => List.reverse_perm l)
      (HashSet.mk (Base.mk true 1 false) (some [(1 : Int)]))
      (HashSet.mk (Base.mk true 1 false) (some [(7 : Int)]))
      (HashSet_Reachable_new [1] _ (by decide)) (HashSet_Reachable_new [7] _ (by decide))).2.1⟩

/-! ## Difference -/

theorem TreeSet_Remove_one {cmp : α → α → Int} (hc : TotalCmp cmp) (s : TreeSet α)
    (hs : SetInv cmp s) (i : α) :
    ∃ s1, s.Remove cmp [some i] = some s1 ∧ SetInv cmp s1 ∧ s1.has cmp i = false ∧
      ∀ x, s1.has cmp x = true → s.has cmp x = true := by
  obtain ⟨hi, ht, m, hm, hinv, hall⟩ := hs
  have hs0 : SetInv cmp s := ⟨hi, ht, m, hm, hinv, hall⟩
  obtain ⟨m1, r, h1, hinv1, A, B, hA, hB, hcase⟩ := Remove_spec hc m hinv i
  have hsub : ∀ e ∈ inorder m1.root, e ∈ inorder m.root ∧ cmp i e.1 ≠ 0 := by
    intro e he
    rcases hcase with ⟨h3, rfl, _⟩ | ⟨k0, v0, _, h3, _, h4, _⟩
    · exact ⟨he, mem_split_bounds hA hB e (h3 ▸ he)⟩
    · have he1 : e ∈ A ++ B := h4.subset he
      refine ⟨?_, mem_split_bounds hA hB e he1⟩
      rw [h3]
      rcases List.mem_append.1 he1 with h | h
      · exact List.mem_append_left _ h
      · exact List.mem_append_right _ (List.mem_cons_of_mem _ h)
  have hs1 : SetInv cmp (TreeSet.mk (Base.mk s.base.init
      (if r.isSome then s.base.Sizeb - 1 else s.base.Sizeb) s.base.threadsafe) (some m1)) :=
    ⟨hi, ht, m1, rfl, hinv1, fun e he => hall e (hsub e he).1⟩
  refine ⟨_, ?_, hs1, ?_, ?_⟩
  · simp [TreeSet.Remove, Base.CheckInit, hi, TreeSet.removeItems, hm, h1]
  · simp only [TreeSet.has, TreeSet.entries]
    rw [assoc_none _ (fun e he => (hsub e he).2)]
    rfl
  · intro x hx
    obtain ⟨e, he, hxe⟩ := (TreeSet_has_iff_entry _ hs1 x).1 hx
    refine (TreeSet_has_iff_entry s hs0 x).2 ⟨e, ?_, hxe⟩
    simp only [TreeSet.entries, hm]
    exact (hsub e he).1

theorem TreeSet_removeEach_spec {cmp : α → α → Int} (hc : TotalCmp cmp) (items : List α) :
    ∀ r : TreeSet α, SetInv cmp r →
      ∃ r1, TreeSet.removeEach cmp r items = some r1 ∧ SetInv cmp r1 ∧
        (∀ i ∈ items, r1.has cmp i = false) ∧
        ∀ x, r1.has cmp x = true → r.has cmp x = true := by
  induction items with
  | nil =>
    intro r hr
    exact ⟨r, rfl, hr, fun i hi => absurd hi (List.not_mem_nil i), fun _ hx => hx⟩
  | cons i items ih =>
    intro r hr
    obtain ⟨r1, h1, h2, h3, h4⟩ := TreeSet_Remove_one hc r hr i
    obtain ⟨r2, h5, h6, h7, h8⟩ := ih r1 h2
    refine ⟨r2, by simp [TreeSet.removeEach, h1, h5], h6, ?_, fun x hx => h4 x (h8 x hx)⟩
    intro j hj
    rcases List.mem_cons.1 hj with rfl | hj
    · cases hh : r2.has cmp j with
      | false => rfl
      | true =>
        have h9 := h8 j hh
        rw [h3] at h9
        exact absurd h9 (by simp)
    · exact h7 j hj


theorem TreeSet_Difference_spec {cmp : α → α → Int} (hc : TotalCmp cmp) (a b : TreeSet α)
    (ha : SetInv cmp a) (hb : SetInv cmp b) :
    ∃ d, a.Difference cmp b = some d ∧ SetInv cmp d ∧
      ∀ x, d.has cmp x = true → a.has cmp x = true ∧ b.has cmp x = false := by
  obtain ⟨c, h1, h2, _, h4⟩ := TreeSet_Copy_spec hc a ha
  obtain ⟨d, h5, h6, h7, h8⟩ := TreeSet_removeEach_spec hc b.keysPre c h2
  refine ⟨d, ?_, h6, ?_⟩
  · simp [TreeSet.Difference, Base.CheckInit, ha.1, h1, TreeSet_Map_true b hb, h5]
  · intro x hx
    refine ⟨(h4 x) ▸ h8 x hx, ?_⟩
    cases hbx : b.has cmp x with
    | false => rfl
    | true =>
      obtain ⟨i, hi, hix⟩ := (TreeSet_has_iff hc b hb x).1 hbx
      have h9 := h7 i hi
      rw [TreeSet_has_congr hc d hix, hx] at h9
      exact absurd h9 (by simp)

theorem TreeSet_no_member {cmp : α → α → Int} (hc : TotalCmp cmp) (u : TreeSet α)
    (hu : SetInv cmp u) (hz : SizeOk u) (h : ∀ x, u.has cmp x = false) :
    u.entries = [] ∧ u.keysPre = [] ∧ u.base.Sizeb = 0 := by
  have he : u.entries = [] := by
    rw [List.eq_nil_iff_forall_not_mem]
    intro e he
    have := (TreeSet_has_iff_entry u hu e.1).2 ⟨e, he, hc.refl e.1⟩
    rw [h e.1] at this
    exact absurd this (by simp)
  refine ⟨he, ?_, ?_⟩
  · obtain ⟨_, _, m, hm, _, _⟩ := hu
    simp only [TreeSet.entries, hm] at he
    simp only [TreeSet.keysPre, hm]
    have := preorder_length m.root
    rw [he, List.length_nil] at this
    rw [List.length_eq_zero.1 this]
    rfl
  · simp only [SizeOk, he, List.length_nil] at hz
    simpa using hz

theorem HashSet_Remove_one {ι : Type} [DecidableEq ι] (s : HashSet ι) (hs : HashInv s) (i : ι) :
    ∃ s1, s.Remove [i] = some s1 ∧ HashInv s1 ∧ ∀ x, x ∈ s1.keys ↔ x ∈ s.keys ∧ x ≠ i := by
  have hinv := HashSet_removeItems_inv [i] s hs
  obtain ⟨hi, ht, l, hm, hnd, hsz⟩ := hs
  refine ⟨HashSet.removeItems s [i], by simp [HashSet.Remove, Base.CheckInit, hi], hinv, ?_⟩
  intro x
  by_cases hmem : i ∈ l
  · have hc : l.contains i = true := by simpa using hmem
    simp only [HashSet.removeItems, hm, hc, if_true, HashSet.keys, Option.getD_some]
    rw [hnd.mem_erase_iff, and_comm]
  · have hc : l.contains i = false := by simpa using hmem
    simp only [HashSet.removeItems, hm, hc, Bool.false_eq_true, if_false, HashSet.keys,
      Option.getD_some]
    constructor
    · intro hx
      exact ⟨hx, fun h => hmem (h ▸ hx)⟩
    · exact fun h => h.1

theorem HashSet_removeEach_spec {ι : Type} [DecidableEq ι] (items : List ι) :
    ∀ r : HashSet ι, HashInv r →
      ∃ r1, HashSet.removeEach r items = some r1 ∧ HashInv r1 ∧
        ∀ x, x ∈ r1.keys ↔ x ∈ r.keys ∧ x ∉ items := by
  induction items with
  | nil =>
    intro r hr
    exact ⟨r, rfl, hr, by simp⟩
  | cons i items ih =>
    intro r hr
    obtain ⟨r1, h1, h2, h3⟩ := HashSet_Remove_one r hr i
    obtain ⟨r2, h5, h6, h7⟩ := ih r1 h2
    refine ⟨r2, by simp [HashSet.removeEach, h1, h5], h6, ?_⟩
    intro x
    rw [h7 x, h3 x]
    simp only [List.mem_cons, not_or]
    tauto

theorem HashSet_Difference_spec {ι : Type} [DecidableEq ι] (ord : List ι → List ι)
    (hord : IterOrder ord) (a b : HashSet ι) (ha : HashInv a) (hb : HashInv b) :
    ∃ d, a.Difference ord b = some d ∧ HashInv d ∧
      ∀ x, x ∈ d.keys ↔ x ∈ a.keys ∧ x ∉ b.keys := by
  obtain ⟨c, h1, h2, h3⟩ := HashSet_Copy_spec ord hord a ha
  obtain ⟨d, h5, h6, h7⟩ := HashSet_removeEach_spec (ord b.keys) c h2
  refine ⟨d, ?_, h6, ?_⟩
  · simp [HashSet.Difference, Base.CheckInit, ha.1, h1, HashSet_Map_true ord b hb, h5]
  · intro x
    rw [h7 x, h3 x, (hord b.keys).mem_iff]

set_option maxRecDepth 20000 in
/-- C21 amended: for two reachable TreeSets, and for two reachable HashSets
over items on which `==` is the equality of values, `a.Difference(b)` returns
a set `d` and `d.Intersection(b)` returns a set that is empty: `Contains` is
false for every item, `Slice` is empty, `Size()` is 0 and `Empty()` is true. -/
theorem C21_difference_intersection_empty {cmp : α → α → Int} (hc : TotalCmp cmp)
    (a b : TreeSet α) (ha : TreeSet.Reachable cmp a) (hb : TreeSet.Reachable cmp b)
    {ι : Type} [DecidableEq ι] (ord1 ord2 : List ι → List ι) (hord1 : IterOrder ord1)
    (hord2 : IterOrder ord2)
    (a1 b1 : HashSet ι) (ha1 : HashSet.Reachable a1) (hb1 : HashSet.Reachable b1) :
    (∃ d u, a.Difference cmp b = some d ∧ d.Intersection cmp b = some u ∧
      (∀ x, u.Contains cmp [some x] = some false) ∧ u.Slice = some [] ∧
      u.Size = some 0 ∧ u.Empty = some true) ∧
    (∃ d u, a1.Difference ord1 b1 = some d ∧ d.Intersection ord2 b1 = some u ∧
      (∀ x, u.Contains [x] = some false) ∧ u.Slice ord2 = some [] ∧
      u.Size = some 0 ∧ u.Empty = some true) := by
  constructor
  · have hia := TreeSet_Reachable_inv hc ha
    have hib := TreeSet_Reachable_inv hc hb
    obtain ⟨d, h1, h2, h3⟩ := TreeSet_Difference_spec hc a b hia hib
    obtain ⟨u, h4, h5, h6, h7⟩ := TreeSet_Intersection_spec hc d b h2 hib
    have hno : ∀ x, u.has cmp x = false := by
      intro x
      rw [h7 x]
      cases hd : d.has cmp x with
      | false => rfl
      | true => rw [(h3 x hd).2]; rfl
    obtain ⟨_, h8, h9⟩ := TreeSet_no_member hc u h5 h6 hno
    refine ⟨d, u, h1, h4, ?_, ?_, ?_, ?_⟩
    · intro x
      rw [TreeSet_Contains_single hc u h5 x, hno x]
    · rw [TreeSet_Slice_eq u h5, h8]
    · simp [TreeSet.Size, Base.Size, h5.1, h9]
    · simp [TreeSet.Empty, Base.Empty, h5.1, h9]
  · have hia := HashSet_Reachable_inv ha1
    have hib := HashSet_Reachable_inv hb1
    obtain ⟨d, h1, h2, h3⟩ := HashSet_Difference_spec ord1 hord1 a1 b1 hia hib
    obtain ⟨u, h4, h5, h6⟩ := HashSet_Intersection_spec ord2 hord2 d b1 h2 hib
    have hno : ∀ x, x ∉ u.keys := by
      intro x hx
      have := (h6 x).1 hx
      exact ((h3 x).1 this.1).2 this.2
    have hnil : u.keys = [] := List.eq_nil_iff_forall_not_mem.2 hno
    have hsz := HashSet_Size_eq u h5
    rw [hnil] at hsz
    refine ⟨d, u, h1, h4, ?_, ?_, hsz, ?_⟩
    · intro x
      rw [HashSet_Contains_single u h5 x, hnil]
      simp
    · have := hord2 u.keys
      rw [hnil] at this
      rw [HashSet_Slice_eq ord2 u h5, hnil, List.Perm.eq_nil this]
    · simp only [HashSet.Size, Base.Size, h5.1, Bool.not_true, Bool.false_eq_true, if_false,
        List.length_nil, Nat.cast_zero, Option.some.injEq] at hsz
      simp [HashSet.Empty, Base.Empty, h5.1, hsz]

set_option maxRecDepth 20000 in
theorem C21_difference_intersection_empty_witness :
    TotalCmp compInt ∧ IterOrder (fun l : List Int => l.reverse) ∧
    TreeSet.Reachable compInt (treeSetOf 3 (node.mk 2 (some true) 1 (leaf 1) (leaf 3))) ∧
    TreeSet.Reachable compInt (treeSetOf 1 (leaf 2)) ∧
    HashSet.Reachable (HashSet.mk (Base.mk true 3 false) (some [(1 : Int), 2, 3])) ∧
    HashSet.Reachable (HashSet.mk (Base.mk true 1 false) (some [(2 : Int)])) ∧
    (∃ d u, (treeSetOf 3 (node.mk 2 (some true) 1 (leaf 1) (leaf 3))).Difference compInt
        (treeSetOf 1 (leaf 2)) = some d ∧
      d.Intersection compInt (treeSetOf 1 (leaf 2)) = some u ∧
      (∀ x, u.Contains compInt [some x] = some false) ∧ u.Slice = some [] ∧
      u.Size = some 0 ∧ u.Empty = some true) ∧
    (∃ d u, (HashSet.mk (Base.mk true 3 false) (some [(1 : Int), 2, 3])).Difference
        (fun l => l.reverse) (HashSet.mk (Base.mk true 1 false) (some [(2 : Int)])) = some d ∧
      d.Intersection (fun l => l) (HashSet.mk (Base.mk true 1 false) (some [(2 : Int)]))
        = some u ∧
      (∀ x, u.Contains [x] = some false) ∧ u.Slice (fun l => l) = some [] ∧
      u.Size = some 0 ∧ u.Empty = some true) :=
  ⟨compInt_total, fun l => List.reverse_perm l,
    TreeSet_Reachable_new compInt [2, 1, 3] _ (by decide),
    TreeSet_Reachable_new compInt [2] _ (by decide),
    HashSet_Reachable_new [1, 2, 3] _ (by decide), HashSet_Reachable_new [2] _ (by decide),
    C21_difference_intersection_empty compInt_total
      (treeSetOf 3 (node.mk 2 (some true) 1 (leaf 1) (leaf 3))) (treeSetOf 1 (leaf 2))
      (TreeSet_Reachable_new compInt [2, 1, 3] _ (by decide))
      (TreeSet_Reachable_new compInt [2] _ (by decide))
      (fun l => l.reverse) (fun l => l) (fun l => List.reverse_perm l)
      (fun l => List.Perm.refl l)
      (HashSet.mk (Base.mk true 3 false) (some [(1 : Int), 2, 3]))
      (HashSet.mk (Base.mk true 1 false) (some [(2 : Int)]))
      (HashSet_Reachable_new [1, 2, 3] _ (by decide)) (HashSet_Reachable_new [2] _ (by decide))⟩

/-! ## Copies, size counters, Contains and Map of sets -/

/-- For a TreeSet whose size counter is exact, the copy equals the original. -/
theorem TreeSet_Copy_Equal {cmp : α → α → Int} (hc : TotalCmp cmp) (s : TreeSet α)
    (hs : SetInv cmp s) (hz : SizeOk s) :
    ∃ c, s.Copy cmp = some c ∧ s.Equal cmp c = some true ∧ c.Equal cmp s = some true ∧
      c.Size = s.Size := by
  obtain ⟨c, h1, h2, h3, h4⟩ := TreeSet_Copy_spec hc s hs
  obtain ⟨r, h5, h6⟩ := TreeSet_Equal_iff hc s c hs h2 hz h3
  obtain ⟨r2, h7, h8⟩ := TreeSet_Equal_iff hc c s h2 hs h3 hz
  have hr : r = true := h6.2 (fun x => (h4 x).symm)
  have hr2 : r2 = true := h8.2 h4
  refine ⟨c, h1, hr ▸ h5, hr2 ▸ h7, ?_⟩
  have hle1 := TreeSet_size_le_of_has hc s c hs h2 hz h3 (fun x hx => (h4 x) ▸ hx)
  have hle2 := TreeSet_size_le_of_has hc c s h2 hs h3 hz (fun x hx => (h4 x).symm ▸ hx)
  have : c.base.Sizeb = s.base.Sizeb := by omega
  simp [TreeSet.Size, Base.Size, hs.1, h2.1, this]

set_option maxRecDepth 20000 in
/-- C26 fails: after `NewTreeSet(2, 1, 3)` and `Remove(2)` the set holds 3 only
while its size counter is 2; its copy holds 3 with size 1, and `Equal` returns
false both ways. -/
theorem C26_copy_not_equal_after_remove :
    NewTreeSet compInt [some 2, some 1, some 3]
      = some (treeSetOf 3 (node.mk 2 (some true) 1 (leaf 1) (leaf 3))) ∧
    (treeSetOf 3 (node.mk 2 (some true) 1 (leaf 1) (leaf 3))).Remove compInt [some 2]
      = some (treeSetOf 2 (leaf 3)) ∧
    (treeSetOf 2 (leaf 3)).Copy compInt = some (treeSetOf 1 (leaf 3)) ∧
    (treeSetOf 2 (leaf 3)).Equal compInt (treeSetOf 1 (leaf 3)) = some false ∧
    (treeSetOf 1 (leaf 3)).Equal compInt (treeSetOf 2 (leaf 3)) = some false ∧
    (treeSetOf 2 (leaf (3 : Int))).Size = some 2 ∧
    (treeSetOf 1 (leaf (3 : Int))).Size = some 1 ∧
    (treeSetOf 2 (leaf (3 : Int))).Slice = some [3] ∧
    (treeSetOf 1 (leaf (3 : Int))).Slice = some [3] := by
  have h2 : SetInv compInt (treeSetOf 2 (leaf 3)) :=
    TreeSet_Reachable_inv compInt_total ⟨true, [2, 1, 3], [SetOp.remove [2]], by decide⟩
  have h1 : SetInv compInt (treeSetOf 1 (leaf 3)) :=
    TreeSet_Reachable_inv compInt_total (TreeSet_Reachable_new compInt [3] _ (by decide))
  refine ⟨by decide, by decide, ?_, ?_, ?_, by decide, by decide, ?_, ?_⟩
  · rw [TreeSet_Copy_eval _ h2]
    decide
  · rw [TreeSet_Equal_eval compInt_total _ _ h2 h1]
    decide
  · rw [TreeSet_Equal_eval compInt_total _ _ h1 h2]
    decide
  · rw [TreeSet_Slice_eq _ h2]
    decide
  · rw [TreeSet_Slice_eq _ h1]
    decide

/-- The size counter of a TreeSet follows that of its map through one Insert
of the loop of `TreeSet.Insert`. -/
theorem TreeSet_insertItems_sync {cmp : α → α → Int} (hc : TotalCmp cmp) (items : List α) :
    ∀ s : TreeSet α, SetInv cmp s → (∀ m, s.m = some m → s.base.Sizeb = m.base.Sizeb) →
      ∀ s1, TreeSet.insertItems cmp s (items.map some) = some s1 →
        ∀ m1, s1.m = some m1 → s1.base.Sizeb = m1.base.Sizeb := by
  induction items with
  | nil =>
    intro s _ hsync s1 h
    simp only [List.map_nil, TreeSet.insertItems, Option.some.injEq] at h
    exact h ▸ hsync
  | cons i items ih =>
    intro s hs hsync s1 h
    obtain ⟨s2, h2, h3, _⟩ := TreeSet_insertItems_spec hc [i] s hs
    obtain ⟨hi, ht, m, hm, hinv, hall⟩ := hs
    obtain ⟨m1, r, h4, _, A, B, _, _, hcase⟩ := Insert_spec hc m hinv i (some true)
    simp only [List.map_cons, List.map_nil, TreeSet.insertItems, Option.bind_eq_bind,
      Option.some_bind, hm, h4, Option.some.injEq] at h2
    simp only [List.map_cons, TreeSet.insertItems, Option.bind_eq_bind, Option.some_bind, hm,
      h4] at h
    rw [h2] at h
    refine ih s2 h3 ?_ s1 h
    intro m2 hm2
    rw [← h2] at hm2 ⊢
    simp only [Option.some.injEq] at hm2
    subst hm2
    have hsz := hsync m hm
    rcases hcase with ⟨_, _, rfl, hb⟩ | ⟨k0, v0, _, h5, _, h6, hb, _⟩
    · simp [hb, hsz]
    · have hv0 : r = some true := by
        rw [h6]
        exact hall (k0, v0) (by rw [h5]; simp)
      simp [hb, hsz, hv0]

theorem TreeSet_removeItems_sync {cmp : α → α → Int} (hc : TotalCmp cmp) (items : List α) :
    ∀ s : TreeSet α, SetInv cmp s → (∀ m, s.m = some m → s.base.Sizeb = m.base.Sizeb) →
      ∀ s1, TreeSet.removeItems cmp s (items.map some) = some s1 →
        ∀ m1, s1.m = some m1 → s1.base.Sizeb = m1.base.Sizeb := by
  induction items with
  | nil =>
    intro s _ hsync s1 h
    simp only [List.map_nil, TreeSet.removeItems, Option.some.injEq] at h
    exact h ▸ hsync
  | cons i items ih =>
    intro s hs hsync s1 h
    obtain ⟨s2, h2, h3⟩ := TreeSet_removeItems_spec hc [i] s hs
    obtain ⟨hi, ht, m, hm, hinv, hall⟩ := hs
    obtain ⟨m1, r, h4, _, A, B, _, _, hcase⟩ := Remove_spec hc m hinv i
    simp only [List.map_cons, List.map_nil, TreeSet.removeItems, Option.bind_eq_bind,
      Option.some_bind, hm, h4, Option.some.injEq] at h2
    simp only [List.map_cons, TreeSet.removeItems, Option.bind_eq_bind, Option.some_bind, hm,
      h4] at h
    rw [h2] at h
    refine ih s2 h3 ?_ s1 h
    intro m2 hm2
    rw [← h2] at hm2 ⊢
    simp only [Option.some.injEq] at hm2
    subst hm2
    have hsz := hsync m hm
    rcases hcase with ⟨_, rfl, rfl⟩ | ⟨k0, v0, _, h5, h6, _, hb⟩
    · simp [hsz]
    · have hv0 : r = some true := by
        rw [h6]
        exact hall (k0, v0) (by rw [h5]; simp)
      simp [hb, hsz, hv0]

theorem TreeSet_applyOps_sync {cmp : α → α → Int} (hc : TotalCmp cmp) (ops : List (SetOp α)) :
    ∀ s s1 : TreeSet α, SetInv cmp s → (∀ m, s.m = some m → s.base.Sizeb = m.base.Sizeb) →
      TreeSet.applyOps cmp s ops = some s1 →
        ∀ m1, s1.m = some m1 → s1.base.Sizeb = m1.base.Sizeb := by
  induction ops with
  | nil =>
    intro s s1 _ hsync h
    simp only [TreeSet.applyOps, Option.some.injEq] at h
    exact h ▸ hsync
  | cons op ops ih =>
    intro s s1 hs hsync h
    simp only [TreeSet.applyOps, Option.bind_eq_some] at h
    obtain ⟨s2, h2, h3⟩ := h
    have hs2 : SetInv cmp s2 :=
      TreeSet_applyOps_inv hc [op] s s2 hs (by simp [TreeSet.applyOps, h2])
    refine ih s2 s1 hs2 ?_ h3
    cases op with
    | insert items =>
      simp only [TreeSet.applyOp, TreeSet_Insert_eq s hs.1 hs.2.1] at h2
      exact TreeSet_insertItems_sync hc items s hs hsync s2 h2
    | remove items =>
      cases items with
      | nil =>
        simp [TreeSet.applyOp, TreeSet.Remove, Base.CheckInit, hs.1] at h2
        exact h2 ▸ hsync
      | cons i items =>
        simp only [TreeSet.applyOp, TreeSet.Remove, Base.CheckInit, hs.1, List.map_cons,
          List.length_cons] at h2
        have h4 : TreeSet.removeItems cmp s ((i :: items).map some) = some s2 := by
          simpa using h2
        exact TreeSet_removeItems_sync hc (i :: items) s hs hsync s2 h4
    | clear =>
      simp [TreeSet.applyOp, TreeSet.Clear, Base.CheckInit, Base.Lock, Base.Unlock, hs.1,
        hs.2.1, NewTreeMapUnsafe, TreeMap.InitUnsafe, TreeMap.zero, Base.InitBaseUnsafe,
        Base.zero] at h2
      intro m1 hm1
      rw [← h2] at hm1 ⊢
      simp only [Option.some.injEq] at hm1
      rw [← hm1]

theorem TreeSet_Reachable_sync {cmp : α → α → Int} (hc : TotalCmp cmp) {s : TreeSet α}
    (h : TreeSet.Reachable cmp s) : ∀ m, s.m = some m → s.base.Sizeb = m.base.Sizeb := by
  obtain ⟨safe, items, ops, h1⟩ := h
  have h2 : (if safe = true then NewTreeSet cmp (items.map some)
      else NewTreeSetUnsafe cmp (items.map some)) = emptyTreeSet.Insert cmp (items.map some) := by
    cases safe <;> rfl
  rw [h2] at h1
  obtain ⟨s0, h3, h4, _⟩ := TreeSet_Insert_spec hc emptyTreeSet (SetInv_empty cmp) items
  rw [h3] at h1
  simp only [Option.some_bind] at h1
  rw [TreeSet_Insert_eq _ (SetInv_empty cmp).1 (SetInv_empty cmp).2.1] at h3
  have h5 := TreeSet_insertItems_sync hc items emptyTreeSet (SetInv_empty cmp)
    (by intro m hm; simp only [emptyTreeSet, Option.some.injEq] at hm; rw [← hm]; rfl) s0 h3
  exact TreeSet_applyOps_sync hc ops s0 s h4 h5 h1


theorem TreeSet_Insert_member {cmp : α → α → Int} (hc : TotalCmp cmp) (s : TreeSet α)
    (hs : SetInv cmp s) (x : α) (hx : s.has cmp x = true) :
    ∃ s1, s.Insert cmp [some x] = some s1 ∧ s1.Size = s.Size := by
  obtain ⟨hi, ht, m, hm, hinv, hall⟩ := hs
  obtain ⟨m1, r, h4, _, A, B, hA, hB, hcase⟩ := Insert_spec hc m hinv x (some true)
  rw [TreeSet_Insert_eq s hi ht]
  refine ⟨TreeSet.mk (Base.mk s.base.init
    (if r.isNone then s.base.Sizeb + 1 else s.base.Sizeb) s.base.threadsafe) (some m1),
    by simp [TreeSet.insertItems, hm, h4], ?_⟩
  rcases hcase with ⟨h5, _, _, _⟩ | ⟨k0, v0, _, h5, _, h6, _, _⟩
  · simp only [TreeSet.has, TreeSet.entries, hm, h5] at hx
    rw [assoc_none _ (mem_split_bounds hA hB)] at hx
    exact absurd hx (by simp)
  · have hv0 : r = some true := by
      rw [h6]
      exact hall (k0, v0) (by rw [h5]; simp)
    simp [TreeSet.Size, Base.Size, hi, hv0]

set_option maxRecDepth 20000 in
/-- C27: for every TreeSet reachable from `NewTreeSet` or `NewTreeSetUnsafe`
by Insert, Remove and Clear calls, `Size()` of the set equals `Size()` of the
map it owns; inserting an item that is already a member leaves `Size()`
unchanged; `NewTreeSet(1, 2, 3, 3)` has size 3. -/
theorem C27_set_size_is_map_size {cmp : α → α → Int} (hc : TotalCmp cmp) (s : TreeSet α)
    (hs : TreeSet.Reachable cmp s) :
    (∃ m n, s.m = some m ∧ s.Size = some n ∧ m.Size = some n) ∧
    (∀ x, s.Contains cmp [some x] = some true →
      ∃ s1, s.Insert cmp [some x] = some s1 ∧ s1.Size = s.Size) ∧
    (NewTreeSet compInt [some 1, some 2, some 3, some 3]
        = some (treeSetOf 3 (node.mk 1 (some true) 2 node.nil
            (node.mk 2 (some true) 1 node.nil (leaf 3)))) ∧
      (treeSetOf 3 (node.mk (1 : Int) (some true) 2 node.nil
            (node.mk 2 (some true) 1 node.nil (leaf 3)))).Size = some 3) := by
  have hinv := TreeSet_Reachable_inv hc hs
  have hsync := TreeSet_Reachable_sync hc hs
  refine ⟨?_, ?_, by decide, by decide⟩
  · obtain ⟨hi, _, m, hm, hminv, _⟩ := hinv
    refine ⟨m, s.base.Sizeb, hm, ?_, ?_⟩
    · simp [TreeSet.Size, Base.Size, hi]
    · simp [TreeMap.Size, Base.Size, hminv.1, hsync m hm]
  · intro x hx
    rw [TreeSet_Contains_single hc s hinv x, Option.some.injEq] at hx
    exact TreeSet_Insert_member hc s hinv x hx

set_option maxRecDepth 20000 in
theorem C27_set_size_is_map_size_witness :
    TotalCmp compInt ∧ TreeSet.Reachable compInt (treeSetOf 2 (leaf 3)) ∧
    (∃ m n, (treeSetOf 2 (leaf (3 : Int))).m = some m ∧
      (treeSetOf 2 (leaf (3 : Int))).Size = some n ∧ m.Size = some n) ∧
    (∀ x, (treeSetOf 2 (leaf 3)).Contains compInt [some x] = some true →
      ∃ s1, (treeSetOf 2 (leaf 3)).Insert compInt [some x] = some s1 ∧
        s1.Size = (treeSetOf 2 (leaf (3 : Int))).Size) :=
  ⟨compInt_total, ⟨true, [2, 1, 3], [SetOp.remove [2]], by decide⟩,
    (C27_set_size_is_map_size compInt_total (treeSetOf 2 (leaf 3))
      ⟨true, [2, 1, 3], [SetOp.remove [2]], by decide⟩).1,
    (C27_set_size_is_map_size compInt_total (treeSetOf 2 (leaf 3))
      ⟨true, [2, 1, 3], [SetOp.remove [2]], by decide⟩).2.1⟩

theorem TreeMap_Contains_all {cmp : α → α → Int} (hc : TotalCmp cmp) (m : TreeMap α β)
    (hinv : Inv cmp m) (items : List α) :
    m.Contains cmp (items.map some)
      = some (items.all (fun x => (assoc cmp x (inorder m.root)).isSome)) := by
  induction items with
  | nil => rfl
  | cons i items ih =>
    simp only [List.map_cons, TreeMap.Contains, Option.bind_eq_bind, Option.some_bind,
      Locate_eq_assoc hc m hinv.1 hinv.2.1 i, ih, List.all_cons]
    cases (assoc cmp i (inorder m.root)).isSome <;> simp

theorem TreeSet_Contains_all {cmp : α → α → Int} (hc : TotalCmp cmp) (s : TreeSet α)
    (hs : SetInv cmp s) (items : List α) :
    s.Contains cmp (items.map some)
      = some (!items.isEmpty && items.all (fun x => s.has cmp x)) := by
  obtain ⟨hi, ht, m, hm, hinv, _⟩ := hs
  cases items with
  | nil => simp [TreeSet.Contains, Base.CheckInit, hi]
  | cons i items =>
    simp [TreeSet.Contains, Base.CheckInit, hi, hm, Base.RUnlock, ht, TreeSet.has,
      TreeSet.entries, ← List.map_cons, TreeMap_Contains_all hc m hinv (i :: items),
      -List.map_cons]

theorem HashSet_Contains_all {ι : Type} [DecidableEq ι] (s : HashSet ι) (hs : HashInv s)
    (items : List ι) :
    s.Contains items
      = some (!items.isEmpty && items.all (fun x => decide (x ∈ s.keys))) := by
  cases items with
  | nil => simp [HashSet.Contains, Base.CheckInit, hs.1]
  | cons i items =>
    simp [HashSet.Contains, Base.CheckInit, hs.1, Base.RUnlock, hs.2.1, HashSet.keys]

set_option maxRecDepth 20000 in
/-- C28 as stated fails: on a TreeSet and on a HashSet holding 1, 2 and 3,
`Contains()` with no items returns false, while `Contains()` with no keys on
the TreeMap of the set returns true. -/
theorem C28_contains_no_items_false :
    NewTreeSet compInt [some 1, some 2, some 3]
      = some (treeSetOf 3 (node.mk 1 (some true) 2 node.nil
          (node.mk 2 (some true) 1 node.nil (leaf 3)))) ∧
    (treeSetOf 3 (node.mk 1 (some true) 2 node.nil
      (node.mk 2 (some true) 1 node.nil (leaf 3)))).Contains compInt [] = some false ∧
    NewHashSet [(1 : Int), 2, 3] = some (HashSet.mk (Base.mk true 3 false) (some [1, 2, 3])) ∧
    (HashSet.mk (Base.mk true 3 false) (some [(1 : Int), 2, 3])).Contains [] = some false ∧
    (TreeMap.mk (Base.mk true 3 false) (node.mk 1 (some true) 2 node.nil
      (node.mk 2 (some true) 1 node.nil (leaf 3)))).Contains compInt [] = some true := by
  decide

set_option maxRecDepth 20000 in
/-- C29 fails: on the TreeSet `NewTreeSet(1, 2, 3)`, whose items `Slice` gives
as 1, 2, 3, `Map` with a function that returns false on every item applies it
to the item 1 only and returns true; with a function that returns false from 2
on it applies it to 1 and 2 and returns true.  `Map` of the HashSet with the
same items returns false. -/
theorem C29_map_returns_true_after_false :
    NewTreeSet compInt [some 1, some 2, some 3]
      = some (treeSetOf 3 (node.mk 1 (some true) 2 node.nil
          (node.mk 2 (some true) 1 node.nil (leaf 3)))) ∧
    (treeSetOf 3 (node.mk (1 : Int) (some true) 2 node.nil
      (node.mk 2 (some true) 1 node.nil (leaf 3)))).Slice = some [1, 2, 3] ∧
    (treeSetOf 3 (node.mk (1 : Int) (some true) 2 node.nil
      (node.mk 2 (some true) 1 node.nil (leaf 3)))).Map (fun _ => false) = some (true, [1]) ∧
    (treeSetOf 3 (node.mk (1 : Int) (some true) 2 node.nil
      (node.mk 2 (some true) 1 node.nil (leaf 3)))).Map (fun x => decide (x < 2))
        = some (true, [1, 2]) ∧
    (∀ f : Int → Bool, ∃ items, (treeSetOf 3 (node.mk (1 : Int) (some true) 2 node.nil
      (node.mk 2 (some true) 1 node.nil (leaf 3)))).Map f = some (true, items)) ∧
    (HashSet.mk (Base.mk true 3 false) (some [(1 : Int), 2, 3])).Map (fun l => l)
      (fun _ => false) = some (false, [1]) := by
  have h : SetInv compInt (treeSetOf 3 (node.mk 1 (some true) 2 node.nil
      (node.mk 2 (some true) 1 node.nil (leaf 3)))) :=
    TreeSet_Reachable_inv compInt_total (TreeSet_Reachable_new compInt [1, 2, 3] _ (by decide))
  refine ⟨by decide, ?_, ?_, ?_, ?_, by decide⟩
  · rw [TreeSet_Slice_eq _ h]
    decide
  · rw [TreeSet_Map_eq _ h]
    decide
  · rw [TreeSet_Map_eq _ h]
    decide
  · intro f
    exact ⟨_, TreeSet_Map_eq _ h f⟩

/-! ## Queue -/

theorem chainTo_le {γ : Type} (h : List (qnode γ)) (l : List (Option γ)) :
    ∀ a f, chainTo h a l f → a ≤ f := by
  induction l with
  | nil => intro a f hch; exact absurd hch (by simp [chainTo])
  | cons w l ih =>
    intro a f hch
    cases l with
    | nil =>
      simp only [chainTo] at hch
      omega
    | cons w1 l =>
      simp only [chainTo] at hch
      obtain ⟨b, _, hab, hb⟩ := hch
      have := ih b f hb
      omega

theorem chainTo_last {γ : Type} (h : List (qnode γ)) (l : List (Option γ)) :
    ∀ a f, chainTo h a l f → ∃ w, h[f]? = some (qnode.mk w none) := by
  induction l with
  | nil => intro a f hch; exact absurd hch (by simp [chainTo])
  | cons w l ih =>
    intro a f hch
    cases l with
    | nil =>
      simp only [chainTo] at hch
      exact ⟨w, hch.1 ▸ hch.2⟩
    | cons w1 l =>
      simp only [chainTo] at hch
      obtain ⟨b, _, _, hb⟩ := hch
      exact ih b f hb

theorem getElem?_lt_length {γ : Type} {h : List γ} {a : Nat} {x : γ} (hx : h[a]? = some x) :
    a < h.length := by
  by_contra hn
  rw [List.getElem?_eq_none (Nat.le_of_not_lt hn)] at hx
  exact absurd hx (by simp)

/-- Linking a new node after the last node of a chain extends the chain. -/
theorem chainTo_push {γ : Type} (h : List (qnode γ)) (w : Option γ) (wf : Option γ)
    (l : List (Option γ)) :
    ∀ a f, chainTo h a l f → h[f]? = some (qnode.mk wf none) →
      chainTo ((h ++ [qnode.mk w none]).set f (qnode.mk wf (some h.length))) a (l ++ [w])
        h.length := by
  induction l with
  | nil => intro a f hch; exact absurd hch (by simp [chainTo])
  | cons w0 l ih =>
    intro a f hch hf
    have hflt := getElem?_lt_length hf
    cases l with
    | nil =>
      simp only [chainTo] at hch
      obtain ⟨rfl, ha⟩ := hch
      rw [hf] at ha
      simp only [Option.some.injEq, qnode.mk.injEq, and_true] at ha
      subst ha
      simp only [List.nil_append, List.cons_append, chainTo, true_and]
      refine ⟨h.length, ?_, hflt, ?_⟩
      · rw [List.getElem?_set_self (by simp; omega)]
      · rw [List.getElem?_set_ne (by omega)]
        simp
    | cons w1 l =>
      simp only [chainTo] at hch
      obtain ⟨b, ha, hab, hb⟩ := hch
      have hbf := chainTo_le h (w1 :: l) b f hb
      have halt := getElem?_lt_length ha
      have := ih b f hb hf
      simp only [List.cons_append, chainTo] at this ⊢
      refine ⟨b, ?_, hab, this⟩
      rw [List.getElem?_set_ne (by omega), List.getElem?_append_left halt]
      exact ha

theorem Queue_run_drained {γ : Type} (ops : List (QOp γ)) :
    ∀ (h : List (qnode γ)) (q : Queue), QDrained q → noRefill 0 true ops = true →
      ∃ h1 q1, Queue.runOps h q ops = some (h1, q1, (fifoRun [] ops).2) ∧
        q1.Size = some (((fifoRun [] ops).1.length : Nat) : Int) := by
  induction ops with
  | nil =>
    intro h q hq _
    exact ⟨h, q, by simp [Queue.runOps, fifoRun],
      by simp [Queue.Size, Base.Size, hq.1, hq.2, fifoRun]⟩
  | cons op ops ih =>
    intro h q hq hn
    cases op with
    | push w => simp [noRefill] at hn
    | pop =>
      simp only [noRefill] at hn
      obtain ⟨h1, q1, h2, h3⟩ := ih h q hq hn
      refine ⟨h1, q1, ?_, ?_⟩
      · simp [Queue.runOps, Queue.Pop, Base.CheckInit, Queue.Empty, Base.Empty, hq.1, hq.2, h2,
          fifoRun]
      · simpa [fifoRun] using h3

/-- In a sequence of calls in which no Push follows a Pop that took the last
pending item, the queue returns at each Pop what the FIFO list gives, and its
size is the number of pending items. -/
theorem Queue_run_live {γ : Type} (ops : List (QOp γ)) :
    ∀ (h : List (qnode γ)) (q : Queue) (l : List (Option γ)), QLive h q l →
      noRefill l.length false ops = true →
      ∃ h1 q1, Queue.runOps h q ops = some (h1, q1, (fifoRun l ops).2) ∧
        q1.Size = some (((fifoRun l ops).1.length : Nat) : Int) := by
  induction ops with
  | nil =>
    intro h q l hq _
    exact ⟨h, q, by simp [Queue.runOps, fifoRun],
      by simp [Queue.Size, Base.Size, hq.1, hq.2.1, fifoRun]⟩
  | cons op ops ih =>
    intro h q l hq hn
    obtain ⟨hi, hsz, hshape⟩ := hq
    cases op with
    | push w =>
      simp only [noRefill, Bool.not_false, Bool.true_and] at hn
      have hlen : (l ++ [w]).length = l.length + 1 := by simp
      rcases hshape with ⟨rfl, hf, hb⟩ | ⟨a, f, hb, hf, hch⟩
      · have hlive : QLive (h ++ [qnode.mk w none])
            (Queue.mk (Base.mk q.base.init (q.base.Sizeb + 1) q.base.threadsafe)
              (some h.length) (some h.length)) ([] ++ [w]) := by
          refine ⟨hi, by simp [hsz], Or.inr ⟨h.length, h.length, rfl, rfl, ?_⟩⟩
          simp [chainTo]
        obtain ⟨h1, q1, h2, h3⟩ := ih _ _ _ hlive (by simpa using hn)
        rw [hi] at h2
        refine ⟨h1, q1, ?_, ?_⟩
        · simp only [Queue.runOps, Queue.Push, Base.CheckInit, hi, hf, Option.bind_eq_bind,
            Option.some_bind, Bool.not_true, Bool.false_eq_true, if_false, fifoRun]
          exact h2
        · simpa [fifoRun] using h3
      · obtain ⟨wf, hwf⟩ := chainTo_last h l a f hch
        have hflt := getElem?_lt_length hwf
        have hlive : QLive ((h ++ [qnode.mk w none]).set f (qnode.mk wf (some h.length)))
            (Queue.mk (Base.mk q.base.init (q.base.Sizeb + 1) q.base.threadsafe)
              (some h.length) q.back) (l ++ [w]) := by
          refine ⟨hi, by simp [hsz], Or.inr ⟨a, h.length, hb, rfl, ?_⟩⟩
          exact chainTo_push h w wf l a f hch hwf
        obtain ⟨h1, q1, h2, h3⟩ := ih _ _ _ hlive (by rw [hlen]; exact hn)
        rw [hi] at h2
        refine ⟨h1, q1, ?_, ?_⟩
        · have hget : (h ++ [qnode.mk w none])[f]? = some (qnode.mk wf none) := by
            rw [List.getElem?_append_left hflt]
            exact hwf
          simp only [Queue.runOps, Queue.Push, Base.CheckInit, hi, hf, Option.bind_eq_bind,
            Option.some_bind, Bool.not_true, Bool.false_eq_true, if_false, fifoRun, hget]
          exact h2
        · simpa [fifoRun] using h3
    | pop =>
      rcases hshape with ⟨rfl, hf, hb⟩ | ⟨a, f, hb, hf, hch⟩
      · simp only [List.length_nil, noRefill] at hn
        obtain ⟨h1, q1, h2, h3⟩ := ih h q [] ⟨hi, hsz, Or.inl ⟨rfl, hf, hb⟩⟩ hn
        simp only [List.length_nil, Nat.cast_zero] at hsz
        refine ⟨h1, q1, ?_, ?_⟩
        · simp [Queue.runOps, Queue.Pop, Base.CheckInit, Queue.Empty, Base.Empty, hi, hsz, h2,
            fifoRun]
        · simpa [fifoRun] using h3
      · cases l with
        | nil => exact absurd hch (by simp [chainTo])
        | cons w l =>
          have hne : q.base.Sizeb ≠ 0 := by
            simp only [List.length_cons, Nat.cast_add, Nat.cast_one] at hsz
            omega
          cases l with
          | nil =>
            simp only [chainTo] at hch
            simp only [List.length_cons, List.length_nil, noRefill] at hn
            have hd : QDrained (Queue.mk (Base.mk q.base.init (q.base.Sizeb - 1)
                q.base.threadsafe) q.front none) := by
              refine ⟨hi, ?_⟩
              simp only [List.length_cons, List.length_nil, Nat.cast_add, Nat.cast_one,
                Nat.cast_zero] at hsz
              simp [hsz]
            obtain ⟨h1, q1, h2, h3⟩ := Queue_run_drained ops h _ hd (by simpa using hn)
            rw [hi] at h2
            refine ⟨h1, q1, ?_, ?_⟩
            · simp [Queue.runOps, Queue.Pop, Base.CheckInit, Queue.Empty, Base.Empty, hi, hne,
                hb, hch.2, h2, fifoRun]
            · simpa [fifoRun] using h3
          | cons w1 l =>
            simp only [chainTo] at hch
            obtain ⟨b, ha, _, hchb⟩ := hch
            simp only [List.length_cons, noRefill] at hn
            have hlive : QLive h (Queue.mk (Base.mk q.base.init (q.base.Sizeb - 1)
                q.base.threadsafe) q.front (some b)) (w1 :: l) := by
              refine ⟨hi, ?_, Or.inr ⟨b, f, rfl, hf, hchb⟩⟩
              simp only [List.length_cons, Nat.cast_add, Nat.cast_one] at hsz ⊢
              omega
            obtain ⟨h1, q1, h2, h3⟩ := ih h _ (w1 :: l) hlive (by simpa using hn)
            rw [hi] at h2
            refine ⟨h1, q1, ?_, ?_⟩
            · simp [Queue.runOps, Queue.Pop, Base.CheckInit, Queue.Empty, Base.Empty, hi, hne,
                hb, ha, h2, fifoRun]
            · simpa [fifoRun] using h3


theorem QLive_new {γ : Type} :
    QLive ([] : List (qnode γ)) (Queue.mk (Base.mk true 0 false) none none) [] :=
  ⟨rfl, rfl, Or.inl ⟨rfl, rfl, rfl⟩⟩

/-- On a new queue, a sequence of calls in which no Push follows a Pop that
took the last pending item runs without panic and agrees with the FIFO list. -/
theorem Queue_fifo_of_noRefill {γ : Type} (ops : List (QOp γ))
    (hn : noRefill 0 false ops = true) :
    ∃ q0 h1 q1, NewQueue = some q0 ∧
      Queue.runOps ([] : List (qnode γ)) q0 ops = some (h1, q1, (fifoRun [] ops).2) ∧
      q1.Size = some (((fifoRun [] ops).1.length : Nat) : Int) := by
  obtain ⟨h1, q1, h2, h3⟩ := Queue_run_live ops [] _ [] QLive_new hn
  exact ⟨_, h1, q1, rfl, h2, h3⟩

/-- C30 fails: on a new queue, Push(1), Pop(), Push(2) leave `back` nil with
size 1, because Pop has left `front` at the node it took and Push links the new
node after it; the next Pop reads `back.work` through the nil pointer and
panics, where the FIFO list gives 2. -/
theorem C30_pop_after_refill_panics :
    NewQueue = some (Queue.mk (Base.mk true 0 false) none none) ∧
    Queue.runOps ([] : List (qnode Int)) (Queue.mk (Base.mk true 0 false) none none)
        [QOp.push (some 1), QOp.pop]
      = some ([qnode.mk (some 1) none], Queue.mk (Base.mk true 0 false) (some 0) none,
          [some 1]) ∧
    Queue.runOps ([] : List (qnode Int)) (Queue.mk (Base.mk true 0 false) none none)
        [QOp.push (some 1), QOp.pop, QOp.push (some 2)]
      = some ([qnode.mk (some 1) (some 1), qnode.mk (some 2) none],
          Queue.mk (Base.mk true 1 false) (some 1) none, [some 1]) ∧
    Queue.Pop [qnode.mk (some (1 : Int)) (some 1), qnode.mk (some 2) none]
      (Queue.mk (Base.mk true 1 false) (some 1) none) = none ∧
    Queue.runOps ([] : List (qnode Int)) (Queue.mk (Base.mk true 0 false) none none)
        [QOp.push (some 1), QOp.pop, QOp.push (some 2), QOp.pop] = none ∧
    fifoRun ([] : List (Option Int))
        [QOp.push (some 1), QOp.pop, QOp.push (some 2), QOp.pop] = ([], [some 1, some 2]) :=
  ⟨rfl, rfl, rfl, rfl, rfl, rfl⟩

/-! ## Work lists: Stack, and copies of a Queue -/

theorem Stack_sliceLoop_stackOf {γ : Type} (l : List (Option γ)) :
    Stack.sliceLoop (stackOf l) = l := by
  induction l with
  | nil => rfl
  | cons w l ih => simp [stackOf, Stack.sliceLoop, ih]

theorem Stack_copyLoop_stackOf {γ : Type} (l : List (Option γ)) :
    Stack.copyLoop (stackOf l) = stackOf l := by
  induction l with
  | nil => rfl
  | cons w l ih => simp [stackOf, Stack.copyLoop, ih]

/-- A stack whose chain holds the items `l` and whose size is their number
runs any sequence of calls as the LIFO list does. -/
theorem Stack_run {γ : Type} (ops : List (QOp γ)) :
    ∀ (l : List (Option γ)) (ts : Bool),
      Stack.runOps (Stack.mk (Base.mk true (l.length : Int) ts) (stackOf l)) ops
        = some (Stack.mk (Base.mk true (((lifoRun l ops).1.length : Nat) : Int) ts)
            (stackOf (lifoRun l ops).1), (lifoRun l ops).2) := by
  induction ops with
  | nil => intro l ts; simp [Stack.runOps, lifoRun]
  | cons op ops ih =>
    intro l ts
    cases op with
    | push w =>
      have h := ih (w :: l) ts
      simp only [List.length_cons, Nat.cast_add, Nat.cast_one, stackOf] at h
      simp only [Stack.runOps, Stack.Push, Base.CheckInit, Option.bind_eq_bind, lifoRun]
      simpa using h
    | pop =>
      cases l with
      | nil =>
        have h := ih [] ts
        simp only [List.length_nil, Nat.cast_zero, stackOf] at h
        simp [Stack.runOps, Stack.Pop, Base.CheckInit, Stack.Empty, Base.Empty, lifoRun, stackOf,
          h]
      | cons w l =>
        have h := ih l ts
        have hne : ((l.length : Int) + 1 = 0) = False := by
          simp only [eq_iff_iff, iff_false]
          omega
        simp [Stack.runOps, Stack.Pop, Base.CheckInit, Stack.Empty, Base.Empty, lifoRun, stackOf,
          h, hne]

/-- C31: for every sequence of Push and Pop calls on a new Stack (from
`NewStack` or `NewStackUnsafe`), no call panics, the Pops return in order what
the LIFO list gives (the most recently pushed item not yet popped, or nil when
there is none), and at the end `Size()` is the number of pending items and
`Slice()` lists them, latest first.  Every prefix of a sequence is a sequence,
so this holds after each call. -/
theorem C31_stack_refines_lifo {γ : Type} (ops : List (QOp γ)) :
    (∃ s0 s1, (NewStack : Option (Stack γ)) = some s0 ∧
      Stack.runOps s0 ops = some (s1, (lifoRun [] ops).2) ∧
      s1.Size = some (((lifoRun [] ops).1.length : Nat) : Int) ∧
      s1.Slice = some (lifoRun [] ops).1) ∧
    (∃ s0 s1, (NewStackUnsafe : Option (Stack γ)) = some s0 ∧
      Stack.runOps s0 ops = some (s1, (lifoRun [] ops).2) ∧
      s1.Size = some (((lifoRun [] ops).1.length : Nat) : Int) ∧
      s1.Slice = some (lifoRun [] ops).1) := by
  have h := Stack_run ops ([] : List (Option γ)) false
  simp only [List.length_nil, Nat.cast_zero, stackOf] at h
  constructor
  · exact ⟨_, _, rfl, h, by simp [Stack.Size, Base.Size],
      by simp [Stack.Slice, Base.CheckInit, Stack_sliceLoop_stackOf]⟩
  · exact ⟨_, _, rfl, h, by simp [Stack.Size, Base.Size],
      by simp [Stack.Slice, Base.CheckInit, Stack_sliceLoop_stackOf]⟩


theorem chainTo_chainFrom {γ : Type} (h : List (qnode γ)) (l : List (Option γ)) :
    ∀ a f, chainTo h a l f → chainFrom h (some a) l := by
  induction l with
  | nil => intro a f hch; exact absurd hch (by simp [chainTo])
  | cons w l ih =>
    intro a f hch
    cases l with
    | nil =>
      simp only [chainTo] at hch
      exact ⟨a, none, rfl, hch.2, rfl⟩
    | cons w1 l =>
      simp only [chainTo] at hch
      obtain ⟨b, ha, _, hb⟩ := hch
      exact ⟨a, some b, rfl, ha, ih b f hb⟩

theorem chainTo_length {γ : Type} (h : List (qnode γ)) (l : List (Option γ)) :
    ∀ a f, chainTo h a l f → a + l.length ≤ f + 1 := by
  induction l with
  | nil => intro a f hch; exact absurd hch (by simp [chainTo])
  | cons w l ih =>
    intro a f hch
    cases l with
    | nil =>
      simp only [chainTo] at hch
      simp only [List.length_cons, List.length_nil]
      omega
    | cons w1 l =>
      simp only [chainTo] at hch
      obtain ⟨b, _, hab, hb⟩ := hch
      have := ih b f hb
      simp only [List.length_cons] at this ⊢
      omega

theorem chainFrom_append {γ : Type} (h x : List (qnode γ)) (l : List (Option γ)) :
    ∀ a, chainFrom h a l → chainFrom (h ++ x) a l := by
  induction l with
  | nil => intro a hch; exact hch
  | cons w l ih =>
    intro a hch
    obtain ⟨addr, nxt, ha, hget, hrest⟩ := hch
    refine ⟨addr, nxt, ha, ?_, ih nxt hrest⟩
    rw [List.getElem?_append_left (getElem?_lt_length hget)]
    exact hget

theorem Queue_sliceLoop_chain {γ : Type} (h : List (qnode γ)) (l : List (Option γ)) :
    ∀ (a : Option Nat) (fuel : Nat), chainFrom h a l → l.length < fuel →
      Queue.sliceLoop h fuel a = some l := by
  induction l with
  | nil =>
    intro a fuel hch hf
    simp only [chainFrom] at hch
    subst hch
    cases fuel with
    | zero => exact absurd hf (by simp)
    | succ n => rfl
  | cons w l ih =>
    intro a fuel hch hf
    obtain ⟨addr, nxt, rfl, hget, hrest⟩ := hch
    cases fuel with
    | zero => exact absurd hf (by simp)
    | succ n =>
      have := ih nxt n hrest (by simp only [List.length_cons] at hf; omega)
      simp [Queue.sliceLoop, hget, this]

/-- Pops on a queue whose `back` starts a chain with the items `l` and whose
size is their number give what the FIFO list gives. -/
theorem Queue_run_pops {γ : Type} (k : Nat) :
    ∀ (h : List (qnode γ)) (q : Queue) (l : List (Option γ)), q.base.init = true →
      q.base.Sizeb = (l.length : Int) → chainFrom h q.back l →
      ∃ q1, Queue.runOps h q (List.replicate k QOp.pop)
        = some (h, q1, (fifoRun l (List.replicate k QOp.pop)).2) := by
  induction k with
  | zero =>
    intro h q l _ _ _
    exact ⟨q, by simp [Queue.runOps, fifoRun]⟩
  | succ k ih =>
    intro h q l hi hsz hch
    cases l with
    | nil =>
      obtain ⟨q1, h1⟩ := ih h q [] hi hsz hch
      simp only [List.length_nil, Nat.cast_zero] at hsz
      exact ⟨q1, by simp [List.replicate_succ, Queue.runOps, Queue.Pop, Base.CheckInit,
        Queue.Empty, Base.Empty, hi, hsz, h1, fifoRun]⟩
    | cons w l =>
      obtain ⟨addr, nxt, hb, hget, hrest⟩ := hch
      have hne : q.base.Sizeb ≠ 0 := by
        simp only [List.length_cons, Nat.cast_add, Nat.cast_one] at hsz
        omega
      obtain ⟨q1, h1⟩ := ih h (Queue.mk (Base.mk q.base.init (q.base.Sizeb - 1)
        q.base.threadsafe) q.front nxt) l hi
        (by simp only [List.length_cons, Nat.cast_add, Nat.cast_one] at hsz ⊢; omega) hrest
      rw [hi] at h1
      exact ⟨q1, by simp [List.replicate_succ, Queue.runOps, Queue.Pop, Base.CheckInit,
        Queue.Empty, Base.Empty, hi, hne, hb, hget, h1, fifoRun]⟩

theorem Queue_Push_live {γ : Type} (h : List (qnode γ)) (q : Queue) (l : List (Option γ))
    (w : Option γ) (hq : QLive h q l) :
    ∃ h1 q1, Queue.Push h q w = some (h1, q1) ∧ QLive h1 q1 (l ++ [w]) ∧
      q1.base.threadsafe = q.base.threadsafe := by
  obtain ⟨hi, hsz, hshape⟩ := hq
  rcases hshape with ⟨rfl, hf, hb⟩ | ⟨a, f, hb, hf, hch⟩
  · refine ⟨h ++ [qnode.mk w none], Queue.mk (Base.mk q.base.init (q.base.Sizeb + 1)
      q.base.threadsafe) (some h.length) (some h.length), ?_, ?_, rfl⟩
    · simp [Queue.Push, Base.CheckInit, hi, hf]
    · refine ⟨hi, by simp [hsz], Or.inr ⟨h.length, h.length, rfl, rfl, ?_⟩⟩
      simp [chainTo]
  · obtain ⟨wf, hwf⟩ := chainTo_last h l a f hch
    have hflt := getElem?_lt_length hwf
    have hget : (h ++ [qnode.mk w none])[f]? = some (qnode.mk wf none) := by
      rw [List.getElem?_append_left hflt]
      exact hwf
    refine ⟨(h ++ [qnode.mk w none]).set f (qnode.mk wf (some h.length)),
      Queue.mk (Base.mk q.base.init (q.base.Sizeb + 1) q.base.threadsafe) (some h.length) q.back,
      ?_, ?_, rfl⟩
    · simp [Queue.Push, Base.CheckInit, hi, hf, hget]
    · exact ⟨hi, by simp [hsz], Or.inr ⟨a, h.length, hb, rfl, chainTo_push h w wf l a f hch hwf⟩⟩

theorem Queue_pushes_live {γ : Type} (ws : List (Option γ)) :
    ∀ (h : List (qnode γ)) (q : Queue) (l : List (Option γ)), QLive h q l →
      ∃ h1 q1, Queue.runOps h q (ws.map QOp.push) = some (h1, q1, []) ∧ QLive h1 q1 (l ++ ws) ∧
        q1.base.threadsafe = q.base.threadsafe := by
  induction ws with
  | nil =>
    intro h q l hq
    exact ⟨h, q, by simp [Queue.runOps], by simpa using hq, rfl⟩
  | cons w ws ih =>
    intro h q l hq
    obtain ⟨h1, q1, h2, h3, h4⟩ := Queue_Push_live h q l w hq
    obtain ⟨h5, q5, h6, h7, h8⟩ := ih h1 q1 (l ++ [w]) h3
    refine ⟨h5, q5, ?_, by simpa using h7, h8.trans h4⟩
    simp [Queue.runOps, h2, h6]

/-- The copy of a queue that holds the items `l`: its `back` starts a chain with
the items of `l`, as does the `back` of the original, its size is that of the
original, and its `front` is nil. -/
theorem Queue_Copy_live {γ : Type} (h : List (qnode γ)) (q : Queue) (l : List (Option γ))
    (hq : QLive h q l) (ht : q.base.threadsafe = false) :
    ∃ h1 c, Queue.Copy h q = some (h1, c) ∧ c.base.init = true ∧
      c.base.Sizeb = (l.length : Int) ∧ c.front = none ∧ chainFrom h1 c.back l ∧
      chainFrom h1 q.back l ∧ chainFrom h q.back l ∧ l.length ≤ h.length ∧
      h.length ≤ h1.length := by
  obtain ⟨hi, hsz, hshape⟩ := hq
  rcases hshape with ⟨rfl, hf, hb⟩ | ⟨a, f, hb, hf, hch⟩
  · simp only [List.length_nil, Nat.cast_zero] at hsz
    refine ⟨h, Queue.mk (Base.mk true 0 false) none none, ?_, rfl, rfl, rfl, rfl, ?_, ?_,
      Nat.zero_le _, Nat.le_refl _⟩
    · simp [Queue.Copy, Base.CheckInit, Base.Threadsafe, hi, ht, Queue.Empty, Base.Empty, hsz,
        NewQueueUnsafe, Queue.InitUnsafe, Queue.zero, Base.InitBaseUnsafe, Base.zero]
    · exact hb
    · exact hb
  · cases l with
    | nil => exact absurd hch (by simp [chainTo])
    | cons w l =>
      have hcf := chainTo_chainFrom h (w :: l) a f hch
      obtain ⟨addr, nxt, hadd, hget, hrest⟩ := hcf
      simp only [Option.some.injEq] at hadd
      subst hadd
      obtain ⟨wf, hwf⟩ := chainTo_last h (w :: l) a f hch
      have hflt := getElem?_lt_length hwf
      have hlen := chainTo_length h (w :: l) a f hch
      have hne : q.base.Sizeb ≠ 0 := by
        simp only [List.length_cons, Nat.cast_add, Nat.cast_one] at hsz
        omega
      have hget1 : (h ++ [qnode.mk w nxt])[f]? = some (qnode.mk wf none) := by
        rw [List.getElem?_append_left hflt]
        exact hwf
      refine ⟨h ++ [qnode.mk w nxt],
        Queue.mk (Base.mk true q.base.Sizeb false) none (some h.length), ?_, rfl, hsz, rfl, ?_,
        ?_, ?_, by omega, by simp⟩
      · simp [Queue.Copy, Base.CheckInit, Base.Threadsafe, hi, ht, Queue.Empty, Base.Empty, hne,
          NewQueueUnsafe, Queue.InitUnsafe, Queue.zero, Base.InitBaseUnsafe, Base.zero, hb, hf,
          hget, hget1, Queue.copyLoop]
      · refine ⟨h.length, nxt, rfl, by simp, chainFrom_append h _ l nxt hrest⟩
      · rw [hb]
        exact chainFrom_append h _ (w :: l) (some a) ⟨a, nxt, rfl, hget, hrest⟩
      · rw [hb]
        exact ⟨a, nxt, rfl, hget, hrest⟩


theorem lifoRun_pushes {γ : Type} (ws : List (Option γ)) :
    ∀ l : List (Option γ), lifoRun l (ws.map QOp.push) = (ws.reverse ++ l, []) := by
  induction ws with
  | nil => intro l; simp [lifoRun]
  | cons w ws ih => intro l; simp [lifoRun, ih]

theorem Stack_Copy_stackOf {γ : Type} (l : List (Option γ)) :
    (Stack.mk (Base.mk true (l.length : Int) false) (stackOf l)).Copy
      = some (Stack.mk (Base.mk true (l.length : Int) false) (stackOf l)) := by
  cases l with
  | nil => rfl
  | cons w l =>
    have hne : ((l.length : Int) + 1 = 0) = False := by
      simp only [eq_iff_iff, iff_false]
      omega
    simp [Stack.Copy, Base.CheckInit, Base.Threadsafe, Stack.Size, Base.Size, stackOf,
      Stack_copyLoop_stackOf, hne, NewStackUnsafe, Stack.InitUnsafe, Stack.zero,
      Base.InitBaseUnsafe, Base.zero]

/-- C32: for a Queue, and for a Stack, obtained by pushing the items `ws` (any
number, also none) onto a new one, `Copy()` returns a work list with the same
`Size()` and the same `Slice()` as the original, and `k` Pops on the original
and `k` Pops on the copy return the same items, for every `k`. -/
theorem C32_copy_same_items {γ : Type} (ws : List (Option γ)) (k : Nat) :
    (∃ q0 h q h1 c, NewQueue = some q0 ∧
      Queue.runOps ([] : List (qnode γ)) q0 (ws.map QOp.push) = some (h, q, []) ∧
      Queue.Copy h q = some (h1, c) ∧
      q.Size = some (ws.length : Int) ∧ c.Size = some (ws.length : Int) ∧
      Queue.Slice h q = some ws ∧ Queue.Slice h1 q = some ws ∧ Queue.Slice h1 c = some ws ∧
      ∃ q1 c1,
        Queue.runOps h1 q (List.replicate k QOp.pop)
          = some (h1, q1, (fifoRun ws (List.replicate k QOp.pop)).2) ∧
        Queue.runOps h1 c (List.replicate k QOp.pop)
          = some (h1, c1, (fifoRun ws (List.replicate k QOp.pop)).2)) ∧
    (∃ s0 s c, (NewStack : Option (Stack γ)) = some s0 ∧
      Stack.runOps s0 (ws.map QOp.push) = some (s, []) ∧ s.Copy = some c ∧
      s.Size = some (ws.length : Int) ∧ c.Size = some (ws.length : Int) ∧
      s.Slice = some ws.reverse ∧ c.Slice = some ws.reverse ∧
      ∃ s1 c1,
        Stack.runOps s (List.replicate k QOp.pop)
          = some (s1, (lifoRun ws.reverse (List.replicate k QOp.pop)).2) ∧
        Stack.runOps c (List.replicate k QOp.pop)
          = some (c1, (lifoRun ws.reverse (List.replicate k QOp.pop)).2)) := by
  constructor
  · obtain ⟨h, q, h1, h2, h3⟩ := Queue_pushes_live ws ([] : List (qnode γ)) _ [] QLive_new
    simp only [List.nil_append] at h2
    obtain ⟨h4, c, h5, h6, h7, _, h9, h10, h11, h12, h13⟩ := Queue_Copy_live h q ws h2 h3
    obtain ⟨q1, h14⟩ := Queue_run_pops k h4 q ws h2.1 h2.2.1 h10
    obtain ⟨c1, h15⟩ := Queue_run_pops k h4 c ws h6 h7 h9
    refine ⟨_, h, q, h4, c, rfl, h1, h5, ?_, ?_, ?_, ?_, ?_, q1, c1, h14, h15⟩
    · simp [Queue.Size, Base.Size, h2.1, h2.2.1]
    · simp [Queue.Size, Base.Size, h6, h7]
    · simp only [Queue.Slice, Base.CheckInit, h2.1, Bool.not_true, Bool.false_eq_true, if_false,
        Option.bind_eq_bind, Option.some_bind]
      exact Queue_sliceLoop_chain h ws q.back _ h11 (by omega)
    · simp only [Queue.Slice, Base.CheckInit, h2.1, Bool.not_true, Bool.false_eq_true, if_false,
        Option.bind_eq_bind, Option.some_bind]
      exact Queue_sliceLoop_chain h4 ws q.back _ h10 (by omega)
    · simp only [Queue.Slice, Base.CheckInit, h6, Bool.not_true, Bool.false_eq_true, if_false,
        Option.bind_eq_bind, Option.some_bind]
      exact Queue_sliceLoop_chain h4 ws c.back _ h9 (by omega)
  · have hp := Stack_run (ws.map QOp.push) ([] : List (Option γ)) false
    rw [lifoRun_pushes] at hp
    simp only [List.length_nil, Nat.cast_zero, stackOf, List.append_nil, List.length_reverse]
      at hp
    have hc := Stack_Copy_stackOf ws.reverse
    rw [List.length_reverse] at hc
    have hr := Stack_run (List.replicate k QOp.pop) ws.reverse false
    rw [List.length_reverse] at hr
    refine ⟨_, _, _, rfl, hp, hc, ?_, ?_, ?_, ?_, _, _, hr, hr⟩
    · simp [Stack.Size, Base.Size]
    · simp [Stack.Size, Base.Size]
    · simp [Stack.Slice, Base.CheckInit, Stack_sliceLoop_stackOf]
    · simp [Stack.Slice, Base.CheckInit, Stack_sliceLoop_stackOf]

/-- C38 fails: on the queue `q` that holds the item 1, `q.Copy()` returns a
queue whose `back` is a new node and whose `front` is nil; Push(2) on the copy
finds `front` nil and makes the new node both ends, so `Slice()` of the copy is
2 alone, where the claim requires 1, 2, while `Size()` is 2; the first Pop
returns 2, and the second Pop reads `back.work` through the nil pointer and
panics. -/
theorem C38_push_on_copy_drops_items :
    Queue.runOps ([] : List (qnode Int)) (Queue.mk (Base.mk true 0 false) none none)
        [QOp.push (some 1)]
      = some ([qnode.mk (some 1) none], Queue.mk (Base.mk true 1 false) (some 0) (some 0), []) ∧
    Queue.Copy [qnode.mk (some (1 : Int)) none] (Queue.mk (Base.mk true 1 false) (some 0) (some 0))
      = some ([qnode.mk (some 1) none, qnode.mk (some 1) none],
          Queue.mk (Base.mk true 1 false) none (some 1)) ∧
    Queue.Slice [qnode.mk (some (1 : Int)) none, qnode.mk (some 1) none]
      (Queue.mk (Base.mk true 1 false) none (some 1)) = some [some 1] ∧
    Queue.Push [qnode.mk (some (1 : Int)) none, qnode.mk (some 1) none]
        (Queue.mk (Base.mk true 1 false) none (some 1)) (some 2)
      = some ([qnode.mk (some 1) none, qnode.mk (some 1) none, qnode.mk (some 2) none],
          Queue.mk (Base.mk true 2 false) (some 2) (some 2)) ∧
    Queue.Slice [qnode.mk (some (1 : Int)) none, qnode.mk (some 1) none, qnode.mk (some 2) none]
      (Queue.mk (Base.mk true 2 false) (some 2) (some 2)) = some [some 2] ∧
    (Queue.mk (Base.mk true 2 false) (some 2) (some 2)).Size = some 2 ∧
    Queue.Slice [qnode.mk (some (1 : Int)) none, qnode.mk (some 1) none, qnode.mk (some 2) none]
      (Queue.mk (Base.mk true 1 false) (some 0) (some 0)) = some [some 1] ∧
    Queue.runOps [qnode.mk (some (1 : Int)) none, qnode.mk (some 1) none, qnode.mk (some 2) none]
        (Queue.mk (Base.mk true 2 false) (some 2) (some 2)) [QOp.pop]
      = some ([qnode.mk (some 1) none, qnode.mk (some 1) none, qnode.mk (some 2) none],
          Queue.mk (Base.mk true 1 false) (some 2) none, [some 2]) ∧
    Queue.runOps [qnode.mk (some (1 : Int)) none, qnode.mk (some 1) none, qnode.mk (some 2) none]
        (Queue.mk (Base.mk true 2 false) (some 2) (some 2)) [QOp.pop, QOp.pop] = none ∧
    fifoRun [some (1 : Int), some 2] [QOp.pop, QOp.pop] = ([], [some 1, some 2]) :=
  ⟨rfl, rfl, rfl, rfl, rfl, rfl, rfl, rfl, rfl, rfl⟩

/-! ## Cached heights, rotations, HashMap, direction and balanced -/

/-- C33 fails: after Insert of the keys 2 and 1 into a new TreeMap the root 2
has the left child 1, a leaf with cached height 0, and no right child, and its
cached height is 0, where one more than the greater child height is 1;
`updateHeight` on that node returns height 0, being
`Max(height(left), height(right)+1)`. -/
theorem C33_cached_height_not_max_plus_one :
    run compInt (inserts [(2, some (20 : Nat)), (1, some 10)])
      = some (TreeMap.mk (Base.mk true 2 false)
          (node.mk 2 (some 20) 0 (node.mk 1 (some 10) 0 node.nil node.nil) node.nil)) ∧
    height (node.mk (2 : Int) (some (20 : Nat)) 0 (node.mk 1 (some 10) 0 node.nil node.nil)
      node.nil) = 0 ∧
    max (height (node.mk (1 : Int) (some (10 : Nat)) 0 node.nil node.nil))
      (height (node.nil : node Int Nat)) + 1 = 1 ∧
    cachedHeightsOk (node.mk (2 : Int) (some (20 : Nat)) 0
      (node.mk 1 (some 10) 0 node.nil node.nil) node.nil) = false ∧
    updateHeight (node.mk (2 : Int) (some (20 : Nat)) 5
        (node.mk 1 (some 10) 0 node.nil node.nil) node.nil)
      = some (node.mk 2 (some 20) 0 (node.mk 1 (some 10) 0 node.nil node.nil) node.nil) ∧
    (∀ (k : Int) (v : Option Nat) (h : Int) (c0 c1 : node Int Nat),
      updateHeight (node.mk k v h c0 c1)
        = some (node.mk k v (Max (height c0) (height c1 + 1)) c0 c1)) := by
  refine ⟨by decide, by decide, by decide, by decide, by decide, ?_⟩
  intro k v h c0 c1
  exact updateHeight_mk k v h c0 c1

theorem rotateSame_inorder (p : node α β) (d : Int) (hd : d = 0 ∨ d = 1) (c : node α β)
    (hc : child p d = some c) (hcn : c.isNil = false) :
    ∃ r, rotateSame p d = some r ∧ inorder r = inorder p ∧ r.isNil = false := by
  cases p with
  | nil => simp [child] at hc
  | mk k v h c0 c1 =>
    rcases hd with rfl | rfl
    · simp only [child, if_true, Option.some.injEq] at hc
      subst hc
      cases c0 with
      | nil => simp [node.isNil] at hcn
      | mk k1 v1 h1 a b =>
        exact ⟨_, rotateSame_zero k v h c1 k1 v1 h1 a b, by simp [inorder], rfl⟩
    · simp only [child, one_ne_zero, if_false, if_true, Option.some.injEq] at hc
      subst hc
      cases c1 with
      | nil => simp [node.isNil] at hcn
      | mk k1 v1 h1 a b =>
        exact ⟨_, rotateSame_one k v h c0 k1 v1 h1 a b, by simp [inorder], rfl⟩

theorem rotate_inorder (p : node α β) (d1 d2 : Int) (hd1 : d1 = 0 ∨ d1 = 1)
    (hd2 : d2 = 0 ∨ d2 = 1) (c : node α β) (hc : child p d1 = some c)
    (hcn : c.isNil = false)
    (hg : d1 ≠ d2 → ∃ g, child c d2 = some g ∧ g.isNil = false) :
    ∃ r, rotate p d1 d2 = some r ∧ inorder r = inorder p ∧ r.isNil = false := by
  by_cases hne : d1 = d2
  · subst hne
    simp only [rotate, ne_eq, not_true_eq_false, if_false, Option.bind_eq_bind, Option.pure_def,
      Option.some_bind]
    exact rotateSame_inorder p d1 hd1 c hc hcn
  · obtain ⟨g, hg1, hg2⟩ := hg hne
    obtain ⟨r1, hr1, hr2, hr3⟩ := rotateSame_inorder c d2 hd2 g hg1 hg2
    cases p with
    | nil => simp [child] at hc
    | mk k v h c0 c1 =>
      obtain ⟨p1, hp1, hp2, hp3⟩ := setChild_ok k v h c0 c1 r1 d1 hd1
      obtain ⟨r, hr4, hr5, hr6⟩ := rotateSame_inorder p1 d1 hd1 r1 hp2 hr3
      refine ⟨r, ?_, ?_, hr6⟩
      · simp only [rotate, ne_eq, hne, not_false_eq_true, if_true, Option.bind_eq_bind, hc,
          Option.some_bind, hr1, hp1]
        exact hr4
      · rw [hr5, hp3]
        rcases hd1 with rfl | rfl
        · simp only [child, if_true, Option.some.injEq] at hc
          subst hc
          simp [inorder, hr2]
        · simp only [child, one_ne_zero, if_false, if_true, Option.some.injEq] at hc
          subst hc
          simp [inorder, hr2]

/-- C34: for every node `p` and directions `dir1`, `dir2` in 0..1 such that the
`dir1` child of `p` exists and, when the directions differ, the `dir2` child of
that child exists, `rotate(p, dir1, dir2)` returns a node whose in-order
sequence of entries is that of `p`; so the sequence stays strictly ascending
when it was, and an entry is in the result exactly when it is in `p`. -/
theorem C34_rotate_preserves_inorder (p : node α β) (d1 d2 : Int) (hd1 : d1 = 0 ∨ d1 = 1)
    (hd2 : d2 = 0 ∨ d2 = 1) (c : node α β) (hc : child p d1 = some c)
    (hcn : c.isNil = false)
    (hg : d1 ≠ d2 → ∃ g, child c d2 = some g ∧ g.isNil = false) :
    ∃ r, rotate p d1 d2 = some r ∧ r.isNil = false ∧ inorder r = inorder p ∧
      (∀ cmp : α → α → Int, Ascending cmp (inorder p) → Ascending cmp (inorder r)) ∧
      (∀ e, e ∈ inorder r ↔ e ∈ inorder p) := by
  obtain ⟨r, h1, h2, h3⟩ := rotate_inorder p d1 d2 hd1 hd2 c hc hcn hg
  exact ⟨r, h1, h3, h2, fun cmp h => h2 ▸ h, fun e => by rw [h2]⟩

theorem C34_rotate_preserves_inorder_witness :
    child (node.mk (3 : Int) (some (30 : Nat)) 2
        (node.mk 1 (some 10) 1 node.nil (node.mk 2 (some 20) 0 node.nil node.nil)) node.nil) 0
      = some (node.mk 1 (some 10) 1 node.nil (node.mk 2 (some 20) 0 node.nil node.nil)) ∧
    ∃ r, rotate (node.mk (3 : Int) (some (30 : Nat)) 2
        (node.mk 1 (some 10) 1 node.nil (node.mk 2 (some 20) 0 node.nil node.nil)) node.nil) 0 1
        = some r ∧ r.isNil = false ∧
      inorder r = inorder (node.mk (3 : Int) (some (30 : Nat)) 2
        (node.mk 1 (some 10) 1 node.nil (node.mk 2 (some 20) 0 node.nil node.nil)) node.nil) ∧
      (∀ cmp : Int → Int → Int, Ascending cmp (inorder (node.mk (3 : Int) (some (30 : Nat)) 2
        (node.mk 1 (some 10) 1 node.nil (node.mk 2 (some 20) 0 node.nil node.nil)) node.nil)) →
          Ascending cmp (inorder r)) ∧
      (∀ e, e ∈ inorder r ↔ e ∈ inorder (node.mk (3 : Int) (some (30 : Nat)) 2
        (node.mk 1 (some 10) 1 node.nil (node.mk 2 (some 20) 0 node.nil node.nil)) node.nil)) :=
  ⟨rfl, C34_rotate_preserves_inorder _ 0 1 (Or.inl rfl) (Or.inr rfl)
    (node.mk 1 (some 10) 1 node.nil (node.mk 2 (some 20) 0 node.nil node.nil)) rfl rfl
    (fun _ => ⟨node.mk 2 (some 20) 0 node.nil node.nil, rfl, rfl⟩)⟩

/-- C36 fails: on a new HashMap, Insert(1, 10) and then Insert(1, 20) return
nil and 10 and leave the single entry (1, 20), which is all `Slice` and `Map`
give in any order of iteration, while `Size()` is 2: `Insert` adds 1 to the
size also when the key is present. -/
theorem C36_insert_existing_key_grows_size :
    (NewHashMap : Option (HashMap Int Nat)) = some (HashMap.mk (Base.mk true 0 false) (some [])) ∧
    (HashMap.mk (Base.mk true 0 false) (some [])).Insert (some (1 : Int)) (some (10 : Nat))
      = some (HashMap.mk (Base.mk true 1 false) (some [(1, some 10)]), none) ∧
    (HashMap.mk (Base.mk true 1 false) (some [((1 : Int), some (10 : Nat))])).Insert (some 1)
        (some 20)
      = some (HashMap.mk (Base.mk true 2 false) (some [(1, some 20)]), some 10) ∧
    (HashMap.mk (Base.mk true 2 false) (some [((1 : Int), some (20 : Nat))])).Size = some 2 ∧
    (HashMap.mk (Base.mk true 2 false) (some [((1 : Int), some (20 : Nat))])).Locate (some 1)
      = some (some 20) ∧
    (∀ ord : List (Int × Option Nat) → List (Int × Option Nat),
      ∀ items, (HashMap.mk (Base.mk true 2 false) (some [((1 : Int), some (20 : Nat))])).Slice ord
        = some items ↔ items = (ord [(1, some 20)]).map (fun e => KeyValue.mk e.1 e.2)) ∧
    (HashMap.mk (Base.mk true 2 false) (some [((1 : Int), some (20 : Nat))])).Slice (fun l => l)
      = some [KeyValue.mk 1 (some 20)] ∧
    (HashMap.mk (Base.mk true 2 false) (some [((1 : Int), some (20 : Nat))])).Map (fun l => l)
      (fun _ => true) = some (true, [KeyValue.mk 1 (some 20)]) := by
  refine ⟨rfl, by decide, by decide, by decide, by decide, ?_, by decide, by decide⟩
  intro ord items
  simp [HashMap.Slice, Base.CheckInit, eq_comm]

/-- C39 fails: `direction(k, k)` is 1 for every `int` key `k` of the tests: a
key equal to the key of the node routes to the right child, where the claim
and the comment of `direction` require 0; for a smaller key it is 0 and for a
greater key 1. -/
theorem C39_direction_of_equal_is_one :
    (∀ k : Int, compInt k k = 0 ∧ direction compInt k k = 1) ∧
    compInt 1 2 = -1 ∧ direction compInt 1 2 = 0 ∧
    compInt 2 1 = 1 ∧ direction compInt 2 1 = 1 := by
  refine ⟨fun k => ?_, by decide, by decide, by decide, by decide⟩
  have h : compInt k k = 0 := by simp [compInt]
  exact ⟨h, direction_of_eq h⟩

/-- C40 fails: `balanced` on a leaf, whose two children are nil with height -1
each, returns false, where the claim and the comment of `balanced` require
true; on a node whose child heights differ by 2 it returns true; it returns
whether the cached heights differ by more than 1. -/
theorem C40_balanced_is_negated :
    balanced (node.mk (3 : Int) (some (30 : Nat)) 0 node.nil node.nil) = some false ∧
    Abs (height (node.nil : node Int Nat) - height (node.nil : node Int Nat)) = 0 ∧
    balanced (node.mk (1 : Int) (some (10 : Nat)) 2 node.nil
      (node.mk 2 (some 20) 1 node.nil (node.mk 3 (some 30) 0 node.nil node.nil))) = some true ∧
    Abs (height (node.nil : node Int Nat)
      - height (node.mk (2 : Int) (some (20 : Nat)) 1 node.nil
          (node.mk 3 (some 30) 0 node.nil node.nil))) = 2 ∧
    (∀ (k : Int) (v : Option Nat) (h : Int) (c0 c1 : node Int Nat),
      balanced (node.mk k v h c0 c1) = some (decide (Abs (height c0 - height c1) > 1))) := by
  refine ⟨by decide, by decide, by decide, by decide, ?_⟩
  intro k v h c0 c1
  simp [balanced, child]

/-! ## Comparators with other results, and absence of invalid accesses -/

theorem Signum_eq_zero (a : Int) : Signum a = 0 ↔ a = 0 := by
  unfold Signum
  constructor
  · intro h
    split_ifs at h with h1 h2
    all_goals omega
  · intro h
    subst h
    decide

theorem normCmp_zero (cmp : α → α → Int) (a b : α) : (cmp a b = 0) = (normCmp cmp a b = 0) :=
  propext (Signum_eq_zero (cmp a b)).symm

theorem direction_up {cmp : α → α → Int} (hc : UpCmp cmp) (a b : α) :
    direction cmp a b = direction (normCmp cmp) a b ∧
      (direction cmp a b = 0 ∨ direction cmp a b = 1) := by
  have h63 : (2 : Int) ^ 63 = 9223372036854775808 := by norm_num
  have h64 : (2 : Int) ^ 64 = 18446744073709551616 := by norm_num
  have hab := hc a b
  rw [h63] at hab
  rcases hab with h | h | ⟨h1, h2⟩
  · simp [direction, normCmp, h, Signum, wrap64]
  · simp [direction, normCmp, h, Signum, wrap64]
  · have hn : Signum (cmp a b) = 1 := by
      unfold Signum
      split_ifs <;> omega
    have hw : wrap64 (cmp a b + 1) = cmp a b + 1 := by
      simp only [wrap64, h63, h64]
      omega
    have hd : direction cmp a b = 1 := by
      simp only [direction, hw]
      unfold Signum
      split_ifs <;> omega
    have hd2 : direction (normCmp cmp) a b = 1 := by
      show Signum (Signum (wrap64 (Signum (cmp a b) + 1))) = 1
      rw [hn]
      decide
    exact ⟨hd.trans hd2.symm, Or.inr hd⟩

theorem descend_congr {cmp cmp2 : α → α → Int}
    (hd : ∀ a b, direction cmp a b = direction cmp2 a b)
    (hz : ∀ a b, (cmp a b = 0) = (cmp2 a b = 0)) (kc : α) (t : node α β) :
    ∀ visited, descend cmp kc t visited = descend cmp2 kc t visited := by
  induction t with
  | nil => intro visited; rfl
  | mk k v h c0 c1 ih0 ih1 =>
    intro visited
    simp only [descend, hd, ih0, ih1, ne_eq, hz]

theorem locateLoop_congr {cmp cmp2 : α → α → Int}
    (hd : ∀ a b, direction cmp a b = direction cmp2 a b)
    (hz : ∀ a b, (cmp a b = 0) = (cmp2 a b = 0)) (kc : α) (t : node α β) :
    locateLoop cmp kc t = locateLoop cmp2 kc t := by
  induction t with
  | nil => rfl
  | mk k v h c0 c1 ih0 ih1 =>
    simp only [locateLoop, hd, ih0, ih1, ne_eq, hz]

theorem insertLoop_congr {cmp cmp2 : α → α → Int}
    (hd : ∀ a b, direction cmp a b = direction cmp2 a b) (kc : α) (visited : List (node α β)) :
    ∀ current, insertLoop cmp kc visited current = insertLoop cmp2 kc visited current := by
  induction visited with
  | nil => intro current; rfl
  | cons p visited ih =>
    intro current
    simp only [insertLoop, hd, ih]

theorem removeLoop_congr {cmp cmp2 : α → α → Int}
    (hd : ∀ a b, direction cmp a b = direction cmp2 a b) (kc : α) (visited : List (node α β)) :
    ∀ current, removeLoop cmp kc visited current = removeLoop cmp2 kc visited current := by
  induction visited with
  | nil => intro current; rfl
  | cons p visited ih =>
    intro current
    simp only [removeLoop, hd, ih]

theorem writeBack_congr {cmp cmp2 : α → α → Int}
    (hd : ∀ a b, direction cmp a b = direction cmp2 a b) (kc : α) (visited : List (node α β)) :
    ∀ current, writeBack cmp kc visited current = writeBack cmp2 kc visited current := by
  induction visited with
  | nil => intro current; rfl
  | cons p visited ih =>
    intro current
    simp only [writeBack, hd, ih]

theorem TreeMap_ops_congr {cmp cmp2 : α → α → Int}
    (hd : ∀ a b, direction cmp a b = direction cmp2 a b)
    (hz : ∀ a b, (cmp a b = 0) = (cmp2 a b = 0)) (s : TreeMap α β) (key : Option α)
    (v : Option β) :
    s.Insert cmp key v = s.Insert cmp2 key v ∧ s.Locate cmp key = s.Locate cmp2 key ∧
      s.Remove cmp key = s.Remove cmp2 key := by
  have h1 : ∀ kc t vis, descend cmp kc t vis = descend cmp2 kc (t : node α β) vis :=
    fun kc t vis => descend_congr hd hz kc t vis
  have h2 : ∀ kc t, locateLoop cmp kc t = locateLoop cmp2 kc (t : node α β) :=
    fun kc t => locateLoop_congr hd hz kc t
  have h3 : ∀ kc vis cur, insertLoop cmp kc vis cur = insertLoop cmp2 kc vis (cur : node α β) :=
    fun kc vis cur => insertLoop_congr hd kc vis cur
  have h4 : ∀ kc vis cur, removeLoop cmp kc vis cur = removeLoop cmp2 kc vis (cur : node α β) :=
    fun kc vis cur => removeLoop_congr hd kc vis cur
  have h5 : ∀ kc vis cur, writeBack cmp kc vis cur = writeBack cmp2 kc vis (cur : node α β) :=
    fun kc vis cur => writeBack_congr hd kc vis cur
  refine ⟨?_, ?_, ?_⟩
  · simp only [TreeMap.Insert, h1, h3, h5, hz]
  · simp only [TreeMap.Locate, h2, hz]
  · simp only [TreeMap.Remove, h1, h4, hz]

theorem normCmp_cmpUp : normCmp cmpUp = compInt := by
  funext a b
  simp only [normCmp, cmpUp, compInt, Signum]
  split_ifs <;> first | rfl | omega

theorem UpCmp_cmpUp : UpCmp cmpUp := by
  intro a b
  simp only [cmpUp]
  split_ifs
  · exact Or.inl rfl
  · exact Or.inr (Or.inr ⟨by norm_num, by norm_num⟩)
  · exact Or.inr (Or.inl rfl)

/-- C35 as stated fails: the comparator by subtraction returns -2 for the keys
1 and 3, `direction` is then -1, which is not a child index, and Insert,
Locate and Remove of the key 1 on the map that holds the key 3 panic, while
with the comparator normalised to -1, 0, 1 they return. -/
theorem C35_negative_result_gives_invalid_index :
    cmpSub 1 3 = -2 ∧ direction cmpSub 1 3 = -1 ∧
    child (node.mk (3 : Int) (some (30 : Nat)) 0 node.nil node.nil) (-1) = none ∧
    (TreeMap.mk (Base.mk true 1 false) (node.mk 3 (some (30 : Nat)) 0 node.nil node.nil)).Insert
      cmpSub (some 1) (some 10) = none ∧
    (TreeMap.mk (Base.mk true 1 false) (node.mk 3 (some (30 : Nat)) 0 node.nil node.nil)).Locate
      cmpSub (some 1) = none ∧
    (TreeMap.mk (Base.mk true 1 false) (node.mk 3 (some (30 : Nat)) 0 node.nil node.nil)).Remove
      cmpSub (some 1) = none ∧
    normCmp cmpSub 1 3 = -1 ∧ direction (normCmp cmpSub) 1 3 = 0 ∧
    (TreeMap.mk (Base.mk true 1 false) (node.mk 3 (some (30 : Nat)) 0 node.nil node.nil)).Insert
        (normCmp cmpSub) (some 1) (some 10)
      = some (TreeMap.mk (Base.mk true 2 false) (node.mk 3 (some 30) 0
          (node.mk 1 (some 10) 0 node.nil node.nil) node.nil), none) ∧
    (TreeMap.mk (Base.mk true 1 false) (node.mk 3 (some (30 : Nat)) 0 node.nil node.nil)).Locate
      (normCmp cmpSub) (some 1) = some none ∧
    (TreeMap.mk (Base.mk true 1 false) (node.mk 3 (some (30 : Nat)) 0 node.nil node.nil)).Remove
        (normCmp cmpSub) (some 1)
      = some (TreeMap.mk (Base.mk true 1 false) (node.mk 3 (some 30) 0 node.nil node.nil),
          none) := by
  decide

theorem child_some {n c : node α β} {d : Int} (h : child n d = some c) :
    n.isNil = false ∧ (d = 0 ∨ d = 1) := by
  cases n with
  | nil => simp [child] at h
  | mk k v hh c0 c1 =>
    refine ⟨rfl, ?_⟩
    by_cases h0 : d = 0
    · exact Or.inl h0
    · by_cases h1 : d = 1
      · exact Or.inr h1
      · simp [child, h0, h1] at h

theorem rotateSame_some {p r : node α β} {d : Int} (h : rotateSame p d = some r) :
    (d = 0 ∨ d = 1) ∧ ∃ c, child p d = some c ∧ c.isNil = false := by
  simp only [rotateSame, Option.bind_eq_bind, Option.bind_eq_some] at h
  obtain ⟨c, hc, x, hx, _⟩ := h
  exact ⟨(child_some hc).2, c, hc, (child_some hx).1⟩

/-- When `rotate` returns, the children it reads exist. -/
theorem rotate_some {p r : node α β} {d1 d2 : Int} (h : rotate p d1 d2 = some r) :
    (d1 = 0 ∨ d1 = 1) ∧ (d2 = 0 ∨ d2 = 1) ∧ ∃ c, child p d1 = some c ∧ c.isNil = false ∧
      (d1 ≠ d2 → ∃ g, child c d2 = some g ∧ g.isNil = false) := by
  by_cases hne : d1 = d2
  · subst hne
    simp only [rotate, ne_eq, not_true_eq_false, if_false, Option.bind_eq_bind, Option.pure_def,
      Option.some_bind] at h
    obtain ⟨hd, c, hc, hcn⟩ := rotateSame_some h
    exact ⟨hd, hd, c, hc, hcn, fun hn => absurd rfl hn⟩
  · simp only [rotate, ne_eq, hne, not_false_eq_true, if_true, Option.bind_eq_bind,
      Option.bind_eq_some] at h
    obtain ⟨c, hc, r1, hr1, _⟩ := h
    obtain ⟨hd2, g, hg, hgn⟩ := rotateSame_some hr1
    exact ⟨(child_some hc).2, hd2, c, hc, (child_some hg).1, fun _ => ⟨g, hg, hgn⟩⟩

theorem HNonneg_subtrees (t : node α β) (ht : HNonneg t) : ∀ n ∈ subtrees t, HNonneg n := by
  induction t with
  | nil => intro n hn; simp [subtrees] at hn
  | mk k v h c0 c1 ih0 ih1 =>
    intro n hn
    simp only [subtrees, List.mem_cons, List.mem_append] at hn
    rcases hn with rfl | hn | hn
    · exact ht
    · exact ih0 ht.2.1 n hn
    · exact ih1 ht.2.2 n hn

/-- On a node with a child and nonnegative cached heights, `tallestDir` gives
the slot of a child that exists. -/
theorem tallest_child_exists (n : node α β) (hn : HNonneg n)
    (hch : ∃ c d, child n d = some c ∧ c.isNil = false) :
    ∃ d c, tallestDir n = some d ∧ (d = 0 ∨ d = 1) ∧ child n d = some c ∧ c.isNil = false := by
  obtain ⟨c, d, hc, hcn⟩ := hch
  cases n with
  | nil => simp [child] at hc
  | mk k v h c0 c1 =>
    have hh0 := height_ge_of_HNonneg hn.2.1
    have hh1 := height_ge_of_HNonneg hn.2.2
    by_cases hlt : height c1 < height c0
    · refine ⟨0, c0, ?_, Or.inl rfl, rfl, ?_⟩
      · simp [tallestDir, child, Signum, hlt]
      · exact isNil_false_of_height (by omega)
    · refine ⟨1, c1, ?_, Or.inr rfl, rfl, ?_⟩
      · by_cases hgt : height c0 < height c1
        · simp [tallestDir, child, Signum, hlt, hgt]
        · simp [tallestDir, child, Signum, hlt, hgt]
      · cases c1 with
        | mk _ _ _ _ _ => rfl
        | nil =>
          simp only [height] at hlt hh1
          cases c0 with
          | mk _ _ h0 _ _ =>
            have : 0 ≤ h0 := hn.2.1.1
            simp only [height] at hlt
            omega
          | nil =>
            rcases (child_some hc).2 with rfl | rfl
            · simp only [child, if_true, Option.some.injEq] at hc
              subst hc
              exact absurd hcn (by simp [node.isNil])
            · simp only [child, one_ne_zero, if_false, if_true, Option.some.injEq] at hc
              subst hc
              exact absurd hcn (by simp [node.isNil])

theorem direction_total {cmp : α → α → Int} (hc : TotalCmp cmp) (a b : α) :
    direction cmp a b = 0 ∨ direction cmp a b = 1 := by
  rcases hc.range a b with h | h | h
  · exact direction_cases (Or.inl h)
  · exact Or.inr (direction_of_eq h)
  · exact direction_cases (Or.inr h)

/-- C37: for a comparator that is a total order with results -1, 0, 1 and a
TreeMap reachable from a new one by Insert and Remove, the calls Insert, Locate
and Remove return, where the model panics at an index outside 0..1 and at a
read or write through a nil node; `direction` is 0 or 1 on all keys; `rotate`
returns only when the `dir1` child of its node exists and, for different
directions, the `dir2` child of that child exists, so each rotation made by a
call that returns met this; and on every node of the tree that has a child,
`tallestDir` gives the slot of a child that exists, which is the child
`successor` selects. -/
theorem C37_no_invalid_access {cmp : α → α → Int} (hc : TotalCmp cmp) (s : TreeMap α β)
    (hs : Reachable cmp s) (k : α) (v : Option β) :
    (∃ s1 r, s.Insert cmp (some k) v = some (s1, r)) ∧
    (∃ r, s.Locate cmp (some k) = some r) ∧
    (∃ s1 r, s.Remove cmp (some k) = some (s1, r)) ∧
    (∀ a b, direction cmp a b = 0 ∨ direction cmp a b = 1) ∧
    (∀ (p r : node α β) (d1 d2 : Int), rotate p d1 d2 = some r →
      (d1 = 0 ∨ d1 = 1) ∧ (d2 = 0 ∨ d2 = 1) ∧ ∃ c, child p d1 = some c ∧ c.isNil = false ∧
        (d1 ≠ d2 → ∃ g, child c d2 = some g ∧ g.isNil = false)) ∧
    (∀ n ∈ subtrees s.root, (∃ c d, child n d = some c ∧ c.isNil = false) →
      ∃ d c, tallestDir n = some d ∧ (d = 0 ∨ d = 1) ∧ child n d = some c ∧
        c.isNil = false) := by
  have hinv := Reachable.inv hc hs
  refine ⟨?_, ?_, ?_, direction_total hc, fun p r d1 d2 h => rotate_some h, ?_⟩
  · obtain ⟨s1, r, h, _⟩ := Insert_spec hc s hinv k v
    exact ⟨s1, r, h⟩
  · exact ⟨_, Locate_eq_assoc hc s hinv.1 hinv.2.1 k⟩
  · obtain ⟨s1, r, h, _⟩ := Remove_spec hc s hinv k
    exact ⟨s1, r, h⟩
  · intro n hn hch
    exact tallest_child_exists n (HNonneg_subtrees s.root hinv.2.2 n hn) hch

theorem C37_no_invalid_access_witness :
    TotalCmp compInt ∧
    Reachable compInt (TreeMap.mk (Base.mk true 2 false)
      (node.mk 3 (some (30 : Nat)) 0 node.nil node.nil)) ∧
    (∃ s1 r, (TreeMap.mk (Base.mk true 2 false)
      (node.mk 3 (some (30 : Nat)) 0 node.nil node.nil)).Insert compInt (some 5) (some 50)
        = some (s1, r)) ∧
    (∃ r, (TreeMap.mk (Base.mk true 2 false)
      (node.mk 3 (some (30 : Nat)) 0 node.nil node.nil)).Locate compInt (some 5) = some r) ∧
    (∃ s1 r, (TreeMap.mk (Base.mk true 2 false)
      (node.mk 3 (some (30 : Nat)) 0 node.nil node.nil)).Remove compInt (some 5)
        = some (s1, r)) :=
  ⟨compInt_total,
    ⟨[Op.insert 2 (some 20), Op.insert 1 (some 10), Op.insert 3 (some 30), Op.remove 2],
      by decide⟩,
    (C37_no_invalid_access compInt_total _
      ⟨[Op.insert 2 (some 20), Op.insert 1 (some 10), Op.insert 3 (some 30), Op.remove 2],
        by decide⟩ 5 (some 50)).1,
    (C37_no_invalid_access compInt_total _
      ⟨[Op.insert 2 (some 20), Op.insert 1 (some 10), Op.insert 3 (some 30), Op.remove 2],
        by decide⟩ 5 (some 50)).2.1,
    (C37_no_invalid_access compInt_total _
      ⟨[Op.insert 2 (some 20), Op.insert 1 (some 10), Op.insert 3 (some 30), Op.remove 2],
        by decide⟩ 5 (some 50)).2.2.1⟩

/-! ## A HashSet with a TreeSet, items not equal to themselves, results of Compare below -1 -/

theorem iter_singleton {ι : Type} {ord : List ι → List ι} (h : IterOrder ord) (x : ι) :
    ord [x] = [x] := List.perm_singleton.1 (h [x])

/-- A TreeSet of one item satisfies the invariant, whatever the comparator. -/
theorem SetInv_leaf (cmp : α → α → Int) (n : Int) (k : α) : SetInv cmp (treeSetOf n (leaf k)) :=
  ⟨rfl, rfl, _, rfl, ⟨rfl, by simp [inorder, leaf, Ascending], by simp [HNonneg, leaf]⟩,
    by simp [inorder, leaf]⟩

theorem visitList_mem {γ : Type} (f : γ → Bool) (l : List γ) :
    ∀ acc : List γ, ∀ x ∈ (visitList f l acc).2, x ∈ acc ∨ x ∈ l := by
  induction l with
  | nil => intro acc x hx; exact Or.inl hx
  | cons y ys ih =>
    intro acc x hx
    simp only [visitList] at hx
    by_cases hy : f y = true
    · simp only [hy, if_true] at hx
      rcases ih _ x hx with h | h
      · rw [List.mem_append, List.mem_singleton] at h
        rcases h with h | h
        · exact Or.inl h
        · exact Or.inr (h ▸ List.mem_cons_self _ _)
      · exact Or.inr (List.mem_cons_of_mem _ h)
    · simp only [hy, Bool.false_eq_true, if_false] at hx
      rw [List.mem_append, List.mem_singleton] at hx
      rcases hx with h | h
      · exact Or.inl h
      · exact Or.inr (h ▸ List.mem_cons_self _ _)

/-- `Subset` of a TreeSet with a HashSet. -/
theorem TreeSet_SubsetOfHash_eval {ν : Type} [DecidableEq α] [DecidableEq ν]
    {cmp : α → α → Int} (s : TreeSet α) (o : HashSet (Item α ν))
    (hs : SetInv cmp s) (ho : HashInv o) :
    s.SubsetOfHash o
      = some (s.keysPre.all (fun i => decide (Item.comparer i ∈ o.keys)),
          decide (s.base.Sizeb ≠ o.base.Sizeb)) := by
  have hf : (fun item => (o.Contains [(Item.comparer item : Item α ν)]).getD false)
      = fun item => decide (Item.comparer item ∈ o.keys) := by
    funext item
    rw [HashSet_Contains_single o ho]
    rfl
  have hn : (fun item => (o.Contains [(Item.comparer item : Item α ν)]).isNone)
      = fun _ => false := by
    funext item
    rw [HashSet_Contains_single o ho]
    rfl
  simp only [TreeSet.SubsetOfHash, Base.CheckInit, hs.1, TreeSet.Size, HashSet.Size, Base.Size,
    ho.1, hf, hn, TreeSet_Map_eq s hs]
  simp
  exact visitList_nil_all _ _

/-- `Subset` of a TreeSet with a HashSet is `Superset` of the HashSet with
the TreeSet, on all sets. -/
theorem TreeSet_SubsetOfHash_eq_SupersetOfTree {ν : Type} [BEq (Item α ν)]
    (a : TreeSet α) (b : HashSet (Item α ν)) : a.SubsetOfHash b = b.SupersetOfTree a := by
  rcases a with ⟨⟨ai, an, ath⟩, am⟩
  rcases b with ⟨⟨bi, bn, bth⟩, bm⟩
  have hd : decide (an = bn) = decide (bn = an) := decide_eq_decide.2 eq_comm
  cases ai <;> cases bi <;>
    simp [TreeSet.SubsetOfHash, HashSet.SupersetOfTree, Base.CheckInit, TreeSet.Size,
      HashSet.Size, Base.Size, hd]

/-- `Subset` of a HashSet with a TreeSet is `Superset` of the TreeSet with
the HashSet, on all sets, when the HashSet is traversed in the same order. -/
theorem HashSet_SubsetOfTree_eq_SupersetOfHash {ν : Type} (cmp : α → α → Int)
    (ord : List (Item α ν) → List (Item α ν)) (a : HashSet (Item α ν)) (b : TreeSet α) :
    a.SubsetOfTree cmp ord b = b.SupersetOfHash cmp ord a := by
  rcases a with ⟨⟨ai, an, ath⟩, am⟩
  rcases b with ⟨⟨bi, bn, bth⟩, bm⟩
  have hd : decide (an = bn) = decide (bn = an) := decide_eq_decide.2 eq_comm
  cases ai <;> cases bi <;>
    simp [HashSet.SubsetOfTree, TreeSet.SupersetOfHash, Base.CheckInit, TreeSet.Size,
      HashSet.Size, Base.Size, hd]

/-- `Subset` of a HashSet of Comparers with a TreeSet. -/
theorem HashSet_SubsetOfTree_eval {ν : Type} {cmp : α → α → Int} (hc : TotalCmp cmp)
    (ord : List (Item α ν) → List (Item α ν)) (hord : IterOrder ord)
    (s : HashSet (Item α ν)) (o : TreeSet α) (hs : HashInv s) (ho : SetInv cmp o)
    (hall : ∀ i ∈ s.keys, ∃ c, i = Item.comparer c) :
    s.SubsetOfTree cmp ord o
      = some (s.keys.all (fun i => (o.Contains cmp [i.asComparer]).getD false),
          decide (s.base.Sizeb ≠ o.base.Sizeb)) := by
  have hvis : ∀ x ∈ (visitList (fun item => (o.Contains cmp [item.asComparer]).getD false)
      (ord s.keys) []).2, (o.Contains cmp [x.asComparer]).isNone = false := by
    intro x hx
    rcases visitList_mem _ _ _ x hx with h | h
    · simp at h
    · obtain ⟨c, hc1⟩ := hall x ((hord s.keys).mem_iff.1 h)
      rw [hc1]
      simp only [Item.asComparer, TreeSet_Contains_single hc o ho]
      rfl
  simp only [HashSet.SubsetOfTree, Base.CheckInit, hs.1, TreeSet.Size, HashSet.Size, Base.Size,
    ho.1, HashSet_Map_eq ord s hs]
  simp
  rw [visitList_nil_all]
  refine ⟨?_, perm_all_eq _ (hord s.keys)⟩
  intro x hx h
  have h1 := hvis x hx
  rw [h] at h1
  simp at h1


set_option maxRecDepth 20000 in
/-- C21 as stated fails: for the HashSet `a` holding the raceCar (1, false)
and the TreeSet `b` holding the raceCar (1, true), `a.Difference(b)` removes
nothing, since the HashSet looks the item of `b` up with `==`, and
`Intersection` of the result with `b` keeps the raceCar (1, false), which `b`
contains by `Compare`: the result has one item, `Size()` 1 and `Empty()`
false, whatever the order of iteration. -/
theorem C21_difference_intersection_not_empty :
    (NewHashSet [Item.comparer (raceCar.mk 1 false)] : Option (HashSet (Item raceCar Int)))
      = some (HashSet.mk (Base.mk true 1 false) (some [Item.comparer (raceCar.mk 1 false)])) ∧
    NewTreeSet raceCar.Compare [some (raceCar.mk 1 true)]
      = some (treeSetOf 1 (leaf (raceCar.mk 1 true))) ∧
    ∀ ord : List (Item raceCar Int) → List (Item raceCar Int), IterOrder ord →
      (HashSet.mk (Base.mk true 1 false) (some [Item.comparer (raceCar.mk 1 false)])).DifferenceOfTree
          ord (treeSetOf 1 (leaf (raceCar.mk 1 true)))
        = some (HashSet.mk (Base.mk true 1 false) (some [Item.comparer (raceCar.mk 1 false)])) ∧
      (HashSet.mk (Base.mk true 1 false)
          (some [Item.comparer (raceCar.mk 1 false)])).IntersectionOfTree raceCar.Compare
          ord (treeSetOf 1 (leaf (raceCar.mk 1 true)))
        = some (HashSet.mk (Base.mk true 1 false) (some [Item.comparer (raceCar.mk 1 false)])) ∧
      (HashSet.mk (Base.mk true 1 false)
          (some [(Item.comparer (raceCar.mk 1 false) : Item raceCar Int)])).Slice ord
        = some [Item.comparer (raceCar.mk 1 false)] ∧
      (HashSet.mk (Base.mk true 1 false)
          (some [(Item.comparer (raceCar.mk 1 false) : Item raceCar Int)])).Size = some 1 ∧
      (HashSet.mk (Base.mk true 1 false)
          (some [(Item.comparer (raceCar.mk 1 false) : Item raceCar Int)])).Empty = some false ∧
      (HashSet.mk (Base.mk true 1 false)
          (some [(Item.comparer (raceCar.mk 1 false) : Item raceCar Int)])).Contains
        [Item.comparer (raceCar.mk 1 false)] = some true := by
  refine ⟨by decide, by decide, ?_⟩
  intro ord hord
  have hb := SetInv_leaf raceCar.Compare 1 (raceCar.mk 1 true)
  refine ⟨?_, ?_, ?_, by decide, by decide, by decide⟩
  · simp only [HashSet.DifferenceOfTree, HashSet.Copy, HashSet.Slice, HashSet.Threadsafe,
      Base.Threadsafe, Base.CheckInit, Base.RLock, Base.RUnlock, Option.getD_some,
      iter_singleton hord, TreeSet_Map_eq _ hb]
    decide
  · simp only [HashSet.IntersectionOfTree, HashSet.Map, HashSet.Size, TreeSet.Size, Base.Size,
      Base.CheckInit, Base.RLock, Base.RUnlock, Option.getD_some, iter_singleton hord]
    decide
  · simp only [HashSet.Slice, Base.CheckInit, Base.RLock, Base.RUnlock, Option.getD_some,
      iter_singleton hord]
    rfl

set_option maxRecDepth 20000 in
/-- C25 as stated fails: for the HashSet `a` holding the int 1, which does
not implement Comparer, and the TreeSet `b` holding the compInt 1, neither
`a.Subset(b)` nor `b.Superset(a)` returns a pair: both end in `log.Fatal`,
whatever the order of iteration.  With the compInt 5 also in `a` and `b`
holding the compInt 7, `a.Subset(b)` returns (false, true) when the iteration
starts at 5, while `b.Superset(a)` ends in `log.Fatal` when it starts at the
int 1. -/
theorem C25_subset_of_tree_fatal :
    (NewHashSet [Item.other 1] : Option (HashSet (Item Int Int)))
      = some (HashSet.mk (Base.mk true 1 false) (some [Item.other 1])) ∧
    NewTreeSet compInt [some 1] = some (treeSetOf 1 (leaf 1)) ∧
    (∀ ord : List (Item Int Int) → List (Item Int Int), IterOrder ord →
      (HashSet.mk (Base.mk true 1 false) (some [Item.other 1])).SubsetOfTree compInt ord
        (treeSetOf 1 (leaf 1)) = none ∧
      (treeSetOf 1 (leaf 1)).SupersetOfHash compInt ord
        (HashSet.mk (Base.mk true 1 false) (some [Item.other 1])) = none) ∧
    (NewHashSet [Item.other 1, Item.comparer 5] : Option (HashSet (Item Int Int)))
      = some (HashSet.mk (Base.mk true 2 false) (some [Item.other 1, Item.comparer 5])) ∧
    (HashSet.mk (Base.mk true 2 false) (some [Item.other 1, Item.comparer 5])).SubsetOfTree
      compInt (fun l => l.reverse) (treeSetOf 1 (leaf 7)) = some (false, true) ∧
    (treeSetOf 1 (leaf 7)).SupersetOfHash compInt (fun l => l)
      (HashSet.mk (Base.mk true 2 false) (some [Item.other 1, Item.comparer 5])) = none := by
  refine ⟨by decide, by decide, ?_, by decide, by decide, by decide⟩
  intro ord hord
  constructor
  · simp only [HashSet.SubsetOfTree, HashSet.Map, HashSet.Size, TreeSet.Size, Base.Size,
      Base.CheckInit, Base.RLock, Base.RUnlock, Option.getD_some, iter_singleton hord]
    decide
  · simp only [TreeSet.SupersetOfHash, HashSet.Map, HashSet.Size, TreeSet.Size, Base.Size,
      Base.CheckInit, Base.RLock, Base.RUnlock, Option.getD_some, iter_singleton hord]
    decide


theorem TreeSet_keysPre_length (s : TreeSet α) : s.keysPre.length = s.entries.length := by
  cases hm : s.m with
  | none => simp [TreeSet.keysPre, TreeSet.entries, hm]
  | some m => simp [TreeSet.keysPre, TreeSet.entries, hm, preorder_length]

/-- What `Intersection` of two TreeSets computes: the fold of its visitor over
the keys of the set that is traversed. -/
theorem TreeSet_Intersection_eval {cmp : α → α → Int} (a b : TreeSet α) (ha : SetInv cmp a)
    (hb : SetInv cmp b) :
    a.Intersection cmp b
      = if a.base.Sizeb > b.base.Sizeb then TreeSet.insertCommon cmp a emptyTreeSet b.keysPre
        else TreeSet.insertCommon cmp b emptyTreeSet a.keysPre := by
  have hnew : NewTreeSet cmp ([] : List (Option α)) = some emptyTreeSet := rfl
  by_cases hsz : a.base.Sizeb > b.base.Sizeb
  · simp [TreeSet.Intersection, Base.CheckInit, ha.1, hb.1, hnew, TreeSet.Size, Base.Size,
      hsz, TreeSet_Map_true b hb]
  · simp [TreeSet.Intersection, Base.CheckInit, ha.1, hb.1, hnew, TreeSet.Size, Base.Size,
      hsz, TreeSet_Map_true a ha]

set_option maxRecDepth 20000 in
/-- C19: for two reachable TreeSets, and for two reachable HashSets,
`a.Intersection(b)` returns a set of which `x` is a member exactly when it is
a member of both `a` and `b`; the first result of `Subset` on the
intersection against `a` and against `b` is true.  The items that `Slice`
gives for the intersection are those that are in both sets: for TreeSets, an
item compares equal to one of them exactly when it compares equal to an item
of `a.Slice()` and to one of `b.Slice()`; for HashSets they are different
items, and an item is `==` to one of them exactly when `a` and `b` both
contain it; `Size()` is their number.
{1,2,3}.Intersection({2,3,4}) holds 2 and 3 and has size 2. -/
theorem C19_intersection_members {cmp : α → α → Int} (hc : TotalCmp cmp) (a b : TreeSet α)
    (ha : TreeSet.Reachable cmp a) (hb : TreeSet.Reachable cmp b)
    {ι : Type} [DecidableEq ι] (ord : List ι → List ι) (hord : IterOrder ord)
    (a1 b1 : HashSet ι) (ha1 : HashSet.Reachable a1) (hb1 : HashSet.Reachable b1) :
    (∃ u, a.Intersection cmp b = some u ∧
      (∀ x, ∃ ca cb, a.Contains cmp [some x] = some ca ∧ b.Contains cmp [some x] = some cb ∧
        u.Contains cmp [some x] = some (ca && cb)) ∧
      (∃ p, u.Subset cmp a = some (true, p)) ∧ (∃ p, u.Subset cmp b = some (true, p)) ∧
      (∃ sa sb su, a.Slice = some sa ∧ b.Slice = some sb ∧ u.Slice = some su ∧
        u.Size = some (su.length : Int) ∧
        ∀ x, (∃ i ∈ su, cmp i x = 0) ↔ ((∃ i ∈ sa, cmp i x = 0) ∧ (∃ j ∈ sb, cmp j x = 0)))) ∧
    (∃ u, a1.Intersection ord b1 = some u ∧
      (∀ x, ∃ ca cb, a1.Contains [x] = some ca ∧ b1.Contains [x] = some cb ∧
        u.Contains [x] = some (ca && cb)) ∧
      (∃ p, u.Subset ord a1 = some (true, p)) ∧ (∃ p, u.Subset ord b1 = some (true, p)) ∧
      (∃ su, u.Slice ord = some su ∧ su.Nodup ∧ u.Size = some (su.length : Int) ∧
        ∀ x, (∃ k ∈ su, (k == x) = true) ↔
          (a1.Contains [x] = some true ∧ b1.Contains [x] = some true))) ∧
    (NewTreeSet compInt [some 1, some 2, some 3] = some (treeSetOf 3 (node.mk 1 (some true) 2 node.nil (node.mk 2 (some true) 1 node.nil (leaf 3)))) ∧
      NewTreeSet compInt [some 2, some 3, some 4] = some (treeSetOf 3 (node.mk 2 (some true) 2 node.nil (node.mk 3 (some true) 1 node.nil (leaf 4)))) ∧
      (treeSetOf 3 (node.mk 1 (some true) 2 node.nil (node.mk 2 (some true) 1 node.nil (leaf 3)))).Intersection compInt (treeSetOf 3 (node.mk 2 (some true) 2 node.nil (node.mk 3 (some true) 1 node.nil (leaf 4)))) = some (treeSetOf 2 (node.mk 2 (some true) 1 node.nil (leaf 3))) ∧
      (treeSetOf 2 (node.mk (2 : Int) (some true) 1 node.nil (leaf 3))).Slice = some [2, 3] ∧
      (treeSetOf 2 (node.mk (2 : Int) (some true) 1 node.nil (leaf 3))).Size = some 2 ∧
      (treeSetOf 2 (node.mk 2 (some true) 1 node.nil (leaf 3))).Contains compInt [some 2] = some true ∧
      (treeSetOf 2 (node.mk 2 (some true) 1 node.nil (leaf 3))).Contains compInt [some 3] = some true ∧
      (treeSetOf 2 (node.mk 2 (some true) 1 node.nil (leaf 3))).Contains compInt [some 1] = some false ∧
      (treeSetOf 2 (node.mk 2 (some true) 1 node.nil (leaf 3))).Contains compInt [some 4] = some false) ∧
    (NewHashSet [(1 : Int), 2, 3] = some (HashSet.mk (Base.mk true 3 false) (some [(1 : Int), 2, 3])) ∧
      NewHashSet [(2 : Int), 3, 4] = some (HashSet.mk (Base.mk true 3 false) (some [(2 : Int), 3, 4])) ∧
      ∀ ordI : List Int → List Int, IterOrder ordI →
        ∃ u su, (HashSet.mk (Base.mk true 3 false) (some [(1 : Int), 2, 3])).Intersection ordI (HashSet.mk (Base.mk true 3 false) (some [(2 : Int), 3, 4])) = some u ∧
          u.Slice ordI = some su ∧ su.Perm [2, 3] ∧ u.Size = some 2 ∧
          u.Contains [2] = some true ∧ u.Contains [3] = some true ∧
          u.Contains [1] = some false ∧ u.Contains [4] = some false) := by
  refine ⟨?_, ?_, ?_, ?_⟩
  · have hia := TreeSet_Reachable_inv hc ha
    have hib := TreeSet_Reachable_inv hc hb
    obtain ⟨u, h1, h2, h3, h4⟩ := TreeSet_Intersection_spec hc a b hia hib
    refine ⟨u, h1, ?_, ⟨_, TreeSet_Subset_of_has hc u a h2 hia ?_⟩,
      ⟨_, TreeSet_Subset_of_has hc u b h2 hib ?_⟩,
      ⟨_, _, _, TreeSet_Slice_eq a hia, TreeSet_Slice_eq b hib, TreeSet_Slice_eq u h2, ?_, ?_⟩⟩
    · intro x
      exact ⟨_, _, TreeSet_Contains_single hc a hia x, TreeSet_Contains_single hc b hib x,
        (TreeSet_Contains_single hc u h2 x).trans (by rw [h4 x])⟩
    · intro x hx
      rw [h4 x, Bool.and_eq_true] at hx
      exact hx.1
    · intro x hx
      rw [h4 x, Bool.and_eq_true] at hx
      exact hx.2
    · rw [TreeSet_keysPre_length, ← h3]
      simp [TreeSet.Size, Base.Size, h2.1]
    · intro x
      rw [← TreeSet_has_iff hc u h2 x, ← TreeSet_has_iff hc a hia x, ← TreeSet_has_iff hc b hib x,
        h4 x, Bool.and_eq_true]
  · have hia := HashSet_Reachable_inv ha1
    have hib := HashSet_Reachable_inv hb1
    obtain ⟨u, h1, h2, h3⟩ := HashSet_Intersection_spec ord hord a1 b1 hia hib
    refine ⟨u, h1, ?_, ⟨_, HashSet_Subset_of_mem ord hord u a1 h2 hia ?_⟩,
      ⟨_, HashSet_Subset_of_mem ord hord u b1 h2 hib ?_⟩,
      ⟨_, HashSet_Slice_eq ord u h2, ?_, ?_, ?_⟩⟩
    · intro x
      refine ⟨_, _, HashSet_Contains_single a1 hia x, HashSet_Contains_single b1 hib x, ?_⟩
      rw [HashSet_Contains_single u h2 x]
      congr 1
      rw [Bool.eq_iff_iff]
      simp [h3 x]
    · intro x hx
      exact ((h3 x).1 hx).1
    · intro x hx
      exact ((h3 x).1 hx).2
    · obtain ⟨_, _, l, hm, hnd, _⟩ := h2
      rw [(hord _).nodup_iff]
      simpa [HashSet.keys, hm] using hnd
    · rw [HashSet_Size_eq u h2, (hord _).length_eq]
    · intro x
      have hx : (∃ k ∈ ord u.keys, (k == x) = true) ↔ x ∈ ord u.keys := by
        simp
      rw [hx, (hord _).mem_iff, h3 x, HashSet_Contains_single a1 hia x,
        HashSet_Contains_single b1 hib x]
      simp
  · have h123 : SetInv compInt (treeSetOf 3 (node.mk 1 (some true) 2 node.nil (node.mk 2 (some true) 1 node.nil (leaf 3)))) :=
      TreeSet_Reachable_inv compInt_total (TreeSet_Reachable_new compInt [1, 2, 3] _ (by decide))
    have h234 : SetInv compInt (treeSetOf 3 (node.mk 2 (some true) 2 node.nil (node.mk 3 (some true) 1 node.nil (leaf 4)))) :=
      TreeSet_Reachable_inv compInt_total (TreeSet_Reachable_new compInt [2, 3, 4] _ (by decide))
    have h23 : SetInv compInt (treeSetOf 2 (node.mk 2 (some true) 1 node.nil (leaf 3))) :=
      TreeSet_Reachable_inv compInt_total (TreeSet_Reachable_new compInt [2, 3] _ (by decide))
    refine ⟨by decide, by decide, ?_, ?_, by decide, by decide, by decide, by decide,
      by decide⟩
    · rw [TreeSet_Intersection_eval _ _ h123 h234]
      decide
    · rw [TreeSet_Slice_eq _ h23]
      decide
  · refine ⟨by decide, by decide, ?_⟩
    intro ordI hordI
    have h123 : HashInv (HashSet.mk (Base.mk true 3 false) (some [(1 : Int), 2, 3])) :=
      HashSet_Reachable_inv (HashSet_Reachable_new [(1 : Int), 2, 3] _ (by decide))
    have h234 : HashInv (HashSet.mk (Base.mk true 3 false) (some [(2 : Int), 3, 4])) :=
      HashSet_Reachable_inv (HashSet_Reachable_new [(2 : Int), 3, 4] _ (by decide))
    obtain ⟨u, h1, h2, h3⟩ := HashSet_Intersection_spec ordI hordI _ _ h123 h234
    have hk : ∀ x : Int, x ∈ u.keys ↔ x ∈ [(2 : Int), 3] := by
      intro x
      rw [h3 x]
      simp only [HashSet.keys, Option.getD_some, List.mem_cons, List.mem_singleton,
        List.mem_nil_iff, or_false]
      omega
    have hnd : u.keys.Nodup := by
      obtain ⟨_, _, l, hm, hnd, _⟩ := h2
      simpa [HashSet.keys, hm] using hnd
    have hp : u.keys.Perm [(2 : Int), 3] :=
      (List.perm_ext_iff_of_nodup hnd (by decide)).2 hk
    refine ⟨u, _, h1, HashSet_Slice_eq ordI u h2, (hordI _).trans hp, ?_, ?_, ?_, ?_, ?_⟩
    · rw [HashSet_Size_eq u h2, hp.length_eq]
      rfl
    · rw [HashSet_Contains_single u h2, decide_eq_true ((hk 2).2 (by decide))]
    · rw [HashSet_Contains_single u h2, decide_eq_true ((hk 3).2 (by decide))]
    · rw [HashSet_Contains_single u h2, decide_eq_false (fun h => absurd ((hk 1).1 h) (by decide))]
    · rw [HashSet_Contains_single u h2, decide_eq_false (fun h => absurd ((hk 4).1 h) (by decide))]

set_option maxRecDepth 20000 in
theorem C19_intersection_members_witness :
    TotalCmp compInt ∧ IterOrder (fun l : List Int => l.reverse) ∧
    TreeSet.Reachable compInt (treeSetOf 3 (node.mk 1 (some true) 2 node.nil (node.mk 2 (some true) 1 node.nil (leaf 3)))) ∧
    TreeSet.Reachable compInt (treeSetOf 3 (node.mk 2 (some true) 2 node.nil (node.mk 3 (some true) 1 node.nil (leaf 4)))) ∧
    HashSet.Reachable (HashSet.mk (Base.mk true 3 false) (some [(1 : Int), 2, 3])) ∧
    HashSet.Reachable (HashSet.mk (Base.mk true 3 false) (some [(2 : Int), 3, 4])) ∧
    (∃ u, (treeSetOf 3 (node.mk 1 (some true) 2 node.nil (node.mk 2 (some true) 1 node.nil (leaf 3)))).Intersection compInt (treeSetOf 3 (node.mk 2 (some true) 2 node.nil (node.mk 3 (some true) 1 node.nil (leaf 4)))) = some u ∧
      (∀ x, ∃ ca cb, (treeSetOf 3 (node.mk 1 (some true) 2 node.nil (node.mk 2 (some true) 1 node.nil (leaf 3)))).Contains compInt [some x] = some ca ∧ (treeSetOf 3 (node.mk 2 (some true) 2 node.nil (node.mk 3 (some true) 1 node.nil (leaf 4)))).Contains compInt [some x] = some cb ∧
        u.Contains compInt [some x] = some (ca && cb)) ∧
      (∃ p, u.Subset compInt (treeSetOf 3 (node.mk 1 (some true) 2 node.nil (node.mk 2 (some true) 1 node.nil (leaf 3)))) = some (true, p)) ∧ (∃ p, u.Subset compInt (treeSetOf 3 (node.mk 2 (some true) 2 node.nil (node.mk 3 (some true) 1 node.nil (leaf 4)))) = some (true, p)) ∧
      (∃ sa sb su, (treeSetOf 3 (node.mk 1 (some true) 2 node.nil (node.mk 2 (some true) 1 node.nil (leaf 3)))).Slice = some sa ∧ (treeSetOf 3 (node.mk 2 (some true) 2 node.nil (node.mk 3 (some true) 1 node.nil (leaf 4)))).Slice = some sb ∧ u.Slice = some su ∧
        u.Size = some (su.length : Int) ∧
        ∀ x, (∃ i ∈ su, compInt i x = 0) ↔ ((∃ i ∈ sa, compInt i x = 0) ∧ (∃ j ∈ sb, compInt j x = 0)))) ∧
    (∃ u, (HashSet.mk (Base.mk true 3 false) (some [(1 : Int), 2, 3])).Intersection (fun l => l.reverse) (HashSet.mk (Base.mk true 3 false) (some [(2 : Int), 3, 4])) = some u ∧
      (∀ x, ∃ ca cb, (HashSet.mk (Base.mk true 3 false) (some [(1 : Int), 2, 3])).Contains [x] = some ca ∧ (HashSet.mk (Base.mk true 3 false) (some [(2 : Int), 3, 4])).Contains [x] = some cb ∧
        u.Contains [x] = some (ca && cb)) ∧
      (∃ p, u.Subset (fun l => l.reverse) (HashSet.mk (Base.mk true 3 false) (some [(1 : Int), 2, 3])) = some (true, p)) ∧ (∃ p, u.Subset (fun l => l.reverse) (HashSet.mk (Base.mk true 3 false) (some [(2 : Int), 3, 4])) = some (true, p)) ∧
      (∃ su, u.Slice (fun l => l.reverse) = some su ∧ su.Nodup ∧ u.Size = some (su.length : Int) ∧
        ∀ x, (∃ k ∈ su, (k == x) = true) ↔
          ((HashSet.mk (Base.mk true 3 false) (some [(1 : Int), 2, 3])).Contains [x] = some true ∧
            (HashSet.mk (Base.mk true 3 false) (some [(2 : Int), 3, 4])).Contains [x] = some true))) :=
  ⟨compInt_total, fun l => List.reverse_perm l,
    TreeSet_Reachable_new compInt [1, 2, 3] _ (by decide),
    TreeSet_Reachable_new compInt [2, 3, 4] _ (by decide),
    HashSet_Reachable_new [1, 2, 3] _ (by decide), HashSet_Reachable_new [2, 3, 4] _ (by decide),
    (C19_intersection_members compInt_total (treeSetOf 3 (node.mk 1 (some true) 2 node.nil (node.mk 2 (some true) 1 node.nil (leaf 3)))) (treeSetOf 3 (node.mk 2 (some true) 2 node.nil (node.mk 3 (some true) 1 node.nil (leaf 4))))
      (TreeSet_Reachable_new compInt [1, 2, 3] _ (by decide))
      (TreeSet_Reachable_new compInt [2, 3, 4] _ (by decide))
      (fun l => l.reverse) (fun l => List.reverse_perm l)
      (HashSet.mk (Base.mk true 3 false) (some [(1 : Int), 2, 3])) (HashSet.mk (Base.mk true 3 false) (some [(2 : Int), 3, 4]))
      (HashSet_Reachable_new [1, 2, 3] _ (by decide))
      (HashSet_Reachable_new [2, 3, 4] _ (by decide))).1,
    (C19_intersection_members compInt_total (treeSetOf 3 (node.mk 1 (some true) 2 node.nil (node.mk 2 (some true) 1 node.nil (leaf 3)))) (treeSetOf 3 (node.mk 2 (some true) 2 node.nil (node.mk 3 (some true) 1 node.nil (leaf 4))))
      (TreeSet_Reachable_new compInt [1, 2, 3] _ (by decide))
      (TreeSet_Reachable_new compInt [2, 3, 4] _ (by decide))
      (fun l => l.reverse) (fun l => List.reverse_perm l)
      (HashSet.mk (Base.mk true 3 false) (some [(1 : Int), 2, 3])) (HashSet.mk (Base.mk true 3 false) (some [(2 : Int), 3, 4]))
      (HashSet_Reachable_new [1, 2, 3] _ (by decide))
      (HashSet_Reachable_new [2, 3, 4] _ (by decide))).2.1⟩


/-- C22 as stated fails: the HashSets that `NewHashSet(math.NaN(), 1.0)` and
`NewHashSet(1.0, math.NaN())` return hold the same two items, `Slice` of one
is a permutation of `Slice` of the other and `Contains` agrees on every item,
yet `Equal` returns false in both directions, whatever the order of
iteration. -/
theorem C22_equal_false_on_same_members :
    NewHashSet [float64.NaN, float64.val 1]
      = some (HashSet.mk (Base.mk true 2 false) (some [float64.NaN, float64.val 1])) ∧
    NewHashSet [float64.val 1, float64.NaN]
      = some (HashSet.mk (Base.mk true 2 false) (some [float64.val 1, float64.NaN])) ∧
    (∀ x, (HashSet.mk (Base.mk true 2 false) (some [float64.NaN, float64.val 1])).Contains [x]
      = (HashSet.mk (Base.mk true 2 false) (some [float64.val 1, float64.NaN])).Contains [x]) ∧
    ∀ ord : List float64 → List float64, IterOrder ord →
      (∃ sa sb,
        (HashSet.mk (Base.mk true 2 false) (some [float64.NaN, float64.val 1])).Slice ord
          = some sa ∧
        (HashSet.mk (Base.mk true 2 false) (some [float64.val 1, float64.NaN])).Slice ord
          = some sb ∧ sa.Perm sb) ∧
      (HashSet.mk (Base.mk true 2 false) (some [float64.NaN, float64.val 1])).Equal ord
        (HashSet.mk (Base.mk true 2 false) (some [float64.val 1, float64.NaN])) = some false ∧
      (HashSet.mk (Base.mk true 2 false) (some [float64.val 1, float64.NaN])).Equal ord
        (HashSet.mk (Base.mk true 2 false) (some [float64.NaN, float64.val 1])) = some false := by
  refine ⟨rfl, rfl, ?_, ?_⟩
  · intro x
    cases x with
    | NaN => rfl
    | val n =>
      simp only [HashSet.Contains, Base.CheckInit, Base.RUnlock, Option.getD_some]
      by_cases h : n = 1
      · subst h
        rfl
      · have h1 : (float64.val n == float64.val 1) = false := by
          show float64.eq (float64.val n) (float64.val 1) = false
          simp [float64.eq, h]
        have h2 : (float64.val n == float64.NaN) = false := rfl
        simp [List.contains, List.elem, h1, h2]
  · intro ord hord
    refine ⟨⟨_, _, rfl, rfl, ?_⟩, ?_, ?_⟩
    · exact (hord _).trans ((List.Perm.swap _ _ _).trans (hord _).symm)
    · simp only [HashSet.Equal, HashSet.Map, Base.CheckInit, HashSet.Size, Base.Size, Base.RLock,
        Base.RUnlock, Option.getD_some]
      simp only [ne_eq, not_true_eq_false, Bool.not_true, Bool.not_false, if_false,
        Bool.false_eq_true, Option.pure_def, Option.bind_eq_bind, Option.some_bind,
        visitList_nil_all, perm_all_eq _ (hord _)]
      rfl
    · simp only [HashSet.Equal, HashSet.Map, Base.CheckInit, HashSet.Size, Base.Size, Base.RLock,
        Base.RUnlock, Option.getD_some]
      simp only [ne_eq, not_true_eq_false, Bool.not_true, Bool.not_false, if_false,
        Bool.false_eq_true, Option.pure_def, Option.bind_eq_bind, Option.some_bind,
        visitList_nil_all, perm_all_eq _ (hord _)]
      rfl

set_option maxRecDepth 20000 in
/-- C23 as stated fails: the HashSet that `NewHashSet(math.NaN())` returns
holds one item, and `Equal` of it with itself returns false, whatever the
order of iteration: the lookup `s.m[item]` does not find the NaN. -/
theorem C23_equal_with_itself_false_on_nan :
    NewHashSet [float64.NaN]
      = some (HashSet.mk (Base.mk true 1 false) (some [float64.NaN])) ∧
    HashSet.Reachable (HashSet.mk (Base.mk true 1 false) (some [float64.NaN])) ∧
    (HashSet.mk (Base.mk true 1 false) (some [float64.NaN])).Size = some 1 ∧
    ∀ ord : List float64 → List float64, IterOrder ord →
      (HashSet.mk (Base.mk true 1 false) (some [float64.NaN])).Equal ord
        (HashSet.mk (Base.mk true 1 false) (some [float64.NaN])) = some false := by
  refine ⟨rfl, ⟨true, [float64.NaN], [], rfl⟩, rfl, ?_⟩
  intro ord hord
  simp only [HashSet.Equal, HashSet.Map, Base.CheckInit, HashSet.Size, Base.Size, Base.RLock,
    Base.RUnlock, Option.getD_some, iter_singleton hord]
  rfl

set_option maxRecDepth 20000 in
/-- C24 as stated fails: `Subset` of the HashSet that
`NewHashSet(math.NaN())` returns with itself returns (false, false), whatever
the order of iteration; and `Subset` of the TreeSet holding the raceCar
(1, false) with the HashSet holding the same raceCar returns (true, false),
while the raceCar (1, true) is a member of the TreeSet, which asks `Compare`,
and not of the HashSet, which asks `==`. -/
theorem C24_subset_with_itself_false_on_nan :
    NewHashSet [float64.NaN]
      = some (HashSet.mk (Base.mk true 1 false) (some [float64.NaN])) ∧
    (∀ ord : List float64 → List float64, IterOrder ord →
      (HashSet.mk (Base.mk true 1 false) (some [float64.NaN])).Subset ord
        (HashSet.mk (Base.mk true 1 false) (some [float64.NaN])) = some (false, false)) ∧
    NewTreeSet raceCar.Compare [some (raceCar.mk 1 false)]
      = some (treeSetOf 1 (leaf (raceCar.mk 1 false))) ∧
    (NewHashSet [Item.comparer (raceCar.mk 1 false)] : Option (HashSet (Item raceCar Int)))
      = some (HashSet.mk (Base.mk true 1 false) (some [Item.comparer (raceCar.mk 1 false)])) ∧
    (treeSetOf 1 (leaf (raceCar.mk 1 false))).SubsetOfHash
      (HashSet.mk (Base.mk true 1 false) (some [(Item.comparer (raceCar.mk 1 false) :
        Item raceCar Int)])) = some (true, false) ∧
    (treeSetOf 1 (leaf (raceCar.mk 1 false))).Contains raceCar.Compare
      [some (raceCar.mk 1 true)] = some true ∧
    (HashSet.mk (Base.mk true 1 false) (some [(Item.comparer (raceCar.mk 1 false) :
        Item raceCar Int)])).Contains [Item.comparer (raceCar.mk 1 true)] = some false := by
  refine ⟨rfl, ?_, by decide, by decide, ?_, by decide, by decide⟩
  · intro ord hord
    simp only [HashSet.Subset, HashSet.Map, Base.CheckInit, HashSet.Size, Base.Size, Base.RLock,
      Base.RUnlock, Option.getD_some, iter_singleton hord]
    rfl
  · rw [TreeSet_SubsetOfHash_eval _ _ (SetInv_leaf raceCar.Compare 1 (raceCar.mk 1 false))
      (HashSet_Reachable_inv (HashSet_Reachable_new [Item.comparer (raceCar.mk 1 false)] _
        (by decide)))]
    decide


/-- C25 amended: for two reachable TreeSets, for two reachable HashSets over
items on which `==` is the equality of values, and for a
reachable TreeSet `a` with a reachable HashSet `h`, `Subset` of the first with
the second and `Superset` of the second with the first return, and return the
same pair, whatever the order of each iteration over a HashSet.  So they do
for the HashSet `h` with the TreeSet `b` when every item that `h.Slice()`
gives implements Comparer.  On all TreeSets, and on every HashSet with every
TreeSet when the HashSet is traversed in the same order, the two calls have
the same outcome, a panic or `log.Fatal` included. -/
theorem C25_subset_superset_agree {cmp : α → α → Int} (hc : TotalCmp cmp) (a b : TreeSet α)
    (ha : TreeSet.Reachable cmp a) (hb : TreeSet.Reachable cmp b)
    {ι : Type} [DecidableEq ι] (ord1 ord2 : List ι → List ι) (hord1 : IterOrder ord1)
    (hord2 : IterOrder ord2)
    (a1 b1 : HashSet ι) (ha1 : HashSet.Reachable a1) (hb1 : HashSet.Reachable b1)
    {ν : Type} [DecidableEq α] [DecidableEq ν]
    (ord3 ord4 : List (Item α ν) → List (Item α ν)) (hord3 : IterOrder ord3)
    (hord4 : IterOrder ord4) (h : HashSet (Item α ν)) (hh : HashSet.Reachable h) :
    (∃ p, a.Subset cmp b = some p ∧ b.Superset cmp a = some p) ∧
    (∃ p, a1.Subset ord1 b1 = some p ∧ b1.Superset ord2 a1 = some p) ∧
    (∀ a2 b2 : TreeSet α, a2.Subset cmp b2 = b2.Superset cmp a2) ∧
    (∃ p, a.SubsetOfHash h = some p ∧ h.SupersetOfTree a = some p) ∧
    ((∀ i ∈ (h.Slice ord3).getD [], i.asComparer.isSome = true) →
      ∃ p, h.SubsetOfTree cmp ord3 b = some p ∧ b.SupersetOfHash cmp ord4 h = some p) ∧
    (∀ (a2 : TreeSet α) (b2 : HashSet (Item α ν)), a2.SubsetOfHash b2 = b2.SupersetOfTree a2) ∧
    (∀ (ord : List (Item α ν) → List (Item α ν)) (a2 : HashSet (Item α ν)) (b2 : TreeSet α),
      a2.SubsetOfTree cmp ord b2 = b2.SupersetOfHash cmp ord a2) := by
  have hia := TreeSet_Reachable_inv hc ha
  have hib := TreeSet_Reachable_inv hc hb
  have hja := HashSet_Reachable_inv ha1
  have hjb := HashSet_Reachable_inv hb1
  have hjh := HashSet_Reachable_inv hh
  refine ⟨⟨_, TreeSet_Subset_eval hc a b hia hib, ?_⟩,
    ⟨_, HashSet_Subset_eval ord1 hord1 a1 b1 hja hjb, ?_⟩,
    fun a2 b2 => TreeSet_Subset_eq_Superset cmp a2 b2,
    ⟨_, TreeSet_SubsetOfHash_eval a h hia hjh, ?_⟩, ?_,
    fun a2 b2 => TreeSet_SubsetOfHash_eq_SupersetOfTree a2 b2,
    fun ord a2 b2 => HashSet_SubsetOfTree_eq_SupersetOfHash cmp ord a2 b2⟩
  · rw [← TreeSet_Subset_eq_Superset]
    exact TreeSet_Subset_eval hc a b hia hib
  · rw [HashSet_Superset_eval ord2 hord2 b1 a1 hjb hja]
    have hd : decide (b1.base.Sizeb ≠ a1.base.Sizeb) = decide (a1.base.Sizeb ≠ b1.base.Sizeb) :=
      decide_eq_decide.2 ne_comm
    rw [hd]
  · rw [← TreeSet_SubsetOfHash_eq_SupersetOfTree]
    exact TreeSet_SubsetOfHash_eval a h hia hjh
  · intro hcomp
    have hall : ∀ i ∈ h.keys, ∃ c, i = Item.comparer c := by
      intro i hi
      have h1 := hcomp i (by
        rw [HashSet_Slice_eq ord3 h hjh]
        exact (hord3 _).mem_iff.2 hi)
      cases i with
      | comparer c => exact ⟨c, rfl⟩
      | other v => simp [Item.asComparer] at h1
    refine ⟨_, HashSet_SubsetOfTree_eval hc ord3 hord3 h b hjh hib hall, ?_⟩
    rw [← HashSet_SubsetOfTree_eq_SupersetOfHash]
    exact HashSet_SubsetOfTree_eval hc ord4 hord4 h b hjh hib hall

set_option maxRecDepth 20000 in
theorem C25_subset_superset_agree_witness :
    TotalCmp compInt ∧ IterOrder (fun l : List Int => l.reverse) ∧
    IterOrder (fun l : List (Item Int Int) => l.reverse) ∧
    TreeSet.Reachable compInt (treeSetOf 2 (leaf 3)) ∧
    TreeSet.Reachable compInt (treeSetOf 1 (leaf 7)) ∧
    HashSet.Reachable (HashSet.mk (Base.mk true 1 false) (some [(1 : Int)])) ∧
    HashSet.Reachable (HashSet.mk (Base.mk true 1 false) (some [(7 : Int)])) ∧
    HashSet.Reachable (HashSet.mk (Base.mk true 2 false)
      (some [(Item.comparer 3 : Item Int Int), Item.comparer 7])) ∧
    (∃ p, (treeSetOf 2 (leaf 3)).Subset compInt (treeSetOf 1 (leaf 7)) = some p ∧
      (treeSetOf 1 (leaf 7)).Superset compInt (treeSetOf 2 (leaf 3)) = some p) ∧
    (∃ p, (HashSet.mk (Base.mk true 1 false) (some [(1 : Int)])).Subset (fun l => l.reverse)
        (HashSet.mk (Base.mk true 1 false) (some [(7 : Int)])) = some p ∧
      (HashSet.mk (Base.mk true 1 false) (some [(7 : Int)])).Superset (fun l => l)
        (HashSet.mk (Base.mk true 1 false) (some [(1 : Int)])) = some p) ∧
    (∃ p, (treeSetOf 2 (leaf 3)).SubsetOfHash (HashSet.mk (Base.mk true 2 false)
        (some [(Item.comparer 3 : Item Int Int), Item.comparer 7])) = some p ∧
      (HashSet.mk (Base.mk true 2 false)
        (some [(Item.comparer 3 : Item Int Int), Item.comparer 7])).SupersetOfTree
        (treeSetOf 2 (leaf 3)) = some p) ∧
    (∃ p, (HashSet.mk (Base.mk true 2 false)
        (some [(Item.comparer 3 : Item Int Int), Item.comparer 7])).SubsetOfTree compInt
        (fun l => l.reverse) (treeSetOf 1 (leaf 7)) = some p ∧
      (treeSetOf 1 (leaf 7)).SupersetOfHash compInt (fun l => l) (HashSet.mk (Base.mk true 2 false)
        (some [(Item.comparer 3 : Item Int Int), Item.comparer 7])) = some p) :=
  ⟨compInt_total, fun l => List.reverse_perm l, fun l => List.reverse_perm l,
    ⟨true, [2, 1, 3], [SetOp.remove [2]], by decide⟩,
    TreeSet_Reachable_new compInt [7] _ (by decide),
    HashSet_Reachable_new [1] _ (by decide), HashSet_Reachable_new [7] _ (by decide),
    HashSet_Reachable_new [Item.comparer 3, Item.comparer 7] _ (by decide),
    (C25_subset_superset_agree compInt_total (treeSetOf 2 (leaf 3)) (treeSetOf 1 (leaf 7))
      ⟨true, [2, 1, 3], [SetOp.remove [2]], by decide⟩
      (TreeSet_Reachable_new compInt [7] _ (by decide))
      (fun l => l.reverse) (fun l => l) (fun l => List.reverse_perm l)
      (fun l => List.Perm.refl l)
      (HashSet.mk (Base.mk true 1 false) (some [(1 : Int)]))
      (HashSet.mk (Base.mk true 1 false) (some [(7 : Int)]))
      (HashSet_Reachable_new [1] _ (by decide)) (HashSet_Reachable_new [7] _ (by decide))
      (fun l => l.reverse) (fun l => l) (fun l => List.reverse_perm l)
      (fun l => List.Perm.refl l)
      (HashSet.mk (Base.mk true 2 false)
        (some [(Item.comparer 3 : Item Int Int), Item.comparer 7]))
      (HashSet_Reachable_new [Item.comparer 3, Item.comparer 7] _ (by decide))).1,
    (C25_subset_superset_agree compInt_total (treeSetOf 2 (leaf 3)) (treeSetOf 1 (leaf 7))
      ⟨true, [2, 1, 3], [SetOp.remove [2]], by decide⟩
      (TreeSet_Reachable_new compInt [7] _ (by decide))
      (fun l => l.reverse) (fun l => l) (fun l => List.reverse_perm l)
      (fun l => List.Perm.refl l)
      (HashSet.mk (Base.mk true 1 false) (some [(1 : Int)]))
      (HashSet.mk (Base.mk true 1 false) (some [(7 : Int)]))
      (HashSet_Reachable_new [1] _ (by decide)) (HashSet_Reachable_new [7] _ (by decide))
      (fun l => l.reverse) (fun l => l) (fun l => List.reverse_perm l)
      (fun l => List.Perm.refl l)
      (HashSet.mk (Base.mk true 2 false)
        (some [(Item.comparer 3 : Item Int Int), Item.comparer 7]))
      (HashSet_Reachable_new [Item.comparer 3, Item.comparer 7] _ (by decide))).2.1,
    (C25_subset_superset_agree compInt_total (treeSetOf 2 (leaf 3)) (treeSetOf 1 (leaf 7))
      ⟨true, [2, 1, 3], [SetOp.remove [2]], by decide⟩
      (TreeSet_Reachable_new compInt [7] _ (by decide))
      (fun l => l.reverse) (fun l => l) (fun l => List.reverse_perm l)
      (fun l => List.Perm.refl l)
      (HashSet.mk (Base.mk true 1 false) (some [(1 : Int)]))
      (HashSet.mk (Base.mk true 1 false) (some [(7 : Int)]))
      (HashSet_Reachable_new [1] _ (by decide)) (HashSet_Reachable_new [7] _ (by decide))
      (fun l => l.reverse) (fun l => l) (fun l => List.reverse_perm l)
      (fun l => List.Perm.refl l)
      (HashSet.mk (Base.mk true 2 false)
        (some [(Item.comparer 3 : Item Int Int), Item.comparer 7]))
      (HashSet_Reachable_new [Item.comparer 3, Item.comparer 7] _ (by decide))).2.2.2.1,
    (C25_subset_superset_agree compInt_total (treeSetOf 2 (leaf 3)) (treeSetOf 1 (leaf 7))
      ⟨true, [2, 1, 3], [SetOp.remove [2]], by decide⟩
      (TreeSet_Reachable_new compInt [7] _ (by decide))
      (fun l => l.reverse) (fun l => l) (fun l => List.reverse_perm l)
      (fun l => List.Perm.refl l)
      (HashSet.mk (Base.mk true 1 false) (some [(1 : Int)]))
      (HashSet.mk (Base.mk true 1 false) (some [(7 : Int)]))
      (HashSet_Reachable_new [1] _ (by decide)) (HashSet_Reachable_new [7] _ (by decide))
      (fun l => l.reverse) (fun l => l) (fun l => List.reverse_perm l)
      (fun l => List.Perm.refl l)
      (HashSet.mk (Base.mk true 2 false)
        (some [(Item.comparer 3 : Item Int Int), Item.comparer 7]))
      (HashSet_Reachable_new [Item.comparer 3, Item.comparer 7] _ (by decide))).2.2.2.2.1
      (by decide)⟩

set_option maxRecDepth 20000 in
/-- C28 amended: for a reachable TreeSet, and for a reachable HashSet over
items on which `==` is the equality of values, `Contains(items...)` returns, and returns true exactly when at least one item
is given and each given item is in the set: for a TreeSet, it compares equal
to one of the items that `Slice` gives; for a HashSet, it is one of the items
that `Slice` gives; equally, when `Contains` of each given item alone returns
true.  With no items it returns false, while `Contains` of a TreeMap with no
keys returns true.  On the sets holding 1, 2 and 3, `Contains(1, 3)` returns
true and `Contains(1, 4)` false. -/
theorem C28_contains_all_of_nonempty {cmp : α → α → Int} (hc : TotalCmp cmp) (s : TreeSet α)
    (hs : TreeSet.Reachable cmp s) (items : List α)
    {ι : Type} [DecidableEq ι] (ord : List ι → List ι) (hord : IterOrder ord)
    (s1 : HashSet ι) (hs1 : HashSet.Reachable s1) (items1 : List ι) :
    (∃ r sl, s.Contains cmp (items.map some) = some r ∧ s.Slice = some sl ∧
      (r = true ↔ items ≠ [] ∧ ∀ x ∈ items, ∃ i ∈ sl, cmp i x = 0) ∧
      (r = true ↔ items ≠ [] ∧ ∀ x ∈ items, s.Contains cmp [some x] = some true)) ∧
    s.Contains cmp [] = some false ∧
    (∃ r sl, s1.Contains items1 = some r ∧ s1.Slice ord = some sl ∧
      (r = true ↔ items1 ≠ [] ∧ ∀ x ∈ items1, x ∈ sl) ∧
      (r = true ↔ items1 ≠ [] ∧ ∀ x ∈ items1, s1.Contains [x] = some true)) ∧
    s1.Contains [] = some false ∧
    (∀ m : TreeMap α Bool, m.Contains cmp [] = some true) ∧
    ((treeSetOf 3 (node.mk (1 : Int) (some true) 2 node.nil (node.mk 2 (some true) 1 node.nil (leaf 3)))).Slice = some [1, 2, 3] ∧
      (treeSetOf 3 (node.mk 1 (some true) 2 node.nil (node.mk 2 (some true) 1 node.nil (leaf 3)))).Contains compInt [some 1, some 3] = some true ∧
      (treeSetOf 3 (node.mk 1 (some true) 2 node.nil (node.mk 2 (some true) 1 node.nil (leaf 3)))).Contains compInt [some 1, some 4] = some false ∧
      (HashSet.mk (Base.mk true 3 false) (some [(1 : Int), 2, 3])).Contains [1, 3] = some true ∧
      (HashSet.mk (Base.mk true 3 false) (some [(1 : Int), 2, 3])).Contains [1, 4] = some false) := by
  have hinv := TreeSet_Reachable_inv hc hs
  have hinv1 := HashSet_Reachable_inv hs1
  refine ⟨⟨_, _, TreeSet_Contains_all hc s hinv items, TreeSet_Slice_eq s hinv, ?_, ?_⟩,
    TreeSet_Contains_all hc s hinv [],
    ⟨_, _, HashSet_Contains_all s1 hinv1 items1, HashSet_Slice_eq ord s1 hinv1, ?_, ?_⟩,
    HashSet_Contains_all s1 hinv1 [], fun _ => rfl, ?_⟩
  · simp only [Bool.and_eq_true, Bool.not_eq_true', List.isEmpty_eq_false, List.all_eq_true,
      TreeSet_has_iff hc s hinv]
  · simp only [Bool.and_eq_true, Bool.not_eq_true', List.isEmpty_eq_false, List.all_eq_true,
      TreeSet_Contains_single hc s hinv, Option.some.injEq]
  · simp only [Bool.and_eq_true, Bool.not_eq_true', List.isEmpty_eq_false, List.all_eq_true,
      decide_eq_true_eq, (hord _).mem_iff]
  · simp only [Bool.and_eq_true, Bool.not_eq_true', List.isEmpty_eq_false, List.all_eq_true,
      HashSet_Contains_single s1 hinv1, Option.some.injEq]
  · refine ⟨?_, by decide, by decide, by decide, by decide⟩
    rw [TreeSet_Slice_eq _ (TreeSet_Reachable_inv compInt_total
      (TreeSet_Reachable_new compInt [1, 2, 3] _ (by decide)))]
    decide

set_option maxRecDepth 20000 in
theorem C28_contains_all_of_nonempty_witness :
    TotalCmp compInt ∧ IterOrder (fun l : List Int => l.reverse) ∧
    TreeSet.Reachable compInt (treeSetOf 2 (leaf 3)) ∧
    HashSet.Reachable (HashSet.mk (Base.mk true 2 false) (some [(1 : Int), 3])) ∧
    (∃ r sl, (treeSetOf 2 (leaf 3)).Contains compInt ([3, 1].map some) = some r ∧
      (treeSetOf 2 (leaf (3 : Int))).Slice = some sl ∧
      (r = true ↔ [(3 : Int), 1] ≠ [] ∧ ∀ x ∈ [(3 : Int), 1], ∃ i ∈ sl, compInt i x = 0) ∧
      (r = true ↔ [(3 : Int), 1] ≠ [] ∧
        ∀ x ∈ [(3 : Int), 1], (treeSetOf 2 (leaf 3)).Contains compInt [some x] = some true)) ∧
    (∃ r sl, (HashSet.mk (Base.mk true 2 false) (some [(1 : Int), 3])).Contains [3, 1] = some r ∧
      (HashSet.mk (Base.mk true 2 false) (some [(1 : Int), 3])).Slice (fun l => l.reverse)
        = some sl ∧
      (r = true ↔ [(3 : Int), 1] ≠ [] ∧ ∀ x ∈ [(3 : Int), 1], x ∈ sl) ∧
      (r = true ↔ [(3 : Int), 1] ≠ [] ∧ ∀ x ∈ [(3 : Int), 1],
        (HashSet.mk (Base.mk true 2 false) (some [(1 : Int), 3])).Contains [x] = some true)) :=
  ⟨compInt_total, fun l => List.reverse_perm l,
    ⟨true, [2, 1, 3], [SetOp.remove [2]], by decide⟩,
    ⟨true, [1, 2, 3], [SetOp.remove [2]], by decide⟩,
    (C28_contains_all_of_nonempty compInt_total (treeSetOf 2 (leaf 3))
      ⟨true, [2, 1, 3], [SetOp.remove [2]], by decide⟩ [3, 1]
      (fun l => l.reverse) (fun l => List.reverse_perm l)
      (HashSet.mk (Base.mk true 2 false) (some [(1 : Int), 3]))
      ⟨true, [1, 2, 3], [SetOp.remove [2]], by decide⟩ [3, 1]).1,
    (C28_contains_all_of_nonempty compInt_total (treeSetOf 2 (leaf 3))
      ⟨true, [2, 1, 3], [SetOp.remove [2]], by decide⟩ [3, 1]
      (fun l => l.reverse) (fun l => List.reverse_perm l)
      (HashSet.mk (Base.mk true 2 false) (some [(1 : Int), 3]))
      ⟨true, [1, 2, 3], [SetOp.remove [2]], by decide⟩ [3, 1]).2.2.1⟩

theorem direction_of_below {cmp : α → α → Int} {a b : α} (h1 : -2 ^ 63 ≤ cmp a b)
    (h2 : cmp a b < -1) : direction cmp a b = -1 := by
  have h63 : (2 : Int) ^ 63 = 9223372036854775808 := by norm_num
  have h64 : (2 : Int) ^ 64 = 18446744073709551616 := by norm_num
  rw [h63] at h1
  have hw : wrap64 (cmp a b + 1) = cmp a b + 1 := by
    unfold wrap64
    rw [h63, h64]
    omega
  have hs : Signum (cmp a b + 1) = -1 := by
    unfold Signum
    rw [if_pos (by omega)]
  unfold direction
  rw [hw, hs]
  decide

/-- Insert, Locate and Remove panic on an initialised map when the comparison
of the key with the key at the root gives a result below -1. -/
theorem TreeMap_ops_panic_below {cmp : α → α → Int} (m : TreeMap α β) (key rk : α)
    (rv : Option β) (rh : Int) (c0 c1 : node α β) (val : Option β)
    (hi : m.base.init = true) (hr : m.root = node.mk rk rv rh c0 c1)
    (h1 : -2 ^ 63 ≤ cmp key rk) (h2 : cmp key rk < -1) :
    m.Insert cmp (some key) val = none ∧ m.Locate cmp (some key) = none ∧
      m.Remove cmp (some key) = none := by
  have hd := direction_of_below h1 h2
  have hne : cmp key rk ≠ 0 := by omega
  refine ⟨?_, ?_, ?_⟩
  · simp [TreeMap.Insert, Base.CheckInit, hi, hr, descend, hne, hd]
  · simp [TreeMap.Locate, Base.CheckInit, hi, hr, locateLoop, hne, hd]
  · simp [TreeMap.Remove, Base.CheckInit, hi, hr, descend, hne, hd]

/-- C35 amended: for a comparator that returns -1 for less, 0 for equal and any
positive `int` below the largest one for greater, `direction` is 0 or 1 on all
keys, and Insert, Locate and Remove give on every map what they give with the
comparator normalised to -1, 0, 1; when the normalised comparator is a total
order and the map is reachable with it, they return.  For every comparator
and all keys, a result below -1 makes `direction` return -1, on which `child`
panics at every node, and Insert, Locate and Remove panic on every initialised
map when the comparison of the given key with the key at the root gives such a
result. -/
theorem C35_positive_results_normalise {cmp : α → α → Int} (hc : UpCmp cmp)
    (ht : TotalCmp (normCmp cmp)) (s : TreeMap α β) (hs : Reachable (normCmp cmp) s) (k : α)
    (v : Option β) :
    (∀ a b, direction cmp a b = 0 ∨ direction cmp a b = 1) ∧
    (∀ (s2 : TreeMap α β) (key : Option α) (v2 : Option β),
      s2.Insert cmp key v2 = s2.Insert (normCmp cmp) key v2 ∧
      s2.Locate cmp key = s2.Locate (normCmp cmp) key ∧
      s2.Remove cmp key = s2.Remove (normCmp cmp) key) ∧
    (∃ s1 r, s.Insert cmp (some k) v = some (s1, r)) ∧
    (∃ r, s.Locate cmp (some k) = some r) ∧
    (∃ s1 r, s.Remove cmp (some k) = some (s1, r)) ∧
    (∀ (c : α → α → Int) (a b : α), -2 ^ 63 ≤ c a b → c a b < -1 → direction c a b = -1) ∧
    (∀ n : node α β, child n (-1) = none) ∧
    (∀ (c : α → α → Int) (m : TreeMap α β) (key rk : α) (rv : Option β) (rh : Int)
      (c0 c1 : node α β) (val : Option β),
      m.base.init = true → m.root = node.mk rk rv rh c0 c1 →
      -2 ^ 63 ≤ c key rk → c key rk < -1 →
      m.Insert c (some key) val = none ∧ m.Locate c (some key) = none ∧
        m.Remove c (some key) = none) := by
  have hcong := fun (s2 : TreeMap α β) key v2 =>
    TreeMap_ops_congr (fun a b => (direction_up hc a b).1) (normCmp_zero cmp) s2 key v2
  have hinv := Reachable.inv ht hs
  refine ⟨fun a b => (direction_up hc a b).2, hcong, ?_, ?_, ?_,
    fun c a b h1 h2 => direction_of_below h1 h2, ?_,
    fun c m key rk rv rh c0 c1 val hi hr h1 h2 =>
      TreeMap_ops_panic_below m key rk rv rh c0 c1 val hi hr h1 h2⟩
  · rw [(hcong s (some k) v).1]
    obtain ⟨s1, r, h, _⟩ := Insert_spec ht s hinv k v
    exact ⟨s1, r, h⟩
  · rw [(hcong s (some k) v).2.1]
    exact ⟨_, Locate_eq_assoc ht s hinv.1 hinv.2.1 k⟩
  · rw [(hcong s (some k) v).2.2]
    obtain ⟨s1, r, h, _⟩ := Remove_spec ht s hinv k
    exact ⟨s1, r, h⟩
  · intro n
    cases n <;> simp [child]

theorem C35_positive_results_normalise_witness :
    UpCmp cmpUp ∧ TotalCmp (normCmp cmpUp) ∧
    Reachable (normCmp cmpUp) (TreeMap.mk (Base.mk true 1 false)
      (node.mk 3 (some (30 : Nat)) 0 node.nil node.nil)) ∧
    cmpUp 5 3 = 7 ∧
    (∀ a b, direction cmpUp a b = 0 ∨ direction cmpUp a b = 1) ∧
    (∃ s1 r, (TreeMap.mk (Base.mk true 1 false)
      (node.mk 3 (some (30 : Nat)) 0 node.nil node.nil)).Insert cmpUp (some 5) (some 50)
        = some (s1, r)) ∧
    cmpSub 1 3 = -2 ∧
    ((TreeMap.mk (Base.mk true 1 false)
        (node.mk 3 (some (30 : Nat)) 0 node.nil node.nil)).Insert cmpSub (some 1) (some 10) = none ∧
      (TreeMap.mk (Base.mk true 1 false)
        (node.mk 3 (some (30 : Nat)) 0 node.nil node.nil)).Locate cmpSub (some 1) = none ∧
      (TreeMap.mk (Base.mk true 1 false)
        (node.mk 3 (some (30 : Nat)) 0 node.nil node.nil)).Remove cmpSub (some 1) = none) :=
  ⟨UpCmp_cmpUp, normCmp_cmpUp ▸ compInt_total,
    normCmp_cmpUp ▸ ⟨[Op.insert 3 (some 30)], by decide⟩, by decide,
    (C35_positive_results_normalise UpCmp_cmpUp (normCmp_cmpUp ▸ compInt_total)
      (TreeMap.mk (Base.mk true 1 false) (node.mk 3 (some (30 : Nat)) 0 node.nil node.nil))
      (normCmp_cmpUp ▸ ⟨[Op.insert 3 (some 30)], by decide⟩) 5 (some 50)).1,
    (C35_positive_results_normalise UpCmp_cmpUp (normCmp_cmpUp ▸ compInt_total)
      (TreeMap.mk (Base.mk true 1 false) (node.mk 3 (some (30 : Nat)) 0 node.nil node.nil))
      (normCmp_cmpUp ▸ ⟨[Op.insert 3 (some 30)], by decide⟩) 5 (some 50)).2.2.1,
    by decide,
    (C35_positive_results_normalise UpCmp_cmpUp (normCmp_cmpUp ▸ compInt_total)
      (TreeMap.mk (Base.mk true 1 false) (node.mk 3 (some (30 : Nat)) 0 node.nil node.nil))
      (normCmp_cmpUp ▸ ⟨[Op.insert 3 (some 30)], by decide⟩) 5 (some 50)).2.2.2.2.2.2.2
      cmpSub (TreeMap.mk (Base.mk true 1 false)
        (node.mk 3 (some (30 : Nat)) 0 node.nil node.nil)) 1 3 (some 30) 0 node.nil node.nil
      (some 10) rfl rfl (by decide) (by decide)⟩

end NonStdLib
